import Mathlib

/-!
# Suffix arrays, binary search and dynamic programming

Shallow embedding of

* `buildSuffixArray` and `buildLCPArray` of `Suffix_Array_and_LCP_Array.cpp`
  (textually the same functions appear in `lcp+suffix.cpp`, and `buildSuffixArray`
  again in `suffix1.cpp`): prefix doubling with a comparator sort, and Kasai's
  algorithm;
* `buildSuffixArray` and `main` of `suffix2.cpp`: prefix doubling with counting sort
  on cyclic shifts;
* `binarySearch`, `closestLeft`, `closestRight` and `countInRange` of
  `Binary_search.cpp`, and `solve_smallest_square` of `Binary_seach_with_answer.cpp`;
* `solve_coin_change`, `solve_maximum_subarray` and `solve_LIS` of `Linear_DP.cpp`;
* `solve_max_independent_set`, `solve_min_vertex_cover`,
  `solve_partition_min_difference` and `solve_longest_path_bitmask` of
  `Bitmask_DP.cpp`;
* `solve_maximum_sum_circular_subarray` and `solve_minimum_subset_sum_difference` of
  `ND_DP.cpp`.

Conventions:

* A text is a `List Int`: the list of the symbol codes `s[i]` as the C++ code
  converts them to `int`, as in `rank[i] = s[i]`.
* `vector<int>` values are lists; positions are natural numbers, rank values are
  integers (the comparator uses the sentinel `-1`).
* `std::sort` is not stable and its output is only specified up to its
  postcondition.  `IsSortOf` is that postcondition, `Rounds` / `Runs` is the
  semantics of the doubling loop in which every round may pick any output allowed
  by it, and `buildSuffixArray` is the executable instance in which the sort is an
  insertion sort.
* `Reaches` / `AfterRound` expose the states between the rounds of that loop,
  `radixAfter` the states between the rounds of the radix loop, and `lcpLoop` the
  states between the passes of `buildLCPArray`.
* Reads and writes of vectors are `getD` and `set`; the variants named `...Checked`
  check every access against the size of the vector and return `none` for an access
  out of bounds.
* Integers are unbounded: in the embedded files `int` is `long long` or no value
  exceeds twice the length of the text.  The sums of weights of
  `solve_longest_path_bitmask` are reduced to the range of `long long` (`wrap64`), and
  the theorem on its result bounds the weights so that no sum leaves that range.
-/

namespace SuffixArray

/-! ## `buildSuffixArray` -/

/-- The lambda `cmp` of `buildSuffixArray`, as a function of the captured `n`, `k`
and `rank`. -/
def cmp (n k : Nat) (rank : List Int) (a b : Nat) : Bool :=
  if rank.getD a 0 ≠ rank.getD b 0 then
    decide (rank.getD a 0 < rank.getD b 0)
  else
    let ra : Int := if a + k < n then rank.getD (a + k) 0 else -1
    let rb : Int := if b + k < n then rank.getD (b + k) 0 else -1
    decide (ra < rb)

/-- The postcondition of `std::sort(first, last, lt)`: the output is a
rearrangement of the input in which no later element is `lt` an earlier one. -/
def IsSortOf (lt : Nat → Nat → Bool) (input output : List Nat) : Prop :=
  output.Perm input ∧ output.Pairwise (fun a b => lt b a = false)

/-- Insertion of `x` into a list, after the elements that are `lt x`. -/
def insertBy (lt : Nat → Nat → Bool) (x : Nat) : List Nat → List Nat
  | [] => [x]
  | y :: ys => if lt y x then y :: insertBy lt x ys else x :: y :: ys

/-- Insertion sort, the executable stand-in for `std::sort`. -/
def sortBy (lt : Nat → Nat → Bool) : List Nat → List Nat
  | [] => []
  | x :: xs => insertBy lt x (sortBy lt xs)

/-- The local vectors `suffixArray`, `rank` and `temp` of `buildSuffixArray`. -/
structure State where
  suffixArray : List Nat
  rank : List Int
  temp : List Int
deriving DecidableEq

/-- State after the initialisation loop: `suffixArray[i] = i`, `rank[i] = s[i]`,
and `temp` still holds the `n` zeros of its construction. -/
def init (s : List Int) : State :=
  { suffixArray := List.range s.length
    rank := (List.range s.length).map (fun i => s.getD i 0)
    temp := List.replicate s.length 0 }

/-- One pass of the body of `for (int i = 1; i < n; ++i)`:
`temp[suffixArray[i]] = temp[suffixArray[i - 1]] + cmp(suffixArray[i - 1], suffixArray[i])`. -/
def rankStep (n k : Nat) (rank : List Int) (sa : List Nat) (temp : List Int) (i : Nat) :
    List Int :=
  temp.set (sa.getD i 0)
    (temp.getD (sa.getD (i - 1) 0) 0 +
      (if cmp n k rank (sa.getD (i - 1) 0) (sa.getD i 0) then 1 else 0))

/-- The rank update of one round: `temp[suffixArray[0]] = 0` followed by the loop
over `i = 1, ..., n - 1`. -/
def updateRank (n k : Nat) (rank : List Int) (sa : List Nat) (temp : List Int) : List Int :=
  (List.range' 1 (n - 1)).foldl (rankStep n k rank sa) (temp.set (sa.getD 0 0) 0)

/-- The part of a round that follows the call of `std::sort`, whose output is
`sorted`: the rank update and `rank = temp`. -/
def finishRound (n k : Nat) (σ : State) (sorted : List Nat) : State :=
  let temp := updateRank n k σ.rank sorted σ.temp
  { suffixArray := sorted, rank := temp, temp := temp }

/-- The loop `for (int k = 1; k < n; k *= 2)`, started at offset `k` in state `σ`
and ending in the last argument; each round's sort may return any list that
satisfies the postcondition of `std::sort`. -/
inductive Rounds (n : Nat) : Nat → State → State → Prop
  | exit {k : Nat} {σ : State} : ¬ k < n → Rounds n k σ σ
  | step {k : Nat} {σ σ' : State} (sorted : List Nat) :
      k < n → IsSortOf (cmp n k σ.rank) σ.suffixArray sorted →
      Rounds n (2 * k) (finishRound n k σ sorted) σ' → Rounds n k σ σ'

/-- The array `res` is a possible return value of `buildSuffixArray(s)`. -/
def Runs (s : List Int) (res : List Nat) : Prop :=
  ∃ σ : State, Rounds s.length 1 (init s) σ ∧ σ.suffixArray = res

/-- The doubling loop with insertion sort as the sort; `fuel` bounds the number of
rounds. -/
def doubling (n : Nat) : Nat → Nat → State → State
  | 0, _, σ => σ
  | fuel + 1, k, σ =>
    if k < n then
      doubling n fuel (2 * k) (finishRound n k σ (sortBy (cmp n k σ.rank) σ.suffixArray))
    else σ

/-- Executable `buildSuffixArray`: the run in which `std::sort` is insertion sort.
The offset at least doubles in every round, so `n` rounds of fuel are never used
up (`buildSuffixArray_runs`). -/
def buildSuffixArray (s : List Int) : List Nat :=
  (doubling s.length s.length 1 (init s)).suffixArray

/-! ## `buildLCPArray` -/

/-- The loop `for (i = 0; i < n; ++i) rank[suffixArray[i]] = i` on the
zero-initialised vector `rank(n)`. -/
def buildRank (n : Nat) (suffixArray : List Nat) : List Nat :=
  (List.range n).foldl (fun r i => r.set (suffixArray.getD i 0) i) (List.replicate n 0)

/-- The loop `while (i + h < n && j + h < n && s[i + h] == s[j + h]) ++h`, started at
`h`; `fuel` bounds the number of iterations. -/
def extend (s : List Int) (n i j : Nat) : Nat → Nat → Nat
  | 0, h => h
  | fuel + 1, h =>
    if i + h < n ∧ j + h < n ∧ s.getD (i + h) 0 = s.getD (j + h) 0 then
      extend s n i j fuel (h + 1)
    else h

/-- The vector `lcp` and the variable `h` of `buildLCPArray`. -/
structure LcpState where
  lcp : List Nat
  h : Nat
deriving DecidableEq

/-- Body of the main loop of `buildLCPArray` for position `i`.  The inner loop
runs at most `n - h` times, so `n` iterations of fuel are never used up
(`extend_stops`). -/
def lcpStep (s : List Int) (n : Nat) (suffixArray rank : List Nat) (st : LcpState) (i : Nat) :
    LcpState :=
  if rank.getD i 0 > 0 then
    let j := suffixArray.getD (rank.getD i 0 - 1) 0
    let h := extend s n i j n st.h
    { lcp := st.lcp.set (rank.getD i 0) h, h := if h > 0 then h - 1 else h }
  else st

/-- State of `buildLCPArray` after the passes `i = 0, ..., m - 1` of its main loop,
started with the zero-initialised vector `lcp(n)` and `h = 0`. -/
def lcpLoop (s : List Int) (suffixArray : List Nat) (m : Nat) : LcpState :=
  (List.range m).foldl (lcpStep s s.length suffixArray (buildRank s.length suffixArray))
    { lcp := List.replicate s.length 0, h := 0 }

/-- Executable `buildLCPArray`: the vector `lcp` after all `n` passes. -/
def buildLCPArray (s : List Int) (suffixArray : List Nat) : List Nat :=
  (lcpLoop s suffixArray s.length).lcp

/-! ## Specification vocabulary -/

/-- Symbol codes of a string literal. -/
def codes (t : String) : List Int := t.toList.map (fun c => Int.ofNat c.toNat)

/-- Strict lexicographic order on the suffixes starting at `a` and `b`; a proper
prefix is smaller. -/
def SufLt (s : List Int) (a b : Nat) : Prop :=
  List.Lex (· < ·) (s.drop a) (s.drop b)

/-- Length of the longest common prefix of two lists. -/
def lcpLen : List Int → List Int → Nat
  | a :: as, b :: bs => if a = b then lcpLen as bs + 1 else 0
  | _, _ => 0

/-- The pair of keys that `cmp` compares lexicographically. -/
def key (n k : Nat) (rank : List Int) (a : Nat) : Int × Int :=
  (rank.getD a 0, if a + k < n then rank.getD (a + k) 0 else -1)

/-- Strict weak orders on positions, given as Boolean comparators. -/
structure StrictWeak (lt : Nat → Nat → Bool) : Prop where
  irrefl : ∀ a, lt a a = false
  trans : ∀ a b c, lt a b = true → lt b c = true → lt a c = true
  negTrans : ∀ a b c, lt a b = false → lt b c = false → lt a c = false

/-- The first `k` symbols of the suffix that starts at `a`. -/
def pre (s : List Int) (k a : Nat) : List Int := (s.drop a).take k

/-- The rank values are non-negative and compare like the prefixes of length `k`. -/
def RankInv (s : List Int) (k : Nat) (rank : List Int) : Prop :=
  rank.length = s.length ∧ (∀ a, a < s.length → 0 ≤ rank.getD a 0) ∧
    ∀ a b, a < s.length → b < s.length →
      (rank.getD a 0 < rank.getD b 0 ↔ List.Lex (· < ·) (pre s k a) (pre s k b))

/-- Invariant of the state at the head of the loop with offset `k`. -/
structure StateInv (s : List Int) (k : Nat) (σ : State) : Prop where
  perm : σ.suffixArray.Perm (List.range s.length)
  tempLen : σ.temp.length = s.length
  rankInv : RankInv s k σ.rank

/-- The array is in non-decreasing order of the prefixes of length `k`. -/
def PreSorted (s : List Int) (k : Nat) (sa : List Nat) : Prop :=
  sa.Pairwise (fun a b => ¬ List.Lex (· < ·) (pre s k b) (pre s k a))

/-- The symbols at offset `t` of the suffixes at `i` and `j` exist and agree: the
condition of the inner loop of `buildLCPArray` at `h = t`. -/
def MatchAt (s : List Int) (i j t : Nat) : Prop :=
  i + t < s.length ∧ j + t < s.length ∧ s.getD (i + t) 0 = s.getD (j + t) 0

/-- A permutation of the positions that lists the suffixes in strictly increasing
order. -/
structure IsSuffixArray (s : List Int) (sa : List Nat) : Prop where
  perm : sa.Perm (List.range s.length)
  sorted : sa.Pairwise (SufLt s)

/-- Invariant of the main loop before the pass for position `i`: the entries of the
positions already visited are final, and the carried `h` is a lower bound on the
common prefix of the suffix at `i` with some smaller suffix. -/
structure KasaiInv (s : List Int) (sa : List Nat) (i : Nat) (st : LcpState) : Prop where
  len : st.lcp.length = s.length
  done : ∀ a, a < i → a < s.length → 0 < (buildRank s.length sa).getD a 0 →
    st.lcp.getD ((buildRank s.length sa).getD a 0) 0 =
      lcpLen (s.drop a) (s.drop (sa.getD ((buildRank s.length sa).getD a 0 - 1) 0))
  carry : st.h = 0 ∨ ∃ j, SufLt s j i ∧ st.h ≤ lcpLen (s.drop i) (s.drop j)

/-! ## `buildSuffixArray` with bounds-checked vector accesses

The same code with every read `v[i]` and write `v[i] = x` of a vector checked
against its length: `none` stands for an access outside `0, ..., size - 1`. -/

/-- The write `v[i] = x`, defined when `i` is an index of `v`. -/
def setChecked {α : Type} (v : List α) (i : Nat) (x : α) : Option (List α) :=
  if i < v.length then some (v.set i x) else none

/-- The lambda `cmp` with checked reads of `rank`. -/
def cmpChecked (n k : Nat) (rank : List Int) (a b : Nat) : Option Bool := do
  let x ← rank[a]?
  let y ← rank[b]?
  if x ≠ y then
    pure (decide (x < y))
  else
    let ra ← if a + k < n then rank[a + k]? else some (-1)
    let rb ← if b + k < n then rank[b + k]? else some (-1)
    pure (decide (ra < rb))

/-- One pass of the initialisation loop, `suffixArray[i] = i; rank[i] = s[i];`, with
checked accesses. -/
def initStepChecked (s : List Int) (σ : State) (i : Nat) : Option State := do
  let sa ← setChecked σ.suffixArray i i
  let c ← s[i]?
  let rank ← setChecked σ.rank i c
  pure { suffixArray := sa, rank := rank, temp := σ.temp }

/-- The three vectors of size `n` and the initialisation loop, with checked
accesses. -/
def initChecked (s : List Int) : Option State :=
  (List.range s.length).foldlM (initStepChecked s)
    { suffixArray := List.replicate s.length 0, rank := List.replicate s.length 0,
      temp := List.replicate s.length 0 }

/-- One pass of the rank update with checked accesses. -/
def rankStepChecked (n k : Nat) (rank : List Int) (sa : List Nat) (temp : List Int) (i : Nat) :
    Option (List Int) := do
  let cur ← sa[i]?
  let prev ← sa[i - 1]?
  let t ← temp[prev]?
  let c ← cmpChecked n k rank prev cur
  setChecked temp cur (t + (if c then 1 else 0))

/-- The rank update of one round with checked accesses. -/
def updateRankChecked (n k : Nat) (rank : List Int) (sa : List Nat) (temp : List Int) :
    Option (List Int) := do
  let first ← sa[0]?
  let temp ← setChecked temp first 0
  (List.range' 1 (n - 1)).foldlM (rankStepChecked n k rank sa) temp

/-- The part of a round that follows the sort, with checked accesses. -/
def finishRoundChecked (n k : Nat) (σ : State) (sorted : List Nat) : Option State := do
  let temp ← updateRankChecked n k σ.rank sorted σ.temp
  pure { suffixArray := sorted, rank := temp, temp := temp }

/-- The doubling loop with checked accesses.  A round faults when the comparator
faults on some pair of elements of the array that `std::sort` may compare, or when
the rank update faults. -/
inductive RoundsChecked (n : Nat) : Nat → State → Option State → Prop
  | exit {k : Nat} {σ : State} : ¬ k < n → RoundsChecked n k σ (some σ)
  | cmpFault {k : Nat} {σ : State} (a b : Nat) :
      k < n → a ∈ σ.suffixArray → b ∈ σ.suffixArray →
      cmpChecked n k σ.rank a b = none → RoundsChecked n k σ none
  | updateFault {k : Nat} {σ : State} (sorted : List Nat) :
      k < n → IsSortOf (cmp n k σ.rank) σ.suffixArray sorted →
      finishRoundChecked n k σ sorted = none → RoundsChecked n k σ none
  | step {k : Nat} {σ σ₁ : State} {r : Option State} (sorted : List Nat) :
      k < n → IsSortOf (cmp n k σ.rank) σ.suffixArray sorted →
      finishRoundChecked n k σ sorted = some σ₁ →
      RoundsChecked n (2 * k) σ₁ r → RoundsChecked n k σ r

/-- Insertion with a comparator that may fault. -/
def insertByChecked (lt : Nat → Nat → Option Bool) (x : Nat) : List Nat → Option (List Nat)
  | [] => some [x]
  | y :: ys => do
    if ← lt y x then
      let r ← insertByChecked lt x ys
      pure (y :: r)
    else
      pure (x :: y :: ys)

/-- Insertion sort with a comparator that may fault. -/
def sortByChecked (lt : Nat → Nat → Option Bool) : List Nat → Option (List Nat)
  | [] => some []
  | x :: xs => do
    let r ← sortByChecked lt xs
    insertByChecked lt x r

/-- The doubling loop with insertion sort and checked accesses; `fuel` bounds the
number of rounds. -/
def doublingChecked (n : Nat) : Nat → Nat → State → Option State
  | 0, _, σ => some σ
  | fuel + 1, k, σ =>
    if k < n then do
      let sorted ← sortByChecked (cmpChecked n k σ.rank) σ.suffixArray
      let σ₁ ← finishRoundChecked n k σ sorted
      doublingChecked n fuel (2 * k) σ₁
    else some σ

/-- Executable `buildSuffixArray` with checked accesses. -/
def buildSuffixArrayChecked (s : List Int) : Option (List Nat) := do
  let σ₀ ← initChecked s
  let σ ← doublingChecked s.length s.length 1 σ₀
  pure σ.suffixArray

/-- The vectors of a state have size `n` and `suffixArray` holds every position
once. -/
structure Shape (n : Nat) (σ : State) : Prop where
  perm : σ.suffixArray.Perm (List.range n)
  rankLen : σ.rank.length = n
  tempLen : σ.temp.length = n

/-- One pass of the initialisation loop without the checks. -/
def initStep (s : List Int) (σ : State) (i : Nat) : State :=
  { suffixArray := σ.suffixArray.set i i, rank := σ.rank.set i (s.getD i 0), temp := σ.temp }

/-! ## `buildSuffixArray` of `suffix2.cpp` (counting sort on cyclic shifts)

Positions, classes and counters are natural numbers.  A symbol is used as an index
of `cnt` through `sym`, which is its code when the code is non-negative.  The
subtraction `suffixArray[i] - (1 << k)` followed by the correction `+= n` is a case
distinction, and `--cnt[c]` is truncated subtraction; the counter is positive
whenever it is decremented (`radixRounds_some` and the lemmas on `placeLoop`). -/

/-- The local vectors and `numClasses` of the radix `buildSuffixArray`. -/
structure RadixState where
  suffixArray : List Nat
  classes : List Nat
  cnt : List Nat
  numClasses : Nat
  tempSuffixArray : List Nat
  tempClasses : List Nat
deriving DecidableEq

/-- The symbol `s[i]` as an index of `cnt`. -/
def sym (s : List Int) (i : Nat) : Nat := (s.getD i 0).toNat

/-- The loop `cnt[key(x)]++` over the items `xs` in order. -/
def countLoop (key : Nat → Nat) (xs : List Nat) (cnt : List Nat) : List Nat :=
  xs.foldl (fun c x => c.set (key x) (c.getD (key x) 0 + 1)) cnt

/-- The loop `for (i = 1; i < m; i++) cnt[i] += cnt[i - 1]`. -/
def prefixSums (m : Nat) (cnt : List Nat) : List Nat :=
  (List.range' 1 (m - 1)).foldl (fun c i => c.set i (c.getD i 0 + c.getD (i - 1) 0)) cnt

/-- The statement `suffixArray[--cnt[key(x)]] = x` on the pair `(cnt, suffixArray)`. -/
def place (key : Nat → Nat) (p : List Nat × List Nat) (x : Nat) : List Nat × List Nat :=
  (p.1.set (key x) (p.1.getD (key x) 0 - 1), p.2.set (p.1.getD (key x) 0 - 1) x)

/-- The loop `suffixArray[--cnt[key(x)]] = x` over the items `xs` in order. -/
def placeLoop (key : Nat → Nat) (xs : List Nat) (p : List Nat × List Nat) :
    List Nat × List Nat :=
  xs.foldl (place key) p

/-- One pass of a class loop on the pair `(classes, numClasses)`: `numClasses++` when
the position `suffixArray[i]` differs from `suffixArray[i - 1]` under `differs`, then
`classes[suffixArray[i]] = numClasses - 1`. -/
def classStep (differs : Nat → Nat → Bool) (sa : List Nat) (p : List Nat × Nat) (i : Nat) :
    List Nat × Nat :=
  let numClasses := if differs (sa.getD i 0) (sa.getD (i - 1) 0) then p.2 + 1 else p.2
  (p.1.set (sa.getD i 0) (numClasses - 1), numClasses)

/-- A class loop: `classes[suffixArray[0]] = 0; numClasses = 1;` and the passes
`i = 1, ..., n - 1`, writing into the vector `target`. -/
def classLoop (differs : Nat → Nat → Bool) (n : Nat) (sa target : List Nat) : List Nat × Nat :=
  (List.range' 1 (n - 1)).foldl (classStep differs sa) (target.set (sa.getD 0 0) 0, 1)

/-- The test `s[suffixArray[i]] != s[suffixArray[i - 1]]` of the first class loop. -/
def symDiffers (s : List Int) (a b : Nat) : Bool := s.getD a 0 != s.getD b 0

/-- The test `curr != prev` of the class loop of a round with `h = 1 << k`. -/
def pairDiffers (n h : Nat) (classes : List Nat) (a b : Nat) : Bool :=
  (classes.getD a 0, classes.getD ((a + h) % n) 0) !=
    (classes.getD b 0, classes.getD ((b + h) % n) 0)

/-- State before the loop over `k`. -/
def radixInit (s : List Int) : RadixState :=
  let n := s.length
  let cnt := prefixSums 256 (countLoop (sym s) (List.range n) (List.replicate (max 256 n) 0))
  let p := placeLoop (sym s) (List.range n) (cnt, List.replicate n 0)
  let q := classLoop (symDiffers s) n p.2 (List.replicate n 0)
  { suffixArray := p.2, classes := q.1, cnt := p.1, numClasses := q.2,
    tempSuffixArray := List.replicate n 0, tempClasses := List.replicate n 0 }

/-- The loop `tempSuffixArray[i] = suffixArray[i] - h; if (tempSuffixArray[i] < 0)
tempSuffixArray[i] += n;` with `h = 1 << k`. -/
def shiftLoop (n h : Nat) (sa tsa : List Nat) : List Nat :=
  (List.range n).foldl
    (fun t i => t.set i (if sa.getD i 0 < h then sa.getD i 0 + n - h else sa.getD i 0 - h)) tsa

/-- The call `fill(cnt.begin(), cnt.begin() + numClasses, 0)`. -/
def fillZero (m : Nat) (cnt : List Nat) : List Nat :=
  (List.range m).foldl (fun c i => c.set i 0) cnt

/-- Body of the loop over `k`, with `h = 1 << k`. -/
def radixRound (n h : Nat) (σ : RadixState) : RadixState :=
  let tsa := shiftLoop n h σ.suffixArray σ.tempSuffixArray
  let key := fun x => σ.classes.getD x 0
  let cnt := prefixSums σ.numClasses (countLoop key tsa (fillZero σ.numClasses σ.cnt))
  let p := placeLoop key tsa.reverse (cnt, σ.suffixArray)
  let q := classLoop (pairDiffers n h σ.classes) n p.2 σ.tempClasses
  { suffixArray := p.2, classes := q.1, cnt := p.1, numClasses := q.2,
    tempSuffixArray := tsa, tempClasses := σ.classes }

/-- The loop `for (int k = 0; (1 << k) < n; k++)`; `fuel` bounds the number of
rounds. -/
def radixRounds (n : Nat) : Nat → Nat → RadixState → Option RadixState
  | 0, k, σ => if 1 <<< k < n then none else some σ
  | fuel + 1, k, σ =>
    if 1 <<< k < n then radixRounds n fuel (k + 1) (radixRound n (1 <<< k) σ) else some σ

/-- Executable radix `buildSuffixArray`; `none` stands for fuel used up. -/
def radixBuildSuffixArray (s : List Int) : Option (List Nat) :=
  (radixRounds s.length s.length 0 (radixInit s)).map (·.suffixArray)

/-- The string `s + "$"` that `main` of `suffix2.cpp` passes to `buildSuffixArray`. -/
def withDollar (token : List Int) : List Int := token ++ [36]

/-- Stable bucket sort: for each key `c < K` in increasing order, the items of `ys`
with key `c` in the order they have in `ys`. -/
def bucketSort (K : Nat) (key : Nat → Nat) (ys : List Nat) : List Nat :=
  (List.range K).flatMap (fun c => ys.filter (fun y => decide (key y = c)))

/-- The first `h` symbols of the cyclic shift of `s` that starts at `a`. -/
def cyc (s : List Int) (h a : Nat) : List Int :=
  (List.range h).map (fun t => s.getD ((a + t) % s.length) 0)

/-- The order of the first symbols of two positions. -/
def symLt (s : List Int) (a b : Nat) : Bool := decide (s.getD a 0 < s.getD b 0)

/-- The lexicographic order of the pairs `(classes[a], classes[(a + h) % n])`. -/
def pairLt (n h : Nat) (classes : List Nat) (a b : Nat) : Bool :=
  decide (classes.getD a 0 < classes.getD b 0 ∨
    (classes.getD a 0 = classes.getD b 0 ∧
      classes.getD ((a + h) % n) 0 < classes.getD ((b + h) % n) 0))

/-- The position `x - h` taken cyclically, as the shift loop computes it. -/
def unshift (n h x : Nat) : Nat := if x < h then x + n - h else x - h

/-- Invariant of the radix loop at a round that has sorted the cyclic shifts by
their first `h` symbols. -/
structure RadixInv (s : List Int) (h : Nat) (σ : RadixState) : Prop where
  perm : σ.suffixArray.Perm (List.range s.length)
  classesLen : σ.classes.length = s.length
  tempClassesLen : σ.tempClasses.length = s.length
  tempLen : σ.tempSuffixArray.length = s.length
  cntLen : σ.cnt.length = max 256 s.length
  numPos : 1 ≤ σ.numClasses
  numLe : σ.numClasses ≤ s.length
  classLt : ∀ a, a < s.length → σ.classes.getD a 0 < σ.numClasses
  sorted : σ.suffixArray.Pairwise (fun a b => σ.classes.getD a 0 ≤ σ.classes.getD b 0)
  order : ∀ a b, a < s.length → b < s.length →
    (σ.classes.getD a 0 < σ.classes.getD b 0 ↔ List.Lex (· < ·) (cyc s h a) (cyc s h b))

/-- The last symbol of the text is strictly smaller than every other symbol, so it
occurs nowhere else: a unique terminator. -/
def HasTerminator (s : List Int) : Prop :=
  ∀ i, i < s.length - 1 → s.getD (s.length - 1) 0 < s.getD i 0

instance (s : List Int) : Decidable (HasTerminator s) := by
  unfold HasTerminator
  infer_instance

/-! ## Derived queries -/

/-- A string of length `L` occurs in `s` at two different starting positions. -/
def Repeats (s : List Int) (L : Nat) : Prop :=
  ∃ a b, a ≠ b ∧ a < s.length ∧ b < s.length ∧ a + L ≤ s.length ∧ b + L ≤ s.length ∧
    (s.drop a).take L = (s.drop b).take L

/-- The non-empty substrings of `s`, one entry per starting position and length. -/
def substrings (s : List Int) : List (List Int) :=
  (List.range s.length).flatMap
    (fun a => (List.range (s.length - a)).map (fun l => (s.drop a).take (l + 1)))

/-- For every place `p` of the array, the prefixes of the suffix at
`suffixArray[p]` that are longer than `lcp[p]`. -/
def newSubstrings (s : List Int) (sa lcp : List Nat) : List (List Int) :=
  (List.range s.length).flatMap
    (fun p => (List.range' (lcp.getD p 0) (s.length - sa.getD p 0 - lcp.getD p 0)).map
      (fun l => (s.drop (sa.getD p 0)).take (l + 1)))

/-! ## Radix `buildSuffixArray` with bounds-checked vector accesses

The code of `suffix2.cpp` with every read and write of `s`, `suffixArray`,
`classes`, `cnt`, `tempSuffixArray` and `tempClasses` checked against the size of the
vector: `none` stands for an access outside `0, ..., size - 1`.  An index that the
C++ code would compute as a negative `int` is a fault: a symbol with a negative
code, a counter that is `0` when `--cnt[c]` is used as an index, and a shifted
position that is still negative after the correction `+= n`. -/

/-- The loop `for (int k = 1; k < n; k *= 2)`, started at offset `k` in state `σ`,
can stand at the head of the round with offset `k'` in state `σ'`. -/
inductive Reaches (n : Nat) : Nat → State → Nat → State → Prop
  | here {k : Nat} {σ : State} : Reaches n k σ k σ
  | step {k k' : Nat} {σ σ' : State} (sorted : List Nat) :
      k < n → IsSortOf (cmp n k σ.rank) σ.suffixArray sorted →
      Reaches n (2 * k) (finishRound n k σ sorted) k' σ' → Reaches n k σ k' σ'

/-- The state `σ'` is the state at the end of the round with offset `k` in some run
of `buildSuffixArray(s)`. -/
def AfterRound (s : List Int) (k : Nat) (σ' : State) : Prop :=
  ∃ (σ : State) (sorted : List Nat), Reaches s.length 1 (init s) k σ ∧ k < s.length ∧
    IsSortOf (cmp s.length k σ.rank) σ.suffixArray sorted ∧
    σ' = finishRound s.length k σ sorted

/-- The rank of the position stored in `suffixArray[i]`. -/
def rankAt (σ : State) (i : Nat) : Int := σ.rank.getD (σ.suffixArray.getD i 0) 0

/-- Along `suffixArray` the ranks start at `0` and grow by `0` or by `1` from one
entry to the next. -/
def Chain (n : Nat) (σ : State) : Prop :=
  rankAt σ 0 = 0 ∧
    ∀ i, 1 ≤ i → i < n → rankAt σ i = rankAt σ (i - 1) ∨ rankAt σ i = rankAt σ (i - 1) + 1

/-! ## The rounds of the radix `buildSuffixArray` -/

/-- State of the radix `buildSuffixArray` after `k` passes of its loop
`for (int k = 0; (1 << k) < n; ++k)`. -/
def radixAfter (s : List Int) : Nat → RadixState
  | 0 => radixInit s
  | k + 1 => radixRound s.length (1 <<< k) (radixAfter s k)

/-- The value `p` stands before the value `q` in the list. -/
def Before (l : List Nat) (p q : Nat) : Prop := [p, q].Sublist l

instance (l : List Nat) (p q : Nat) : Decidable (Before l p q) := by
  unfold Before; infer_instance

/-- Positions of the same class stand in `suffixArray` in decreasing order of their
index. -/
def TiesDescend (n : Nat) (σ : RadixState) : Prop :=
  ∀ p q, p < n → q < n → p ≠ q → σ.classes.getD p 0 = σ.classes.getD q 0 →
    (Before σ.suffixArray p q ↔ q < p)

/-! ## The work of `buildLCPArray` -/

/-- Number of executions of `++h` in the loop
`while (i + h < n && j + h < n && s[i + h] == s[j + h]) ++h` started at `h`. -/
def extendSteps (s : List Int) (n i j : Nat) : Nat → Nat → Nat
  | 0, _ => 0
  | fuel + 1, h =>
    if i + h < n ∧ j + h < n ∧ s.getD (i + h) 0 = s.getD (j + h) 0 then
      extendSteps s n i j fuel (h + 1) + 1
    else 0

/-- Number of executions of `++h` in the pass of the main loop for position `i`. -/
def lcpStepWork (s : List Int) (n : Nat) (suffixArray rank : List Nat) (st : LcpState)
    (i : Nat) : Nat :=
  if rank.getD i 0 > 0 then
    extendSteps s n i (suffixArray.getD (rank.getD i 0 - 1) 0) n st.h
  else 0

/-- Total number of executions of `++h` in the passes `i = 0, ..., m - 1` of the main
loop of `buildLCPArray`. -/
def lcpWork (s : List Int) (suffixArray : List Nat) : Nat → Nat
  | 0 => 0
  | m + 1 =>
    lcpWork s suffixArray m +
      lcpStepWork s s.length suffixArray (buildRank s.length suffixArray)
        (lcpLoop s suffixArray m) m

/-! ## `buildLCPArray` with bounds-checked vector accesses -/

/-- One pass of `rank[suffixArray[i]] = i` with checked accesses. -/
def buildRankStepChecked (suffixArray : List Nat) (r : List Nat) (i : Nat) :
    Option (List Nat) := do
  let x ← suffixArray[i]?
  setChecked r x i

/-- The loop that fills `rank`, with checked accesses. -/
def buildRankChecked (n : Nat) (suffixArray : List Nat) : Option (List Nat) :=
  (List.range n).foldlM (buildRankStepChecked suffixArray) (List.replicate n 0)

/-- The inner loop with checked reads of `s`; the reads happen only after both
bound tests, as `&&` evaluates left to right.  The result is `none` when a read is
outside the text or when the fuel is used up before the loop ends. -/
def extendChecked (s : List Int) (n i j : Nat) : Nat → Nat → Option Nat
  | 0, h =>
    if i + h < n ∧ j + h < n then do
      let x ← s[i + h]?
      let y ← s[j + h]?
      if x = y then none else pure h
    else pure h
  | fuel + 1, h =>
    if i + h < n ∧ j + h < n then do
      let x ← s[i + h]?
      let y ← s[j + h]?
      if x = y then extendChecked s n i j fuel (h + 1) else pure h
    else pure h

/-- Body of the main loop of `buildLCPArray` with checked accesses. -/
def lcpStepChecked (s : List Int) (n : Nat) (suffixArray rank : List Nat) (st : LcpState)
    (i : Nat) : Option LcpState := do
  let r ← rank[i]?
  if r > 0 then
    let j ← suffixArray[r - 1]?
    let h ← extendChecked s n i j n st.h
    let lcp ← setChecked st.lcp r h
    pure { lcp := lcp, h := if h > 0 then h - 1 else h }
  else pure st

/-- The function `buildLCPArray` with checked accesses: `none` stands for an access
outside a vector or an inner loop that does not end. -/
def buildLCPArrayChecked (s : List Int) (suffixArray : List Nat) : Option (List Nat) := do
  let rank ← buildRankChecked s.length suffixArray
  let st ← (List.range s.length).foldlM (lcpStepChecked s s.length suffixArray rank)
    { lcp := List.replicate s.length 0, h := 0 }
  pure st.lcp

/-! ## The variant of `buildLCPArray` that decrements `h` in every pass -/

/-- Body of the main loop in the variant that decrements `h`, clamped at `0`, at the
end of every pass and not only in the branch `rank[i] > 0`. -/
def lcpStepAlt (s : List Int) (n : Nat) (suffixArray rank : List Nat) (st : LcpState)
    (i : Nat) : LcpState :=
  let st' : LcpState :=
    if rank.getD i 0 > 0 then
      let j := suffixArray.getD (rank.getD i 0 - 1) 0
      let h := extend s n i j n st.h
      { lcp := st.lcp.set (rank.getD i 0) h, h := h }
    else st
  { lcp := st'.lcp, h := if st'.h > 0 then st'.h - 1 else st'.h }

/-- State of the variant after the passes `i = 0, ..., m - 1`. -/
def lcpLoopAlt (s : List Int) (suffixArray : List Nat) (m : Nat) : LcpState :=
  (List.range m).foldl (lcpStepAlt s s.length suffixArray (buildRank s.length suffixArray))
    { lcp := List.replicate s.length 0, h := 0 }

/-- The vector `lcp` that the variant returns. -/
def buildLCPArrayAlt (s : List Int) (suffixArray : List Nat) : List Nat :=
  (lcpLoopAlt s suffixArray s.length).lcp

end SuffixArray

namespace BinarySearch

/-! ## `Binary_search.cpp`

Arrays are lists of integers, `int` values (here `long long`) are unbounded
integers, and `/` on `int` is division that truncates towards zero.  The loops carry
fuel; `none` stands for fuel used up, which the theorems show does not happen. -/

/-- The loop of `binarySearch`, started with the given `low` and `high`. -/
def binarySearchLoop (arr : List Int) (x : Int) : Nat → Int → Int → Option Int
  | 0, _, _ => none
  | fuel + 1, low, high =>
    if low ≤ high then
      let mid := (low + high).tdiv 2
      if arr.getD mid.toNat 0 = x then some mid
      else if arr.getD mid.toNat 0 < x then binarySearchLoop arr x fuel (mid + 1) high
      else binarySearchLoop arr x fuel low (mid - 1)
    else some (-1)

/-- Executable `binarySearch`: `low = 0`, `high = sz(arr) - 1`. -/
def binarySearch (arr : List Int) (x : Int) : Option Int :=
  binarySearchLoop arr x (arr.length + 1) 0 ((arr.length : Int) - 1)

/-- The loop of `closestLeft`, started with the given `low` and `high`. -/
def closestLeftLoop (arr : List Int) (x : Int) : Nat → Int → Int → Option Int
  | 0, _, _ => none
  | fuel + 1, low, high =>
    if low + 1 < high then
      let mid := (low + high).tdiv 2
      if arr.getD mid.toNat 0 ≤ x then closestLeftLoop arr x fuel mid high
      else closestLeftLoop arr x fuel low mid
    else some low

/-- Executable `closestLeft`: `low = -1`, `high = sz(arr)`. -/
def closestLeft (arr : List Int) (x : Int) : Option Int :=
  closestLeftLoop arr x (arr.length + 1) (-1) (arr.length : Int)

/-- The loop of `closestRight`, started with the given `low` and `high`. -/
def closestRightLoop (arr : List Int) (x : Int) : Nat → Int → Int → Option Int
  | 0, _, _ => none
  | fuel + 1, low, high =>
    if low + 1 < high then
      let mid := (low + high).tdiv 2
      if arr.getD mid.toNat 0 ≥ x then closestRightLoop arr x fuel low mid
      else closestRightLoop arr x fuel mid high
    else some high

/-- Executable `closestRight`: `low = -1`, `high = sz(arr)`. -/
def closestRight (arr : List Int) (x : Int) : Option Int :=
  closestRightLoop arr x (arr.length + 1) (-1) (arr.length : Int)

/-! `countInRange` calls `std::lower_bound` and `std::upper_bound` (the macros `lb`
and `ub`).  They are library functions; the two definitions below are the bisection
on `(first, len)` by which the standard library implements them, here on the whole
array with `first` as an index. -/

/-- The loop of `std::lower_bound`: halve `len`, and move `first` behind the middle
element when that element is smaller than `val`. -/
def lowerBoundLoop (arr : List Int) (val : Int) : Nat → Nat → Nat → Option Nat
  | 0, _, _ => none
  | fuel + 1, first, len =>
    if 0 < len then
      let half := len / 2
      if arr.getD (first + half) 0 < val then
        lowerBoundLoop arr val fuel (first + half + 1) (len - half - 1)
      else lowerBoundLoop arr val fuel first half
    else some first

/-- The index `lower_bound(arr.begin(), arr.end(), val) - arr.begin()`. -/
def lowerBound (arr : List Int) (val : Int) : Option Nat :=
  lowerBoundLoop arr val (arr.length + 1) 0 arr.length

/-- The loop of `std::upper_bound`: halve `len`, and move `first` behind the middle
element unless `val` is smaller than that element. -/
def upperBoundLoop (arr : List Int) (val : Int) : Nat → Nat → Nat → Option Nat
  | 0, _, _ => none
  | fuel + 1, first, len =>
    if 0 < len then
      let half := len / 2
      if val < arr.getD (first + half) 0 then upperBoundLoop arr val fuel first half
      else upperBoundLoop arr val fuel (first + half + 1) (len - half - 1)
    else some first

/-- The index `upper_bound(arr.begin(), arr.end(), val) - arr.begin()`. -/
def upperBound (arr : List Int) (val : Int) : Option Nat :=
  upperBoundLoop arr val (arr.length + 1) 0 arr.length

/-- Executable `countInRange`: `rightIdx - leftIdx`. -/
def countInRange (arr : List Int) (l r : Int) : Option Int := do
  let leftIdx ← lowerBound arr l
  let rightIdx ← upperBound arr r
  pure ((rightIdx : Int) - (leftIdx : Int))

end BinarySearch

namespace BinarySearchAnswer

/-! ## `solve_smallest_square` of `Binary_seach_with_answer.cpp`

`int` is `long long`, taken as unbounded; `/` truncates towards zero.  The input
`a b n` is the argument of the function, and the printed `r` is the result.  The two
loops carry fuel; `none` stands for fuel used up. -/

/-- The lambda `Good` with the captured `a`, `b` and `n`. -/
def Good (a b n m : Int) : Bool := decide (m.tdiv a * m.tdiv b ≥ n)

/-- The loop `while (!Good(r)) r *= 2;`. -/
def doubleLoop (a b n : Int) : Nat → Int → Option Int
  | 0, _ => none
  | fuel + 1, r => if !Good a b n r then doubleLoop a b n fuel (r * 2) else some r

/-- Body of the bisection loop on the pair `(l, r)`. -/
def bisectBody (a b n : Int) (p : Int × Int) : Int × Int :=
  let m := p.1 + (p.2 - p.1).tdiv 2
  if Good a b n m then (p.1, m) else (m, p.2)

/-- The loop `while (l + 1 < r)`; the result is the final pair `(l, r)`. -/
def bisectLoop (a b n : Int) : Nat → Int × Int → Option (Int × Int)
  | 0, _ => none
  | fuel + 1, p => if p.1 + 1 < p.2 then bisectLoop a b n fuel (bisectBody a b n p) else some p

/-- The pairs `(l, r)` at which the bisection loop tests its condition, in order, for
at most `fuel` passes. -/
def bisectTrace (a b n : Int) : Nat → Int × Int → List (Int × Int)
  | 0, p => [p]
  | fuel + 1, p =>
    p :: (if p.1 + 1 < p.2 then bisectTrace a b n fuel (bisectBody a b n p) else [])

/-- Fuel for the doubling loop: more than `max(a, b) * n` passes are never needed. -/
def doubleFuel (a b n : Int) : Nat := (max a b * n).toNat + 1

/-- Executable `solve_smallest_square`: the printed `r`. -/
def solve_smallest_square (a b n : Int) : Option Int := do
  let r ← doubleLoop a b n (doubleFuel a b n) 1
  let p ← bisectLoop a b n r.toNat (0, r)
  pure p.2

end BinarySearchAnswer

namespace LinearDP

/-! ## `Linear_DP.cpp`

`int` is `long long`, taken as unbounded.  Each `solve_...` function reads its input
from `cin` and prints one value; the model takes the input as arguments and returns
the printed value.  Reads and writes of vectors are `getD` and `set`. -/

/-! ### `solve_coin_change` -/

/-- The constant `INF = 1e9` of `solve_coin_change`. -/
def INF : Int := 1000000000

/-- The statement `if (i - coin >= 0) dp[i] = min(dp[i], dp[i-coin] + 1);`. -/
def coinStep (i : Nat) (dp : List Int) (coin : Int) : List Int :=
  if (i : Int) - coin ≥ 0 then
    dp.set i (min (dp.getD i 0) (dp.getD ((i : Int) - coin).toNat 0 + 1))
  else dp

/-- The loop `for (int coin : coins)` at amount `i`. -/
def coinInner (coins : List Int) (i : Nat) (dp : List Int) : List Int :=
  coins.foldl (coinStep i) dp

/-- The vector `dp` after the loop `for (int i = 1; i <= amount; i++)`, started from
`dp(amount + 1, INF)` with `dp[0] = 0`. -/
def coinTable (coins : List Int) (amount : Nat) : List Int :=
  (List.range' 1 amount).foldl (fun dp i => coinInner coins i dp)
    ((List.replicate (amount + 1) INF).set 0 0)

/-- Executable `solve_coin_change`: `none` for the branch that prints that the amount
cannot be formed, `some dp[amount]` for the branch that prints the number of
coins. -/
def solve_coin_change (coins : List Int) (amount : Nat) : Option Int :=
  if (coinTable coins amount).getD amount 0 = INF then none
  else some ((coinTable coins amount).getD amount 0)

/-- The coins of the list `l` are denominations of `coins` and sum to `amount`. -/
def Pays (coins : List Int) (amount : Int) (l : List Int) : Prop :=
  (∀ c ∈ l, c ∈ coins) ∧ l.sum = amount

/-- The value `v` of `dp[k]` is right up to the bound `INF`: it is at most `INF`, at
most the number of coins of every way to pay `k`, and when it is below `INF` some way
to pay `k` uses `v` coins. -/
def CoinEntry (coins : List Int) (k : Nat) (v : Int) : Prop :=
  v ≤ INF ∧ (∀ l : List Int, Pays coins k l → v ≤ l.length) ∧
    (v < INF → ∃ l : List Int, Pays coins k l ∧ (l.length : Int) = v)

/-! ### `solve_maximum_subarray` -/

/-- Body of the loop of `solve_maximum_subarray` on the pair `(dp, maxSum)`. -/
def maxSubStep (arr : List Int) (σ : List Int × Int) (i : Nat) : List Int × Int :=
  let dp := σ.1.set i (max (arr.getD i 0) (σ.1.getD (i - 1) 0 + arr.getD i 0))
  (dp, max σ.2 (dp.getD i 0))

/-- The pair `(dp, maxSum)` at the end of `solve_maximum_subarray`. -/
def maxSubTable (arr : List Int) : List Int × Int :=
  (List.range' 1 (arr.length - 1)).foldl (maxSubStep arr)
    ((List.replicate arr.length 0).set 0 (arr.getD 0 0), arr.getD 0 0)

/-- Executable `solve_maximum_subarray`: the printed `maxSum`. -/
def solve_maximum_subarray (arr : List Int) : Int := (maxSubTable arr).2

/-- Sum of the first `k` elements. -/
def psum (arr : List Int) (k : Nat) : Int := (arr.take k).sum

/-- The value `v` is the largest sum of a contiguous subarray `arr[j], ..., arr[i]`
ending at index `i`. -/
def MaxEndingAt (arr : List Int) (i : Nat) (v : Int) : Prop :=
  (∃ j, j ≤ i ∧ v = psum arr (i + 1) - psum arr j) ∧
    ∀ j, j ≤ i → psum arr (i + 1) - psum arr j ≤ v

/-- The value `v` is the largest sum of a non-empty contiguous subarray
`arr[i], ..., arr[j - 1]` with `j ≤ m`. -/
def MaxSegment (arr : List Int) (m : Nat) (v : Int) : Prop :=
  (∃ i j, i < j ∧ j ≤ m ∧ v = psum arr j - psum arr i) ∧
    ∀ i j, i < j → j ≤ m → psum arr j - psum arr i ≤ v

/-! ### `solve_LIS` -/

/-- The statement `if (arr[j] < arr[i]) dp[i] = max(dp[i], dp[j] + 1);`. -/
def lisStep (arr : List Int) (i : Nat) (dp : List Int) (j : Nat) : List Int :=
  if arr.getD j 0 < arr.getD i 0 then dp.set i (max (dp.getD i 0) (dp.getD j 0 + 1)) else dp

/-- The loop `for (int j = 0; j < i; j++)`. -/
def lisInner (arr : List Int) (i : Nat) (dp : List Int) : List Int :=
  (List.range i).foldl (lisStep arr i) dp

/-- Body of the loop over `i` on the pair `(dp, ans)`. -/
def lisOuter (arr : List Int) (σ : List Int × Int) (i : Nat) : List Int × Int :=
  (lisInner arr i σ.1, max σ.2 ((lisInner arr i σ.1).getD i 0))

/-- The pair `(dp, ans)` after `m` passes of the loop over `i`, started from
`dp(n, 1)` and `ans = 1`. -/
def lisLoop (arr : List Int) (m : Nat) : List Int × Int :=
  (List.range m).foldl (lisOuter arr) (List.replicate arr.length 1, 1)

/-- Executable `solve_LIS`: the printed `ans`. -/
def solve_LIS (arr : List Int) : Int := (lisLoop arr arr.length).2

/-- The number `k` is the length of a longest strictly increasing subsequence of
`arr`. -/
def LongestIncreasing (arr : List Int) (k : Int) : Prop :=
  (∃ l : List Int, l.Sublist arr ∧ l.Pairwise (· < ·) ∧ (l.length : Int) = k) ∧
    ∀ l : List Int, l.Sublist arr → l.Pairwise (· < ·) → (l.length : Int) ≤ k

end LinearDP

namespace BitmaskDP

/-! ## `Bitmask_DP.cpp`

`int` is `long long`; all integers are taken as unbounded, so that `1 << n` is `2 ^ n`
for every `n`, except in `solve_longest_path_bitmask`, where the sums of weights are
reduced to the range of `long long` (`wrap64`).  Masks are natural numbers.  The model
of a `solve_...` function takes the input as arguments and returns the printed
value. -/

/-- The constant `INT_MAX` of `<climits>`. -/
def INT_MAX : Int := 2147483647

/-- The test `mask & (1 << i)` of an `if`. -/
def hasBit (mask i : Nat) : Bool := (mask &&& (1 <<< i)) != 0

/-! ### `solve_partition_min_difference` -/

/-- The loop `for (int i = 0; i < n; i++) if (mask & (1 << i)) sum += arr[i];`. -/
def maskSum (arr : List Int) (mask : Nat) : Int :=
  (List.range arr.length).foldl (fun sum i => if hasBit mask i then sum + arr.getD i 0 else sum) 0

/-- Executable `solve_partition_min_difference`: the printed `best`. -/
def solve_partition_min_difference (arr : List Int) : Int :=
  (List.range (1 <<< arr.length)).foldl
    (fun best mask => min best ((arr.sum - 2 * maskSum arr mask).natAbs : Int)) INT_MAX

/-- The elements of `arr` at the positions of the bits of `mask`. -/
def pick : List Int → Nat → List Int
  | [], _ => []
  | a :: as, mask => if mask.testBit 0 then a :: pick as (mask / 2) else pick as (mask / 2)

/-- The value `v` is the minimum, over the subsets `S` of the elements of `arr`, of
`|total - 2 * sum(S)|`, where `total` is the sum of `arr`. -/
def MinDiff (arr : List Int) (v : Int) : Prop :=
  (∃ S : List Int, S.Sublist arr ∧ ((arr.sum - 2 * S.sum).natAbs : Int) = v) ∧
    ∀ S : List Int, S.Sublist arr → v ≤ ((arr.sum - 2 * S.sum).natAbs : Int)

/-! ### `solve_max_independent_set` and `solve_min_vertex_cover` -/

/-- The assignment `adj[u][v] = true`. -/
def setAdj (adj : List (List Bool)) (u v : Nat) : List (List Bool) :=
  adj.set u ((adj.getD u []).set v true)

/-- The entry `adj[u][v]`. -/
def adjAt (adj : List (List Bool)) (u v : Nat) : Bool := (adj.getD u []).getD v false

/-- The matrix `adj` after the loop that reads the `m` edges: it starts as
`adj(n, vector<bool>(n, false))`, and every edge `(u, v)` sets `adj[u][v]` and
`adj[v][u]`. -/
def readEdges (n : Nat) (edges : List (Nat × Nat)) : List (List Bool) :=
  edges.foldl (fun adj e => setAdj (setAdj adj e.2 e.1) e.1 e.2)
    (List.replicate n (List.replicate n false))

/-- The loop over `j` of `solve_max_independent_set`: `true` when some `j` with
`i < j < n` in the mask is adjacent to `i`, which is when the loop sets
`valid = false` and breaks. -/
def misInner (n : Nat) (adj : List (List Bool)) (mask i : Nat) : Bool :=
  (List.range' (i + 1) (n - (i + 1))).any (fun j => hasBit mask j && adjAt adj i j)

/-- Body of the loop `for (int i = 0; i < n && valid; i++)` on the pair
`(valid, count)`; once `valid` is false the loop has ended and nothing changes. -/
def misStep (n : Nat) (adj : List (List Bool)) (mask : Nat) (σ : Bool × Int) (i : Nat) :
    Bool × Int :=
  if σ.1 then (if hasBit mask i then (!misInner n adj mask i, σ.2 + 1) else σ) else σ

/-- The pair `(valid, count)` for one mask. -/
def misCheck (n : Nat) (adj : List (List Bool)) (mask : Nat) : Bool × Int :=
  (List.range n).foldl (misStep n adj mask) (true, 0)

/-- Executable `solve_max_independent_set`: the printed `maxSize`. -/
def solve_max_independent_set (n : Nat) (edges : List (Nat × Nat)) : Int :=
  (List.range (1 <<< n)).foldl
    (fun maxSize mask =>
      if (misCheck n (readEdges n edges) mask).1 then
        max maxSize (misCheck n (readEdges n edges) mask).2
      else maxSize) 0

/-- The flag `cover` for one mask: the two loops of `solve_min_vertex_cover` run
while `cover` holds and clear it at the first pair `u < v` with `adj[u][v]` and
neither `u` nor `v` in the mask. -/
def mvcCheck (n : Nat) (adj : List (List Bool)) (mask : Nat) : Bool :=
  (List.range n).all (fun u =>
    (List.range' (u + 1) (n - (u + 1))).all (fun v =>
      !(adjAt adj u v && (!hasBit mask u && !hasBit mask v))))

/-- Number of one bits among the lowest `fuel` bits of `x`. -/
def popcountAux : Nat → Nat → Nat
  | 0, _ => 0
  | fuel + 1, x => x % 2 + popcountAux fuel (x / 2)

/-- The builtin `__builtin_popcount(mask)`: the number of one bits of `mask`.  Like
the other integers the argument is taken as unbounded; the builtin counts the lowest
32 bits, which are all the bits of a mask below `1 << n` as long as `1 << n` does not
overflow. -/
def popcount (x : Nat) : Int := (popcountAux x x : Nat)

/-- No two vertices of the mask are joined: `adj[i][j]` is false for all `i < j < n`
in the mask. -/
def Independent (n : Nat) (adj : List (List Bool)) (mask : Nat) : Prop :=
  ∀ i j, i < j → j < n → mask.testBit i = true → mask.testBit j = true → adjAt adj i j = false

/-- Every edge has an end in the mask: `u` or `v` is in the mask for all `u < v < n`
with `adj[u][v]`. -/
def Covers (n : Nat) (adj : List (List Bool)) (mask : Nat) : Prop :=
  ∀ u v, u < v → v < n → adjAt adj u v = true → mask.testBit u = true ∨ mask.testBit v = true

/-- Number of the vertices `0, ..., n - 1` in the mask. -/
def bitCount (n mask : Nat) : Nat := (List.range n).countP (fun i => mask.testBit i)

/-- Executable `solve_min_vertex_cover`: the printed `minCover`. -/
def solve_min_vertex_cover (n : Nat) (edges : List (Nat × Nat)) : Int :=
  (List.range (1 <<< n)).foldl
    (fun minCover mask =>
      if mvcCheck n (readEdges n edges) mask then min minCover (popcount mask) else minCover)
    (n : Int)

/-! ### `solve_longest_path_bitmask` -/

/-- The entry `weight[u][v]`. -/
def wAt (weight : List (List Int)) (u v : Nat) : Int := (weight.getD u []).getD v 0

/-- The entry `dp[mask][v]`. -/
def dpAt (dp : List (List Int)) (mask v : Nat) : Int := (dp.getD mask []).getD v 0

/-- The assignment `dp[mask][v] = x`. -/
def dpSet (dp : List (List Int)) (mask v : Nat) (x : Int) : List (List Int) :=
  dp.set mask ((dp.getD mask []).set v x)

/-- The `long long` value of a sum whose exact value is `x`: `x` reduced modulo
`2 ^ 64` into the range from `-2 ^ 63` to `2 ^ 63 - 1`. -/
def wrap64 (x : Int) : Int := (x + 2 ^ 63) % 2 ^ 64 - 2 ^ 63

/-- Body of the loop over `v` on the pair `(dp, ans)`, for the current `mask` and
`u`.  The sum `dp[mask][u] + weight[u][v]` is a sum of two `long long` values. -/
def pathStepV (weight : List (List Int)) (mask u : Nat) (σ : List (List Int) × Int) (v : Nat) :
    List (List Int) × Int :=
  if !hasBit mask v then
    let x := max (dpAt σ.1 (mask ||| (1 <<< v)) v) (wrap64 (dpAt σ.1 mask u + wAt weight u v))
    (dpSet σ.1 (mask ||| (1 <<< v)) v x, max σ.2 x)
  else σ

/-- Body of the loop over `u`. -/
def pathStepU (weight : List (List Int)) (n mask : Nat) (σ : List (List Int) × Int) (u : Nat) :
    List (List Int) × Int :=
  if hasBit mask u then (List.range n).foldl (pathStepV weight mask u) σ else σ

/-- Body of the loop over `mask`. -/
def pathStepMask (weight : List (List Int)) (n : Nat) (σ : List (List Int) × Int) (mask : Nat) :
    List (List Int) × Int :=
  (List.range n).foldl (pathStepU weight n mask) σ

/-- The table `dp(N, vector<int>(n, 0))` after the loop `dp[1 << i][i] = 0`. -/
def pathInit (n : Nat) : List (List Int) :=
  (List.range n).foldl (fun dp i => dpSet dp (1 <<< i) i 0)
    (List.replicate (1 <<< n) (List.replicate n 0))

/-- The pair `(dp, ans)` after the masks `0, ..., m - 1`. -/
def pathLoop (weight : List (List Int)) (n m : Nat) : List (List Int) × Int :=
  (List.range m).foldl (pathStepMask weight n) (pathInit n, 0)

/-- Executable `solve_longest_path_bitmask`: the printed `ans`. -/
def solve_longest_path_bitmask (n : Nat) (weight : List (List Int)) : Int :=
  (pathLoop weight n (1 <<< n)).2

/-- Total weight of the path that visits the vertices of the list in order. -/
def pathWeight (weight : List (List Int)) : List Nat → Int
  | [] => 0
  | [_] => 0
  | a :: b :: rest => wAt weight a b + pathWeight weight (b :: rest)

/-- Total weight of the path that visits the vertices of the list from its last
element to its first. -/
def revWeight (weight : List (List Int)) : List Nat → Int
  | [] => 0
  | [_] => 0
  | v :: u :: rest => wAt weight u v + revWeight weight (u :: rest)

/-- The list `q`, read from its last element to its first, is a path that visits
exactly the vertices of `mask`, each once, and ends at `v`. -/
def Walk (mask v : Nat) (q : List Nat) : Prop :=
  q.head? = some v ∧ q.Nodup ∧ ∀ i, i ∈ q ↔ mask.testBit i = true

/-- The value `x` is the largest weight of a path that visits exactly the vertices
of `mask` and ends at `v`. -/
def IsBest (weight : List (List Int)) (mask v : Nat) (x : Int) : Prop :=
  (∃ q, Walk mask v q ∧ revWeight weight q = x) ∧ ∀ q, Walk mask v q → revWeight weight q ≤ x

/-- The entry `dp[M][x]` is one that the pass for `mask` writes with some `v < k`:
`M = mask | (1 << v)` and `x = v` for a `v` outside `mask`. -/
def Touched (mask k M x : Nat) : Prop :=
  ∃ v, v < k ∧ mask.testBit v = false ∧ M = mask ||| (1 <<< v) ∧ x = v

/-- State of the table and of `ans` after the masks below `m`: an entry
`dp[P | (1 << v)][v]` with `v` outside `P` holds the largest weight of a path over
`P | (1 << v)` that ends at `v` once the mask `P ≠ 0` has had its pass, and `0`
before that and for `P = 0`; and `ans` is the maximum of `0` and of the entries of
the first kind. -/
def PathInv (weight : List (List Int)) (n m : Nat) (σ : List (List Int) × Int) : Prop :=
  (∀ P v, P < 2 ^ n → v < n → P.testBit v = false →
    (P ≠ 0 → P < m → IsBest weight (P ||| (1 <<< v)) v (dpAt σ.1 (P ||| (1 <<< v)) v)) ∧
      (P = 0 ∨ m ≤ P → dpAt σ.1 (P ||| (1 <<< v)) v = 0)) ∧
    0 ≤ σ.2 ∧
    (∀ P v, P < 2 ^ n → v < n → P.testBit v = false → P ≠ 0 → P < m →
      dpAt σ.1 (P ||| (1 <<< v)) v ≤ σ.2) ∧
    (σ.2 = 0 ∨ ∃ P v, P < 2 ^ n ∧ v < n ∧ P.testBit v = false ∧ P ≠ 0 ∧ P < m ∧
      σ.2 = dpAt σ.1 (P ||| (1 <<< v)) v)

/-- The table has `N` rows of `n` entries. -/
def Shape (n : Nat) (dp : List (List Int)) : Prop :=
  dp.length = 2 ^ n ∧ ∀ M, M < 2 ^ n → (dp.getD M []).length = n

end BitmaskDP

namespace NDDP

/-! ## `ND_DP.cpp`

`int` is `long long`, taken as unbounded.  The model of a `solve_...` function takes
the input as arguments and returns the printed value. -/

/-! ### `solve_maximum_sum_circular_subarray` -/

/-- The five variables of the loop of `solve_maximum_sum_circular_subarray`. -/
structure CircState where
  max_kadane : Int
  cur_max : Int
  min_kadane : Int
  cur_min : Int
  total : Int
deriving DecidableEq

/-- Body of the loop at index `i`. -/
def circStep (arr : List Int) (σ : CircState) (i : Nat) : CircState :=
  let cur_max := max (arr.getD i 0) (σ.cur_max + arr.getD i 0)
  let max_kadane := max σ.max_kadane cur_max
  let cur_min := min (arr.getD i 0) (σ.cur_min + arr.getD i 0)
  let min_kadane := min σ.min_kadane cur_min
  { max_kadane := max_kadane, cur_max := cur_max, min_kadane := min_kadane, cur_min := cur_min,
    total := σ.total + arr.getD i 0 }

/-- The variables after the passes `i = 1, ..., k`, all started at `arr[0]`. -/
def circLoop (arr : List Int) (k : Nat) : CircState :=
  (List.range' 1 k).foldl (circStep arr)
    { max_kadane := arr.getD 0 0, cur_max := arr.getD 0 0, min_kadane := arr.getD 0 0,
      cur_min := arr.getD 0 0, total := arr.getD 0 0 }

/-- Executable `solve_maximum_sum_circular_subarray`: the printed `ans`. -/
def solve_maximum_sum_circular_subarray (arr : List Int) : Int :=
  let σ := circLoop arr (arr.length - 1)
  if σ.total = σ.min_kadane then σ.max_kadane else max σ.max_kadane (σ.total - σ.min_kadane)

/-- Sum of the run of `len` elements of the circular array that starts at index
`i`. -/
def circSum (arr : List Int) (i len : Nat) : Int :=
  ((List.range len).map (fun t => arr.getD ((i + t) % arr.length) 0)).sum

/-- The value `v` is the smallest sum of a contiguous subarray `arr[j], ..., arr[i]`
ending at index `i`. -/
def MinEndingAt (arr : List Int) (i : Nat) (v : Int) : Prop :=
  (∃ j, j ≤ i ∧ v = LinearDP.psum arr (i + 1) - LinearDP.psum arr j) ∧
    ∀ j, j ≤ i → v ≤ LinearDP.psum arr (i + 1) - LinearDP.psum arr j

/-- The value `v` is the smallest sum of a non-empty contiguous subarray
`arr[i], ..., arr[j - 1]` with `j ≤ m`. -/
def MinSegment (arr : List Int) (m : Nat) (v : Int) : Prop :=
  (∃ i j, i < j ∧ j ≤ m ∧ v = LinearDP.psum arr j - LinearDP.psum arr i) ∧
    ∀ i j, i < j → j ≤ m → v ≤ LinearDP.psum arr j - LinearDP.psum arr i

/-! ### `solve_minimum_subset_sum_difference` -/

/-- The loop `for (int j = half; j >= x; j--) dp[j] = dp[j] || dp[j-x];`.  The
counter of the recursion is `j + 1`, and the call at `half + 1` starts at `j = half`. -/
def subsetInner (x : Int) : Nat → List Bool → List Bool
  | 0, dp => dp
  | j + 1, dp =>
    if (j : Int) ≥ x then
      subsetInner x j (dp.set j (dp.getD j false || dp.getD ((j : Int) - x).toNat false))
    else dp

/-- The vector `dp` after the loop `for (int x : arr)`, started from
`dp(half + 1, false)` with `dp[0] = true`. -/
def subsetTable (arr : List Int) (half : Nat) : List Bool :=
  arr.foldl (fun dp x => subsetInner x (half + 1) dp) ((List.replicate (half + 1) false).set 0 true)

/-- The loop `for (int i = half; i >= 0; i--) if (dp[i]) { s = i; break; }` with
`s = 0` before it.  The counter of the recursion is `i + 1`. -/
def subsetSearch (dp : List Bool) : Nat → Int
  | 0 => 0
  | i + 1 => if dp.getD i false then (i : Int) else subsetSearch dp i

/-- Executable `solve_minimum_subset_sum_difference`: the printed `total - 2 * s`. -/
def solve_minimum_subset_sum_difference (arr : List Int) : Int :=
  let total := arr.sum
  let half := total.tdiv 2
  let dp := subsetTable arr half.toNat
  let s := subsetSearch dp (half.toNat + 1)
  total - 2 * s

/-- The vector `dp` marks exactly the sums `j ≤ half` of the subsets of `xs`. -/
def SubsetInv (half : Nat) (xs : List Int) (dp : List Bool) : Prop :=
  dp.length = half + 1 ∧
    ∀ j, j ≤ half → (dp.getD j false = true ↔ ∃ S : List Int, S.Sublist xs ∧ S.sum = (j : Int))

end NDDP

/-! # Lemmas -/

namespace SuffixArray

section ListAux
variable {α : Type}

theorem getD_set_eq (l : List α) (i j : Nat) (x d : α) :
    (l.set i x).getD j d = if i = j ∧ i < l.length then x else l.getD j d := by
  simp only [List.getD_eq_getElem?_getD, List.getElem?_set]
  by_cases hij : i = j
  · subst hij
    by_cases hi : i < l.length
    · simp [hi]
    · simp [hi, List.getElem?_eq_none (Nat.le_of_not_lt hi)]
  · simp [hij]

theorem getD_set_self (l : List α) (i : Nat) (x d : α) (hi : i < l.length) :
    (l.set i x).getD i d = x := by
  simp [getD_set_eq, hi]

theorem getD_set_ne (l : List α) (i j : Nat) (x d : α) (hij : i ≠ j) :
    (l.set i x).getD j d = l.getD j d := by
  simp [getD_set_eq, hij]

end ListAux

/-! ## The comparator is a strict weak order -/

theorem cmp_iff (n k : Nat) (rank : List Int) (a b : Nat) :
    cmp n k rank a b = true ↔
      (key n k rank a).1 < (key n k rank b).1 ∨
        ((key n k rank a).1 = (key n k rank b).1 ∧ (key n k rank a).2 < (key n k rank b).2) := by
  unfold cmp key
  by_cases h : rank.getD a 0 = rank.getD b 0
  · simp only [h, ne_eq, not_true_eq_false, if_false, decide_eq_true_eq, lt_irrefl, false_or,
      true_and]
  · simp only [ne_eq, h, not_false_eq_true, if_true, decide_eq_true_eq, false_and, or_false]

theorem cmp_strictWeak (n k : Nat) (rank : List Int) : StrictWeak (cmp n k rank) := by
  have key_false : ∀ a b, cmp n k rank a b = false ↔
      ¬ ((key n k rank a).1 < (key n k rank b).1 ∨
        ((key n k rank a).1 = (key n k rank b).1 ∧
          (key n k rank a).2 < (key n k rank b).2)) := by
    intro a b
    rw [← cmp_iff, Bool.not_eq_true]
  refine ⟨?_, ?_, ?_⟩
  · intro a
    rw [key_false]
    omega
  · intro a b c h1 h2
    rw [cmp_iff] at *
    omega
  · intro a b c h1 h2
    rw [key_false] at *
    omega

/-! ## Insertion sort meets the postcondition of `std::sort` -/

theorem insertBy_perm (lt : Nat → Nat → Bool) (x : Nat) (l : List Nat) :
    (insertBy lt x l).Perm (x :: l) := by
  induction l with
  | nil => exact List.Perm.refl _
  | cons y ys ih =>
    unfold insertBy
    split
    · exact (List.Perm.cons y ih).trans (List.Perm.swap x y ys)
    · exact List.Perm.refl _

theorem sortBy_perm (lt : Nat → Nat → Bool) (l : List Nat) : (sortBy lt l).Perm l := by
  induction l with
  | nil => exact List.Perm.refl _
  | cons x xs ih =>
    unfold sortBy
    exact (insertBy_perm lt x _).trans (List.Perm.cons x ih)

theorem insertBy_sorted {lt : Nat → Nat → Bool} (hlt : StrictWeak lt) (x : Nat) (l : List Nat)
    (hl : l.Pairwise (fun a b => lt b a = false)) :
    (insertBy lt x l).Pairwise (fun a b => lt b a = false) := by
  induction l with
  | nil => simp [insertBy]
  | cons y ys ih =>
    rw [List.pairwise_cons] at hl
    unfold insertBy
    split
    · rename_i hyx
      rw [List.pairwise_cons]
      refine ⟨?_, ih hl.2⟩
      intro z hz
      rcases (List.mem_cons.mp ((insertBy_perm lt x ys).subset hz)) with h | h
      · subst h
        cases hzy : lt z y
        · rfl
        · have := hlt.trans _ _ _ hzy hyx
          rw [hlt.irrefl] at this
          exact absurd this (by simp)
      · exact hl.1 z h
    · rename_i hyx
      have hyx' : lt y x = false := by simpa using hyx
      rw [List.pairwise_cons]
      refine ⟨?_, List.pairwise_cons.mpr hl⟩
      intro z hz
      rcases List.mem_cons.mp hz with h | h
      · subst h; exact hyx'
      · exact hlt.negTrans _ _ _ (hl.1 z h) hyx'

theorem sortBy_sorted {lt : Nat → Nat → Bool} (hlt : StrictWeak lt) (l : List Nat) :
    (sortBy lt l).Pairwise (fun a b => lt b a = false) := by
  induction l with
  | nil => simp [sortBy]
  | cons x xs ih => exact insertBy_sorted hlt x _ ih

theorem sortBy_isSortOf {lt : Nat → Nat → Bool} (hlt : StrictWeak lt) (l : List Nat) :
    IsSortOf lt l (sortBy lt l) :=
  ⟨sortBy_perm lt l, sortBy_sorted hlt l⟩

/-! ## The executable function is a run -/

theorem doubling_rounds (n : Nat) (fuel k : Nat) (σ : State) (hk : 1 ≤ k) (hf : n ≤ k + fuel) :
    Rounds n k σ (doubling n fuel k σ) := by
  induction fuel generalizing k σ with
  | zero =>
    unfold doubling
    exact Rounds.exit (by omega)
  | succ f ih =>
    unfold doubling
    split
    · rename_i hkn
      exact Rounds.step _ hkn (sortBy_isSortOf (cmp_strictWeak n k σ.rank) _)
        (ih (2 * k) _ (by omega) (by omega))
    · rename_i hkn
      exact Rounds.exit hkn

theorem buildSuffixArray_runs (s : List Int) : Runs s (buildSuffixArray s) :=
  ⟨_, doubling_rounds s.length s.length 1 (init s) (le_refl 1) (by omega), rfl⟩

/-! ## Every run returns a permutation of the positions -/

theorem rounds_perm {n k : Nat} {σ σ' : State} (h : Rounds n k σ σ') :
    σ'.suffixArray.Perm σ.suffixArray := by
  induction h with
  | exit _ => exact List.Perm.refl _
  | step sorted _ hs _ ih => exact ih.trans hs.1

theorem runs_perm {s : List Int} {res : List Nat} (h : Runs s res) :
    res.Perm (List.range s.length) := by
  obtain ⟨σ, hr, rfl⟩ := h
  exact rounds_perm hr

theorem runs_length {s : List Int} {res : List Nat} (h : Runs s res) :
    res.length = s.length := by
  rw [(runs_perm h).length_eq, List.length_range]

/-! ## Lexicographic order on prefixes of suffixes -/

theorem lex_cons_iff (x y : Int) (xs ys : List Int) :
    List.Lex (· < ·) (x :: xs) (y :: ys) ↔ x < y ∨ (x = y ∧ List.Lex (· < ·) xs ys) := by
  constructor
  · intro h
    cases h with
    | cons h => exact Or.inr ⟨rfl, h⟩
    | rel h => exact Or.inl h
  · rintro (h | ⟨rfl, h⟩)
    · exact List.Lex.rel h
    · exact List.Lex.cons h

theorem lex_irrefl (x : List Int) : ¬ List.Lex (· < ·) x x := by
  induction x with
  | nil => intro h; cases h
  | cons a as ih =>
    rw [lex_cons_iff]
    rintro (h | ⟨_, h⟩)
    · exact lt_irrefl a h
    · exact ih h

theorem lex_trans {x y z : List Int} (h1 : List.Lex (· < ·) x y) (h2 : List.Lex (· < ·) y z) :
    List.Lex (· < ·) x z := by
  induction x generalizing y z with
  | nil =>
    cases y with
    | nil => cases h1
    | cons b bs =>
      cases z with
      | nil => cases h2
      | cons c cs => exact List.Lex.nil
  | cons a as ih =>
    cases y with
    | nil => cases h1
    | cons b bs =>
      cases z with
      | nil => cases h2
      | cons c cs =>
        rw [lex_cons_iff] at *
        rcases h1 with h1 | ⟨rfl, h1⟩
        · rcases h2 with h2 | ⟨rfl, _⟩
          · exact Or.inl (lt_trans h1 h2)
          · exact Or.inl h1
        · rcases h2 with h2 | ⟨rfl, h2⟩
          · exact Or.inl h2
          · exact Or.inr ⟨rfl, ih h1 h2⟩

theorem lex_trichotomy (x y : List Int) :
    List.Lex (· < ·) x y ∨ x = y ∨ List.Lex (· < ·) y x := by
  induction x generalizing y with
  | nil =>
    cases y with
    | nil => exact Or.inr (Or.inl rfl)
    | cons b bs => exact Or.inl List.Lex.nil
  | cons a as ih =>
    cases y with
    | nil => exact Or.inr (Or.inr List.Lex.nil)
    | cons b bs =>
      rw [lex_cons_iff, lex_cons_iff]
      rcases lt_trichotomy a b with h | rfl | h
      · exact Or.inl (Or.inl h)
      · rcases ih bs with h | rfl | h
        · exact Or.inl (Or.inr ⟨rfl, h⟩)
        · exact Or.inr (Or.inl rfl)
        · exact Or.inr (Or.inr (Or.inr ⟨rfl, h⟩))
      · exact Or.inr (Or.inr (Or.inl h))

theorem lex_asymm {x y : List Int} (h1 : List.Lex (· < ·) x y) : ¬ List.Lex (· < ·) y x :=
  fun h2 => lex_irrefl x (lex_trans h1 h2)

/-- Comparing the first `k + m` symbols is comparing the first `k` and, when these
agree, the next `m`. -/
theorem lex_take_add (k m : Nat) (x y : List Int) :
    List.Lex (· < ·) (x.take (k + m)) (y.take (k + m)) ↔
      List.Lex (· < ·) (x.take k) (y.take k) ∨
        (x.take k = y.take k ∧
          List.Lex (· < ·) ((x.drop k).take m) ((y.drop k).take m)) := by
  induction k generalizing x y with
  | zero =>
    simp only [Nat.zero_add, List.take_zero, List.drop_zero, true_and]
    constructor
    · exact Or.inr
    · rintro (h | h)
      · cases h
      · exact h
  | succ k ih =>
    have e : k + 1 + m = (k + m) + 1 := by omega
    rw [e]
    cases x with
    | nil =>
      cases y with
      | nil =>
        simp only [List.take_nil, List.drop_nil, true_and]
        constructor
        · intro h; cases h
        · rintro (h | h) <;> cases h
      | cons b bs =>
        simp only [List.take_nil, List.take_succ_cons, List.drop_nil, List.drop_succ_cons]
        constructor
        · intro _; exact Or.inl List.Lex.nil
        · intro _; exact List.Lex.nil
    | cons a as =>
      cases y with
      | nil =>
        simp only [List.take_nil, List.take_succ_cons, List.drop_nil, List.drop_succ_cons]
        constructor
        · intro h; cases h
        · rintro (h | ⟨h, _⟩)
          · cases h
          · cases h
      | cons b bs =>
        simp only [List.take_succ_cons, List.drop_succ_cons, lex_cons_iff, ih as bs,
          List.cons.injEq]
        constructor
        · rintro (h | ⟨rfl, h | ⟨h1, h2⟩⟩)
          · exact Or.inl (Or.inl h)
          · exact Or.inl (Or.inr ⟨rfl, h⟩)
          · exact Or.inr ⟨⟨rfl, h1⟩, h2⟩
        · rintro ((h | ⟨rfl, h⟩) | ⟨⟨rfl, h1⟩, h2⟩)
          · exact Or.inl h
          · exact Or.inr ⟨rfl, Or.inl h⟩
          · exact Or.inr ⟨rfl, Or.inr ⟨h1, h2⟩⟩

theorem pre_double (s : List Int) (k a b : Nat) :
    List.Lex (· < ·) (pre s (2 * k) a) (pre s (2 * k) b) ↔
      List.Lex (· < ·) (pre s k a) (pre s k b) ∨
        (pre s k a = pre s k b ∧ List.Lex (· < ·) (pre s k (a + k)) (pre s k (b + k))) := by
  unfold pre
  rw [two_mul, lex_take_add, List.drop_drop, List.drop_drop]

theorem pre_of_le (s : List Int) (k a : Nat) (h : s.length ≤ k) : pre s k a = s.drop a := by
  unfold pre
  apply List.take_of_length_le
  rw [List.length_drop]
  omega

theorem pre_eq_nil (s : List Int) (k a : Nat) (h : s.length ≤ a) : pre s k a = [] := by
  unfold pre
  rw [List.drop_of_length_le h, List.take_nil]

theorem pre_ne_nil (s : List Int) (k a : Nat) (hk : 1 ≤ k) (h : a < s.length) :
    pre s k a ≠ [] := by
  unfold pre
  intro hnil
  have := congrArg List.length hnil
  rw [List.length_take, List.length_drop] at this
  simp only [List.length_nil] at this
  omega

/-! ## Permutations of the positions `0, ..., n - 1` -/

theorem perm_getD_lt {n : Nat} {sa : List Nat} (hp : sa.Perm (List.range n)) {i : Nat}
    (hi : i < n) : sa.getD i 0 < n := by
  have hlen : sa.length = n := by rw [hp.length_eq, List.length_range]
  rw [List.getD_eq_getElem sa 0 (by omega)]
  exact List.mem_range.mp (hp.subset (List.getElem_mem _))

theorem perm_getD_inj {n : Nat} {sa : List Nat} (hp : sa.Perm (List.range n)) {i j : Nat}
    (hi : i < n) (hj : j < n) (h : sa.getD i 0 = sa.getD j 0) : i = j := by
  have hlen : sa.length = n := by rw [hp.length_eq, List.length_range]
  have hnd : sa.Nodup := hp.nodup_iff.mpr (List.nodup_range n)
  rw [List.getD_eq_getElem sa 0 (show i < sa.length by omega),
    List.getD_eq_getElem sa 0 (show j < sa.length by omega)] at h
  exact (hnd.getElem_inj_iff).mp h

theorem perm_getD_surj {n : Nat} {sa : List Nat} (hp : sa.Perm (List.range n)) {a : Nat}
    (ha : a < n) : ∃ i, i < n ∧ sa.getD i 0 = a := by
  have hlen : sa.length = n := by rw [hp.length_eq, List.length_range]
  have hmem : a ∈ sa := hp.mem_iff.mpr (List.mem_range.mpr ha)
  obtain ⟨i, hi, hia⟩ := List.mem_iff_getElem.mp hmem
  exact ⟨i, by omega, by rw [List.getD_eq_getElem sa 0 hi]; exact hia⟩

theorem pairwise_getD {R : Nat → Nat → Prop} {sa : List Nat} (h : sa.Pairwise R) {i j : Nat}
    (hij : i < j) (hj : j < sa.length) : R (sa.getD i 0) (sa.getD j 0) := by
  rw [List.getD_eq_getElem sa 0 (show i < sa.length by omega), List.getD_eq_getElem sa 0 hj]
  exact List.pairwise_iff_getElem.mp h i j (by omega) hj hij

/-! ## The rank update -/

theorem rankStep_length (n k : Nat) (rank : List Int) (sa : List Nat) (temp : List Int)
    (i : Nat) : (rankStep n k rank sa temp i).length = temp.length := by
  simp [rankStep]

/-- After the passes `i = 1, ..., m` of the rank update, the entries written so
far satisfy the recurrence of the loop body. -/
theorem updateRank_upTo (n k : Nat) (rank : List Int) (sa : List Nat) (temp : List Int)
    (hp : sa.Perm (List.range n)) (ht : temp.length = n) (m : Nat) (hm : m < n) :
    let t := (List.range' 1 m).foldl (rankStep n k rank sa) (temp.set (sa.getD 0 0) 0)
    t.length = n ∧ t.getD (sa.getD 0 0) 0 = 0 ∧
      ∀ i, 1 ≤ i → i ≤ m →
        t.getD (sa.getD i 0) 0 =
          t.getD (sa.getD (i - 1) 0) 0 +
            (if cmp n k rank (sa.getD (i - 1) 0) (sa.getD i 0) then 1 else 0) := by
  induction m with
  | zero =>
    refine ⟨by simp [ht], ?_, fun i h1 h2 => by omega⟩
    simp only [List.range'_zero, List.foldl_nil]
    exact getD_set_self _ _ _ _ (by rw [ht]; exact perm_getD_lt hp hm)
  | succ m ih =>
    obtain ⟨hlen, h0, hrec⟩ := ih (by omega)
    simp only [List.range'_concat, List.foldl_append, List.foldl_cons, List.foldl_nil, Nat.one_mul]
    generalize (List.range' 1 m).foldl (rankStep n k rank sa) (temp.set (sa.getD 0 0) 0) = t at *
    have hne : ∀ i, i ≤ m → sa.getD (1 + m) 0 ≠ sa.getD i 0 := by
      intro i hi h
      have := perm_getD_inj hp (by omega) (by omega) h
      omega
    refine ⟨by rw [rankStep_length, hlen], ?_, ?_⟩
    · unfold rankStep
      rw [getD_set_ne _ _ _ _ _ (hne 0 (by omega))]
      exact h0
    · intro i h1 h2
      unfold rankStep
      by_cases him : i = 1 + m
      · subst him
        rw [getD_set_self _ _ _ _ (by rw [hlen]; exact perm_getD_lt hp (by omega)),
          getD_set_ne _ _ _ _ _ (hne (1 + m - 1) (by omega))]
      · rw [getD_set_ne _ _ _ _ _ (hne i (by omega)),
          getD_set_ne _ _ _ _ _ (hne (i - 1) (by omega))]
        exact hrec i h1 (by omega)

theorem updateRank_spec (n k : Nat) (rank : List Int) (sa : List Nat) (temp : List Int)
    (hp : sa.Perm (List.range n)) (ht : temp.length = n) (hn : 0 < n) :
    (updateRank n k rank sa temp).length = n ∧
      (updateRank n k rank sa temp).getD (sa.getD 0 0) 0 = 0 ∧
      ∀ i, 1 ≤ i → i < n →
        (updateRank n k rank sa temp).getD (sa.getD i 0) 0 =
          (updateRank n k rank sa temp).getD (sa.getD (i - 1) 0) 0 +
            (if cmp n k rank (sa.getD (i - 1) 0) (sa.getD i 0) then 1 else 0) := by
  obtain ⟨h1, h2, h3⟩ := updateRank_upTo n k rank sa temp hp ht (n - 1) (by omega)
  exact ⟨h1, h2, fun i hi hin => h3 i hi (by omega)⟩

/-- Ranks handed out along a sorted list by counting the strict steps compare
like the elements themselves. -/
theorem rank_of_sorted {lt : Nat → Nat → Bool} (hlt : StrictWeak lt) (n : Nat) (g : Nat → Nat)
    (f : Nat → Int) (hf0 : f 0 = 0)
    (hfs : ∀ i, 1 ≤ i → i < n → f i = f (i - 1) + (if lt (g (i - 1)) (g i) then 1 else 0))
    (hsorted : ∀ p q, p < q → q < n → lt (g q) (g p) = false) :
    ∀ p q, p < n → q < n → (0 ≤ f p ∧ (f p < f q ↔ lt (g p) (g q) = true)) := by
  have mono : ∀ p q, p ≤ q → q < n → f p ≤ f q ∧ (f p < f q ↔ lt (g p) (g q) = true) := by
    intro p q hpq
    induction q, hpq using Nat.le_induction with
    | base =>
      intro _
      refine ⟨le_refl _, ?_⟩
      simp [hlt.irrefl]
    | succ q hpq ih =>
      intro hq
      obtain ⟨hle, hiff⟩ := ih (by omega)
      have hstep := hfs (q + 1) (by omega) hq
      simp only [Nat.add_sub_cancel] at hstep
      have hqp : lt (g q) (g p) = false := by
        rcases Nat.eq_or_lt_of_le hpq with h | h
        · subst h; exact hlt.irrefl _
        · exact hsorted p q h (by omega)
      have hq1q : lt (g (q + 1)) (g q) = false := hsorted q (q + 1) (by omega) hq
      cases hc : lt (g q) (g (q + 1))
      · rw [hc] at hstep
        simp only [Bool.false_eq_true, if_false, add_zero] at hstep
        rw [hstep]
        refine ⟨hle, hiff.trans ?_⟩
        constructor
        · intro h
          cases h2 : lt (g p) (g (q + 1))
          · have := hlt.negTrans _ _ _ h2 hq1q
            rw [h] at this
            exact absurd this (by simp)
          · rfl
        · intro h
          cases h2 : lt (g p) (g q)
          · have := hlt.negTrans _ _ _ h2 hc
            rw [h] at this
            exact absurd this (by simp)
          · rfl
      · rw [hc] at hstep
        simp only [if_true] at hstep
        rw [hstep]
        refine ⟨by omega, ?_⟩
        constructor
        · intro _
          cases h2 : lt (g p) (g (q + 1))
          · have := hlt.negTrans _ _ _ hqp h2
            rw [hc] at this
            exact absurd this (by simp)
          · rfl
        · intro _
          omega
  have nonneg : ∀ p, p < n → 0 ≤ f p := by
    intro p hp
    have := (mono 0 p (Nat.zero_le _) hp).1
    omega
  intro p q hp hq
  refine ⟨nonneg p hp, ?_⟩
  rcases Nat.lt_or_ge q p with h | h
  · have h1 := (mono q p (by omega) hp).1
    have h2 := hsorted q p h hp
    constructor
    · intro h3; omega
    · intro h3; rw [h2] at h3; exact absurd h3 (by simp)
  · exact (mono p q h hq).2

/-! ## The invariant of the doubling loop -/

theorem rankInv_eq_iff {s : List Int} {k : Nat} {rank : List Int} (h : RankInv s k rank)
    {a b : Nat} (ha : a < s.length) (hb : b < s.length) :
    rank.getD a 0 = rank.getD b 0 ↔ pre s k a = pre s k b := by
  have hab := h.2.2 a b ha hb
  have hba := h.2.2 b a hb ha
  constructor
  · intro e
    rcases lex_trichotomy (pre s k a) (pre s k b) with h1 | h1 | h1
    · have := hab.mpr h1; omega
    · exact h1
    · have := hba.mpr h1; omega
  · intro e
    rcases lt_trichotomy (rank.getD a 0) (rank.getD b 0) with h1 | h1 | h1
    · have := hab.mp h1; rw [e] at this; exact absurd this (lex_irrefl _)
    · exact h1
    · have := hba.mp h1; rw [e] at this; exact absurd this (lex_irrefl _)

/-- Under the invariant, `cmp` with offset `k` compares the prefixes of length
`2 * k`. -/
theorem cmp_iff_pre {s : List Int} {k : Nat} {rank : List Int} (hk : 1 ≤ k)
    (h : RankInv s k rank) {a b : Nat} (ha : a < s.length) (hb : b < s.length) :
    cmp s.length k rank a b = true ↔
      List.Lex (· < ·) (pre s (2 * k) a) (pre s (2 * k) b) := by
  have hfst : ∀ c, (key s.length k rank c).1 = rank.getD c 0 := fun _ => rfl
  rw [cmp_iff, pre_double, hfst, hfst, h.2.2 a b ha hb, rankInv_eq_iff h ha hb]
  have hsnd : (key s.length k rank a).2 < (key s.length k rank b).2 ↔
      List.Lex (· < ·) (pre s k (a + k)) (pre s k (b + k)) := by
    unfold key
    by_cases hak : a + k < s.length
    · by_cases hbk : b + k < s.length
      · simp only [hak, hbk, if_true]
        exact h.2.2 _ _ hak hbk
      · simp only [hak, hbk, if_true, if_false]
        rw [pre_eq_nil s k (b + k) (by omega)]
        have := h.2.1 _ hak
        constructor
        · intro h1; omega
        · intro h1; exact absurd h1 (List.Lex.not_nil_right _ _)
    · by_cases hbk : b + k < s.length
      · simp only [hak, hbk, if_true, if_false]
        rw [pre_eq_nil s k (a + k) (by omega)]
        have := h.2.1 _ hbk
        constructor
        · intro _
          cases hp : pre s k (b + k) with
          | nil => exact absurd hp (pre_ne_nil s k _ hk hbk)
          | cons c cs => exact List.Lex.nil
        · intro _; omega
      · simp only [hak, hbk, if_false]
        rw [pre_eq_nil s k (a + k) (by omega), pre_eq_nil s k (b + k) (by omega)]
        constructor
        · intro h1; omega
        · intro h1; cases h1
  rw [hsnd]

theorem pre_one (s : List Int) (a : Nat) (ha : a < s.length) : pre s 1 a = [s.getD a 0] := by
  unfold pre
  rw [List.drop_eq_getElem_cons ha, List.getD_eq_getElem s 0 ha]
  rfl

theorem init_rank_getD (s : List Int) (a : Nat) (ha : a < s.length) :
    (init s).rank.getD a 0 = s.getD a 0 := by
  unfold init
  simp only
  rw [List.getD_eq_getElem _ 0 (by simpa using ha)]
  simp

theorem init_rankInv (s : List Int) (hs : ∀ c ∈ s, 0 ≤ c) : RankInv s 1 (init s).rank := by
  refine ⟨by simp [init], ?_, ?_⟩
  · intro a ha
    rw [init_rank_getD s a ha, List.getD_eq_getElem s 0 ha]
    exact hs _ (List.getElem_mem _)
  · intro a b ha hb
    rw [init_rank_getD s a ha, init_rank_getD s b hb, pre_one s a ha, pre_one s b hb,
      lex_cons_iff]
    constructor
    · exact Or.inl
    · rintro (h | ⟨_, h⟩)
      · exact h
      · cases h

theorem finishRound_inv {s : List Int} {k : Nat} {σ : State} {sorted : List Nat}
    (hk : 1 ≤ k) (hkn : k < s.length) (hσ : StateInv s k σ)
    (hsort : IsSortOf (cmp s.length k σ.rank) σ.suffixArray sorted) :
    StateInv s (2 * k) (finishRound s.length k σ sorted) ∧ PreSorted s (2 * k) sorted := by
  have hperm : sorted.Perm (List.range s.length) := hsort.1.trans hσ.perm
  have hlen : sorted.length = s.length := by rw [hperm.length_eq, List.length_range]
  obtain ⟨h1, h2, h3⟩ :=
    updateRank_spec s.length k σ.rank sorted σ.temp hperm hσ.tempLen (by omega)
  have hsorted : ∀ p q, p < q → q < s.length →
      cmp s.length k σ.rank (sorted.getD q 0) (sorted.getD p 0) = false := by
    intro p q hpq hq
    exact pairwise_getD hsort.2 hpq (by omega)
  have hrank := rank_of_sorted (cmp_strictWeak s.length k σ.rank) s.length
    (fun i => sorted.getD i 0)
    (fun i => (updateRank s.length k σ.rank sorted σ.temp).getD (sorted.getD i 0) 0)
    h2 h3 hsorted
  refine ⟨⟨hperm, h1, h1, ?_, ?_⟩, ?_⟩
  · intro a ha
    obtain ⟨p, hp, rfl⟩ := perm_getD_surj hperm ha
    exact (hrank p p hp hp).1
  · intro a b ha hb
    obtain ⟨p, hp, rfl⟩ := perm_getD_surj hperm ha
    obtain ⟨q, hq, rfl⟩ := perm_getD_surj hperm hb
    exact ((hrank p q hp hq).2).trans (cmp_iff_pre hk hσ.rankInv ha hb)
  · unfold PreSorted
    refine hsort.2.imp_of_mem ?_
    intro a b ha hb hab
    have ha' : a < s.length := List.mem_range.mp (hperm.subset ha)
    have hb' : b < s.length := List.mem_range.mp (hperm.subset hb)
    rw [← cmp_iff_pre hk hσ.rankInv hb' ha', hab]
    simp

/-- Once the invariant holds with a sorted array, it holds at the exit of the loop
for an offset that covers the whole text. -/
theorem rounds_inv {s : List Int} {n k : Nat} {σ σ' : State} (h : Rounds n k σ σ')
    (hn : n = s.length) (hk : 1 ≤ k) (hσ : StateInv s k σ)
    (hsorted : PreSorted s k σ.suffixArray) :
    ∃ k', s.length ≤ k' ∧ StateInv s k' σ' ∧ PreSorted s k' σ'.suffixArray := by
  induction h with
  | exit hkn => exact ⟨_, by omega, hσ, hsorted⟩
  | step sorted hkn hsort _ ih =>
    subst hn
    obtain ⟨h1, h2⟩ := finishRound_inv hk hkn hσ hsort
    exact ih (by omega) h1 h2

/-! ## Every run returns the suffixes in strictly increasing order -/

theorem init_stateInv (s : List Int) (hs : ∀ c ∈ s, 0 ≤ c) : StateInv s 1 (init s) :=
  ⟨List.Perm.refl _, by simp [init], init_rankInv s hs⟩

theorem drop_ne_drop (s : List Int) {a b : Nat} (ha : a < s.length) (hb : b < s.length)
    (hab : a ≠ b) : s.drop a ≠ s.drop b := by
  intro h
  have := congrArg List.length h
  rw [List.length_drop, List.length_drop] at this
  omega

theorem pairwise_short {R : Nat → Nat → Prop} (l : List Nat) (h : l.length ≤ 1) :
    l.Pairwise R := by
  match l, h with
  | [], _ => exact List.Pairwise.nil
  | [x], _ => exact List.pairwise_singleton R x
  | _ :: _ :: _, h => simp at h

/-- The array returned by any run lists the suffixes in strictly increasing
lexicographic order. -/
theorem runs_sorted {s : List Int} (hs : ∀ c ∈ s, 0 ≤ c) {res : List Nat} (h : Runs s res) :
    res.Pairwise (SufLt s) := by
  have hperm := runs_perm h
  have hlen := runs_length h
  by_cases hn : 1 < s.length
  · obtain ⟨σ', hr, rfl⟩ := h
    cases hr with
    | exit hkn => exact absurd hn hkn
    | step sorted hkn hsort hrest =>
      obtain ⟨h1, h2⟩ := finishRound_inv (le_refl 1) hkn (init_stateInv s hs) hsort
      obtain ⟨k', hk', _, h4⟩ := rounds_inv hrest rfl (by omega) h1 h2
      have hnd : σ'.suffixArray.Nodup := hperm.nodup_iff.mpr (List.nodup_range _)
      refine (h4.and hnd).imp_of_mem ?_
      intro a b ha hb hab
      have ha' : a < s.length := List.mem_range.mp (hperm.subset ha)
      have hb' : b < s.length := List.mem_range.mp (hperm.subset hb)
      obtain ⟨hnot, hne⟩ := hab
      rw [pre_of_le s k' a hk', pre_of_le s k' b hk'] at hnot
      rcases lex_trichotomy (s.drop a) (s.drop b) with h5 | h5 | h5
      · exact h5
      · exact absurd h5 (drop_ne_drop s ha' hb' hne)
      · exact absurd h5 hnot
  · exact pairwise_short res (by omega)

theorem sufLt_asymm (s : List Int) {a b : Nat} (h : SufLt s a b) : ¬ SufLt s b a :=
  lex_asymm h

/-- Two arrays that both list the positions in strictly increasing order of their
suffixes are equal. -/
theorem sorted_perm_unique (s : List Int) {r₁ r₂ : List Nat} (hp : r₁.Perm r₂)
    (h₁ : r₁.Pairwise (SufLt s)) (h₂ : r₂.Pairwise (SufLt s)) : r₁ = r₂ := by
  haveI : IsAntisymm Nat (SufLt s) := ⟨fun a b h1 h2 => absurd h2 (sufLt_asymm s h1)⟩
  exact List.eq_of_perm_of_sorted hp h₁ h₂

theorem runs_unique {s : List Int} (hs : ∀ c ∈ s, 0 ≤ c) {r₁ r₂ : List Nat}
    (h₁ : Runs s r₁) (h₂ : Runs s r₂) : r₁ = r₂ :=
  sorted_perm_unique s ((runs_perm h₁).trans (runs_perm h₂).symm)
    (runs_sorted hs h₁) (runs_sorted hs h₂)

/-! ## The inverse permutation computed by `buildLCPArray` -/

theorem buildRank_upTo (n : Nat) (sa : List Nat) (hp : sa.Perm (List.range n)) (m : Nat)
    (hm : m ≤ n) :
    let r := (List.range m).foldl (fun r i => r.set (sa.getD i 0) i) (List.replicate n 0)
    r.length = n ∧ ∀ i, i < m → r.getD (sa.getD i 0) 0 = i := by
  induction m with
  | zero => exact ⟨by simp, fun i hi => by omega⟩
  | succ m ih =>
    obtain ⟨hlen, hrec⟩ := ih (by omega)
    simp only [List.range_succ, List.foldl_append, List.foldl_cons, List.foldl_nil]
    generalize (List.range m).foldl (fun r i => r.set (sa.getD i 0) i) (List.replicate n 0) = r
      at *
    refine ⟨by simp [hlen], ?_⟩
    intro i hi
    by_cases him : i = m
    · subst him
      exact getD_set_self _ _ _ _ (by rw [hlen]; exact perm_getD_lt hp (by omega))
    · have hne : sa.getD m 0 ≠ sa.getD i 0 := by
        intro h
        exact him (perm_getD_inj hp (by omega) (by omega) h).symm
      rw [getD_set_ne _ _ _ _ _ hne]
      exact hrec i (by omega)

theorem buildRank_length (n : Nat) (sa : List Nat) (hp : sa.Perm (List.range n)) :
    (buildRank n sa).length = n :=
  (buildRank_upTo n sa hp n (le_refl n)).1

/-- The computed `rank` is a left inverse of the array: `rank[suffixArray[i]] = i`. -/
theorem buildRank_sa (n : Nat) (sa : List Nat) (hp : sa.Perm (List.range n)) {i : Nat}
    (hi : i < n) : (buildRank n sa).getD (sa.getD i 0) 0 = i :=
  (buildRank_upTo n sa hp n (le_refl n)).2 i hi

theorem buildRank_lt (n : Nat) (sa : List Nat) (hp : sa.Perm (List.range n)) {a : Nat}
    (ha : a < n) : (buildRank n sa).getD a 0 < n := by
  obtain ⟨i, hi, rfl⟩ := perm_getD_surj hp ha
  rw [buildRank_sa n sa hp hi]
  exact hi

/-- The computed `rank` is a right inverse of the array: `suffixArray[rank[a]] = a`. -/
theorem sa_buildRank (n : Nat) (sa : List Nat) (hp : sa.Perm (List.range n)) {a : Nat}
    (ha : a < n) : sa.getD ((buildRank n sa).getD a 0) 0 = a := by
  obtain ⟨i, hi, rfl⟩ := perm_getD_surj hp ha
  rw [buildRank_sa n sa hp hi]

theorem buildRank_inj (n : Nat) (sa : List Nat) (hp : sa.Perm (List.range n)) {a b : Nat}
    (ha : a < n) (hb : b < n) (h : (buildRank n sa).getD a 0 = (buildRank n sa).getD b 0) :
    a = b := by
  rw [← sa_buildRank n sa hp ha, ← sa_buildRank n sa hp hb, h]

/-! ## Longest common prefixes -/

theorem lcpLen_comm (x y : List Int) : lcpLen x y = lcpLen y x := by
  induction x generalizing y with
  | nil => cases y <;> simp [lcpLen]
  | cons a as ih =>
    cases y with
    | nil => simp [lcpLen]
    | cons b bs =>
      simp only [lcpLen, ih bs, eq_comm]

theorem lcpLen_le_left (x y : List Int) : lcpLen x y ≤ x.length := by
  induction x generalizing y with
  | nil => simp [lcpLen]
  | cons a as ih =>
    cases y with
    | nil => simp [lcpLen]
    | cons b bs =>
      simp only [lcpLen, List.length_cons]
      split
      · exact Nat.succ_le_succ (ih bs)
      · omega

theorem lcpLen_le_right (x y : List Int) : lcpLen x y ≤ y.length := by
  rw [lcpLen_comm]
  exact lcpLen_le_left y x

theorem lcpLen_drop (s : List Int) (i j : Nat) :
    lcpLen (s.drop i) (s.drop j) =
      if i < s.length ∧ j < s.length ∧ s.getD i 0 = s.getD j 0 then
        lcpLen (s.drop (i + 1)) (s.drop (j + 1)) + 1
      else 0 := by
  by_cases hi : i < s.length
  · by_cases hj : j < s.length
    · rw [List.drop_eq_getElem_cons hi, List.drop_eq_getElem_cons hj,
        List.getD_eq_getElem s 0 hi, List.getD_eq_getElem s 0 hj]
      simp only [lcpLen, hi, hj, true_and]
    · rw [List.drop_of_length_le (Nat.le_of_not_lt hj)]
      simp only [hj, false_and, and_false, if_false]
      cases s.drop i <;> rfl
  · rw [List.drop_of_length_le (Nat.le_of_not_lt hi)]
    simp only [hi, false_and, if_false]
    rfl

/-- All offsets below the longest common prefix match. -/
theorem lcpLen_match (s : List Int) (i j t : Nat) (ht : t < lcpLen (s.drop i) (s.drop j)) :
    MatchAt s i j t := by
  induction t generalizing i j with
  | zero =>
    rw [lcpLen_drop] at ht
    split at ht
    · rename_i h; exact h
    · omega
  | succ t ih =>
    rw [lcpLen_drop] at ht
    split at ht
    · have := ih (i + 1) (j + 1) (by omega)
      unfold MatchAt at *
      have e1 : i + (t + 1) = i + 1 + t := by omega
      have e2 : j + (t + 1) = j + 1 + t := by omega
      rw [e1, e2]
      exact this
    · omega

/-- The offset equal to the longest common prefix does not match. -/
theorem lcpLen_stop (s : List Int) (i j : Nat) :
    ¬ MatchAt s i j (lcpLen (s.drop i) (s.drop j)) := by
  generalize hL : lcpLen (s.drop i) (s.drop j) = L
  induction L generalizing i j with
  | zero =>
    rw [lcpLen_drop] at hL
    split at hL
    · omega
    · rename_i h; exact h
  | succ L ih =>
    rw [lcpLen_drop] at hL
    split at hL
    · have := ih (i + 1) (j + 1) (by omega)
      unfold MatchAt at *
      have e1 : i + (L + 1) = i + 1 + L := by omega
      have e2 : j + (L + 1) = j + 1 + L := by omega
      rw [e1, e2]
      exact this
    · omega

/-- The longest common prefix is the only length below which all offsets match and
at which the match fails. -/
theorem lcpLen_unique (s : List Int) (i j H : Nat) (h1 : ∀ t, t < H → MatchAt s i j t)
    (h2 : ¬ MatchAt s i j H) : H = lcpLen (s.drop i) (s.drop j) := by
  rcases Nat.lt_trichotomy H (lcpLen (s.drop i) (s.drop j)) with h | h | h
  · exact absurd (lcpLen_match s i j H h) h2
  · exact h
  · exact absurd (h1 _ h) (lcpLen_stop s i j)

/-! ## The inner loop -/

theorem extend_ge (s : List Int) (n i j fuel h : Nat) : h ≤ extend s n i j fuel h := by
  induction fuel generalizing h with
  | zero => exact le_refl h
  | succ f ih =>
    unfold extend
    split
    · exact Nat.le_trans (Nat.le_succ h) (ih (h + 1))
    · exact le_refl h

theorem extend_match (s : List Int) (i j fuel h t : Nat) (h1 : h ≤ t)
    (h2 : t < extend s s.length i j fuel h) : MatchAt s i j t := by
  induction fuel generalizing h with
  | zero => unfold extend at h2; omega
  | succ f ih =>
    unfold extend at h2
    split at h2
    · rename_i hm
      rcases Nat.eq_or_lt_of_le h1 with e | e
      · subst e; exact hm
      · exact ih (h + 1) e h2
    · omega

/-- With `n - h` iterations of fuel the inner loop ends because its condition is
false, not because the fuel is used up. -/
theorem extend_stops (s : List Int) (i j fuel h : Nat) (hf : s.length ≤ h + fuel) :
    ¬ MatchAt s i j (extend s s.length i j fuel h) := by
  induction fuel generalizing h with
  | zero =>
    unfold extend MatchAt
    omega
  | succ f ih =>
    unfold extend
    split
    · exact ih (h + 1) (by omega)
    · rename_i hm; exact hm

/-- Started at or below the longest common prefix, the inner loop ends exactly at
it. -/
theorem extend_eq_lcpLen (s : List Int) (i j h : Nat) (hh : h ≤ lcpLen (s.drop i) (s.drop j)) :
    extend s s.length i j s.length h = lcpLen (s.drop i) (s.drop j) := by
  apply lcpLen_unique
  · intro t ht
    rcases Nat.lt_or_ge t h with h1 | h1
    · exact lcpLen_match s i j t (by omega)
    · exact extend_match s i j _ h t h1 ht
  · exact extend_stops s i j _ h (by omega)

/-! ## Order and common prefixes -/

/-- Between two lists in lexicographic order, the common prefix with the far one is
at most the common prefix with the near one. -/
theorem lcpLen_sandwich {x y z : List Int} (h1 : List.Lex (· < ·) x y)
    (h2 : List.Lex (· < ·) y z) : lcpLen x z ≤ lcpLen y z := by
  induction x generalizing y z with
  | nil => cases z <;> simp [lcpLen]
  | cons a as ih =>
    cases y with
    | nil => cases h1
    | cons b bs =>
      cases z with
      | nil => cases h2
      | cons c cs =>
        rw [lex_cons_iff] at h1 h2
        simp only [lcpLen]
        by_cases hac : a = c
        · subst hac
          rcases h1 with h1 | ⟨rfl, h1⟩
          · rcases h2 with h2 | ⟨rfl, _⟩
            · omega
            · omega
          · rcases h2 with h2 | ⟨_, h2⟩
            · omega
            · simp only [if_true]
              exact Nat.succ_le_succ (ih h1 h2)
        · simp only [hac, if_false]
          exact Nat.zero_le _

/-- Dropping the common first symbol keeps the order and shortens the common prefix
by one. -/
theorem lex_tail_of_lcpLen_pos {x y : List Int} (h1 : List.Lex (· < ·) y x)
    (h2 : 0 < lcpLen x y) :
    List.Lex (· < ·) y.tail x.tail ∧ lcpLen x.tail y.tail + 1 = lcpLen x y := by
  cases x with
  | nil => simp [lcpLen] at h2
  | cons a as =>
    cases y with
    | nil => simp [lcpLen] at h2
    | cons b bs =>
      simp only [lcpLen] at h2 ⊢
      by_cases hab : a = b
      · subst hab
        rw [lex_cons_iff] at h1
        simp only [if_true, List.tail_cons, and_true]
        rcases h1 with h1 | ⟨_, h1⟩
        · exact absurd h1 (lt_irrefl _)
        · exact h1
      · simp [hab] at h2

theorem sufLt_succ {s : List Int} {i j : Nat} (h1 : SufLt s j i)
    (h2 : 0 < lcpLen (s.drop i) (s.drop j)) :
    SufLt s (j + 1) (i + 1) ∧
      lcpLen (s.drop (i + 1)) (s.drop (j + 1)) + 1 = lcpLen (s.drop i) (s.drop j) := by
  have := lex_tail_of_lcpLen_pos h1 h2
  rw [List.tail_drop, List.tail_drop] at this
  exact this

theorem runs_isSuffixArray {s : List Int} (hs : ∀ c ∈ s, 0 ≤ c) {res : List Nat}
    (h : Runs s res) : IsSuffixArray s res :=
  ⟨runs_perm h, runs_sorted hs h⟩

theorem isSuffixArray_length {s : List Int} {sa : List Nat} (h : IsSuffixArray s sa) :
    sa.length = s.length := by
  rw [h.perm.length_eq, List.length_range]

theorem sufLt_lt {s : List Int} {a b : Nat} (h : SufLt s a b) : b < s.length := by
  by_contra hb
  unfold SufLt at h
  rw [List.drop_of_length_le (Nat.le_of_not_lt hb)] at h
  exact List.Lex.not_nil_right _ _ h

/-- In a suffix array, a smaller suffix has a smaller rank. -/
theorem isSuffixArray_rank_lt {s : List Int} {sa : List Nat} (h : IsSuffixArray s sa)
    {a b : Nat} (ha : a < s.length) (hab : SufLt s a b) :
    (buildRank s.length sa).getD a 0 < (buildRank s.length sa).getD b 0 := by
  have hb : b < s.length := sufLt_lt hab
  by_contra hnot
  have hra := buildRank_lt _ sa h.perm ha
  have hsa := sa_buildRank _ sa h.perm ha
  have hsb := sa_buildRank _ sa h.perm hb
  rcases Nat.eq_or_lt_of_le (Nat.le_of_not_lt hnot) with e | e
  · have := buildRank_inj _ sa h.perm hb ha e
    subst this
    exact lex_irrefl _ hab
  · have := pairwise_getD h.sorted e (by rw [isSuffixArray_length h]; exact hra)
    rw [hsa, hsb] at this
    exact sufLt_asymm s hab this

/-- In a suffix array, the suffix of smaller rank is the smaller suffix. -/
theorem isSuffixArray_sufLt_of_rank_lt {s : List Int} {sa : List Nat} (h : IsSuffixArray s sa)
    {a b : Nat} (ha : a < s.length) (hb : b < s.length)
    (hab : (buildRank s.length sa).getD a 0 < (buildRank s.length sa).getD b 0) :
    SufLt s a b := by
  have hrb := buildRank_lt _ sa h.perm hb
  have := pairwise_getD h.sorted hab (by rw [isSuffixArray_length h]; exact hrb)
  rw [sa_buildRank _ sa h.perm ha, sa_buildRank _ sa h.perm hb] at this
  exact this

/-! ## The main loop of `buildLCPArray` -/

/-- The carried `h` never exceeds the common prefix with the predecessor in the
array. -/
theorem kasaiInv_carry_le {s : List Int} {sa : List Nat} (hsa : IsSuffixArray s sa) {i : Nat}
    {st : LcpState} (inv : KasaiInv s sa i st) (hi : i < s.length)
    (hr : 0 < (buildRank s.length sa).getD i 0) :
    st.h ≤ lcpLen (s.drop i) (s.drop (sa.getD ((buildRank s.length sa).getD i 0 - 1) 0)) := by
  have hri := buildRank_lt _ sa hsa.perm hi
  rcases inv.carry with h0 | ⟨j', hj'i, hle⟩
  · omega
  · by_cases hj'n : j' < s.length
    · have hj : sa.getD ((buildRank s.length sa).getD i 0 - 1) 0 < s.length :=
        perm_getD_lt hsa.perm (by omega)
      have hrj : (buildRank s.length sa).getD
          (sa.getD ((buildRank s.length sa).getD i 0 - 1) 0) 0 =
          (buildRank s.length sa).getD i 0 - 1 := buildRank_sa _ sa hsa.perm (by omega)
      have hlt := isSuffixArray_rank_lt hsa hj'n hj'i
      have hji : SufLt s (sa.getD ((buildRank s.length sa).getD i 0 - 1) 0) i :=
        isSuffixArray_sufLt_of_rank_lt hsa hj hi (by rw [hrj]; omega)
      rcases Nat.eq_or_lt_of_le (Nat.le_sub_one_of_lt hlt) with e | e
      · have : j' = sa.getD ((buildRank s.length sa).getD i 0 - 1) 0 :=
          buildRank_inj _ sa hsa.perm hj'n hj (by rw [hrj]; exact e)
        rw [← this]
        exact hle
      · have hj'j : SufLt s j' (sa.getD ((buildRank s.length sa).getD i 0 - 1) 0) :=
          isSuffixArray_sufLt_of_rank_lt hsa hj'n hj (by rw [hrj]; exact e)
        have := lcpLen_sandwich hj'j hji
        rw [lcpLen_comm (s.drop j'), lcpLen_comm (s.drop _) (s.drop i)] at this
        omega
    · have := lcpLen_le_right (s.drop i) (s.drop j')
      rw [List.length_drop] at this
      omega

/-- At the position of rank `0` the carried `h` is `0`. -/
theorem kasaiInv_carry_zero {s : List Int} {sa : List Nat} (hsa : IsSuffixArray s sa) {i : Nat}
    {st : LcpState} (inv : KasaiInv s sa i st)
    (hr : (buildRank s.length sa).getD i 0 = 0) : st.h = 0 := by
  rcases inv.carry with h0 | ⟨j', hj'i, hle⟩
  · exact h0
  · by_cases hj'n : j' < s.length
    · have hlt := isSuffixArray_rank_lt hsa hj'n hj'i
      omega
    · have := lcpLen_le_right (s.drop i) (s.drop j')
      rw [List.length_drop] at this
      omega

theorem lcpStep_inv {s : List Int} {sa : List Nat} (hsa : IsSuffixArray s sa) {i : Nat}
    {st : LcpState} (inv : KasaiInv s sa i st) (hi : i < s.length) :
    KasaiInv s sa (i + 1) (lcpStep s s.length sa (buildRank s.length sa) st i) := by
  unfold lcpStep
  split
  · rename_i hr
    have hr' : 0 < (buildRank s.length sa).getD i 0 := hr
    have hri := buildRank_lt _ sa hsa.perm hi
    have hle := kasaiInv_carry_le hsa inv hi hr'
    have hext := extend_eq_lcpLen s i _ st.h hle
    simp only [hext]
    have hj : sa.getD ((buildRank s.length sa).getD i 0 - 1) 0 < s.length :=
      perm_getD_lt hsa.perm (by omega)
    have hrj : (buildRank s.length sa).getD
        (sa.getD ((buildRank s.length sa).getD i 0 - 1) 0) 0 =
        (buildRank s.length sa).getD i 0 - 1 := buildRank_sa _ sa hsa.perm (by omega)
    have hji : SufLt s (sa.getD ((buildRank s.length sa).getD i 0 - 1) 0) i :=
      isSuffixArray_sufLt_of_rank_lt hsa hj hi (by rw [hrj]; omega)
    refine ⟨by simp [inv.len], ?_, ?_⟩
    · intro a ha han hra
      by_cases hai : a = i
      · subst hai
        exact getD_set_self _ _ _ _ (by rw [inv.len]; exact hri)
      · have hne : (buildRank s.length sa).getD i 0 ≠ (buildRank s.length sa).getD a 0 := by
          intro e
          exact hai (buildRank_inj _ sa hsa.perm han hi e.symm)
        rw [getD_set_ne _ _ _ _ _ hne]
        exact inv.done a (by omega) han hra
    · by_cases hL : 0 < lcpLen (s.drop i)
          (s.drop (sa.getD ((buildRank s.length sa).getD i 0 - 1) 0))
      · obtain ⟨h1, h2⟩ := sufLt_succ hji hL
        right
        refine ⟨_, h1, ?_⟩
        simp only [gt_iff_lt, hL, if_true]
        omega
      · left
        simp only [gt_iff_lt, hL, if_false]
        omega
  · rename_i hr
    have hr0 : (buildRank s.length sa).getD i 0 = 0 := by omega
    refine ⟨inv.len, ?_, Or.inl (kasaiInv_carry_zero hsa inv hr0)⟩
    intro a ha han hra
    have hai : a ≠ i := by
      intro e; subst e; omega
    exact inv.done a (by omega) han hra

theorem lcpLoop_succ (s : List Int) (sa : List Nat) (m : Nat) :
    lcpLoop s sa (m + 1) =
      lcpStep s s.length sa (buildRank s.length sa) (lcpLoop s sa m) m := by
  unfold lcpLoop
  rw [List.range_succ, List.foldl_append]
  rfl

theorem lcpLoop_inv {s : List Int} {sa : List Nat} (hsa : IsSuffixArray s sa) (m : Nat)
    (hm : m ≤ s.length) : KasaiInv s sa m (lcpLoop s sa m) := by
  induction m with
  | zero =>
    exact ⟨by simp [lcpLoop], fun a ha => by omega, Or.inl rfl⟩
  | succ m ih =>
    rw [lcpLoop_succ]
    exact lcpStep_inv hsa (ih (by omega)) (by omega)

/-- On a suffix array, entry `p > 0` of the result is the longest common prefix of
the suffixes at places `p - 1` and `p` of the array. -/
theorem buildLCPArray_eq_lcpLen {s : List Int} {sa : List Nat} (hsa : IsSuffixArray s sa)
    {p : Nat} (hp0 : 0 < p) (hp : p < s.length) :
    (buildLCPArray s sa).getD p 0 =
      lcpLen (s.drop (sa.getD (p - 1) 0)) (s.drop (sa.getD p 0)) := by
  have inv := lcpLoop_inv hsa s.length (le_refl _)
  have ha := perm_getD_lt hsa.perm hp
  have hr := buildRank_sa _ sa hsa.perm hp
  have := inv.done (sa.getD p 0) ha ha (by rw [hr]; exact hp0)
  rw [hr] at this
  rw [lcpLen_comm]
  exact this

theorem lcpStep_length (s : List Int) (n : Nat) (sa rank : List Nat) (st : LcpState) (i : Nat) :
    (lcpStep s n sa rank st i).lcp.length = st.lcp.length := by
  unfold lcpStep
  split
  · simp
  · rfl

theorem lcpLoop_length (s : List Int) (sa : List Nat) (m : Nat) :
    (lcpLoop s sa m).lcp.length = s.length := by
  induction m with
  | zero => simp [lcpLoop]
  | succ m ih => rw [lcpLoop_succ, lcpStep_length, ih]

/-- No pass writes the entry at index `0`. -/
theorem lcpStep_zero (s : List Int) (n : Nat) (sa rank : List Nat) (st : LcpState) (i : Nat) :
    (lcpStep s n sa rank st i).lcp.getD 0 0 = st.lcp.getD 0 0 := by
  unfold lcpStep
  split
  · rename_i hr
    exact getD_set_ne _ _ _ _ _ (by omega)
  · rfl

theorem lcpLoop_zero (s : List Int) (sa : List Nat) (m : Nat) :
    (lcpLoop s sa m).lcp.getD 0 0 = 0 := by
  induction m with
  | zero => simp [lcpLoop]
  | succ m ih => rw [lcpLoop_succ, lcpStep_zero, ih]

/-! ## Texts of length at most one -/

theorem rounds_short {n : Nat} {σ σ' : State} (hn : n ≤ 1) (h : Rounds n 1 σ σ') : σ' = σ := by
  cases h with
  | exit _ => rfl
  | step _ hkn _ _ => omega

theorem runs_short {s : List Int} (hn : s.length ≤ 1) {res : List Nat} (h : Runs s res) :
    res = List.range s.length := by
  obtain ⟨σ, hr, rfl⟩ := h
  rw [rounds_short hn hr]
  rfl

/-! ## The claims -/

/-- C1: for every text `s` with non-negative symbol codes, every array `res` that
`buildSuffixArray(s)` can return and every `i` with `i + 1 < n`, the suffix starting
at `res[i]` is strictly smaller, in lexicographic order with a proper prefix counting
as smaller, than the suffix starting at `res[i + 1]`; in particular it is smaller
than or equal to it. -/
theorem buildSuffixArray_ordered (s : List Int) (hs : ∀ c ∈ s, 0 ≤ c) (res : List Nat)
    (hrun : Runs s res) (i : Nat) (hi : i + 1 < s.length) :
    SufLt s (res.getD i 0) (res.getD (i + 1) 0) :=
  pairwise_getD (runs_sorted hs hrun) (Nat.lt_succ_self i) (by rw [runs_length hrun]; exact hi)

theorem buildSuffixArray_ordered_witness :
    SufLt (codes "banana") ((buildSuffixArray (codes "banana")).getD 0 0)
      ((buildSuffixArray (codes "banana")).getD 1 0) :=
  buildSuffixArray_ordered (codes "banana") (by decide) _ (buildSuffixArray_runs _) 0
    (by decide)

/-- C2: for every text `s` of length `n`, the executable `buildSuffixArray s` is a run
of the program, and every array a run can return has length `n` and is a
permutation of `0, ..., n - 1`: every index occurs exactly once. -/
theorem buildSuffixArray_permutation (s : List Int) :
    Runs s (buildSuffixArray s) ∧
      ∀ res, Runs s res →
        res.length = s.length ∧ res.Perm (List.range s.length) ∧
          ∀ v, v < s.length → res.count v = 1 := by
  refine ⟨buildSuffixArray_runs s, fun res hrun => ⟨runs_length hrun, runs_perm hrun, ?_⟩⟩
  intro v hv
  rw [(runs_perm hrun).count_eq]
  exact List.count_eq_one_of_mem (List.nodup_range _) (List.mem_range.mpr hv)

/-- C3: for every text `s` with non-negative symbol codes, `SA` returned by
`buildSuffixArray(s)` and `LCP = buildLCPArray(s, SA)`, and every `i` with
`0 < i < n`: `LCP[i]` is the length of the longest common prefix of the suffixes
starting at `SA[i - 1]` and `SA[i]`; the first `LCP[i]` symbols of the two suffixes
exist and agree, and at offset `LCP[i]` the symbols differ or one of the suffixes
has ended. -/
theorem buildLCPArray_correct (s : List Int) (hs : ∀ c ∈ s, 0 ≤ c) (sa : List Nat)
    (hrun : Runs s sa) (i : Nat) (h0 : 0 < i) (hi : i < s.length) :
    (buildLCPArray s sa).getD i 0 =
        lcpLen (s.drop (sa.getD (i - 1) 0)) (s.drop (sa.getD i 0)) ∧
      (∀ t, t < (buildLCPArray s sa).getD i 0 →
        sa.getD (i - 1) 0 + t < s.length ∧ sa.getD i 0 + t < s.length ∧
          s.getD (sa.getD (i - 1) 0 + t) 0 = s.getD (sa.getD i 0 + t) 0) ∧
      (s.length ≤ sa.getD (i - 1) 0 + (buildLCPArray s sa).getD i 0 ∨
        s.length ≤ sa.getD i 0 + (buildLCPArray s sa).getD i 0 ∨
        s.getD (sa.getD (i - 1) 0 + (buildLCPArray s sa).getD i 0) 0 ≠
          s.getD (sa.getD i 0 + (buildLCPArray s sa).getD i 0) 0) := by
  have hsa := runs_isSuffixArray hs hrun
  have heq := buildLCPArray_eq_lcpLen hsa h0 hi
  refine ⟨heq, ?_, ?_⟩
  · intro t ht
    rw [heq] at ht
    exact lcpLen_match s _ _ t ht
  · have := lcpLen_stop s (sa.getD (i - 1) 0) (sa.getD i 0)
    rw [← heq] at this
    unfold MatchAt at this
    by_cases h1 : sa.getD (i - 1) 0 + (buildLCPArray s sa).getD i 0 < s.length
    · by_cases h2 : sa.getD i 0 + (buildLCPArray s sa).getD i 0 < s.length
      · exact Or.inr (Or.inr (fun e => this ⟨h1, h2, e⟩))
      · exact Or.inr (Or.inl (Nat.le_of_not_lt h2))
    · exact Or.inl (Nat.le_of_not_lt h1)

theorem buildLCPArray_correct_witness :
    (buildLCPArray (codes "banana") (buildSuffixArray (codes "banana"))).getD 2 0 = 3 :=
  ((buildLCPArray_correct (codes "banana") (by decide) _ (buildSuffixArray_runs _) 2
    (by decide) (by decide)).1).trans (by decide)

/-- C4: for every text `s` of length `n` and every permutation `SA` of
`0, ..., n - 1`, `buildLCPArray(s, SA)` has length exactly `n`, and when `n > 0` its
entry at index `0` is `0`; that entry is `0` after every pass of the main loop, since
no pass writes it. -/
theorem buildLCPArray_length_zero (s : List Int) (sa : List Nat)
    (_hperm : sa.Perm (List.range s.length)) :
    (buildLCPArray s sa).length = s.length ∧
      (0 < s.length → (buildLCPArray s sa).getD 0 0 = 0) ∧
      ∀ m, m ≤ s.length → (lcpLoop s sa m).lcp.getD 0 0 = 0 :=
  ⟨lcpLoop_length s sa s.length, fun _ => lcpLoop_zero s sa s.length,
    fun m _ => lcpLoop_zero s sa m⟩

theorem buildLCPArray_length_zero_witness :
    (buildLCPArray (codes "banana") [0, 1, 2, 3, 4, 5]).length = 6 ∧
      (0 < 6 → (buildLCPArray (codes "banana") [0, 1, 2, 3, 4, 5]).getD 0 0 = 0) ∧
      ∀ m, m ≤ 6 → (lcpLoop (codes "banana") [0, 1, 2, 3, 4, 5] m).lcp.getD 0 0 = 0 :=
  buildLCPArray_length_zero (codes "banana") [0, 1, 2, 3, 4, 5] (List.Perm.refl _)

/-- C5: for every text `s` of length `n` with non-negative symbol codes, `SA` returned
by `buildSuffixArray(s)` and `LCP = buildLCPArray(s, SA)`, and every `i` with
`0 < i < n`: `0 ≤ LCP[i] ≤ n - max(SA[i], SA[i - 1])`. -/
theorem buildLCPArray_bound (s : List Int) (hs : ∀ c ∈ s, 0 ≤ c) (sa : List Nat)
    (hrun : Runs s sa) (i : Nat) (h0 : 0 < i) (hi : i < s.length) :
    0 ≤ (buildLCPArray s sa).getD i 0 ∧
      (buildLCPArray s sa).getD i 0 ≤ s.length - max (sa.getD i 0) (sa.getD (i - 1) 0) := by
  have hsa := runs_isSuffixArray hs hrun
  rw [buildLCPArray_eq_lcpLen hsa h0 hi]
  have h1 := lcpLen_le_left (s.drop (sa.getD (i - 1) 0)) (s.drop (sa.getD i 0))
  have h2 := lcpLen_le_right (s.drop (sa.getD (i - 1) 0)) (s.drop (sa.getD i 0))
  rw [List.length_drop] at h1 h2
  refine ⟨Nat.zero_le _, ?_⟩
  rcases max_cases (sa.getD i 0) (sa.getD (i - 1) 0) with ⟨e, _⟩ | ⟨e, _⟩ <;> rw [e] <;> omega

theorem buildLCPArray_bound_witness :
    0 ≤ (buildLCPArray (codes "banana") (buildSuffixArray (codes "banana"))).getD 2 0 ∧
      (buildLCPArray (codes "banana") (buildSuffixArray (codes "banana"))).getD 2 0 ≤
        (codes "banana").length -
          max ((buildSuffixArray (codes "banana")).getD 2 0)
            ((buildSuffixArray (codes "banana")).getD (2 - 1) 0) :=
  buildLCPArray_bound (codes "banana") (by decide) _ (buildSuffixArray_runs _) 2
    (by decide) (by decide)

/-- C6: on the text "banana" `buildSuffixArray` returns `[5, 3, 1, 0, 4, 2]`, in the
executable run and in every other run, and `buildLCPArray` applied to that text and
that array returns `[0, 1, 3, 0, 0, 2]`. -/
theorem banana_example :
    buildSuffixArray (codes "banana") = [5, 3, 1, 0, 4, 2] ∧
      (∀ res, Runs (codes "banana") res → res = [5, 3, 1, 0, 4, 2]) ∧
      buildLCPArray (codes "banana") [5, 3, 1, 0, 4, 2] = [0, 1, 3, 0, 0, 2] := by
  have h : buildSuffixArray (codes "banana") = [5, 3, 1, 0, 4, 2] := by decide
  refine ⟨h, fun res hrun => ?_, by decide⟩
  rw [← h]
  exact runs_unique (by decide) hrun (buildSuffixArray_runs _)

/-- C7: on the text "aaaa", whose symbols are all equal and which has no terminator,
`buildSuffixArray` returns `[3, 2, 1, 0]`, in the executable run and in every other
run, and `buildLCPArray` on that text and array returns `[0, 1, 2, 3]`. -/
theorem aaaa_example :
    buildSuffixArray (codes "aaaa") = [3, 2, 1, 0] ∧
      (∀ res, Runs (codes "aaaa") res → res = [3, 2, 1, 0]) ∧
      buildLCPArray (codes "aaaa") [3, 2, 1, 0] = [0, 1, 2, 3] := by
  have h : buildSuffixArray (codes "aaaa") = [3, 2, 1, 0] := by decide
  refine ⟨h, fun res hrun => ?_, by decide⟩
  rw [← h]
  exact runs_unique (by decide) hrun (buildSuffixArray_runs _)

/-- C8: for every text of length `n ≤ 1` the doubling loop ends without entering its
body, `buildSuffixArray` returns `[]` when `n = 0` and `[0]` when `n = 1`, in every
run, and `buildLCPArray` on that text and array returns `[]` respectively `[0]`; in
particular "" gives `([], [])` and "z" gives `([0], [0])`. -/
theorem short_text (s : List Int) (hn : s.length ≤ 1) :
    (∀ σ, Rounds s.length 1 (init s) σ → σ = init s) ∧
      (∀ res, Runs s res → res = buildSuffixArray s) ∧
      (s.length = 0 → buildSuffixArray s = [] ∧ buildLCPArray s [] = []) ∧
      (s.length = 1 → buildSuffixArray s = [0] ∧ buildLCPArray s [0] = [0]) ∧
      (buildSuffixArray (codes "") = [] ∧ buildLCPArray (codes "") [] = []) ∧
      (buildSuffixArray (codes "z") = [0] ∧ buildLCPArray (codes "z") [0] = [0]) := by
  refine ⟨fun σ h => rounds_short hn h, ?_, ?_, ?_, ⟨by decide, by decide⟩,
    ⟨by decide, by decide⟩⟩
  · intro res hrun
    rw [runs_short hn hrun, runs_short hn (buildSuffixArray_runs s)]
  · intro h0
    have : s = [] := List.length_eq_zero.mp h0
    subst this
    exact ⟨rfl, rfl⟩
  · intro h1
    obtain ⟨c, rfl⟩ := List.length_eq_one.mp h1
    exact ⟨rfl, rfl⟩

theorem short_text_witness :
    (∀ σ, Rounds (codes "z").length 1 (init (codes "z")) σ → σ = init (codes "z")) ∧
      (∀ res, Runs (codes "z") res → res = buildSuffixArray (codes "z")) ∧
      ((codes "z").length = 0 →
        buildSuffixArray (codes "z") = [] ∧ buildLCPArray (codes "z") [] = []) ∧
      ((codes "z").length = 1 →
        buildSuffixArray (codes "z") = [0] ∧ buildLCPArray (codes "z") [0] = [0]) ∧
      (buildSuffixArray (codes "") = [] ∧ buildLCPArray (codes "") [] = []) ∧
      (buildSuffixArray (codes "z") = [0] ∧ buildLCPArray (codes "z") [0] = [0]) :=
  short_text (codes "z") (by decide)

/-- C9: on the text "abcabc" the array `buildLCPArray(s, buildSuffixArray(s))` is
`[0, 3, 0, 2, 0, 1]` in every run, so its maximum entry over the indices
`1, ..., n - 1` is `3`: the entry at index `1` is `3` and no entry at an index
`1 ≤ i < n` exceeds `3`. -/
theorem abcabc_max_lcp :
    (∀ sa, Runs (codes "abcabc") sa → sa = buildSuffixArray (codes "abcabc")) ∧
      buildLCPArray (codes "abcabc") (buildSuffixArray (codes "abcabc")) =
        [0, 3, 0, 2, 0, 1] ∧
      ((buildLCPArray (codes "abcabc") (buildSuffixArray (codes "abcabc"))).drop 1).foldl
        max 0 = 3 ∧
      (∃ i, 1 ≤ i ∧ i < (codes "abcabc").length ∧
        (buildLCPArray (codes "abcabc") (buildSuffixArray (codes "abcabc"))).getD i 0 = 3) ∧
      ∀ i, 1 ≤ i → i < (codes "abcabc").length →
        (buildLCPArray (codes "abcabc") (buildSuffixArray (codes "abcabc"))).getD i 0 ≤ 3 := by
  have h : buildLCPArray (codes "abcabc") (buildSuffixArray (codes "abcabc")) =
      [0, 3, 0, 2, 0, 1] := by decide
  refine ⟨fun sa hrun => runs_unique (by decide) hrun (buildSuffixArray_runs _), h, ?_, ?_, ?_⟩
  · rw [h]; decide
  · exact ⟨1, by decide, by decide, by rw [h]; decide⟩
  · rw [h]
    intro i h1 h2
    have h6 : (codes "abcabc").length = 6 := by decide
    rw [h6] at h2
    interval_cases i <;> decide

/-- A run on the text "aaa" whose first sort returns `[2, 0, 1]`, the tied positions
`0` and `1` in the order opposite to the one insertion sort leaves them in. -/
theorem aaa_other_run : Runs (codes "aaa") [2, 1, 0] := by
  refine ⟨_, Rounds.step [2, 0, 1] (by decide) ⟨by decide, by decide⟩
    (Rounds.step [2, 1, 0] (by decide) ⟨by decide, by decide⟩
      (Rounds.exit (by decide))), rfl⟩

/-- C10: the result is determined by the text alone: for every text with non-negative
symbol codes, any two runs of `buildSuffixArray`, whatever order each round's
`std::sort` leaves the positions with equal `(rank, rank at offset k)` pairs in,
return the same array, and `buildLCPArray` returns the same array on both. -/
theorem buildSuffixArray_deterministic (s : List Int) (hs : ∀ c ∈ s, 0 ≤ c)
    (r₁ r₂ : List Nat) (h₁ : Runs s r₁) (h₂ : Runs s r₂) :
    r₁ = r₂ ∧ buildLCPArray s r₁ = buildLCPArray s r₂ := by
  have := runs_unique hs h₁ h₂
  exact ⟨this, by rw [this]⟩

theorem buildSuffixArray_deterministic_witness :
    [2, 1, 0] = buildSuffixArray (codes "aaa") ∧
      buildLCPArray (codes "aaa") [2, 1, 0] =
        buildLCPArray (codes "aaa") (buildSuffixArray (codes "aaa")) :=
  buildSuffixArray_deterministic (codes "aaa") (by decide) _ _ aaa_other_run
    (buildSuffixArray_runs _)

/-! ## Counting sort: the counters -/

theorem countLoop_spec (key : Nat → Nat) (xs : List Nat) (cnt : List Nat)
    (hkey : ∀ x ∈ xs, key x < cnt.length) :
    (countLoop key xs cnt).length = cnt.length ∧
      ∀ c, (countLoop key xs cnt).getD c 0 =
        cnt.getD c 0 + xs.countP (fun x => decide (key x = c)) := by
  induction xs generalizing cnt with
  | nil => exact ⟨rfl, fun c => by simp [countLoop]⟩
  | cons x xs ih =>
    have hx : key x < cnt.length := hkey x (List.mem_cons_self _ _)
    obtain ⟨h1, h2⟩ := ih (cnt.set (key x) (cnt.getD (key x) 0 + 1))
      (fun y hy => by rw [List.length_set]; exact hkey y (List.mem_cons_of_mem _ hy))
    have e : countLoop key (x :: xs) cnt =
        countLoop key xs (cnt.set (key x) (cnt.getD (key x) 0 + 1)) := rfl
    rw [e]
    refine ⟨by rw [h1, List.length_set], ?_⟩
    intro c
    rw [h2 c, getD_set_eq, List.countP_cons]
    by_cases hc : key x = c
    · subst hc
      simp only [hx, and_self, if_true, decide_True]
      omega
    · simp only [hc, false_and, if_false, decide_False, Bool.false_eq_true]
      omega

theorem fillZero_spec (m : Nat) (cnt : List Nat) :
    (fillZero m cnt).length = cnt.length ∧
      ∀ c, (fillZero m cnt).getD c 0 = if c < m then 0 else cnt.getD c 0 := by
  induction m with
  | zero => exact ⟨rfl, fun c => by simp [fillZero]⟩
  | succ m ih =>
    obtain ⟨h1, h2⟩ := ih
    have e : fillZero (m + 1) cnt = (fillZero m cnt).set m 0 := by
      unfold fillZero
      rw [List.range_succ, List.foldl_append]
      rfl
    rw [e]
    refine ⟨by rw [List.length_set, h1], ?_⟩
    intro c
    rw [getD_set_eq, h2 c]
    by_cases hc : m = c
    · subst hc
      by_cases hl : m < (fillZero m cnt).length
      · simp [hl]
      · simp only [hl, and_false, if_false, Nat.lt_irrefl, Nat.lt_succ_self, if_true]
        exact List.getD_eq_default _ _ (by rw [← h1]; exact Nat.le_of_not_lt hl)
    · simp only [hc, false_and, if_false]
      by_cases h3 : c < m
      · simp [h3, Nat.lt_succ_of_lt h3]
      · have : ¬ c < m + 1 := by omega
        simp [h3, this]

theorem countP_le_succ (key : Nat → Nat) (xs : List Nat) (c : Nat) :
    xs.countP (fun x => decide (key x ≤ c + 1)) =
      xs.countP (fun x => decide (key x ≤ c)) + xs.countP (fun x => decide (key x = c + 1)) := by
  induction xs with
  | nil => rfl
  | cons x xs ih =>
    simp only [List.countP_cons, ih]
    by_cases h1 : key x ≤ c
    · have h2 : key x ≤ c + 1 := by omega
      have h3 : ¬ key x = c + 1 := by omega
      simp [h1, h2, h3]
      omega
    · by_cases h3 : key x = c + 1
      · have h2 : key x ≤ c + 1 := by omega
        simp [h1, h2, h3]
        omega
      · have h2 : ¬ key x ≤ c + 1 := by omega
        simp [h1, h2, h3]

theorem countP_le_zero (key : Nat → Nat) (xs : List Nat) :
    xs.countP (fun x => decide (key x ≤ 0)) = xs.countP (fun x => decide (key x = 0)) := by
  congr 1
  funext x
  simp

/-- After the passes `i = 1, ..., j` of the prefix-sum loop the entries up to `j` are
the numbers of items with a key at most the index; the others are unchanged. -/
theorem prefixSums_upTo (key : Nat → Nat) (xs : List Nat) (m : Nat) (cnt : List Nat)
    (hm : m ≤ cnt.length)
    (hcnt : ∀ c, c < m → cnt.getD c 0 = xs.countP (fun x => decide (key x = c)))
    (j : Nat) (hj : j < m) :
    ((List.range' 1 j).foldl (fun c i => c.set i (c.getD i 0 + c.getD (i - 1) 0)) cnt).length =
        cnt.length ∧
      (∀ c, c ≤ j →
        ((List.range' 1 j).foldl (fun c i => c.set i (c.getD i 0 + c.getD (i - 1) 0)) cnt).getD
          c 0 = xs.countP (fun x => decide (key x ≤ c))) ∧
      ∀ c, j < c →
        ((List.range' 1 j).foldl (fun c i => c.set i (c.getD i 0 + c.getD (i - 1) 0)) cnt).getD
          c 0 = cnt.getD c 0 := by
  induction j with
  | zero =>
    refine ⟨rfl, ?_, fun c _ => rfl⟩
    intro c hc
    have : c = 0 := by omega
    subst this
    simp only [List.range'_zero, List.foldl_nil]
    rw [hcnt 0 hj, countP_le_zero]
  | succ j ih =>
    obtain ⟨h1, h2, h3⟩ := ih (by omega)
    simp only [List.range'_concat, List.foldl_append, List.foldl_cons, List.foldl_nil,
      Nat.one_mul]
    generalize (List.range' 1 j).foldl (fun c i => c.set i (c.getD i 0 + c.getD (i - 1) 0))
      cnt = r at *
    have e : 1 + j - 1 = j := by omega
    refine ⟨by rw [List.length_set, h1], ?_, ?_⟩
    · intro c hc
      rw [getD_set_eq]
      by_cases hcj : 1 + j = c
      · subst hcj
        have hl : 1 + j < r.length := by omega
        simp only [hl, and_self, if_true]
        rw [e, h2 j (le_refl _), h3 (1 + j) (by omega), hcnt (1 + j) (by omega)]
        have := countP_le_succ key xs j
        have e2 : 1 + j = j + 1 := by omega
        rw [e2]
        omega
      · simp only [hcj, false_and, if_false]
        exact h2 c (by omega)
    · intro c hc
      rw [getD_set_ne _ _ _ _ _ (by omega)]
      exact h3 c (by omega)

theorem prefixSums_spec (key : Nat → Nat) (xs : List Nat) (m : Nat) (cnt : List Nat)
    (hm : m ≤ cnt.length)
    (hcnt : ∀ c, c < m → cnt.getD c 0 = xs.countP (fun x => decide (key x = c))) :
    (prefixSums m cnt).length = cnt.length ∧
      ∀ c, c < m → (prefixSums m cnt).getD c 0 = xs.countP (fun x => decide (key x ≤ c)) := by
  unfold prefixSums
  by_cases h0 : m = 0
  · subst h0
    exact ⟨rfl, fun c hc => by omega⟩
  · obtain ⟨h1, h2, _⟩ := prefixSums_upTo key xs m cnt hm hcnt (m - 1) (by omega)
    exact ⟨h1, fun c hc => h2 c (by omega)⟩

/-! ## Counting sort: the placement loop -/

theorem placeLoop_cons (key : Nat → Nat) (x : Nat) (xs : List Nat) (p : List Nat × List Nat) :
    placeLoop key (x :: xs) p = placeLoop key xs (place key p x) := rfl

theorem filter_reverse_length (key : Nat → Nat) (xs : List Nat) (c : Nat) :
    (xs.reverse.filter (fun x => decide (key x = c))).length =
      xs.countP (fun x => decide (key x = c)) := by
  rw [← List.countP_eq_length_filter, List.countP_reverse]

/-- The placement loop fills, for every key `c`, the region of the array that
starts at `off c` with the items of key `c` in the reverse of the order in which it
meets them, leaves the counter of `c` at `off c`, and writes nowhere else. -/
theorem placeLoop_spec (key : Nat → Nat) (K n : Nat) (off : Nat → Nat) (xs : List Nat)
    (cnt sa : List Nat) (hkey : ∀ x ∈ xs, key x < K) (hK : K ≤ cnt.length)
    (hsa : sa.length = n)
    (hcnt : ∀ c, c < K → cnt.getD c 0 = off c + xs.countP (fun x => decide (key x = c)))
    (hoff : ∀ c c', c < c' → c' < K →
      off c + xs.countP (fun x => decide (key x = c)) ≤ off c')
    (hn : ∀ c, c < K → off c + xs.countP (fun x => decide (key x = c)) ≤ n) :
    (placeLoop key xs (cnt, sa)).1.length = cnt.length ∧
      (placeLoop key xs (cnt, sa)).2.length = n ∧
      (∀ c, c < K → ∀ r, r < xs.countP (fun x => decide (key x = c)) →
        (placeLoop key xs (cnt, sa)).2.getD (off c + r) 0 =
          (xs.reverse.filter (fun x => decide (key x = c))).getD r 0) ∧
      ∀ idx, (∀ c, c < K →
          ¬ (off c ≤ idx ∧ idx < off c + xs.countP (fun x => decide (key x = c)))) →
        (placeLoop key xs (cnt, sa)).2.getD idx 0 = sa.getD idx 0 := by
  induction xs generalizing cnt sa with
  | nil =>
    refine ⟨rfl, hsa, ?_, fun idx _ => rfl⟩
    intro c _ r hr
    simp at hr
  | cons x xs ih =>
    have hx : key x < K := hkey x (List.mem_cons_self _ _)
    have hcount : ∀ c, (x :: xs).countP (fun y => decide (key y = c)) =
        xs.countP (fun y => decide (key y = c)) + if key x = c then 1 else 0 := by
      intro c
      rw [List.countP_cons]
      simp only [decide_eq_true_eq]
    have hc0 := hcnt (key x) hx
    rw [hcount] at hc0
    simp only [if_true] at hc0
    have hn0 := hn (key x) hx
    rw [hcount] at hn0
    simp only [if_true] at hn0
    rw [placeLoop_cons]
    have hplace : place key (cnt, sa) x =
        (cnt.set (key x) (off (key x) + xs.countP (fun y => decide (key y = key x))),
          sa.set (off (key x) + xs.countP (fun y => decide (key y = key x))) x) := by
      unfold place
      have e : off (key x) + (xs.countP (fun y => decide (key y = key x)) + 1) - 1 =
          off (key x) + xs.countP (fun y => decide (key y = key x)) := by omega
      simp only [hc0, e]
    rw [hplace]
    obtain ⟨h1, h2, h3, h4⟩ := ih
      (cnt.set (key x) (off (key x) + xs.countP (fun y => decide (key y = key x))))
      (sa.set (off (key x) + xs.countP (fun y => decide (key y = key x))) x)
      (fun y hy => hkey y (List.mem_cons_of_mem _ hy))
      (by rw [List.length_set]; exact hK)
      (by rw [List.length_set]; exact hsa)
      (by
        intro c hc
        rw [getD_set_eq]
        by_cases hcx : key x = c
        · subst hcx
          have : key x < cnt.length := by omega
          simp [this]
        · simp only [hcx, false_and, if_false]
          have := hcnt c hc
          rw [hcount] at this
          simp only [hcx, if_false, Nat.add_zero] at this
          exact this)
      (by
        intro c c' hcc hc'
        have := hoff c c' hcc hc'
        rw [hcount] at this
        omega)
      (by
        intro c hc
        have := hn c hc
        rw [hcount] at this
        omega)
    refine ⟨by rw [h1, List.length_set], h2, ?_, ?_⟩
    · intro c hc r hr
      rw [hcount] at hr
      rw [List.reverse_cons, List.filter_append]
      by_cases hrc : r < xs.countP (fun y => decide (key y = c))
      · rw [List.getD_append _ _ _ _ (by rw [filter_reverse_length]; exact hrc)]
        exact h3 c hc r hrc
      · have hcx : key x = c := by
          by_contra hne
          simp only [hne, if_false, Nat.add_zero] at hr
          exact hrc hr
        subst hcx
        simp only [if_true] at hr
        have hr' : r = xs.countP (fun y => decide (key y = key x)) := by omega
        rw [List.getD_append_right _ _ _ _ (by rw [filter_reverse_length]; omega),
          filter_reverse_length, hr']
        simp only [Nat.sub_self, List.filter_cons, decide_True, if_true, List.filter_nil,
          List.getD_cons_zero]
        rw [h4]
        · exact getD_set_self _ _ _ _ (by omega)
        · intro c hc hcon
          rcases Nat.lt_trichotomy c (key x) with h | h | h
          · have := hoff c (key x) h hx
            rw [hcount] at this
            omega
          · subst h; omega
          · have := hoff (key x) c h hc
            rw [hcount] at this
            simp only [if_true] at this
            omega
    · intro idx hidx
      rw [h4 idx]
      · apply getD_set_ne
        intro e
        apply hidx (key x) hx
        rw [hcount]
        simp only [if_true]
        omega
      · intro c hc hcon
        apply hidx c hc
        rw [hcount]
        omega

/-! ## Counting sort is a stable bucket sort -/

theorem countP_lt_succ (key : Nat → Nat) (xs : List Nat) (c : Nat) :
    xs.countP (fun x => decide (key x < c + 1)) =
      xs.countP (fun x => decide (key x < c)) + xs.countP (fun x => decide (key x = c)) := by
  induction xs with
  | nil => rfl
  | cons x xs ih =>
    simp only [List.countP_cons, ih]
    by_cases h1 : key x < c
    · have h2 : key x < c + 1 := by omega
      have h3 : ¬ key x = c := by omega
      simp [h1, h2, h3]
      omega
    · by_cases h3 : key x = c
      · have h2 : key x < c + 1 := by omega
        simp [h1, h2, h3]
        omega
      · have h2 : ¬ key x < c + 1 := by omega
        simp [h1, h2, h3]

theorem countP_le_eq_lt_succ (key : Nat → Nat) (xs : List Nat) (c : Nat) :
    xs.countP (fun x => decide (key x ≤ c)) = xs.countP (fun x => decide (key x < c + 1)) := by
  congr 1
  funext x
  simp [Nat.lt_succ_iff]

theorem countP_lt_mono (key : Nat → Nat) (xs : List Nat) {c c' : Nat} (h : c ≤ c') :
    xs.countP (fun x => decide (key x < c)) ≤ xs.countP (fun x => decide (key x < c')) := by
  induction xs with
  | nil => exact le_refl _
  | cons x xs ih =>
    simp only [List.countP_cons]
    by_cases h1 : key x < c
    · have h2 : key x < c' := by omega
      simp [h1, h2]
      exact ih
    · simp only [h1, decide_False, Bool.false_eq_true, if_false, Nat.add_zero]
      exact Nat.le_trans ih (Nat.le_add_right _ _)

theorem countP_lt_all (key : Nat → Nat) (xs : List Nat) (K : Nat) (hkey : ∀ x ∈ xs, key x < K) :
    xs.countP (fun x => decide (key x < K)) = xs.length := by
  induction xs with
  | nil => rfl
  | cons x xs ih =>
    rw [List.countP_cons, ih (fun y hy => hkey y (List.mem_cons_of_mem _ hy))]
    simp [hkey x (List.mem_cons_self _ _)]

theorem bucketSort_succ (K : Nat) (key : Nat → Nat) (ys : List Nat) :
    bucketSort (K + 1) key ys =
      bucketSort K key ys ++ ys.filter (fun y => decide (key y = K)) := by
  unfold bucketSort
  rw [List.range_succ, List.flatMap_append]
  simp

theorem bucketSort_length (K : Nat) (key : Nat → Nat) (ys : List Nat) :
    (bucketSort K key ys).length = ys.countP (fun y => decide (key y < K)) := by
  induction K with
  | zero => simp [bucketSort]
  | succ K ih =>
    rw [bucketSort_succ, List.length_append, ih, countP_lt_succ,
      List.countP_eq_length_filter (p := fun y => decide (key y = K))]

/-- Entry `r` of bucket `c` stands at index `(number of items of smaller key) + r`. -/
theorem bucketSort_getD (K : Nat) (key : Nat → Nat) (ys : List Nat) (c : Nat) (hc : c < K)
    (r : Nat) (hr : r < ys.countP (fun y => decide (key y = c))) :
    (bucketSort K key ys).getD (ys.countP (fun y => decide (key y < c)) + r) 0 =
      (ys.filter (fun y => decide (key y = c))).getD r 0 := by
  induction K with
  | zero => omega
  | succ K ih =>
    rw [bucketSort_succ]
    rcases Nat.eq_or_lt_of_le (Nat.le_of_lt_succ hc) with e | e
    · subst e
      rw [List.getD_append_right _ _ _ _ (by rw [bucketSort_length]; omega), bucketSort_length,
        Nat.add_sub_cancel_left]
    · rw [List.getD_append _ _ _ _ (by
        rw [bucketSort_length]
        have h1 := countP_lt_succ key ys c
        have h2 := countP_lt_mono key ys (show c + 1 ≤ K by omega)
        omega)]
      exact ih e

/-- Every index below the number of items of key less than `K` lies in the region of
some key `c < K`. -/
theorem region_cover (key : Nat → Nat) (ys : List Nat) (K idx : Nat)
    (h : idx < ys.countP (fun y => decide (key y < K))) :
    ∃ c, c < K ∧ ys.countP (fun y => decide (key y < c)) ≤ idx ∧
      idx < ys.countP (fun y => decide (key y < c)) + ys.countP (fun y => decide (key y = c)) := by
  induction K with
  | zero => simp at h
  | succ K ih =>
    by_cases h1 : idx < ys.countP (fun y => decide (key y < K))
    · obtain ⟨c, hc, h2, h3⟩ := ih h1
      exact ⟨c, by omega, h2, h3⟩
    · rw [countP_lt_succ] at h
      exact ⟨K, by omega, by omega, h⟩

theorem list_eq_of_getD {A B : List Nat} (hlen : A.length = B.length)
    (h : ∀ i, i < A.length → A.getD i 0 = B.getD i 0) : A = B := by
  apply List.ext_getElem hlen
  intro i h1 h2
  have := h i h1
  rw [List.getD_eq_getElem A 0 h1, List.getD_eq_getElem B 0 h2] at this
  exact this

theorem map_getD_range (l : List Nat) : (List.range l.length).map (fun i => l.getD i 0) = l := by
  apply list_eq_of_getD (by rw [List.length_map, List.length_range])
  intro i hi
  rw [List.length_map, List.length_range] at hi
  rw [List.getD_eq_getElem _ _ (by rw [List.length_map, List.length_range]; exact hi)]
  simp

/-- The placement loop, run on counters that hold for every key the number of items
of at most that key, produces the stable bucket sort of the items taken in the
reverse of the order of the loop. -/
theorem placeLoop_eq_bucketSort (key : Nat → Nat) (K : Nat) (xs : List Nat) (cnt sa : List Nat)
    (hkey : ∀ x ∈ xs, key x < K) (hK : K ≤ cnt.length) (hsa : sa.length = xs.length)
    (hcnt : ∀ c, c < K → cnt.getD c 0 = xs.countP (fun x => decide (key x ≤ c))) :
    (placeLoop key xs (cnt, sa)).1.length = cnt.length ∧
      (placeLoop key xs (cnt, sa)).2 = bucketSort K key xs.reverse := by
  have hle : ∀ c, xs.countP (fun x => decide (key x ≤ c)) =
      xs.countP (fun x => decide (key x < c)) + xs.countP (fun x => decide (key x = c)) := by
    intro c
    rw [countP_le_eq_lt_succ, countP_lt_succ]
  obtain ⟨h1, h2, h3, _⟩ := placeLoop_spec key K xs.length
    (fun c => xs.countP (fun x => decide (key x < c))) xs cnt sa hkey hK hsa
    (fun c hc => by rw [hcnt c hc, hle c])
    (fun c c' hcc _ => by
      have := countP_lt_mono key xs (show c + 1 ≤ c' by omega)
      rw [countP_lt_succ] at this
      exact this)
    (fun c _ => by
      rw [← hle c, countP_le_eq_lt_succ]
      exact List.countP_le_length _)
  refine ⟨h1, ?_⟩
  have hlen : (bucketSort K key xs.reverse).length = xs.length := by
    rw [bucketSort_length, List.countP_reverse, countP_lt_all key xs K hkey]
  apply list_eq_of_getD (by rw [h2, hlen])
  intro idx hidx
  rw [h2] at hidx
  have hidx' : idx < xs.reverse.countP (fun y => decide (key y < K)) := by
    rw [List.countP_reverse, countP_lt_all key xs K hkey]
    exact hidx
  obtain ⟨c, hc, hlo, hhi⟩ := region_cover key xs.reverse K idx hidx'
  rw [List.countP_reverse] at hlo
  rw [List.countP_reverse, List.countP_reverse] at hhi
  have e : idx = xs.countP (fun x => decide (key x < c)) +
      (idx - xs.countP (fun x => decide (key x < c))) := by omega
  rw [e, h3 c hc _ (by omega)]
  have := bucketSort_getD K key xs.reverse c hc (idx - xs.countP (fun x => decide (key x < c)))
    (by rw [List.countP_reverse]; omega)
  rw [List.countP_reverse] at this
  rw [this]

theorem mem_bucketSort {K : Nat} {key : Nat → Nat} {ys : List Nat} {a : Nat}
    (h : a ∈ bucketSort K key ys) : key a < K ∧ a ∈ ys := by
  unfold bucketSort at h
  rw [List.mem_flatMap] at h
  obtain ⟨c, hc, ha⟩ := h
  rw [List.mem_filter] at ha
  have : key a = c := by simpa using ha.2
  exact ⟨by rw [this]; exact List.mem_range.mp hc, ha.1⟩

theorem filter_lt_succ_perm (key : Nat → Nat) (ys : List Nat) (K : Nat) :
    (ys.filter (fun y => decide (key y < K)) ++ ys.filter (fun y => decide (key y = K))).Perm
      (ys.filter (fun y => decide (key y < K + 1))) := by
  induction ys with
  | nil => exact List.Perm.refl _
  | cons y ys ih =>
    by_cases h1 : key y < K
    · have h2 : key y < K + 1 := by omega
      have h3 : ¬ key y = K := by omega
      simp only [List.filter_cons, h1, h2, h3, decide_True, decide_False, if_true,
        Bool.false_eq_true, if_false, List.cons_append]
      exact List.Perm.cons y ih
    · by_cases h3 : key y = K
      · have h2 : key y < K + 1 := by omega
        simp only [List.filter_cons, h3, Nat.lt_irrefl, Nat.lt_succ_self, decide_True,
          decide_False, if_true, Bool.false_eq_true, if_false]
        exact List.perm_middle.trans (List.Perm.cons y ih)
      · have h2 : ¬ key y < K + 1 := by omega
        simp only [List.filter_cons, h1, h2, h3, decide_False, Bool.false_eq_true, if_false]
        exact ih

theorem bucketSort_perm_filter (K : Nat) (key : Nat → Nat) (ys : List Nat) :
    (bucketSort K key ys).Perm (ys.filter (fun y => decide (key y < K))) := by
  induction K with
  | zero => simp [bucketSort]
  | succ K ih =>
    rw [bucketSort_succ]
    exact (List.Perm.append_right _ ih).trans (filter_lt_succ_perm key ys K)

/-- The stable bucket sort rearranges its input. -/
theorem bucketSort_perm (K : Nat) (key : Nat → Nat) (ys : List Nat)
    (hkey : ∀ y ∈ ys, key y < K) : (bucketSort K key ys).Perm ys := by
  have := bucketSort_perm_filter K key ys
  rw [List.filter_eq_self.mpr (fun y hy => by simpa using hkey y hy)] at this
  exact this

/-- The stable bucket sort puts smaller keys first and keeps, among equal keys, every
relation that holds along the input. -/
theorem bucketSort_pairwise (K : Nat) (key : Nat → Nat) (ys : List Nat) {R R' : Nat → Nat → Prop}
    (hR : ys.Pairwise R) (hlt : ∀ a b, key a < key b → R' a b)
    (heq : ∀ a b, key a = key b → R a b → R' a b) : (bucketSort K key ys).Pairwise R' := by
  induction K with
  | zero => simp [bucketSort]
  | succ K ih =>
    rw [bucketSort_succ, List.pairwise_append]
    refine ⟨ih, ?_, ?_⟩
    · refine (hR.filter _).imp_of_mem ?_
      intro a b ha hb hab
      rw [List.mem_filter] at ha hb
      have h1 : key a = K := by simpa using ha.2
      have h2 : key b = K := by simpa using hb.2
      exact heq a b (by rw [h1, h2]) hab
    · intro a ha b hb
      rw [List.mem_filter] at hb
      have h2 : key b = K := by simpa using hb.2
      exact hlt a b (by rw [h2]; exact (mem_bucketSort ha).1)

/-! ## The class loops -/

theorem classLoop_upTo (differs : Nat → Nat → Bool) (n : Nat) (sa target : List Nat)
    (hp : sa.Perm (List.range n)) (ht : target.length = n) (m : Nat) (hm : m < n) :
    ((List.range' 1 m).foldl (classStep differs sa) (target.set (sa.getD 0 0) 0, 1)).1.length =
        n ∧
      ((List.range' 1 m).foldl (classStep differs sa) (target.set (sa.getD 0 0) 0, 1)).1.getD
        (sa.getD 0 0) 0 = 0 ∧
      ((List.range' 1 m).foldl (classStep differs sa) (target.set (sa.getD 0 0) 0, 1)).2 =
        ((List.range' 1 m).foldl (classStep differs sa) (target.set (sa.getD 0 0) 0, 1)).1.getD
          (sa.getD m 0) 0 + 1 ∧
      ∀ i, 1 ≤ i → i ≤ m →
        ((List.range' 1 m).foldl (classStep differs sa) (target.set (sa.getD 0 0) 0, 1)).1.getD
            (sa.getD i 0) 0 =
          ((List.range' 1 m).foldl (classStep differs sa)
            (target.set (sa.getD 0 0) 0, 1)).1.getD (sa.getD (i - 1) 0) 0 +
            (if differs (sa.getD i 0) (sa.getD (i - 1) 0) then 1 else 0) := by
  induction m with
  | zero =>
    simp only [List.range'_zero, List.foldl_nil]
    have h0 : (target.set (sa.getD 0 0) 0).getD (sa.getD 0 0) 0 = 0 :=
      getD_set_self _ _ _ _ (by rw [ht]; exact perm_getD_lt hp hm)
    exact ⟨by rw [List.length_set, ht], h0, by rw [h0], fun i h1 h2 => by omega⟩
  | succ m ih =>
    obtain ⟨hlen, h0, hnum, hrec⟩ := ih (by omega)
    simp only [List.range'_concat, List.foldl_append, List.foldl_cons, List.foldl_nil,
      Nat.one_mul]
    generalize (List.range' 1 m).foldl (classStep differs sa) (target.set (sa.getD 0 0) 0, 1) =
      p at *
    have hne : ∀ i, i ≤ m → sa.getD (1 + m) 0 ≠ sa.getD i 0 := by
      intro i hi h
      have := perm_getD_inj hp (by omega) (by omega) h
      omega
    have hlt : sa.getD (1 + m) 0 < p.1.length := by rw [hlen]; exact perm_getD_lt hp (by omega)
    have e : 1 + m - 1 = m := by omega
    have hval : (if differs (sa.getD (1 + m) 0) (sa.getD m 0) then p.2 + 1 else p.2) - 1 =
        p.1.getD (sa.getD m 0) 0 +
          (if differs (sa.getD (1 + m) 0) (sa.getD m 0) then 1 else 0) := by
      rw [hnum]
      split <;> omega
    have hnum' : (if differs (sa.getD (1 + m) 0) (sa.getD m 0) then p.2 + 1 else p.2) =
        p.1.getD (sa.getD m 0) 0 +
          (if differs (sa.getD (1 + m) 0) (sa.getD m 0) then 1 else 0) + 1 := by
      rw [hnum]
      split <;> omega
    unfold classStep
    simp only [e, hval]
    refine ⟨by rw [List.length_set, hlen], ?_, ?_, ?_⟩
    · rw [getD_set_ne _ _ _ _ _ (hne 0 (by omega))]
      exact h0
    · rw [show m + 1 = 1 + m by omega, getD_set_self _ _ _ _ hlt]
      exact hnum'
    · intro i h1 h2
      by_cases him : i = 1 + m
      · subst him
        rw [getD_set_self _ _ _ _ hlt, e, getD_set_ne _ _ _ _ _ (hne m (by omega))]
      · rw [getD_set_ne _ _ _ _ _ (hne i (by omega)),
          getD_set_ne _ _ _ _ _ (hne (i - 1) (by omega))]
        exact hrec i h1 (by omega)

/-- On an array sorted under a strict weak order `lt`, with a test `differs` that
holds exactly for the pairs that `lt` separates, the class loop hands out classes
that compare like the positions under `lt`, all below the final `numClasses`, which
is at most `n`. -/
theorem classLoop_spec {lt : Nat → Nat → Bool} (hlt : StrictWeak lt)
    (differs : Nat → Nat → Bool) (n : Nat) (sa target : List Nat) (hn : 0 < n)
    (hp : sa.Perm (List.range n)) (ht : target.length = n)
    (hd : ∀ a b, differs a b = true ↔ (lt a b = true ∨ lt b a = true))
    (hsorted : sa.Pairwise (fun a b => lt b a = false)) :
    (classLoop differs n sa target).1.length = n ∧
      1 ≤ (classLoop differs n sa target).2 ∧
      (classLoop differs n sa target).2 ≤ n ∧
      (∀ a, a < n → (classLoop differs n sa target).1.getD a 0 <
        (classLoop differs n sa target).2) ∧
      ∀ a b, a < n → b < n →
        ((classLoop differs n sa target).1.getD a 0 <
            (classLoop differs n sa target).1.getD b 0 ↔ lt a b = true) := by
  have hlen : sa.length = n := by rw [hp.length_eq, List.length_range]
  obtain ⟨h1, h0, hnum, hrec⟩ := classLoop_upTo differs n sa target hp ht (n - 1) (by omega)
  have hq : classLoop differs n sa target =
      (List.range' 1 (n - 1)).foldl (classStep differs sa) (target.set (sa.getD 0 0) 0, 1) := rfl
  rw [← hq] at h1 h0 hnum hrec
  generalize classLoop differs n sa target = q at *
  have hs : ∀ p r, p < r → r < n → lt (sa.getD r 0) (sa.getD p 0) = false := by
    intro p r hpr hr
    exact pairwise_getD hsorted hpr (by omega)
  have hstep : ∀ i, 1 ≤ i → i < n →
      (differs (sa.getD i 0) (sa.getD (i - 1) 0) = true ↔
        lt (sa.getD (i - 1) 0) (sa.getD i 0) = true) := by
    intro i hi hin
    rw [hd]
    have := hs (i - 1) i (by omega) hin
    constructor
    · rintro (h | h)
      · rw [this] at h; exact absurd h (by simp)
      · exact h
    · exact Or.inr
  have hrank := rank_of_sorted hlt n (fun i => sa.getD i 0)
    (fun i => ((q.1.getD (sa.getD i 0) 0 : Nat) : Int)) (by
      show ((q.1.getD (sa.getD 0 0) 0 : Nat) : Int) = 0
      rw [h0]
      rfl)
    (by
      intro i hi hin
      show ((q.1.getD (sa.getD i 0) 0 : Nat) : Int) = _
      rw [hrec i hi (by omega)]
      by_cases hc : lt (sa.getD (i - 1) 0) (sa.getD i 0) = true
      · rw [if_pos hc, if_pos ((hstep i hi hin).mpr hc)]
        push_cast
        rfl
      · have : ¬ differs (sa.getD i 0) (sa.getD (i - 1) 0) = true :=
          fun h => hc ((hstep i hi hin).mp h)
        rw [if_neg hc, if_neg this]
        push_cast
        rfl)
    hs
  have hbound : ∀ i, i < n → q.1.getD (sa.getD i 0) 0 ≤ i := by
    intro i
    induction i with
    | zero => intro _; rw [h0]
    | succ i ih =>
      intro hi
      have := hrec (i + 1) (by omega) (by omega)
      simp only [Nat.add_sub_cancel] at this
      have := ih (by omega)
      split at * <;> omega
  have hmax : ∀ p, p < n → q.1.getD (sa.getD p 0) 0 ≤ q.1.getD (sa.getD (n - 1) 0) 0 := by
    intro p hp'
    by_contra hcon
    have h2 := (hrank (n - 1) p (by omega) hp').2
    simp only at h2
    have h3 := h2.mp (by omega)
    rcases Nat.eq_or_lt_of_le (show p ≤ n - 1 by omega) with e | e
    · subst e
      rw [hlt.irrefl] at h3
      exact absurd h3 (by simp)
    · rw [hs p (n - 1) e (by omega)] at h3
      exact absurd h3 (by simp)
  refine ⟨h1, by omega, ?_, ?_, ?_⟩
  · have := hbound (n - 1) (by omega)
    omega
  · intro a ha
    obtain ⟨p, hp', rfl⟩ := perm_getD_surj hp ha
    have := hmax p hp'
    omega
  · intro a b ha hb
    obtain ⟨p, hp', rfl⟩ := perm_getD_surj hp ha
    obtain ⟨r, hr, rfl⟩ := perm_getD_surj hp hb
    have := (hrank p r hp' hr).2
    simp only at this
    rw [← this]
    omega

/-! ## Cyclic shifts -/

theorem cyc_length (s : List Int) (h a : Nat) : (cyc s h a).length = h := by
  simp [cyc]

theorem cyc_add (s : List Int) (h m a : Nat) :
    cyc s (h + m) a = cyc s h a ++ cyc s m ((a + h) % s.length) := by
  unfold cyc
  rw [List.range_add, List.map_append, List.map_map]
  congr 1
  apply List.map_congr_left
  intro t _
  simp only [Function.comp]
  congr 1
  rw [Nat.mod_add_mod, Nat.add_assoc]

theorem cyc_one (s : List Int) (a : Nat) (ha : a < s.length) : cyc s 1 a = [s.getD a 0] := by
  unfold cyc
  have e : List.range 1 = [0] := rfl
  rw [e]
  simp only [List.map_cons, List.map_nil, Nat.add_zero, Nat.mod_eq_of_lt ha]

theorem lex_append_of_length_eq {u v : List Int} (x y : List Int) (h : u.length = v.length) :
    List.Lex (· < ·) (u ++ x) (v ++ y) ↔
      List.Lex (· < ·) u v ∨ (u = v ∧ List.Lex (· < ·) x y) := by
  induction u generalizing v with
  | nil =>
    cases v with
    | nil =>
      simp only [List.nil_append, true_and]
      constructor
      · exact Or.inr
      · rintro (h1 | h1)
        · cases h1
        · exact h1
    | cons b bs => simp at h
  | cons a as ih =>
    cases v with
    | nil => simp at h
    | cons b bs =>
      have h' : as.length = bs.length := by simpa using h
      simp only [List.cons_append, lex_cons_iff, ih h', List.cons.injEq]
      constructor
      · rintro (h1 | ⟨rfl, h1 | ⟨h2, h3⟩⟩)
        · exact Or.inl (Or.inl h1)
        · exact Or.inl (Or.inr ⟨rfl, h1⟩)
        · exact Or.inr ⟨⟨rfl, h2⟩, h3⟩
      · rintro ((h1 | ⟨rfl, h1⟩) | ⟨⟨rfl, h2⟩, h3⟩)
        · exact Or.inl h1
        · exact Or.inr ⟨rfl, Or.inl h1⟩
        · exact Or.inr ⟨rfl, Or.inr ⟨h2, h3⟩⟩

theorem cyc_double (s : List Int) (h a b : Nat) :
    List.Lex (· < ·) (cyc s (2 * h) a) (cyc s (2 * h) b) ↔
      List.Lex (· < ·) (cyc s h a) (cyc s h b) ∨
        (cyc s h a = cyc s h b ∧
          List.Lex (· < ·) (cyc s h ((a + h) % s.length)) (cyc s h ((b + h) % s.length))) := by
  rw [two_mul, cyc_add, cyc_add]
  exact lex_append_of_length_eq _ _ (by rw [cyc_length, cyc_length])

/-! ## The shift loop -/

theorem unshift_lt {n h x : Nat} (hx : x < n) (hh : h < n) : unshift n h x < n := by
  unfold unshift
  split <;> omega

theorem unshift_add {n h x : Nat} (hx : x < n) (hh : h < n) : (unshift n h x + h) % n = x := by
  unfold unshift
  split
  · rename_i hlt
    have : x + n - h + h = x + n := by omega
    rw [this, Nat.add_mod_right, Nat.mod_eq_of_lt hx]
  · rename_i hge
    have : x - h + h = x := by omega
    rw [this, Nat.mod_eq_of_lt hx]

theorem unshift_inj {n h x y : Nat} (hx : x < n) (hy : y < n) (hh : h < n)
    (e : unshift n h x = unshift n h y) : x = y := by
  rw [← unshift_add hx hh, ← unshift_add hy hh, e]

theorem shiftLoop_upTo (n h : Nat) (sa tsa : List Nat) (ht : tsa.length = n) (m : Nat)
    (hm : m ≤ n) :
    ((List.range m).foldl
        (fun t i => t.set i (if sa.getD i 0 < h then sa.getD i 0 + n - h else sa.getD i 0 - h))
        tsa).length = n ∧
      ∀ i, i < m →
        ((List.range m).foldl
          (fun t i => t.set i (if sa.getD i 0 < h then sa.getD i 0 + n - h else sa.getD i 0 - h))
          tsa).getD i 0 = unshift n h (sa.getD i 0) := by
  induction m with
  | zero => exact ⟨ht, fun i hi => by omega⟩
  | succ m ih =>
    obtain ⟨h1, h2⟩ := ih (by omega)
    rw [List.range_succ, List.foldl_append]
    simp only [List.foldl_cons, List.foldl_nil]
    refine ⟨by rw [List.length_set, h1], ?_⟩
    intro i hi
    by_cases him : i = m
    · subst him
      rw [getD_set_self _ _ _ _ (by omega)]
      rfl
    · rw [getD_set_ne _ _ _ _ _ (fun e => him e.symm)]
      exact h2 i (by omega)

theorem shiftLoop_eq_map (n h : Nat) (sa tsa : List Nat) (hs : sa.length = n)
    (ht : tsa.length = n) : shiftLoop n h sa tsa = sa.map (unshift n h) := by
  obtain ⟨h1, h2⟩ := shiftLoop_upTo n h sa tsa ht n (le_refl n)
  apply list_eq_of_getD
  · rw [List.length_map, hs]
    exact h1
  · intro i hi
    have hi' : i < n := by
      rw [← h1]
      exact hi
    have e : shiftLoop n h sa tsa = (List.range n).foldl
        (fun t i => t.set i (if sa.getD i 0 < h then sa.getD i 0 + n - h else sa.getD i 0 - h))
        tsa := rfl
    rw [e, h2 i hi', List.getD_eq_getElem _ _ (show i < (sa.map (unshift n h)).length by
      rw [List.length_map]; omega), List.getElem_map, List.getD_eq_getElem sa 0 (by omega)]

theorem map_unshift_perm {n h : Nat} {sa : List Nat} (hp : sa.Perm (List.range n))
    (hh : h < n) : (sa.map (unshift n h)).Perm (List.range n) := by
  have hnd : sa.Nodup := hp.nodup_iff.mpr (List.nodup_range n)
  have hlt : ∀ x ∈ sa, x < n := fun x hx => List.mem_range.mp (hp.subset hx)
  have hnd' : (sa.map (unshift n h)).Nodup := by
    apply List.Nodup.map_on _ hnd
    intro x hx y hy e
    exact unshift_inj (hlt x hx) (hlt y hy) hh e
  apply (List.perm_ext_iff_of_nodup hnd' (List.nodup_range n)).mpr
  intro a
  rw [List.mem_map, List.mem_range]
  constructor
  · rintro ⟨x, hx, rfl⟩
    exact unshift_lt (hlt x hx) hh
  · intro ha
    refine ⟨(a + h) % n, hp.mem_iff.mpr (List.mem_range.mpr (Nat.mod_lt _ (by omega))), ?_⟩
    by_cases hlt' : a + h < n
    · rw [Nat.mod_eq_of_lt hlt']
      unfold unshift
      split <;> omega
    · have e : (a + h) % n = a + h - n := by
        rw [Nat.mod_eq_sub_mod (by omega), Nat.mod_eq_of_lt (by omega)]
      rw [e]
      unfold unshift
      split <;> omega

/-! ## The invariant of the radix loop -/

theorem pairLt_strictWeak (n h : Nat) (classes : List Nat) : StrictWeak (pairLt n h classes) := by
  refine ⟨?_, ?_, ?_⟩
  · intro a
    simp only [pairLt, decide_eq_false_iff_not]
    omega
  · intro a b c h1 h2
    simp only [pairLt, decide_eq_true_eq] at *
    omega
  · intro a b c h1 h2
    simp only [pairLt, decide_eq_false_iff_not] at *
    omega

theorem pairDiffers_iff (n h : Nat) (classes : List Nat) (a b : Nat) :
    pairDiffers n h classes a b = true ↔
      (pairLt n h classes a b = true ∨ pairLt n h classes b a = true) := by
  simp only [pairDiffers, pairLt, bne_iff_ne, ne_eq, Prod.mk.injEq, decide_eq_true_eq]
  omega

theorem symLt_strictWeak (s : List Int) : StrictWeak (symLt s) := by
  refine ⟨?_, ?_, ?_⟩
  · intro a
    simp only [symLt, decide_eq_false_iff_not]
    omega
  · intro a b c h1 h2
    simp only [symLt, decide_eq_true_eq] at *
    omega
  · intro a b c h1 h2
    simp only [symLt, decide_eq_false_iff_not] at *
    omega

theorem symDiffers_iff (s : List Int) (a b : Nat) :
    symDiffers s a b = true ↔ (symLt s a b = true ∨ symLt s b a = true) := by
  simp only [symDiffers, symLt, bne_iff_ne, ne_eq, decide_eq_true_eq]
  omega

theorem radixInv_eq_iff {s : List Int} {h : Nat} {σ : RadixState} (inv : RadixInv s h σ)
    {a b : Nat} (ha : a < s.length) (hb : b < s.length) :
    σ.classes.getD a 0 = σ.classes.getD b 0 ↔ cyc s h a = cyc s h b := by
  have hab := inv.order a b ha hb
  have hba := inv.order b a hb ha
  constructor
  · intro e
    rcases lex_trichotomy (cyc s h a) (cyc s h b) with h1 | h1 | h1
    · have := hab.mpr h1; omega
    · exact h1
    · have := hba.mpr h1; omega
  · intro e
    rcases Nat.lt_trichotomy (σ.classes.getD a 0) (σ.classes.getD b 0) with h1 | h1 | h1
    · have := hab.mp h1; rw [e] at this; exact absurd this (lex_irrefl _)
    · exact h1
    · have := hba.mp h1; rw [e] at this; exact absurd this (lex_irrefl _)

/-- Under the invariant the pair order compares the first `2 * h` symbols of the
cyclic shifts. -/
theorem pairLt_iff_cyc {s : List Int} {h : Nat} {σ : RadixState} (inv : RadixInv s h σ)
    {a b : Nat} (ha : a < s.length) (hb : b < s.length) :
    pairLt s.length h σ.classes a b = true ↔
      List.Lex (· < ·) (cyc s (2 * h) a) (cyc s (2 * h) b) := by
  have hn : 0 < s.length := by omega
  have ha' : (a + h) % s.length < s.length := Nat.mod_lt _ hn
  have hb' : (b + h) % s.length < s.length := Nat.mod_lt _ hn
  rw [cyc_double, ← inv.order a b ha hb, ← radixInv_eq_iff inv ha hb, ← inv.order _ _ ha' hb']
  simp only [pairLt, decide_eq_true_eq]

/-- The counters after zeroing, counting and prefix sums, and the array after the
placement loop, for items `xs` with keys below `K`. -/
theorem countingSort_spec (key : Nat → Nat) (K : Nat) (xs cnt sa : List Nat)
    (hkey : ∀ x ∈ xs, key x < K) (hK : K ≤ cnt.length) (hsa : sa.length = xs.length)
    (hzero : ∀ c, c < K → cnt.getD c 0 = 0) :
    (placeLoop key xs.reverse (prefixSums K (countLoop key xs cnt), sa)).1.length = cnt.length ∧
      (placeLoop key xs.reverse (prefixSums K (countLoop key xs cnt), sa)).2 =
        bucketSort K key xs := by
  obtain ⟨h1, h2⟩ := countLoop_spec key xs cnt (fun x hx => by have := hkey x hx; omega)
  obtain ⟨h3, h4⟩ := prefixSums_spec key xs K (countLoop key xs cnt) (by omega)
    (fun c hc => by rw [h2 c, hzero c hc, Nat.zero_add])
  obtain ⟨h5, h6⟩ := placeLoop_eq_bucketSort key K xs.reverse
    (prefixSums K (countLoop key xs cnt)) sa
    (fun x hx => hkey x (List.mem_reverse.mp hx)) (by omega)
    (by rw [List.length_reverse]; exact hsa)
    (fun c hc => by rw [h4 c hc, List.countP_reverse])
  rw [List.reverse_reverse] at h6
  exact ⟨by rw [h5, h3, h1], h6⟩

theorem radixRound_inv {s : List Int} {h : Nat} {σ : RadixState} (inv : RadixInv s h σ)
    (hh : h < s.length) : RadixInv s (2 * h) (radixRound s.length h σ) := by
  have hn : 0 < s.length := by omega
  have hsalen : σ.suffixArray.length = s.length := by
    rw [inv.perm.length_eq, List.length_range]
  have htsa : shiftLoop s.length h σ.suffixArray σ.tempSuffixArray =
      σ.suffixArray.map (unshift s.length h) :=
    shiftLoop_eq_map _ _ _ _ hsalen inv.tempLen
  have htperm := map_unshift_perm inv.perm hh
  have htlen : (σ.suffixArray.map (unshift s.length h)).length = s.length := by
    rw [List.length_map, hsalen]
  have hkey : ∀ x ∈ σ.suffixArray.map (unshift s.length h),
      σ.classes.getD x 0 < σ.numClasses :=
    fun x hx => inv.classLt x (List.mem_range.mp (htperm.subset hx))
  obtain ⟨hz1, hz2⟩ := fillZero_spec σ.numClasses σ.cnt
  obtain ⟨hc1, hc2⟩ := countingSort_spec (fun x => σ.classes.getD x 0) σ.numClasses
    (σ.suffixArray.map (unshift s.length h)) (fillZero σ.numClasses σ.cnt) σ.suffixArray hkey
    (by rw [hz1, inv.cntLen]; have := inv.numLe; omega)
    (by rw [htlen, hsalen])
    (fun c hc => by rw [hz2 c, if_pos hc])
  have hperm' : (bucketSort σ.numClasses (fun x => σ.classes.getD x 0)
      (σ.suffixArray.map (unshift s.length h))).Perm (List.range s.length) :=
    (bucketSort_perm _ _ _ hkey).trans htperm
  have hsorted' : (bucketSort σ.numClasses (fun x => σ.classes.getD x 0)
      (σ.suffixArray.map (unshift s.length h))).Pairwise
      (fun a b => pairLt s.length h σ.classes b a = false) := by
    apply bucketSort_pairwise _ _ _
      (R := fun a b => σ.classes.getD ((a + h) % s.length) 0 ≤
        σ.classes.getD ((b + h) % s.length) 0)
    · rw [List.pairwise_map]
      refine inv.sorted.imp_of_mem ?_
      intro a b ha hb hab
      have ha' : a < s.length := List.mem_range.mp (inv.perm.subset ha)
      have hb' : b < s.length := List.mem_range.mp (inv.perm.subset hb)
      rw [unshift_add ha' hh, unshift_add hb' hh]
      exact hab
    · intro a b hab
      simp only [pairLt, decide_eq_false_iff_not]
      omega
    · intro a b hab hR
      simp only [pairLt, decide_eq_false_iff_not]
      omega
  obtain ⟨hq1, hq2, hq3, hq4, hq5⟩ := classLoop_spec (pairLt_strictWeak s.length h σ.classes)
    (pairDiffers s.length h σ.classes) s.length _ σ.tempClasses hn hperm' inv.tempClassesLen
    (pairDiffers_iff s.length h σ.classes) hsorted'
  have e : radixRound s.length h σ =
      { suffixArray := bucketSort σ.numClasses (fun x => σ.classes.getD x 0)
          (σ.suffixArray.map (unshift s.length h))
        classes := (classLoop (pairDiffers s.length h σ.classes) s.length
          (bucketSort σ.numClasses (fun x => σ.classes.getD x 0)
            (σ.suffixArray.map (unshift s.length h))) σ.tempClasses).1
        cnt := (placeLoop (fun x => σ.classes.getD x 0)
          (σ.suffixArray.map (unshift s.length h)).reverse
          (prefixSums σ.numClasses (countLoop (fun x => σ.classes.getD x 0)
            (σ.suffixArray.map (unshift s.length h)) (fillZero σ.numClasses σ.cnt)),
            σ.suffixArray)).1
        numClasses := (classLoop (pairDiffers s.length h σ.classes) s.length
          (bucketSort σ.numClasses (fun x => σ.classes.getD x 0)
            (σ.suffixArray.map (unshift s.length h))) σ.tempClasses).2
        tempSuffixArray := σ.suffixArray.map (unshift s.length h)
        tempClasses := σ.classes } := by
    unfold radixRound
    simp only [htsa, hc2]
  rw [e]
  refine ⟨hperm', hq1, inv.classesLen, htlen, by rw [hc1, hz1, inv.cntLen], hq2, hq3, hq4, ?_, ?_⟩
  · refine hsorted'.imp_of_mem ?_
    intro a b ha hb hab
    have ha' : a < s.length := List.mem_range.mp (hperm'.subset ha)
    have hb' : b < s.length := List.mem_range.mp (hperm'.subset hb)
    have := hq5 b a hb' ha'
    rw [hab] at this
    simp only [Bool.false_eq_true, iff_false] at this
    simp only
    omega
  · intro a b ha hb
    exact (hq5 a b ha hb).trans (pairLt_iff_cyc inv ha hb)

theorem getD_replicate_zero (m c : Nat) : (List.replicate m 0).getD c 0 = 0 := by
  by_cases h : c < m
  · rw [List.getD_eq_getElem _ _ (by simpa using h)]
    simp
  · exact List.getD_eq_default _ _ (by simpa using h)

theorem getD_nonneg {s : List Int} (hs : ∀ c ∈ s, 0 ≤ c ∧ c ≤ 255) (a : Nat) :
    0 ≤ s.getD a 0 ∧ s.getD a 0 ≤ 255 := by
  by_cases h : a < s.length
  · rw [List.getD_eq_getElem s 0 h]
    exact hs _ (List.getElem_mem _)
  · rw [List.getD_eq_default _ _ (Nat.le_of_not_lt h)]
    omega

theorem sym_cast {s : List Int} (hs : ∀ c ∈ s, 0 ≤ c ∧ c ≤ 255) (a : Nat) :
    ((sym s a : Nat) : Int) = s.getD a 0 :=
  Int.toNat_of_nonneg (getD_nonneg hs a).1

theorem sym_lt {s : List Int} (hs : ∀ c ∈ s, 0 ≤ c ∧ c ≤ 255) (a : Nat) : sym s a < 256 := by
  have h1 := sym_cast hs a
  have h2 := (getD_nonneg hs a).2
  omega

/-- The state before the first round satisfies the invariant for prefixes of length
one. -/
theorem radixInit_inv {s : List Int} (hs : ∀ c ∈ s, 0 ≤ c ∧ c ≤ 255) (hn : 0 < s.length) :
    RadixInv s 1 (radixInit s) := by
  obtain ⟨hc1, hc2⟩ := countLoop_spec (sym s) (List.range s.length)
    (List.replicate (max 256 s.length) 0)
    (fun x _ => by rw [List.length_replicate]; have := sym_lt hs x; omega)
  obtain ⟨hp1, hp2⟩ := prefixSums_spec (sym s) (List.range s.length) 256
    (countLoop (sym s) (List.range s.length) (List.replicate (max 256 s.length) 0))
    (by rw [hc1, List.length_replicate]; omega)
    (fun c _ => by rw [hc2 c, getD_replicate_zero, Nat.zero_add])
  obtain ⟨hb1, hb2⟩ := placeLoop_eq_bucketSort (sym s) 256 (List.range s.length)
    (prefixSums 256
      (countLoop (sym s) (List.range s.length) (List.replicate (max 256 s.length) 0)))
    (List.replicate s.length 0) (fun x _ => sym_lt hs x)
    (by rw [hp1, hc1, List.length_replicate]; omega)
    (by rw [List.length_replicate, List.length_range]) hp2
  have hperm : (bucketSort 256 (sym s) (List.range s.length).reverse).Perm
      (List.range s.length) :=
    (bucketSort_perm _ _ _ (fun y _ => sym_lt hs y)).trans (List.reverse_perm _)
  have hsorted : (bucketSort 256 (sym s) (List.range s.length).reverse).Pairwise
      (fun a b => symLt s b a = false) := by
    apply bucketSort_pairwise _ _ _ (R := fun _ _ => True) (List.pairwise_of_forall
      (fun _ _ => trivial))
    · intro a b hab
      have h1 := sym_cast hs a
      have h2 := sym_cast hs b
      simp only [symLt, decide_eq_false_iff_not]
      omega
    · intro a b hab _
      have h1 := sym_cast hs a
      have h2 := sym_cast hs b
      simp only [symLt, decide_eq_false_iff_not]
      omega
  obtain ⟨hq1, hq2, hq3, hq4, hq5⟩ := classLoop_spec (symLt_strictWeak s) (symDiffers s)
    s.length _ (List.replicate s.length 0) hn hperm (List.length_replicate _ _)
    (symDiffers_iff s) hsorted
  have e : radixInit s =
      { suffixArray := bucketSort 256 (sym s) (List.range s.length).reverse
        classes := (classLoop (symDiffers s) s.length
          (bucketSort 256 (sym s) (List.range s.length).reverse) (List.replicate s.length 0)).1
        cnt := (placeLoop (sym s) (List.range s.length)
          (prefixSums 256 (countLoop (sym s) (List.range s.length)
            (List.replicate (max 256 s.length) 0)), List.replicate s.length 0)).1
        numClasses := (classLoop (symDiffers s) s.length
          (bucketSort 256 (sym s) (List.range s.length).reverse) (List.replicate s.length 0)).2
        tempSuffixArray := List.replicate s.length 0
        tempClasses := List.replicate s.length 0 } := by
    unfold radixInit
    simp only [hb2]
  rw [e]
  refine ⟨hperm, hq1, List.length_replicate _ _, List.length_replicate _ _,
    by rw [hb1, hp1, hc1, List.length_replicate], hq2, hq3, hq4, ?_, ?_⟩
  · refine hsorted.imp_of_mem ?_
    intro a b ha hb hab
    have ha' : a < s.length := List.mem_range.mp (hperm.subset ha)
    have hb' : b < s.length := List.mem_range.mp (hperm.subset hb)
    have := hq5 b a hb' ha'
    rw [hab] at this
    simp only [Bool.false_eq_true, iff_false] at this
    simp only
    omega
  · intro a b ha hb
    rw [hq5 a b ha hb, cyc_one s a ha, cyc_one s b hb, lex_cons_iff]
    simp only [symLt, decide_eq_true_eq]
    constructor
    · exact Or.inl
    · rintro (h | ⟨_, h⟩)
      · exact h
      · cases h

theorem le_two_pow (k : Nat) : k + 1 ≤ 2 ^ k := by
  induction k with
  | zero => simp
  | succ k ih =>
    rw [Nat.pow_succ]
    omega

/-- With `n` rounds of fuel the radix loop ends because its condition is false, in
a state that satisfies the invariant for prefixes that cover the text. -/
theorem radixRounds_some {s : List Int} (fuel k : Nat) (σ : RadixState)
    (inv : RadixInv s (2 ^ k) σ) (hf : s.length ≤ k + fuel) :
    ∃ σ' k', radixRounds s.length fuel k σ = some σ' ∧ RadixInv s (2 ^ k') σ' ∧
      s.length ≤ 2 ^ k' := by
  induction fuel generalizing k σ with
  | zero =>
    have := le_two_pow k
    unfold radixRounds
    rw [Nat.one_shiftLeft, if_neg (by omega)]
    exact ⟨σ, k, rfl, inv, by omega⟩
  | succ f ih =>
    unfold radixRounds
    rw [Nat.one_shiftLeft]
    by_cases hk : 2 ^ k < s.length
    · rw [if_pos hk]
      have hinv := radixRound_inv inv hk
      rw [← Nat.pow_succ'] at hinv
      exact ih (k + 1) _ hinv (by omega)
    · rw [if_neg hk]
      exact ⟨σ, k, rfl, inv, by omega⟩

/-- On a non-empty text over the codes `0, ..., 255` the radix `buildSuffixArray`
returns an array that is a permutation of the positions and lists them in
non-decreasing order of the first `h` symbols of their cyclic shifts, for some
`h ≥ n`. -/
theorem radix_result {s : List Int} (hs : ∀ c ∈ s, 0 ≤ c ∧ c ≤ 255) (hn : 0 < s.length) :
    ∃ res h, radixBuildSuffixArray s = some res ∧ res.Perm (List.range s.length) ∧
      s.length ≤ h ∧
      res.Pairwise (fun a b => ¬ List.Lex (· < ·) (cyc s h b) (cyc s h a)) := by
  have h0 : RadixInv s (2 ^ 0) (radixInit s) := radixInit_inv hs hn
  obtain ⟨σ', k', h1, h2, h3⟩ := radixRounds_some s.length 0 (radixInit s) h0 (by omega)
  refine ⟨σ'.suffixArray, 2 ^ k', ?_, h2.perm, h3, ?_⟩
  · unfold radixBuildSuffixArray
    rw [h1]
    rfl
  · refine h2.sorted.imp_of_mem ?_
    intro a b ha hb hab
    have ha' : a < s.length := List.mem_range.mp (h2.perm.subset ha)
    have hb' : b < s.length := List.mem_range.mp (h2.perm.subset hb)
    rw [← h2.order b a hb' ha']
    omega

/-! ## With a unique terminator the cyclic order is the suffix order -/

theorem getD_take_drop (s : List Int) (a m i : Nat) (hi : i < m) :
    ((s.drop a).take m).getD i 0 = s.getD (a + i) 0 := by
  simp only [List.getD_eq_getElem?_getD, List.getElem?_take, hi, if_true, List.getElem?_drop]

theorem getD_cyc (s : List Int) (h a i : Nat) (hi : i < h) :
    (cyc s h a).getD i 0 = s.getD ((a + i) % s.length) 0 := by
  unfold cyc
  rw [List.getD_eq_getElem _ _ (by simpa using hi)]
  simp

theorem int_list_eq_of_getD {A B : List Int} (hlen : A.length = B.length)
    (h : ∀ i, i < A.length → A.getD i 0 = B.getD i 0) : A = B := by
  apply List.ext_getElem hlen
  intro i h1 h2
  have := h i h1
  rw [List.getD_eq_getElem A 0 h1, List.getD_eq_getElem B 0 h2] at this
  exact this

theorem take_cyc (s : List Int) (h m a : Nat) (hm : m ≤ h) : (cyc s h a).take m = cyc s m a := by
  apply int_list_eq_of_getD
  · rw [List.length_take, cyc_length, cyc_length]
    omega
  · intro i hi
    rw [List.length_take, cyc_length] at hi
    have him : i < m := by omega
    rw [getD_cyc s m a i him]
    have e : ((cyc s h a).take m).getD i 0 = (cyc s h a).getD i 0 := by
      simp only [List.getD_eq_getElem?_getD, List.getElem?_take, him, if_true]
    rw [e, getD_cyc s h a i (by omega)]

theorem cyc_eq_take_drop (s : List Int) (m a : Nat) (h : a + m ≤ s.length) :
    cyc s m a = (s.drop a).take m := by
  apply int_list_eq_of_getD
  · rw [cyc_length, List.length_take, List.length_drop]
    omega
  · intro i hi
    rw [cyc_length] at hi
    rw [getD_cyc s m a i hi, getD_take_drop s a m i hi, Nat.mod_eq_of_lt (by omega)]

theorem lex_take_of_ne {X Y : List Int} {m L : Nat} (hne : X.take m ≠ Y.take m) (hm : m ≤ L) :
    List.Lex (· < ·) (X.take L) (Y.take L) ↔ List.Lex (· < ·) (X.take m) (Y.take m) := by
  have e : L = m + (L - m) := by omega
  rw [e, lex_take_add]
  constructor
  · rintro (h | ⟨h, _⟩)
    · exact h
    · exact absurd h hne
  · exact Or.inl

/-- Two different suffixes differ within the length of the shorter one, because the
shorter one ends in the terminator. -/
theorem take_drop_ne {s : List Int} (ht : HasTerminator s) {a b : Nat} (ha : a < s.length)
    (hb : b < s.length) (hab : a ≠ b) :
    (s.drop a).take (s.length - max a b) ≠ (s.drop b).take (s.length - max a b) := by
  intro e
  have hm : 0 < s.length - max a b := by
    rcases max_cases a b with ⟨h, _⟩ | ⟨h, _⟩ <;> rw [h] <;> omega
  have h1 := getD_take_drop s a (s.length - max a b) (s.length - max a b - 1) (by omega)
  have h2 := getD_take_drop s b (s.length - max a b) (s.length - max a b - 1) (by omega)
  rw [e, h2] at h1
  rcases Nat.lt_or_gt_of_ne hab with h | h
  · have hmax : max a b = b := max_eq_right (by omega)
    rw [hmax] at h1
    have e1 : b + (s.length - b - 1) = s.length - 1 := by omega
    rw [e1] at h1
    have := ht (a + (s.length - b - 1)) (by omega)
    omega
  · have hmax : max a b = a := max_eq_left (by omega)
    rw [hmax] at h1
    have e1 : a + (s.length - a - 1) = s.length - 1 := by omega
    rw [e1] at h1
    have := ht (b + (s.length - a - 1)) (by omega)
    omega

theorem cyc_lex_iff_sufLt {s : List Int} (ht : HasTerminator s) {a b h : Nat}
    (ha : a < s.length) (hb : b < s.length) (hab : a ≠ b) (hh : s.length ≤ h) :
    List.Lex (· < ·) (cyc s h a) (cyc s h b) ↔ SufLt s a b := by
  have hne := take_drop_ne ht ha hb hab
  have hm1 : a + (s.length - max a b) ≤ s.length := by
    rcases max_cases a b with ⟨h, _⟩ | ⟨h, _⟩ <;> rw [h] <;> omega
  have hm2 : b + (s.length - max a b) ≤ s.length := by
    rcases max_cases a b with ⟨h, _⟩ | ⟨h, _⟩ <;> rw [h] <;> omega
  have hne' : (cyc s h a).take (s.length - max a b) ≠ (cyc s h b).take (s.length - max a b) := by
    rw [take_cyc s h _ a (by omega), take_cyc s h _ b (by omega), cyc_eq_take_drop s _ a hm1,
      cyc_eq_take_drop s _ b hm2]
    exact hne
  have h1 := lex_take_of_ne hne' (show s.length - max a b ≤ h by omega)
  rw [List.take_of_length_le (by rw [cyc_length]), List.take_of_length_le (by rw [cyc_length]),
    take_cyc s h _ a (by omega), take_cyc s h _ b (by omega), cyc_eq_take_drop s _ a hm1,
    cyc_eq_take_drop s _ b hm2] at h1
  have h2 := lex_take_of_ne hne (show s.length - max a b ≤ s.length by omega)
  rw [List.take_of_length_le (by rw [List.length_drop]; omega),
    List.take_of_length_le (by rw [List.length_drop]; omega)] at h2
  unfold SufLt
  rw [h1, h2]

/-- The suffix that consists of the terminator alone is the smallest suffix. -/
theorem terminator_sufLt {s : List Int} (ht : HasTerminator s) {b : Nat} (hb : b + 1 < s.length) :
    SufLt s (s.length - 1) b := by
  unfold SufLt
  rw [List.drop_eq_getElem_cons (show s.length - 1 < s.length by omega),
    List.drop_eq_getElem_cons (show b < s.length by omega)]
  apply List.Lex.rel
  have := ht b (by omega)
  rw [List.getD_eq_getElem s 0 (show s.length - 1 < s.length by omega),
    List.getD_eq_getElem s 0 (show b < s.length by omega)] at this
  exact this

/-- On a non-empty text over the codes `0, ..., 255` with a unique terminator the
radix `buildSuffixArray` returns the positions in strictly increasing order of their
suffixes, the position of the terminator first. -/
theorem radix_sorted {s : List Int} (hs : ∀ c ∈ s, 0 ≤ c ∧ c ≤ 255) (hn : 0 < s.length)
    (ht : HasTerminator s) :
    ∃ res, radixBuildSuffixArray s = some res ∧ res.Perm (List.range s.length) ∧
      res.Pairwise (SufLt s) ∧ res.getD 0 0 = s.length - 1 := by
  obtain ⟨res, h, h1, hperm, hh, hsorted⟩ := radix_result hs hn
  have hnd : res.Nodup := hperm.nodup_iff.mpr (List.nodup_range _)
  have hlen : res.length = s.length := by rw [hperm.length_eq, List.length_range]
  have hpw : res.Pairwise (SufLt s) := by
    refine (hsorted.and hnd).imp_of_mem ?_
    intro a b ha hb hab
    have ha' : a < s.length := List.mem_range.mp (hperm.subset ha)
    have hb' : b < s.length := List.mem_range.mp (hperm.subset hb)
    obtain ⟨hnot, hne⟩ := hab
    rw [cyc_lex_iff_sufLt ht hb' ha' (Ne.symm hne) hh] at hnot
    rcases lex_trichotomy (s.drop a) (s.drop b) with h5 | h5 | h5
    · exact h5
    · exact absurd h5 (drop_ne_drop s ha' hb' hne)
    · exact absurd h5 hnot
  refine ⟨res, h1, hperm, hpw, ?_⟩
  by_contra hfirst
  have h0 : res.getD 0 0 < s.length := perm_getD_lt hperm hn
  obtain ⟨p, hp, hpe⟩ := perm_getD_surj hperm (show s.length - 1 < s.length by omega)
  have hp0 : p ≠ 0 := by
    intro e
    rw [e] at hpe
    exact hfirst hpe
  have := pairwise_getD hpw (show 0 < p by omega) (by omega)
  rw [hpe] at this
  exact sufLt_asymm s (terminator_sufLt ht (show res.getD 0 0 + 1 < s.length by omega)) this

/-! ## The comparator variant stays within bounds -/

theorem foldlM_eq_some {α β : Type} (f : β → α → β) (g : β → α → Option β) (P : β → Prop)
    (l : List α) (hstep : ∀ b a, a ∈ l → P b → g b a = some (f b a) ∧ P (f b a)) (b : β)
    (hb : P b) : l.foldlM g b = some (l.foldl f b) ∧ P (l.foldl f b) := by
  induction l generalizing b with
  | nil => exact ⟨rfl, hb⟩
  | cons a l ih =>
    obtain ⟨h1, h2⟩ := hstep b a (List.mem_cons_self _ _) hb
    rw [List.foldlM_cons, h1]
    exact ih (fun b' a' ha' hb' => hstep b' a' (List.mem_cons_of_mem _ ha') hb') (f b a) h2

theorem getElem?_eq_some_getD {α : Type} (l : List α) (i : Nat) (d : α) (h : i < l.length) :
    l[i]? = some (l.getD i d) := by
  rw [List.getD_eq_getElem l d h, List.getElem?_eq_getElem h]

theorem setChecked_eq {α : Type} (l : List α) (i : Nat) (x : α) (h : i < l.length) :
    setChecked l i x = some (l.set i x) := by
  unfold setChecked
  rw [if_pos h]

/-- On positions of the text the checked comparator never faults: it reads
`rank[a + k]` only when `a + k < n`. -/
theorem cmpChecked_eq (n k : Nat) (rank : List Int) (a b : Nat) (hr : rank.length = n)
    (ha : a < n) (hb : b < n) : cmpChecked n k rank a b = some (cmp n k rank a b) := by
  unfold cmpChecked cmp
  rw [getElem?_eq_some_getD rank a 0 (by omega), getElem?_eq_some_getD rank b 0 (by omega)]
  simp only [Option.bind_eq_bind, Option.some_bind, Option.pure_def]
  by_cases hne : rank.getD a 0 ≠ rank.getD b 0
  · rw [if_pos hne, if_pos hne]
  · rw [if_neg hne, if_neg hne]
    by_cases hak : a + k < n
    · rw [if_pos hak, getElem?_eq_some_getD rank (a + k) 0 (by omega)]
      by_cases hbk : b + k < n
      · rw [if_pos hbk, getElem?_eq_some_getD rank (b + k) 0 (by omega)]
        simp only [Option.some_bind, hak, hbk, if_true]
      · rw [if_neg hbk]
        simp only [Option.some_bind, hak, hbk, if_true, if_false]
    · rw [if_neg hak]
      by_cases hbk : b + k < n
      · rw [if_pos hbk, getElem?_eq_some_getD rank (b + k) 0 (by omega)]
        simp only [Option.some_bind, hak, hbk, if_true, if_false]
      · rw [if_neg hbk]
        simp only [Option.some_bind, hak, hbk, if_false]

theorem rankStepChecked_eq (n k : Nat) (rank : List Int) (sa : List Nat) (temp : List Int)
    (i : Nat) (hp : sa.Perm (List.range n)) (hr : rank.length = n) (ht : temp.length = n)
    (h1 : 1 ≤ i) (hi : i < n) :
    rankStepChecked n k rank sa temp i = some (rankStep n k rank sa temp i) := by
  have hlen : sa.length = n := by rw [hp.length_eq, List.length_range]
  have hcur := perm_getD_lt hp hi
  have hprev := perm_getD_lt hp (show i - 1 < n by omega)
  unfold rankStepChecked rankStep
  rw [getElem?_eq_some_getD sa i 0 (by omega), getElem?_eq_some_getD sa (i - 1) 0 (by omega)]
  simp only [Option.bind_eq_bind, Option.some_bind]
  rw [getElem?_eq_some_getD temp _ 0 (by omega), cmpChecked_eq n k rank _ _ hr hprev hcur]
  simp only [Option.some_bind]
  exact setChecked_eq _ _ _ (by omega)

theorem updateRankChecked_eq (n k : Nat) (rank : List Int) (sa : List Nat) (temp : List Int)
    (hp : sa.Perm (List.range n)) (hr : rank.length = n) (ht : temp.length = n) (hn : 0 < n) :
    updateRankChecked n k rank sa temp = some (updateRank n k rank sa temp) := by
  have hlen : sa.length = n := by rw [hp.length_eq, List.length_range]
  have h0 := perm_getD_lt hp hn
  unfold updateRankChecked updateRank
  rw [getElem?_eq_some_getD sa 0 0 (by omega)]
  simp only [Option.bind_eq_bind, Option.some_bind]
  rw [setChecked_eq _ _ _ (by omega)]
  simp only [Option.some_bind]
  exact (foldlM_eq_some (rankStep n k rank sa) (rankStepChecked n k rank sa)
    (fun t => t.length = n) _
    (fun t i hi hlt => by
      rw [List.mem_range'_1] at hi
      exact ⟨rankStepChecked_eq n k rank sa t i hp hr hlt hi.1 (by omega),
        (rankStep_length n k rank sa t i).trans hlt⟩)
    _ ((List.length_set _ _ _).trans ht)).1

theorem finishRoundChecked_eq {n k : Nat} {σ : State} (hσ : Shape n σ) {sorted : List Nat}
    (hsort : sorted.Perm σ.suffixArray) (hn : 0 < n) :
    finishRoundChecked n k σ sorted = some (finishRound n k σ sorted) := by
  unfold finishRoundChecked finishRound
  rw [updateRankChecked_eq n k σ.rank sorted σ.temp (hsort.trans hσ.perm) hσ.rankLen hσ.tempLen
    hn]
  rfl

theorem finishRound_shape {n k : Nat} {σ : State} (hσ : Shape n σ) {sorted : List Nat}
    (hsort : sorted.Perm σ.suffixArray) (hn : 0 < n) : Shape n (finishRound n k σ sorted) := by
  have := (updateRank_spec n k σ.rank sorted σ.temp (hsort.trans hσ.perm) hσ.tempLen hn).1
  exact ⟨hsort.trans hσ.perm, this, this⟩

theorem init_shape (s : List Int) : Shape s.length (init s) :=
  ⟨List.Perm.refl _, by simp [init], by simp [init]⟩

/-- In every run with checked accesses no round faults: the result is a state, and
it is a result of the unchecked loop. -/
theorem roundsChecked_some {n k : Nat} {σ : State} {r : Option State}
    (h : RoundsChecked n k σ r) (hσ : Shape n σ) : ∃ σ', r = some σ' ∧ Rounds n k σ σ' := by
  induction h with
  | exit hkn => exact ⟨_, rfl, Rounds.exit hkn⟩
  | cmpFault a b hkn ha hb hnone =>
    have ha' : a < n := List.mem_range.mp (hσ.perm.subset ha)
    have hb' : b < n := List.mem_range.mp (hσ.perm.subset hb)
    rw [cmpChecked_eq n _ _ a b hσ.rankLen ha' hb'] at hnone
    cases hnone
  | updateFault sorted hkn hsort hnone =>
    rw [finishRoundChecked_eq hσ hsort.1 (by omega)] at hnone
    cases hnone
  | step sorted hkn hsort hfin _ ih =>
    rw [finishRoundChecked_eq hσ hsort.1 (by omega)] at hfin
    cases hfin
    obtain ⟨σ', h1, h2⟩ := ih (finishRound_shape hσ hsort.1 (by omega))
    exact ⟨σ', h1, Rounds.step sorted hkn hsort h2⟩

theorem insertByChecked_eq (lt : Nat → Nat → Bool) (lt' : Nat → Nat → Option Bool) (x : Nat)
    (l : List Nat) (h : ∀ y ∈ l, lt' y x = some (lt y x)) :
    insertByChecked lt' x l = some (insertBy lt x l) := by
  induction l with
  | nil => rfl
  | cons y ys ih =>
    unfold insertByChecked insertBy
    rw [h y (List.mem_cons_self _ _)]
    simp only [Option.bind_eq_bind, Option.some_bind, Option.pure_def]
    by_cases hc : lt y x = true
    · rw [if_pos hc, if_pos hc, ih (fun z hz => h z (List.mem_cons_of_mem _ hz))]
      rfl
    · rw [if_neg hc, if_neg hc]

theorem sortByChecked_eq (lt : Nat → Nat → Bool) (lt' : Nat → Nat → Option Bool) (l : List Nat)
    (h : ∀ a ∈ l, ∀ b ∈ l, lt' a b = some (lt a b)) :
    sortByChecked lt' l = some (sortBy lt l) := by
  induction l with
  | nil => rfl
  | cons x xs ih =>
    unfold sortByChecked sortBy
    rw [ih (fun a ha b hb => h a (List.mem_cons_of_mem _ ha) b (List.mem_cons_of_mem _ hb))]
    simp only [Option.bind_eq_bind, Option.some_bind]
    apply insertByChecked_eq
    intro y hy
    exact h y (List.mem_cons_of_mem _ ((sortBy_perm lt xs).subset hy)) x
      (List.mem_cons_self _ _)

theorem doublingChecked_eq (n fuel k : Nat) (σ : State) (hσ : Shape n σ) :
    doublingChecked n fuel k σ = some (doubling n fuel k σ) := by
  induction fuel generalizing k σ with
  | zero => rfl
  | succ f ih =>
    unfold doublingChecked doubling
    by_cases hkn : k < n
    · rw [if_pos hkn, if_pos hkn]
      rw [sortByChecked_eq (cmp n k σ.rank) (cmpChecked n k σ.rank) σ.suffixArray
        (fun a ha b hb => cmpChecked_eq n k σ.rank a b hσ.rankLen
          (List.mem_range.mp (hσ.perm.subset ha)) (List.mem_range.mp (hσ.perm.subset hb)))]
      simp only [Option.bind_eq_bind, Option.some_bind]
      rw [finishRoundChecked_eq hσ (sortBy_perm _ _) (by omega)]
      simp only [Option.some_bind]
      exact ih _ _ (finishRound_shape hσ (sortBy_perm _ _) (by omega))
    · rw [if_neg hkn, if_neg hkn]

theorem initStepChecked_eq (s : List Int) (σ : State) (i : Nat) (hi : i < s.length)
    (h1 : σ.suffixArray.length = s.length) (h2 : σ.rank.length = s.length) :
    initStepChecked s σ i = some (initStep s σ i) := by
  unfold initStepChecked initStep
  rw [setChecked_eq _ _ _ (by omega), getElem?_eq_some_getD s i 0 hi]
  simp only [Option.bind_eq_bind, Option.some_bind]
  rw [setChecked_eq _ _ _ (by omega)]
  rfl

theorem initFold_upTo (s : List Int) (m : Nat) (hm : m ≤ s.length) :
    ((List.range m).foldl (initStep s)
        { suffixArray := List.replicate s.length 0, rank := List.replicate s.length 0,
          temp := List.replicate s.length 0 }).suffixArray.length = s.length ∧
      ((List.range m).foldl (initStep s)
        { suffixArray := List.replicate s.length 0, rank := List.replicate s.length 0,
          temp := List.replicate s.length 0 }).rank.length = s.length ∧
      ((List.range m).foldl (initStep s)
        { suffixArray := List.replicate s.length 0, rank := List.replicate s.length 0,
          temp := List.replicate s.length 0 }).temp = List.replicate s.length 0 ∧
      ∀ i, i < m →
        ((List.range m).foldl (initStep s)
          { suffixArray := List.replicate s.length 0, rank := List.replicate s.length 0,
            temp := List.replicate s.length 0 }).suffixArray.getD i 0 = i ∧
        ((List.range m).foldl (initStep s)
          { suffixArray := List.replicate s.length 0, rank := List.replicate s.length 0,
            temp := List.replicate s.length 0 }).rank.getD i 0 = s.getD i 0 := by
  induction m with
  | zero =>
    exact ⟨List.length_replicate _ _, List.length_replicate _ _, rfl, fun i hi => by omega⟩
  | succ m ih =>
    obtain ⟨h1, h2, h3, h4⟩ := ih (by omega)
    rw [List.range_succ, List.foldl_append]
    simp only [List.foldl_cons, List.foldl_nil]
    generalize (List.range m).foldl (initStep s)
      { suffixArray := List.replicate s.length 0, rank := List.replicate s.length 0,
        temp := List.replicate s.length 0 } = σ at *
    unfold initStep
    refine ⟨(List.length_set _ _ _).trans h1, (List.length_set _ _ _).trans h2, h3, ?_⟩
    intro i hi
    by_cases him : i = m
    · subst him
      exact ⟨getD_set_self _ _ _ _ (by omega), getD_set_self _ _ _ _ (by omega)⟩
    · rw [getD_set_ne _ _ _ _ _ (fun e => him e.symm),
        getD_set_ne _ _ _ _ _ (fun e => him e.symm)]
      exact h4 i (by omega)

/-- The initialisation loop stays within bounds and produces the initial state. -/
theorem initChecked_eq (s : List Int) : initChecked s = some (init s) := by
  unfold initChecked
  have h := (foldlM_eq_some (initStep s) (initStepChecked s)
    (fun σ => σ.suffixArray.length = s.length ∧ σ.rank.length = s.length) (List.range s.length)
    (fun σ i hi hσ =>
      ⟨initStepChecked_eq s σ i (List.mem_range.mp hi) hσ.1 hσ.2,
        (List.length_set _ _ _).trans hσ.1, (List.length_set _ _ _).trans hσ.2⟩)
    { suffixArray := List.replicate s.length 0, rank := List.replicate s.length 0,
      temp := List.replicate s.length 0 }
    ⟨List.length_replicate _ _, List.length_replicate _ _⟩).1
  rw [h]
  obtain ⟨h1, h2, h3, h4⟩ := initFold_upTo s s.length (le_refl _)
  generalize (List.range s.length).foldl (initStep s)
    { suffixArray := List.replicate s.length 0, rank := List.replicate s.length 0,
      temp := List.replicate s.length 0 } = σ at *
  have e1 : σ.suffixArray = List.range s.length := by
    apply list_eq_of_getD (by rw [h1, List.length_range])
    intro i hi
    rw [(h4 i (by omega)).1, List.getD_eq_getElem _ _ (by rw [List.length_range]; omega),
      List.getElem_range]
  have e2 : σ.rank = (List.range s.length).map (fun i => s.getD i 0) := by
    apply int_list_eq_of_getD (by rw [h2, List.length_map, List.length_range])
    intro i hi
    rw [(h4 i (by omega)).2, ← init_rank_getD s i (by omega)]
    rfl
  cases σ
  simp only at e1 e2 h3
  subst e1 e2 h3
  rfl

/-- The executable function with checked accesses returns the array of the
executable function. -/
theorem buildSuffixArrayChecked_eq (s : List Int) :
    buildSuffixArrayChecked s = some (buildSuffixArray s) := by
  unfold buildSuffixArrayChecked buildSuffixArray
  rw [initChecked_eq]
  simp only [Option.bind_eq_bind, Option.some_bind]
  rw [doublingChecked_eq _ _ _ _ (init_shape s)]
  rfl

/-! ## The radix variant stays within bounds on non-empty texts -/

theorem foldl_max_ge (l : List Nat) (m : Nat) :
    m ≤ l.foldl max m ∧ (∀ x ∈ l, x ≤ l.foldl max m) ∧ (l.foldl max m = m ∨ l.foldl max m ∈ l) := by
  induction l generalizing m with
  | nil => exact ⟨le_refl _, fun x hx => absurd hx (List.not_mem_nil x), Or.inl rfl⟩
  | cons y ys ih =>
    obtain ⟨h1, h2, h3⟩ := ih (max m y)
    simp only [List.foldl_cons]
    refine ⟨le_trans (le_max_left m y) h1, ?_, ?_⟩
    · intro x hx
      rcases List.mem_cons.mp hx with e | e
      · subst e; exact le_trans (le_max_right m x) h1
      · exact h2 x e
    · rcases h3 with e | e
      · rcases max_cases m y with ⟨e1, _⟩ | ⟨e1, _⟩
        · exact Or.inl (e.trans e1)
        · exact Or.inr (by rw [e, e1]; exact List.mem_cons_self _ _)
      · exact Or.inr (List.mem_cons_of_mem _ e)

theorem take_eq_of_le_lcpLen {x y : List Int} {L : Nat} (h : L ≤ lcpLen x y) :
    x.take L = y.take L := by
  induction L generalizing x y with
  | zero => rfl
  | succ L ih =>
    cases x with
    | nil => simp [lcpLen] at h
    | cons a as =>
      cases y with
      | nil => simp [lcpLen] at h
      | cons b bs =>
        simp only [lcpLen] at h
        by_cases hab : a = b
        · subst hab
          simp only [if_true] at h
          simp only [List.take_succ_cons, List.cons.injEq, true_and]
          exact ih (by omega)
        · simp only [hab, if_false] at h
          omega

theorem le_lcpLen_of_take_eq {x y : List Int} {L : Nat} (h : x.take L = y.take L)
    (hx : L ≤ x.length) (hy : L ≤ y.length) : L ≤ lcpLen x y := by
  induction L generalizing x y with
  | zero => exact Nat.zero_le _
  | succ L ih =>
    cases x with
    | nil => simp at hx
    | cons a as =>
      cases y with
      | nil => simp at hy
      | cons b bs =>
        simp only [List.take_succ_cons, List.cons.injEq] at h
        simp only [List.length_cons] at hx hy
        simp only [lcpLen, h.1, if_true]
        exact Nat.succ_le_succ (ih h.2 (by omega) (by omega))

/-- In a suffix array the common prefix of two suffixes is at most the entry of the
LCP array at the later of the two. -/
theorem lcpLen_le_adjacent {s : List Int} {sa : List Nat} (hsa : IsSuffixArray s sa)
    {p q : Nat} (hpq : p < q) (hq : q < s.length) :
    lcpLen (s.drop (sa.getD p 0)) (s.drop (sa.getD q 0)) ≤ (buildLCPArray s sa).getD q 0 := by
  rw [buildLCPArray_eq_lcpLen hsa (by omega) hq]
  have hlen := isSuffixArray_length hsa
  rcases Nat.eq_or_lt_of_le (Nat.le_sub_one_of_lt hpq) with e | e
  · rw [e]
  · exact lcpLen_sandwich (pairwise_getD hsa.sorted e (by omega))
      (pairwise_getD hsa.sorted (show q - 1 < q by omega) (by omega))

theorem lcpLen_le_max {s : List Int} {sa : List Nat} (hsa : IsSuffixArray s sa) {a b : Nat}
    (ha : a < s.length) (hb : b < s.length) (hab : a ≠ b) :
    lcpLen (s.drop a) (s.drop b) ≤ (buildLCPArray s sa).foldl max 0 := by
  have hlen : (buildLCPArray s sa).length = s.length := lcpLoop_length s sa s.length
  obtain ⟨p, hp, rfl⟩ := perm_getD_surj hsa.perm ha
  obtain ⟨q, hq, rfl⟩ := perm_getD_surj hsa.perm hb
  have hmax : ∀ i, i < s.length →
      (buildLCPArray s sa).getD i 0 ≤ (buildLCPArray s sa).foldl max 0 := by
    intro i hi
    apply (foldl_max_ge _ 0).2.1
    rw [List.getD_eq_getElem _ _ (by omega)]
    exact List.getElem_mem _
  rcases Nat.lt_trichotomy p q with h | h | h
  · exact le_trans (lcpLen_le_adjacent hsa h hq) (hmax q hq)
  · subst h; exact absurd rfl hab
  · rw [lcpLen_comm]
    exact le_trans (lcpLen_le_adjacent hsa h hp) (hmax p hp)

/-- The maximum of the LCP array is the length of the longest repeated substring. -/
theorem max_lcp_spec {s : List Int} {sa : List Nat} (hsa : IsSuffixArray s sa) :
    (∀ L, Repeats s L → L ≤ (buildLCPArray s sa).foldl max 0) ∧
      (2 ≤ s.length → Repeats s ((buildLCPArray s sa).foldl max 0)) ∧
      (s.length ≤ 1 → (buildLCPArray s sa).foldl max 0 = 0) := by
  have hlen : (buildLCPArray s sa).length = s.length := lcpLoop_length s sa s.length
  have hzero : (buildLCPArray s sa).getD 0 0 = 0 := lcpLoop_zero s sa s.length
  have hcases : (buildLCPArray s sa).foldl max 0 = 0 ∨
      ∃ p, 0 < p ∧ p < s.length ∧
        (buildLCPArray s sa).foldl max 0 = (buildLCPArray s sa).getD p 0 := by
    rcases (foldl_max_ge (buildLCPArray s sa) 0).2.2 with e | e
    · exact Or.inl e
    · obtain ⟨p, hp, hpe⟩ := List.mem_iff_getElem.mp e
      by_cases hp0 : p = 0
      · subst hp0
        left
        rw [← hpe, ← List.getD_eq_getElem _ 0 hp]
        exact hzero
      · right
        exact ⟨p, by omega, by omega, by rw [List.getD_eq_getElem _ 0 hp]; exact hpe.symm⟩
  refine ⟨?_, ?_, ?_⟩
  · rintro L ⟨a, b, hab, ha, hb, haL, hbL, he⟩
    exact le_trans (le_lcpLen_of_take_eq he (by rw [List.length_drop]; omega)
      (by rw [List.length_drop]; omega)) (lcpLen_le_max hsa ha hb hab)
  · intro hn
    rcases hcases with e | ⟨p, hp0, hp, e⟩
    · rw [e]
      exact ⟨0, 1, by omega, by omega, by omega, by omega, by omega, rfl⟩
    · rw [e]
      have h1 := buildLCPArray_eq_lcpLen hsa hp0 hp
      have h2 := lcpLen_le_left (s.drop (sa.getD (p - 1) 0)) (s.drop (sa.getD p 0))
      have h3 := lcpLen_le_right (s.drop (sa.getD (p - 1) 0)) (s.drop (sa.getD p 0))
      rw [List.length_drop] at h2 h3
      have ha := perm_getD_lt hsa.perm (show p - 1 < s.length by omega)
      have hb := perm_getD_lt hsa.perm hp
      refine ⟨sa.getD (p - 1) 0, sa.getD p 0, ?_, ha, hb, by omega, by omega, ?_⟩
      · intro e2
        have := perm_getD_inj hsa.perm (by omega) hp e2
        omega
      · rw [h1]
        exact take_eq_of_le_lcpLen (le_refl _)
  · intro hn
    rcases hcases with e | ⟨p, hp0, hp, _⟩
    · exact e
    · omega

/-! ## The number of distinct substrings -/

theorem mem_substrings (s : List Int) (w : List Int) :
    w ∈ substrings s ↔
      ∃ a l, a < s.length ∧ l < s.length - a ∧ w = (s.drop a).take (l + 1) := by
  unfold substrings
  simp only [List.mem_flatMap, List.mem_range, List.mem_map]
  constructor
  · rintro ⟨a, ha, l, hl, rfl⟩
    exact ⟨a, l, ha, hl, rfl⟩
  · rintro ⟨a, l, ha, hl, rfl⟩
    exact ⟨a, ha, l, hl, rfl⟩

theorem lcp_le_suffix {s : List Int} {sa : List Nat} (hsa : IsSuffixArray s sa) {p : Nat}
    (hp : p < s.length) :
    (buildLCPArray s sa).getD p 0 ≤ s.length - sa.getD p 0 := by
  by_cases hp0 : p = 0
  · subst hp0
    have : (buildLCPArray s sa).getD 0 0 = 0 := lcpLoop_zero s sa s.length
    omega
  · rw [buildLCPArray_eq_lcpLen hsa (by omega) hp]
    have := lcpLen_le_right (s.drop (sa.getD (p - 1) 0)) (s.drop (sa.getD p 0))
    rw [List.length_drop] at this
    exact this

theorem mem_newSubstrings {s : List Int} {sa : List Nat} (hsa : IsSuffixArray s sa)
    (w : List Int) :
    w ∈ newSubstrings s sa (buildLCPArray s sa) ↔
      ∃ p l, p < s.length ∧ (buildLCPArray s sa).getD p 0 ≤ l ∧ l < s.length - sa.getD p 0 ∧
        w = (s.drop (sa.getD p 0)).take (l + 1) := by
  unfold newSubstrings
  simp only [List.mem_flatMap, List.mem_range, List.mem_map, List.mem_range'_1]
  constructor
  · rintro ⟨p, hp, l, ⟨hl1, hl2⟩, rfl⟩
    have := lcp_le_suffix hsa hp
    exact ⟨p, l, hp, hl1, by omega, rfl⟩
  · rintro ⟨p, l, hp, hl1, hl2, rfl⟩
    have := lcp_le_suffix hsa hp
    exact ⟨p, hp, l, ⟨hl1, by omega⟩, rfl⟩

/-- Every substring is a prefix, longer than the LCP entry, of the suffix at some
place of the array. -/
theorem substring_is_new {s : List Int} {sa : List Nat} (hsa : IsSuffixArray s sa) (p : Nat) :
    ∀ l, p < s.length → l < s.length - sa.getD p 0 →
      (s.drop (sa.getD p 0)).take (l + 1) ∈ newSubstrings s sa (buildLCPArray s sa) := by
  induction p with
  | zero =>
    intro l hp hl
    rw [mem_newSubstrings hsa]
    have : (buildLCPArray s sa).getD 0 0 = 0 := lcpLoop_zero s sa s.length
    exact ⟨0, l, hp, by omega, hl, rfl⟩
  | succ p ih =>
    intro l hp hl
    by_cases hle : (buildLCPArray s sa).getD (p + 1) 0 ≤ l
    · rw [mem_newSubstrings hsa]
      exact ⟨p + 1, l, hp, hle, hl, rfl⟩
    · have h1 := buildLCPArray_eq_lcpLen hsa (show 0 < p + 1 by omega) hp
      simp only [Nat.add_sub_cancel] at h1
      have h2 := lcpLen_le_left (s.drop (sa.getD p 0)) (s.drop (sa.getD (p + 1) 0))
      rw [List.length_drop] at h2
      have h3 : (s.drop (sa.getD p 0)).take (l + 1) =
          (s.drop (sa.getD (p + 1) 0)).take (l + 1) :=
        take_eq_of_le_lcpLen (by omega)
      rw [← h3]
      exact ih l (by omega) (by omega)

theorem length_take_drop (s : List Int) (a l : Nat) (hl : l < s.length - a) :
    ((s.drop a).take (l + 1)).length = l + 1 := by
  rw [List.length_take, List.length_drop]
  omega

theorem newSubstrings_nodup {s : List Int} {sa : List Nat} (hsa : IsSuffixArray s sa) :
    (newSubstrings s sa (buildLCPArray s sa)).Nodup := by
  unfold newSubstrings
  rw [List.nodup_flatMap]
  constructor
  · intro p hp
    have hp' := List.mem_range.mp hp
    have hb := lcp_le_suffix hsa hp'
    apply List.Nodup.map_on _ (List.nodup_range' _ _)
    intro l hl l' hl' e
    rw [List.mem_range'_1] at hl hl'
    have h1 := length_take_drop s (sa.getD p 0) l (by omega)
    have h2 := length_take_drop s (sa.getD p 0) l' (by omega)
    rw [e] at h1
    omega
  · refine (List.pairwise_lt_range s.length).imp_of_mem ?_
    intro p q hp hq hpq
    have hp' := List.mem_range.mp hp
    have hq' := List.mem_range.mp hq
    have hbp := lcp_le_suffix hsa hp'
    have hbq := lcp_le_suffix hsa hq'
    simp only [Function.onFun]
    rw [List.disjoint_left]
    intro w hw hw'
    rw [List.mem_map] at hw hw'
    obtain ⟨l, hl, rfl⟩ := hw
    obtain ⟨l', hl', e⟩ := hw'
    rw [List.mem_range'_1] at hl hl'
    have h1 := length_take_drop s (sa.getD p 0) l (by omega)
    have h2 := length_take_drop s (sa.getD q 0) l' (by omega)
    rw [e] at h2
    have hll : l = l' := by omega
    subst hll
    have h3 := le_lcpLen_of_take_eq e.symm (by rw [List.length_drop]; omega)
      (by rw [List.length_drop]; omega)
    have h4 := lcpLen_le_adjacent hsa hpq hq'
    omega

theorem sum_map_sub (l : List Nat) (f g : Nat → Nat) (h : ∀ p ∈ l, g p ≤ f p) :
    (l.map (fun p => f p - g p)).sum + (l.map g).sum = (l.map f).sum := by
  induction l with
  | nil => rfl
  | cons p ps ih =>
    have h1 := h p (List.mem_cons_self _ _)
    have h2 := ih (fun q hq => h q (List.mem_cons_of_mem _ hq))
    simp only [List.map_cons, List.sum_cons]
    omega

theorem sum_range_sub (n m : Nat) (hm : m ≤ n) :
    ((List.range m).map (fun a => n - a)).sum * 2 + m * m = 2 * m * n + m := by
  induction m with
  | zero => simp
  | succ m ih =>
    have := ih (by omega)
    rw [List.range_succ, List.map_append, List.sum_append]
    simp only [List.map_cons, List.map_nil, List.sum_cons, List.sum_nil, Nat.add_zero]
    have e : n - m + m = n := by omega
    have h1 : (m + 1) * (m + 1) = m * m + 2 * m + 1 := by ring
    have h2 : 2 * (m + 1) * n = 2 * m * n + 2 * n := by ring
    rw [h1, h2]
    omega

theorem newSubstrings_length {s : List Int} {sa : List Nat} (hsa : IsSuffixArray s sa) :
    (newSubstrings s sa (buildLCPArray s sa)).length =
      s.length * (s.length + 1) / 2 - (buildLCPArray s sa).sum := by
  have hlcp : (buildLCPArray s sa).length = s.length := lcpLoop_length s sa s.length
  have hlen := isSuffixArray_length hsa
  unfold newSubstrings
  rw [List.length_flatMap]
  have e1 : (List.map (List.length ∘ fun p =>
      (List.range' ((buildLCPArray s sa).getD p 0)
        (s.length - sa.getD p 0 - (buildLCPArray s sa).getD p 0)).map
        (fun l => (s.drop (sa.getD p 0)).take (l + 1))) (List.range s.length)) =
      (List.range s.length).map
        (fun p => (s.length - sa.getD p 0) - (buildLCPArray s sa).getD p 0) := by
    apply List.map_congr_left
    intro p _
    simp only [Function.comp, List.length_map, List.length_range']
  rw [e1]
  have h1 := sum_map_sub (List.range s.length) (fun p => s.length - sa.getD p 0)
    (fun p => (buildLCPArray s sa).getD p 0)
    (fun p hp => lcp_le_suffix hsa (List.mem_range.mp hp))
  have h2 : ((List.range s.length).map (fun p => (buildLCPArray s sa).getD p 0)).sum =
      (buildLCPArray s sa).sum := by
    have := map_getD_range (buildLCPArray s sa)
    rw [hlcp] at this
    rw [this]
  have h3 : ((List.range s.length).map (fun p => s.length - sa.getD p 0)).sum =
      ((List.range s.length).map (fun a => s.length - a)).sum := by
    have e : (List.range s.length).map (fun p => s.length - sa.getD p 0) =
        sa.map (fun a => s.length - a) := by
      have := map_getD_range sa
      rw [hlen] at this
      conv_rhs => rw [← this]
      rw [List.map_map]
      rfl
    rw [e]
    exact (hsa.perm.map _).sum_eq
  have h4 := sum_range_sub s.length s.length (le_refl _)
  have h5 : s.length * (s.length + 1) = s.length * s.length + s.length := by ring
  have h6 : 2 * s.length * s.length = 2 * (s.length * s.length) := by ring
  rw [h2, h3] at h1
  rw [h6] at h4
  beta_reduce at h1
  have h7 : s.length * (s.length + 1) / 2 =
      ((List.range s.length).map (fun a => s.length - a)).sum := by
    rw [h5]
    omega
  rw [h7, ← h1, Nat.add_sub_cancel]

/-- The number of distinct non-empty substrings is `n * (n + 1) / 2` minus the sum
of the LCP array. -/
theorem distinct_substrings_count {s : List Int} {sa : List Nat} (hsa : IsSuffixArray s sa) :
    s.length * (s.length + 1) / 2 - (buildLCPArray s sa).sum = (substrings s).dedup.length := by
  rw [← newSubstrings_length hsa]
  apply List.Perm.length_eq
  apply (List.perm_ext_iff_of_nodup (newSubstrings_nodup hsa) (List.nodup_dedup _)).mpr
  intro w
  rw [List.mem_dedup, mem_substrings]
  constructor
  · intro hw
    obtain ⟨p, l, hp, _, hl, rfl⟩ := (mem_newSubstrings hsa w).mp hw
    exact ⟨sa.getD p 0, l, perm_getD_lt hsa.perm hp, hl, rfl⟩
  · rintro ⟨a, l, ha, hl, rfl⟩
    obtain ⟨p, hp, rfl⟩ := perm_getD_surj hsa.perm ha
    exact substring_is_new hsa p l hp hl

/-! ## The claims on the radix variant -/

/-- C12: for every non-empty text over the symbol codes `0, ..., 255` whose last
symbol is strictly smaller than every other symbol, the radix `buildSuffixArray` of
`suffix2.cpp` returns an array that lists the suffixes of the text in strictly
increasing lexicographic order, with the terminator position `n - 1` first. -/
theorem radix_ordered (s : List Int) (hs : ∀ c ∈ s, 0 ≤ c ∧ c ≤ 255) (hne : s ≠ [])
    (ht : HasTerminator s) :
    ∃ res, radixBuildSuffixArray s = some res ∧ res.length = s.length ∧
      (∀ i, i + 1 < s.length → SufLt s (res.getD i 0) (res.getD (i + 1) 0)) ∧
      res.Pairwise (SufLt s) ∧ res.getD 0 0 = s.length - 1 := by
  obtain ⟨res, h1, h2, h3, h4⟩ := radix_sorted hs (List.length_pos.mpr hne) ht
  have hlen : res.length = s.length := by rw [h2.length_eq, List.length_range]
  exact ⟨res, h1, hlen,
    fun i hi => pairwise_getD h3 (Nat.lt_succ_self i) (by rw [hlen]; exact hi), h3, h4⟩

set_option maxRecDepth 1000000 in
theorem radix_ordered_witness :
    ∃ res, radixBuildSuffixArray (codes "banana$") = some res ∧
      res.length = (codes "banana$").length ∧
      (∀ i, i + 1 < (codes "banana$").length →
        SufLt (codes "banana$") (res.getD i 0) (res.getD (i + 1) 0)) ∧
      res.Pairwise (SufLt (codes "banana$")) ∧ res.getD 0 0 = (codes "banana$").length - 1 :=
  radix_ordered (codes "banana$") (by decide) (by decide) (by decide)

/-- C13: for every non-empty text over the symbol codes `0, ..., 255`, with or
without a terminator, the radix `buildSuffixArray` of `suffix2.cpp` returns a
permutation of `0, ..., n - 1`. -/
theorem radix_permutation (s : List Int) (hs : ∀ c ∈ s, 0 ≤ c ∧ c ≤ 255) (hne : s ≠ []) :
    ∃ res, radixBuildSuffixArray s = some res ∧ res.length = s.length ∧
      res.Perm (List.range s.length) := by
  obtain ⟨res, _, h1, h2, _, _⟩ := radix_result hs (List.length_pos.mpr hne)
  exact ⟨res, h1, by rw [h2.length_eq, List.length_range], h2⟩

theorem radix_permutation_witness :
    ∃ res, radixBuildSuffixArray (codes "abab") = some res ∧
      res.length = (codes "abab").length ∧ res.Perm (List.range (codes "abab").length) :=
  radix_permutation (codes "abab") (by decide) (by decide)

set_option maxRecDepth 1000000 in
/-- C15: the text "abab", which has no unique terminator, is one on which the radix
variant and the comparator variant return different arrays: the radix variant
returns `[0, 2, 3, 1]`, and the comparator variant returns `[2, 0, 3, 1]` in every
run. -/
theorem abab_variants_differ :
    ¬ HasTerminator (codes "abab") ∧
      radixBuildSuffixArray (codes "abab") = some [0, 2, 3, 1] ∧
      buildSuffixArray (codes "abab") = [2, 0, 3, 1] ∧
      ∀ res, Runs (codes "abab") res → radixBuildSuffixArray (codes "abab") ≠ some res := by
  have h1 : radixBuildSuffixArray (codes "abab") = some [0, 2, 3, 1] := by decide!
  have h2 : buildSuffixArray (codes "abab") = [2, 0, 3, 1] := by decide
  refine ⟨by decide, h1, h2, ?_⟩
  intro res hrun
  rw [runs_unique (by decide) hrun (buildSuffixArray_runs _), h1, h2]
  decide

set_option maxRecDepth 1000000 in
/-- C16, evaluated at the token "a$": the string `s + "$"` that `main` passes is
"a$$", whose last character also occurs one place earlier, so it is not a unique
smallest terminator; the array computed is `[1, 2, 0]`, although the suffix at `2`
is smaller than the suffix at `1`. -/
theorem main_dollar_token :
    withDollar (codes "a$") = codes "a$$" ∧ ¬ HasTerminator (withDollar (codes "a$")) ∧
      radixBuildSuffixArray (withDollar (codes "a$")) = some [1, 2, 0] ∧
      SufLt (withDollar (codes "a$")) 2 1 ∧ ¬ SufLt (withDollar (codes "a$")) 1 2 := by
  refine ⟨by decide, by decide, by decide!, ?_, ?_⟩
  · unfold SufLt
    decide
  · unfold SufLt
    decide

/-! ## The claims on bounds and on the derived queries -/

theorem rounds_to_checked {n k : Nat} {σ σ' : State} (h : Rounds n k σ σ') (hσ : Shape n σ) :
    RoundsChecked n k σ (some σ') := by
  induction h with
  | exit hkn => exact RoundsChecked.exit hkn
  | step sorted hkn hsort _ ih =>
    exact RoundsChecked.step sorted hkn hsort (finishRoundChecked_eq hσ hsort.1 (by omega))
      (ih (finishRound_shape hσ hsort.1 (by omega)))

/-- C11: for every text, the empty text and the texts of length one included, the
comparator variant of `buildSuffixArray` never reads or writes a vector element
outside `0, ..., n - 1`: the initialisation with checked accesses succeeds, no run of
the doubling loop with checked accesses faults, whatever pairs of elements
`std::sort` compares, and the executable function with checked accesses returns the
same array.  On positions `a, b < n` the comparator itself never faults, and when
`a + k ≥ n`, where a read of `rank[a + k]` would be out of bounds, it uses the
sentinel `-1`. -/
theorem buildSuffixArray_in_bounds (s : List Int) :
    initChecked s = some (init s) ∧
      (∀ r, RoundsChecked s.length 1 (init s) r →
        ∃ σ, r = some σ ∧ Rounds s.length 1 (init s) σ) ∧
      (∀ σ, Rounds s.length 1 (init s) σ → RoundsChecked s.length 1 (init s) (some σ)) ∧
      buildSuffixArrayChecked s = some (buildSuffixArray s) ∧
      ∀ (k : Nat) (rank : List Int) (a b : Nat), rank.length = s.length → a < s.length →
        b < s.length →
        cmpChecked s.length k rank a b = some (cmp s.length k rank a b) ∧
          (s.length ≤ a + k → rank[a + k]? = none ∧ (key s.length k rank a).2 = -1) := by
  refine ⟨initChecked_eq s, fun r h => roundsChecked_some h (init_shape s),
    fun σ h => rounds_to_checked h (init_shape s), buildSuffixArrayChecked_eq s, ?_⟩
  intro k rank a b hr ha hb
  refine ⟨cmpChecked_eq _ k rank a b hr ha hb, ?_⟩
  intro hak
  refine ⟨List.getElem?_eq_none (by omega), ?_⟩
  unfold key
  simp only [if_neg (show ¬ a + k < s.length by omega)]

/-- C17: for every text `s` with non-negative symbol codes, the maximum entry of
`buildLCPArray(s, buildSuffixArray(s))` is the length of the longest string that
occurs as a substring of `s` at two different starting positions: no string that
occurs twice is longer, for `n ≥ 2` a string of that length occurs twice, and for
`n ≤ 1` the maximum is `0`. -/
theorem max_lcp_longest_repeat (s : List Int) (hs : ∀ c ∈ s, 0 ≤ c) (sa : List Nat)
    (hrun : Runs s sa) :
    (∀ L, Repeats s L → L ≤ (buildLCPArray s sa).foldl max 0) ∧
      (2 ≤ s.length → Repeats s ((buildLCPArray s sa).foldl max 0)) ∧
      (s.length ≤ 1 → (buildLCPArray s sa).foldl max 0 = 0) :=
  max_lcp_spec (runs_isSuffixArray hs hrun)

theorem max_lcp_longest_repeat_witness :
    (∀ L, Repeats (codes "banana") L →
        L ≤ (buildLCPArray (codes "banana") (buildSuffixArray (codes "banana"))).foldl max 0) ∧
      (2 ≤ (codes "banana").length → Repeats (codes "banana")
        ((buildLCPArray (codes "banana") (buildSuffixArray (codes "banana"))).foldl max 0)) ∧
      ((codes "banana").length ≤ 1 →
        (buildLCPArray (codes "banana") (buildSuffixArray (codes "banana"))).foldl max 0 = 0) :=
  max_lcp_longest_repeat (codes "banana") (by decide) _ (buildSuffixArray_runs _)

/-- C18: for every text `s` of length `n` with non-negative symbol codes,
`n * (n + 1) / 2` minus the sum of the entries of
`buildLCPArray(s, buildSuffixArray(s))` is the number of distinct non-empty
substrings of `s`. -/
theorem distinct_substrings (s : List Int) (hs : ∀ c ∈ s, 0 ≤ c) (sa : List Nat)
    (hrun : Runs s sa) :
    s.length * (s.length + 1) / 2 - (buildLCPArray s sa).sum = (substrings s).dedup.length :=
  distinct_substrings_count (runs_isSuffixArray hs hrun)

theorem distinct_substrings_witness :
    (codes "banana").length * ((codes "banana").length + 1) / 2 -
        (buildLCPArray (codes "banana") (buildSuffixArray (codes "banana"))).sum =
      (substrings (codes "banana")).dedup.length :=
  distinct_substrings (codes "banana") (by decide) _ (buildSuffixArray_runs _)

/-- A sequence that starts at `0` and grows by `0` or `1` stays below the index. -/
theorem chain_bounds {n : Nat} {f : Nat → Int} (h0 : f 0 = 0)
    (hs : ∀ i, 1 ≤ i → i < n → f i = f (i - 1) ∨ f i = f (i - 1) + 1) :
    ∀ i, i < n → 0 ≤ f i ∧ f i ≤ i := by
  intro i
  induction i with
  | zero => intro _; rw [h0]; exact ⟨le_refl _, by simp⟩
  | succ i ih =>
    intro hi
    obtain ⟨h1, h2⟩ := ih (by omega)
    have h3 := hs (i + 1) (by omega) hi
    rw [Nat.add_sub_cancel] at h3
    push_cast
    rcases h3 with h3 | h3 <;> rw [h3] <;> constructor <;> omega

/-- Such a sequence is monotone. -/
theorem chain_mono {n : Nat} {f : Nat → Int}
    (hs : ∀ i, 1 ≤ i → i < n → f i = f (i - 1) ∨ f i = f (i - 1) + 1) :
    ∀ j, j < n → ∀ i, i ≤ j → f i ≤ f j := by
  intro j
  induction j with
  | zero =>
    intro _ i hi
    have : i = 0 := by omega
    rw [this]
  | succ j ih =>
    intro hj i hi
    by_cases h : i = j + 1
    · rw [h]
    · have h1 := ih (by omega) i (by omega)
      have h3 := hs (j + 1) (by omega) hj
      rw [Nat.add_sub_cancel] at h3
      rcases h3 with h3 | h3 <;> rw [h3] <;> omega

/-- Such a sequence is the identity exactly when no two neighbours are equal. -/
theorem chain_id_iff {n : Nat} {f : Nat → Int} (h0 : f 0 = 0)
    (hs : ∀ i, 1 ≤ i → i < n → f i = f (i - 1) ∨ f i = f (i - 1) + 1) :
    (∀ i, i < n → f i = i) ↔ ∀ i, 1 ≤ i → i < n → f (i - 1) ≠ f i := by
  constructor
  · intro h i h1 hi
    rw [h i hi, h (i - 1) (by omega)]
    have : ((i - 1 : Nat) : Int) = (i : Int) - 1 := by omega
    rw [this]
    omega
  · intro h i
    induction i with
    | zero => intro _; rw [h0]; rfl
    | succ i ih =>
      intro hi
      have h1 := ih (by omega)
      have h2 := h (i + 1) (by omega) hi
      have h3 := hs (i + 1) (by omega) hi
      rw [Nat.add_sub_cancel] at h2 h3
      push_cast
      rcases h3 with h3 | h3
      · exact absurd h3.symm h2
      · rw [h3, h1]

/-- Such a sequence takes every value between `0` and its last value. -/
theorem chain_dense {n : Nat} {f : Nat → Int} (h0 : f 0 = 0)
    (hs : ∀ i, 1 ≤ i → i < n → f i = f (i - 1) ∨ f i = f (i - 1) + 1) :
    ∀ j, j < n → ∀ v : Int, 0 ≤ v → v ≤ f j → ∃ i, i ≤ j ∧ f i = v := by
  intro j
  induction j with
  | zero =>
    intro _ v hv hv'
    exact ⟨0, le_refl _, by omega⟩
  | succ j ih =>
    intro hj v hv hv'
    have h3 := hs (j + 1) (by omega) hj
    rw [Nat.add_sub_cancel] at h3
    by_cases h : v = f (j + 1)
    · exact ⟨j + 1, le_refl _, h.symm⟩
    · obtain ⟨i, hi, hfi⟩ := ih (by omega) v hv (by rcases h3 with h3 | h3 <;> omega)
      exact ⟨i, by omega, hfi⟩

/-- The shape of the state is kept from round to round. -/
theorem reaches_shape {n k k' : Nat} {σ σ' : State} (h : Reaches n k σ k' σ')
    (hσ : Shape n σ) : Shape n σ' := by
  induction h with
  | here => exact hσ
  | step sorted hkn hsort _ ih => exact ih (finishRound_shape hσ hsort.1 (by omega))

/-- The rank update of a round leaves a chain. -/
theorem finishRound_chain {n k : Nat} {σ : State} (hσ : Shape n σ) {sorted : List Nat}
    (hsort : sorted.Perm σ.suffixArray) (hn : 0 < n) : Chain n (finishRound n k σ sorted) := by
  obtain ⟨_, h2, h3⟩ :=
    updateRank_spec n k σ.rank sorted σ.temp (hsort.trans hσ.perm) hσ.tempLen hn
  refine ⟨h2, ?_⟩
  intro i h1 hi
  have h4 := h3 i h1 hi
  show (updateRank n k σ.rank sorted σ.temp).getD (sorted.getD i 0) 0 = _ ∨
    (updateRank n k σ.rank sorted σ.temp).getD (sorted.getD i 0) 0 = _
  rw [h4]
  by_cases hc : cmp n k σ.rank (sorted.getD (i - 1) 0) (sorted.getD i 0) = true
  · right; rw [if_pos hc]; rfl
  · left; rw [if_neg hc, add_zero]; rfl

/-- The state after any round is a chain on a permutation. -/
theorem afterRound_chain {s : List Int} {k : Nat} {σ : State} (h : AfterRound s k σ) :
    Shape s.length σ ∧ Chain s.length σ := by
  obtain ⟨σ₀, sorted, hr, hk, hsort, rfl⟩ := h
  have hsh := reaches_shape hr (init_shape s)
  exact ⟨finishRound_shape hsh hsort.1 (by omega), finishRound_chain hsh hsort.1 (by omega)⟩

/-- After any round: `rank[suffixArray[0]] = 0`, `0 ≤ rank[suffixArray[i]] ≤ i`, and
`rank[suffixArray[i]] = i` for every `i` exactly when no two neighbours in the array
have the same rank. -/
theorem afterRound_rankAt {s : List Int} {k : Nat} {σ : State} (h : AfterRound s k σ) :
    rankAt σ 0 = 0 ∧ (∀ i, i < s.length → 0 ≤ rankAt σ i ∧ rankAt σ i ≤ i) ∧
      ((∀ i, i < s.length → rankAt σ i = i) ↔
        ∀ i, 1 ≤ i → i < s.length → rankAt σ (i - 1) ≠ rankAt σ i) := by
  obtain ⟨_, h0, hs⟩ := afterRound_chain h
  exact ⟨h0, chain_bounds h0 hs, chain_id_iff h0 hs⟩

/-- The insertion-sort run reaches the state after `m` rounds of `doubling`. -/
theorem doubling_reaches (n : Nat) (m k : Nat) (σ : State) (hk : 2 ^ m * k < 2 * n) (hk1 : 1 ≤ k) :
    Reaches n k σ (2 ^ m * k) (doubling n m k σ) := by
  induction m generalizing k σ with
  | zero =>
    rw [pow_zero, one_mul]
    exact Reaches.here
  | succ m ih =>
    have h2 : 2 ^ (m + 1) * k = 2 ^ m * (2 * k) := by ring
    have hpos : 1 ≤ 2 ^ m := Nat.one_le_two_pow
    have hkn : k < n := by
      have : 2 ^ m * (2 * k) ≥ 1 * (2 * k) := Nat.mul_le_mul_right _ hpos
      omega
    rw [h2]
    unfold doubling
    rw [if_pos hkn]
    exact Reaches.step _ hkn (sortBy_isSortOf (cmp_strictWeak n k σ.rank) σ.suffixArray)
      (ih (2 * k) _ (by omega) (by omega))

/-- The invariant of the loop head holds at every head that a run reaches. -/
theorem reaches_inv {s : List Int} {n k k' : Nat} {σ σ' : State} (h : Reaches n k σ k' σ')
    (hn : n = s.length) (hk : 1 ≤ k) (hσ : StateInv s k σ) : 1 ≤ k' ∧ StateInv s k' σ' := by
  induction h with
  | here => exact ⟨hk, hσ⟩
  | step sorted hkn hsort _ ih =>
    subst hn
    exact ih (by omega) (finishRound_inv hk hkn hσ hsort).1

/-- After the round with offset `k` the ranks compare like the prefixes of length
`2 * k`, and the array is sorted by these prefixes. -/
theorem afterRound_inv {s : List Int} (hs : ∀ c ∈ s, 0 ≤ c) {k : Nat} {σ : State}
    (h : AfterRound s k σ) :
    1 ≤ k ∧ StateInv s (2 * k) σ ∧ PreSorted s (2 * k) σ.suffixArray := by
  obtain ⟨σ₀, sorted, hr, hk, hsort, rfl⟩ := h
  obtain ⟨h1, h2⟩ := reaches_inv hr rfl (le_refl 1) (init_stateInv s hs)
  exact ⟨h1, finishRound_inv h1 hk h2 hsort⟩

/-- The ranks after a round: equal for equal prefixes of length `2 * k`, ordered
like these prefixes, and filling the interval from `0` to the rank of the last
entry of the array. -/
theorem afterRound_classes {s : List Int} (hs : ∀ c ∈ s, 0 ≤ c) {k : Nat} {σ : State}
    (h : AfterRound s k σ) :
    (∀ a b, a < s.length → b < s.length →
      (σ.rank.getD a 0 = σ.rank.getD b 0 ↔ pre s (2 * k) a = pre s (2 * k) b) ∧
      (σ.rank.getD a 0 < σ.rank.getD b 0 ↔
        List.Lex (· < ·) (pre s (2 * k) a) (pre s (2 * k) b))) ∧
      ∀ v : Int, (∃ a, a < s.length ∧ σ.rank.getD a 0 = v) ↔
        (0 ≤ v ∧ v < rankAt σ (s.length - 1) + 1) := by
  obtain ⟨hk, hinv, _⟩ := afterRound_inv hs h
  obtain ⟨hsh, h0, hstep⟩ := afterRound_chain h
  have hn : 0 < s.length := by
    obtain ⟨_, _, _, hkn, _, _⟩ := h
    omega
  refine ⟨fun a b ha hb => ⟨rankInv_eq_iff hinv.rankInv ha hb, hinv.rankInv.2.2 a b ha hb⟩, ?_⟩
  intro v
  constructor
  · rintro ⟨a, ha, rfl⟩
    obtain ⟨i, hi, rfl⟩ := perm_getD_surj hsh.perm ha
    have h1 := (chain_bounds h0 hstep i hi).1
    have h2 := chain_mono hstep (s.length - 1) (by omega) i (by omega)
    exact ⟨h1, by
      show rankAt σ i < _
      omega⟩
  · rintro ⟨hv, hv'⟩
    obtain ⟨i, hi, hfi⟩ := chain_dense h0 hstep (s.length - 1) (by omega) v hv (by omega)
    exact ⟨σ.suffixArray.getD i 0, perm_getD_lt hsh.perm (by omega), hfi⟩

/-- A chain stays a chain until the loop ends. -/
theorem rounds_chain {n k : Nat} {σ σ' : State} (h : Rounds n k σ σ') (hσ : Shape n σ)
    (hc : Chain n σ) : Shape n σ' ∧ Chain n σ' := by
  induction h with
  | exit _ => exact ⟨hσ, hc⟩
  | step sorted hkn hsort _ ih =>
    exact ih (finishRound_shape hσ hsort.1 (by omega)) (finishRound_chain hσ hsort.1 (by omega))

/-- When the loop ends on a text of at least two symbols, the ranks are pairwise
distinct and `rank` is the inverse of `suffixArray`. -/
theorem rounds_final {s : List Int} (hs : ∀ c ∈ s, 0 ≤ c) (hn : 2 ≤ s.length) {σ : State}
    (h : Rounds s.length 1 (init s) σ) :
    (∀ a b, a < s.length → b < s.length → a ≠ b → σ.rank.getD a 0 ≠ σ.rank.getD b 0) ∧
      (∀ i, i < s.length → σ.rank.getD (σ.suffixArray.getD i 0) 0 = i) ∧
      σ.rank = (buildRank s.length σ.suffixArray).map (fun x : Nat => (x : Int)) := by
  cases h with
  | exit hkn => exact absurd (by omega) hkn
  | step sorted hkn hsort hrest =>
    obtain ⟨h1, h2⟩ := finishRound_inv (le_refl 1) hkn (init_stateInv s hs) hsort
    obtain ⟨k', hk', h3, _⟩ := rounds_inv hrest rfl (by omega) h1 h2
    have hsh0 := init_shape s
    obtain ⟨hsh, h0, hstep⟩ := rounds_chain hrest (finishRound_shape hsh0 hsort.1 (by omega))
      (finishRound_chain hsh0 hsort.1 (by omega))
    have hinj : ∀ a b, a < s.length → b < s.length → a ≠ b →
        σ.rank.getD a 0 ≠ σ.rank.getD b 0 := by
      intro a b ha hb hab heq
      have := (rankInv_eq_iff h3.rankInv ha hb).mp heq
      rw [pre_of_le s k' a hk', pre_of_le s k' b hk'] at this
      exact drop_ne_drop s ha hb hab this
    have hid : ∀ i, i < s.length → rankAt σ i = i := by
      refine (chain_id_iff h0 hstep).mpr ?_
      intro i hi1 hi
      refine hinj _ _ (perm_getD_lt hsh.perm (by omega)) (perm_getD_lt hsh.perm hi) ?_
      intro heq
      have := perm_getD_inj hsh.perm (by omega) hi heq
      omega
    refine ⟨hinj, hid, ?_⟩
    apply List.ext_getElem
    · rw [List.length_map, buildRank_length _ _ hsh.perm, hsh.rankLen]
    · intro a ha _
      have ha' : a < s.length := by rw [← hsh.rankLen]; exact ha
      obtain ⟨i, hi, hia⟩ := perm_getD_surj hsh.perm ha'
      have e1 : σ.rank[a] = σ.rank.getD a 0 := (List.getD_eq_getElem _ _ ha).symm
      have e2 := buildRank_sa s.length σ.suffixArray hsh.perm hi
      have e3 := hid i hi
      unfold rankAt at e3
      rw [hia] at e2 e3
      have hb : a < (buildRank s.length σ.suffixArray).length := by
        rw [buildRank_length _ _ hsh.perm]; exact ha'
      have e4 : (buildRank s.length σ.suffixArray)[a] =
          (buildRank s.length σ.suffixArray).getD a 0 :=
        (List.getD_eq_getElem _ _ hb).symm
      rw [List.getElem_map, e1, e3, e4, e2]

/-- When `rank[suffixArray[i]] = i` holds for every `i` after a round, the ranks are
pairwise distinct. -/
theorem rankAt_id_injective {n : Nat} {σ : State} (hp : σ.suffixArray.Perm (List.range n))
    (hid : ∀ i, i < n → rankAt σ i = i) {a b : Nat} (ha : a < n) (hb : b < n)
    (h : σ.rank.getD a 0 = σ.rank.getD b 0) : a = b := by
  obtain ⟨i, hi, rfl⟩ := perm_getD_surj hp ha
  obtain ⟨j, hj, rfl⟩ := perm_getD_surj hp hb
  have h1 := hid i hi
  have h2 := hid j hj
  unfold rankAt at h1 h2
  rw [h1, h2] at h
  have : i = j := by omega
  rw [this]

/-- On `"aaaa"` the positions `0` and `1` start the same two symbols, so no run has
`rank` as the inverse of `suffixArray` after the first round. -/
theorem aaaa_first_round {σ : State} (h : AfterRound (codes "aaaa") 1 σ) :
    ¬ ∀ i, i < 4 → rankAt σ i = i := by
  intro hid
  have hs : ∀ c ∈ codes "aaaa", (0 : Int) ≤ c := by decide
  have h1 := ((afterRound_classes hs h).1 0 1 (by decide) (by decide)).1.mpr (by decide)
  have h2 := rankAt_id_injective (afterRound_chain h).1.perm hid (by decide) (by decide) h1
  exact absurd h2 (by decide)

/-- The first round of the insertion-sort run on `"banana"`. -/
theorem banana_first_round :
    AfterRound (codes "banana") 1 (doubling 6 1 1 (init (codes "banana"))) :=
  ⟨init (codes "banana"), sortBy (cmp 6 1 (init (codes "banana")).rank)
    (init (codes "banana")).suffixArray, Reaches.here, by decide,
    sortBy_isSortOf (cmp_strictWeak _ _ _) _, by decide⟩

/-- The first round of the insertion-sort run on `"aaaa"`. -/
theorem aaaa_insertion_round :
    AfterRound (codes "aaaa") 1 (doubling 4 1 1 (init (codes "aaaa"))) :=
  ⟨init (codes "aaaa"), sortBy (cmp 4 1 (init (codes "aaaa")).rank)
    (init (codes "aaaa")).suffixArray, Reaches.here, by decide,
    sortBy_isSortOf (cmp_strictWeak _ _ _) _, by decide⟩

/-! ## The carried match length of `buildLCPArray` -/

/-- The entry at the rank of a position is the common prefix of its suffix with the
suffix before it in the array. -/
theorem lcp_at_rank {s : List Int} {sa : List Nat} (hsa : IsSuffixArray s sa) {a : Nat}
    (ha : a < s.length) (hr : 0 < (buildRank s.length sa).getD a 0) :
    (buildLCPArray s sa).getD ((buildRank s.length sa).getD a 0) 0 =
      lcpLen (s.drop a) (s.drop (sa.getD ((buildRank s.length sa).getD a 0 - 1) 0)) := by
  rw [buildLCPArray_eq_lcpLen hsa hr (buildRank_lt _ _ hsa.perm ha),
    sa_buildRank _ _ hsa.perm ha, lcpLen_comm]

/-- The entry at rank `0` is never written. -/
theorem lcp_at_zero (s : List Int) (sa : List Nat) : (buildLCPArray s sa).getD 0 0 = 0 :=
  lcpLoop_zero s sa s.length

/-- After the pass for a position of positive rank, `h` is the entry just written
minus one, clamped at `0`. -/
theorem lcpLoop_carry {s : List Int} {sa : List Nat} (hsa : IsSuffixArray s sa) {i : Nat}
    (hi : i < s.length) (hr : 0 < (buildRank s.length sa).getD i 0) :
    (lcpLoop s sa (i + 1)).h =
      (buildLCPArray s sa).getD ((buildRank s.length sa).getD i 0) 0 - 1 := by
  have inv := lcpLoop_inv hsa i (by omega)
  have hle := kasaiInv_carry_le hsa inv hi hr
  rw [lcpLoop_succ, lcp_at_rank hsa hi hr]
  unfold lcpStep
  rw [if_pos hr]
  show (if extend s s.length i _ s.length (lcpLoop s sa i).h > 0 then _ else _) = _
  rw [extend_eq_lcpLen s i _ _ hle]
  split <;> omega

/-- The entry at the rank of `i + 1` is at least the entry at the rank of `i`
minus one. -/
theorem lcp_degrades_slowly {s : List Int} {sa : List Nat} (hsa : IsSuffixArray s sa) {i : Nat}
    (hi : i + 1 < s.length) :
    ((buildLCPArray s sa).getD ((buildRank s.length sa).getD i 0) 0 : Int) - 1 ≤
      (buildLCPArray s sa).getD ((buildRank s.length sa).getD (i + 1) 0) 0 := by
  by_cases hr : 0 < (buildRank s.length sa).getD i 0
  · have h1 := lcpLoop_carry hsa (show i < s.length by omega) hr
    have inv := lcpLoop_inv hsa (i + 1) (by omega)
    by_cases hr' : 0 < (buildRank s.length sa).getD (i + 1) 0
    · have h2 := kasaiInv_carry_le hsa inv hi hr'
      rw [← lcp_at_rank hsa hi hr'] at h2
      omega
    · have h2 := kasaiInv_carry_zero hsa inv (by omega)
      omega
  · have h0 : (buildRank s.length sa).getD i 0 = 0 := by omega
    rw [h0, lcp_at_zero]
    omega

/-! ## The variant that decrements in every pass -/

theorem lcpLoopAlt_succ (s : List Int) (sa : List Nat) (m : Nat) :
    lcpLoopAlt s sa (m + 1) =
      lcpStepAlt s s.length sa (buildRank s.length sa) (lcpLoopAlt s sa m) m := by
  unfold lcpLoopAlt
  rw [List.range_succ, List.foldl_append]
  rfl

/-- A pass for a position of rank `0` changes nothing. -/
theorem lcpStep_rank_zero (s : List Int) (n : Nat) (sa rank : List Nat) (st : LcpState)
    (i : Nat) (hr : rank.getD i 0 = 0) : lcpStep s n sa rank st i = st := by
  unfold lcpStep
  rw [if_neg (by omega)]

/-- The two bodies agree when the rank is positive, and when `h = 0`. -/
theorem lcpStepAlt_eq (s : List Int) (n : Nat) (sa rank : List Nat) (st : LcpState) (i : Nat)
    (h : 0 < rank.getD i 0 ∨ st.h = 0) :
    lcpStepAlt s n sa rank st i = lcpStep s n sa rank st i := by
  unfold lcpStepAlt lcpStep
  by_cases hr : rank.getD i 0 > 0
  · simp only [if_pos hr]
  · have h0 : st.h = 0 := by
      rcases h with h | h
      · exact absurd h hr
      · exact h
    simp only [if_neg hr]
    cases st with
    | mk lcp hh =>
      simp only at h0
      subst h0
      rfl

/-- The variant goes through the same states as `buildLCPArray`. -/
theorem lcpLoopAlt_eq {s : List Int} {sa : List Nat} (hsa : IsSuffixArray s sa) (m : Nat)
    (hm : m ≤ s.length) : lcpLoopAlt s sa m = lcpLoop s sa m := by
  induction m with
  | zero => rfl
  | succ m ih =>
    rw [lcpLoopAlt_succ, lcpLoop_succ, ih (by omega)]
    apply lcpStepAlt_eq
    by_cases hr : 0 < (buildRank s.length sa).getD m 0
    · exact Or.inl hr
    · exact Or.inr (kasaiInv_carry_zero hsa (lcpLoop_inv hsa m (by omega)) (by omega))

/-- The carried `h` is `0` at the position of rank `0`, the variant goes through the
same states, and it returns the same vector. -/
theorem lcpAlt_spec {s : List Int} {sa : List Nat} (hsa : IsSuffixArray s sa) :
    (∀ i, (buildRank s.length sa).getD i 0 = 0 → i < s.length → (lcpLoop s sa i).h = 0) ∧
      (∀ m, m ≤ s.length → lcpLoopAlt s sa m = lcpLoop s sa m) ∧
      buildLCPArrayAlt s sa = buildLCPArray s sa := by
  refine ⟨?_, fun m hm => lcpLoopAlt_eq hsa m hm, ?_⟩
  · intro i hr hi
    exact kasaiInv_carry_zero hsa (lcpLoop_inv hsa i (by omega)) hr
  · unfold buildLCPArrayAlt buildLCPArray
    rw [lcpLoopAlt_eq hsa s.length (le_refl _)]

/-! ## The work of `buildLCPArray` -/

/-- The inner loop returns its start value plus the number of its increments. -/
theorem extend_eq_steps (s : List Int) (n i j fuel h : Nat) :
    extend s n i j fuel h = h + extendSteps s n i j fuel h := by
  induction fuel generalizing h with
  | zero => rfl
  | succ fuel ih =>
    unfold extend extendSteps
    split
    · rw [ih]; omega
    · rfl

/-- The inner loop never takes `h` beyond `n`. -/
theorem extend_le (s : List Int) (n i j fuel h : Nat) (hh : h ≤ n) :
    extend s n i j fuel h ≤ n := by
  induction fuel generalizing h with
  | zero => exact hh
  | succ fuel ih =>
    unfold extend
    split
    · rename_i hc
      exact ih (h + 1) (by omega)
    · exact hh

theorem lcpStep_h_le (s : List Int) (n : Nat) (sa rank : List Nat) (st : LcpState) (i : Nat)
    (hh : st.h ≤ n) : (lcpStep s n sa rank st i).h ≤ n := by
  unfold lcpStep
  split
  · have := extend_le s n i (sa.getD (rank.getD i 0 - 1) 0) n st.h hh
    show (if extend s n i _ n st.h > 0 then _ else _) ≤ n
    split <;> omega
  · exact hh

/-- At the head of every pass `h` is at most `n`. -/
theorem lcpLoop_h_le (s : List Int) (sa : List Nat) (m : Nat) :
    (lcpLoop s sa m).h ≤ s.length := by
  induction m with
  | zero => exact Nat.zero_le _
  | succ m ih =>
    rw [lcpLoop_succ]
    exact lcpStep_h_le _ _ _ _ _ _ ih

/-- A pass decrements `h` at most once after its increments. -/
theorem lcpStep_work (s : List Int) (n : Nat) (sa rank : List Nat) (st : LcpState) (i : Nat) :
    st.h + lcpStepWork s n sa rank st i ≤ (lcpStep s n sa rank st i).h + 1 := by
  unfold lcpStep lcpStepWork
  split
  · have := extend_eq_steps s n i (sa.getD (rank.getD i 0 - 1) 0) n st.h
    show _ ≤ (if extend s n i _ n st.h > 0 then _ else _) + 1
    split <;> omega
  · omega

/-- The increments of the first `m` passes are paid for by `h` and by one decrement
for each pass. -/
theorem lcpWork_le (s : List Int) (sa : List Nat) (m : Nat) :
    lcpWork s sa m ≤ (lcpLoop s sa m).h + m := by
  induction m with
  | zero => exact Nat.zero_le _
  | succ m ih =>
    have h1 := lcpStep_work s s.length sa (buildRank s.length sa) (lcpLoop s sa m) m
    rw [lcpLoop_succ]
    unfold lcpWork
    omega

/-- The inner loop is entered `2 * n` times at most, and `h` is at most `n` at the
head of every pass and at the end of every inner loop. -/
theorem lcpWork_linear (s : List Int) (sa : List Nat) :
    lcpWork s sa s.length ≤ 2 * s.length ∧
      (∀ m, (lcpLoop s sa m).h ≤ s.length) ∧
      ∀ m j, extend s s.length m j s.length (lcpLoop s sa m).h ≤ s.length := by
  refine ⟨?_, lcpLoop_h_le s sa, fun m j => extend_le _ _ _ _ _ _ (lcpLoop_h_le s sa m)⟩
  have h1 := lcpWork_le s sa s.length
  have h2 := lcpLoop_h_le s sa s.length
  omega

/-- On an array that is not the sorted one the variant can return another vector:
the equality rests on `h = 0` at the position of rank `0`. -/
theorem lcpAlt_differs_unsorted :
    buildLCPArrayAlt (codes "aaaa") [2, 0, 1, 3] ≠ buildLCPArray (codes "aaaa") [2, 0, 1, 3] := by
  decide

/-! ## `buildLCPArray` stays inside its vectors -/

theorem buildRankStepChecked_eq (n : Nat) (sa : List Nat) (hp : sa.Perm (List.range n))
    (r : List Nat) (i : Nat) (hr : r.length = n) (hi : i < n) :
    buildRankStepChecked sa r i = some (r.set (sa.getD i 0) i) := by
  have hlen : sa.length = n := by rw [hp.length_eq, List.length_range]
  have hx := perm_getD_lt hp hi
  unfold buildRankStepChecked
  rw [getElem?_eq_some_getD sa i 0 (by omega)]
  simp only [Option.bind_eq_bind, Option.some_bind]
  exact setChecked_eq _ _ _ (by omega)

theorem buildRankChecked_eq (n : Nat) (sa : List Nat) (hp : sa.Perm (List.range n)) :
    buildRankChecked n sa = some (buildRank n sa) := by
  unfold buildRankChecked buildRank
  exact (foldlM_eq_some (fun r i => r.set (sa.getD i 0) i) (buildRankStepChecked sa)
    (fun r => r.length = n) _
    (fun r i hi hr => by
      rw [List.mem_range] at hi
      exact ⟨buildRankStepChecked_eq n sa hp r i hr hi, (List.length_set _ _ _).trans hr⟩)
    _ (List.length_replicate _ _)).1

/-- With fuel for every remaining symbol the checked inner loop ends, having read
`s` inside the text only. -/
theorem extendChecked_eq (s : List Int) (i j fuel h : Nat) (hf : s.length ≤ h + fuel) :
    extendChecked s s.length i j fuel h = some (extend s s.length i j fuel h) := by
  induction fuel generalizing h with
  | zero =>
    unfold extendChecked extend
    rw [if_neg (by omega)]
    rfl
  | succ fuel ih =>
    unfold extendChecked extend
    by_cases hc : i + h < s.length ∧ j + h < s.length
    · rw [if_pos hc, getElem?_eq_some_getD s (i + h) 0 hc.1,
        getElem?_eq_some_getD s (j + h) 0 hc.2]
      simp only [Option.bind_eq_bind, Option.some_bind]
      by_cases he : s.getD (i + h) 0 = s.getD (j + h) 0
      · rw [if_pos he, if_pos ⟨hc.1, hc.2, he⟩]
        exact ih (h + 1) (by omega)
      · rw [if_neg he, if_neg (fun hh => he hh.2.2)]
        rfl
    · rw [if_neg hc, if_neg (fun hh => hc ⟨hh.1, hh.2.1⟩)]
      rfl

theorem lcpStepChecked_eq (s : List Int) (sa : List Nat) (hp : sa.Perm (List.range s.length))
    (st : LcpState) (i : Nat) (hl : st.lcp.length = s.length) (hi : i < s.length) :
    lcpStepChecked s s.length sa (buildRank s.length sa) st i =
      some (lcpStep s s.length sa (buildRank s.length sa) st i) := by
  have hlen : sa.length = s.length := by rw [hp.length_eq, List.length_range]
  have hrl := buildRank_length s.length sa hp
  have hr := buildRank_lt s.length sa hp hi
  unfold lcpStepChecked lcpStep
  rw [getElem?_eq_some_getD (buildRank s.length sa) i 0 (by omega)]
  simp only [Option.bind_eq_bind, Option.some_bind]
  by_cases hpos : (buildRank s.length sa).getD i 0 > 0
  · rw [if_pos hpos, if_pos hpos, getElem?_eq_some_getD sa _ 0 (by omega)]
    simp only [Option.some_bind]
    rw [extendChecked_eq s i _ s.length st.h (by omega)]
    simp only [Option.some_bind]
    rw [setChecked_eq _ _ _ (by omega)]
    rfl
  · rw [if_neg hpos, if_neg hpos]
    rfl

/-- For a permutation of the positions the checked function returns what the
unchecked one computes. -/
theorem buildLCPArrayChecked_eq (s : List Int) (sa : List Nat)
    (hp : sa.Perm (List.range s.length)) :
    buildLCPArrayChecked s sa = some (buildLCPArray s sa) := by
  unfold buildLCPArrayChecked
  rw [buildRankChecked_eq s.length sa hp]
  simp only [Option.bind_eq_bind, Option.some_bind]
  rw [(foldlM_eq_some (lcpStep s s.length sa (buildRank s.length sa))
    (lcpStepChecked s s.length sa (buildRank s.length sa))
    (fun st => st.lcp.length = s.length) (List.range s.length)
    (fun st i hi hl => by
      rw [List.mem_range] at hi
      exact ⟨lcpStepChecked_eq s sa hp st i hl hi, (lcpStep_length _ _ _ _ _ _).trans hl⟩)
    _ (List.length_replicate _ _)).1]
  rfl

/-- The checked function does detect an index outside a vector: with the entry `7`
in an array for a text of two symbols, the write `rank[7] = 1` is refused. -/
theorem buildLCPArrayChecked_fault : buildLCPArrayChecked (codes "ab") [0, 7] = none := by
  decide

/-! ## The order of tied positions in the radix variant -/

theorem before_filter (l : List Nat) (f : Nat → Bool) {p q : Nat} (hp : f p = true)
    (hq : f q = true) : Before (l.filter f) p q ↔ Before l p q := by
  unfold Before
  constructor
  · intro h
    exact h.trans (List.filter_sublist l)
  · intro h
    have h1 := h.filter f
    have e : [p, q].filter f = [p, q] := by simp [hp, hq]
    rw [e] at h1
    exact h1

/-- The items of one key are, in the bucket sort, the items of that key in their
order in the input. -/
theorem bucketSort_filter (K : Nat) (key : Nat → Nat) (ys : List Nat) (c : Nat) (hc : c < K) :
    (bucketSort K key ys).filter (fun y => decide (key y = c)) =
      ys.filter (fun y => decide (key y = c)) := by
  induction K with
  | zero => omega
  | succ K ih =>
    rw [bucketSort_succ, List.filter_append, List.filter_filter]
    by_cases hK : c = K
    · subst hK
      have e1 : (bucketSort c key ys).filter (fun y => decide (key y = c)) = [] := by
        rw [List.filter_eq_nil_iff]
        intro a ha
        have := (mem_bucketSort ha).1
        simp only [decide_eq_true_eq]
        omega
      rw [e1, List.nil_append]
      apply List.filter_congr
      intro x _
      simp
    · have e2 : ys.filter (fun a => decide (key a = c) && decide (key a = K)) = [] := by
        rw [List.filter_eq_nil_iff]
        intro a _
        simp only [Bool.and_eq_true, decide_eq_true_eq]
        omega
      rw [ih (by omega), e2, List.append_nil]

/-- Two items of the same key keep the order of the input. -/
theorem before_bucketSort (K : Nat) (key : Nat → Nat) (ys : List Nat) {p q : Nat}
    (hpq : key p = key q) (hK : key p < K) :
    Before (bucketSort K key ys) p q ↔ Before ys p q := by
  rw [← before_filter (bucketSort K key ys) (fun y => decide (key y = key p)) (by simp)
    (by simp [hpq]), bucketSort_filter K key ys (key p) hK,
    before_filter ys (fun y => decide (key y = key p)) (by simp) (by simp [hpq])]

theorem before_map (l : List Nat) (f g : Nat → Nat) {p q : Nat} (hgf : ∀ x ∈ l, g (f x) = x)
    (hp : f (g p) = p) (hq : f (g q) = q) :
    Before (l.map f) p q ↔ Before l (g p) (g q) := by
  unfold Before
  constructor
  · intro h
    have h1 := h.map g
    have e : (l.map f).map g = l := by
      rw [List.map_map]
      conv_rhs => rw [← List.map_id l]
      apply List.map_congr_left
      intro x hx
      exact hgf x hx
    rw [e] at h1
    exact h1
  · intro h
    have h1 := h.map f
    simp only [List.map_cons, List.map_nil, hp, hq] at h1
    exact h1

theorem before_of_pairwise {R : Nat → Nat → Prop} {l : List Nat} (h : l.Pairwise R) {p q : Nat}
    (hb : Before l p q) : R p q := by
  have := h.sublist hb
  rw [List.pairwise_pair] at this
  exact this

theorem before_total {l : List Nat} {p q : Nat} (hp : p ∈ l) (hq : q ∈ l) (hpq : p ≠ q) :
    Before l p q ∨ Before l q p := by
  unfold Before
  induction l with
  | nil => cases hp
  | cons x xs ih =>
    by_cases h1 : p = x
    · subst h1
      have hq' : q ∈ xs := by
        rcases List.mem_cons.mp hq with h | h
        · exact absurd h.symm hpq
        · exact h
      exact Or.inl (List.Sublist.cons₂ _ (List.singleton_sublist.mpr hq'))
    · have hp' : p ∈ xs := by
        rcases List.mem_cons.mp hp with h | h
        · exact absurd h h1
        · exact h
      by_cases h2 : q = x
      · subst h2
        exact Or.inr (List.Sublist.cons₂ _ (List.singleton_sublist.mpr hp'))
      · have hq' : q ∈ xs := by
          rcases List.mem_cons.mp hq with h | h
          · exact absurd h h2
          · exact h
        rcases ih hp' hq' with h | h
        · exact Or.inl (List.Sublist.cons _ h)
        · exact Or.inr (List.Sublist.cons _ h)

/-- In the reversed list of the positions the larger position comes first. -/
theorem before_reverse_range {n p q : Nat} (hp : p < n) (hq : q < n) (hpq : p ≠ q) :
    Before (List.range n).reverse p q ↔ q < p := by
  have hpw : (List.range n).reverse.Pairwise (fun a b => b < a) := by
    rw [List.pairwise_reverse]
    exact List.pairwise_lt_range n
  constructor
  · exact before_of_pairwise hpw
  · intro h
    rcases before_total (l := (List.range n).reverse)
      (List.mem_reverse.mpr (List.mem_range.mpr hp))
      (List.mem_reverse.mpr (List.mem_range.mpr hq)) hpq with h1 | h1
    · exact h1
    · have := before_of_pairwise hpw h1
      omega

/-- A position does not stand before itself in a list without repetitions. -/
theorem not_before_self {l : List Nat} (hnd : l.Nodup) (p : Nat) : ¬ Before l p p := by
  intro h
  have := hnd.sublist h
  simp at this

theorem unshift_mod_add {n h p : Nat} (hp : p < n) (hh : h < n) :
    unshift n h ((p + h) % n) = p := by
  by_cases hlt : p + h < n
  · rw [Nat.mod_eq_of_lt hlt]
    unfold unshift
    split <;> omega
  · have e : (p + h) % n = p + h - n := by
      rw [Nat.mod_eq_sub_mod (by omega), Nat.mod_eq_of_lt (by omega)]
    rw [e]
    unfold unshift
    split <;> omega

/-- The array after a round is the stable bucket sort, by class, of the shifted
array. -/
theorem radixRound_suffixArray {s : List Int} {h : Nat} {σ : RadixState}
    (inv : RadixInv s h σ) (hh : h < s.length) :
    (radixRound s.length h σ).suffixArray =
      bucketSort σ.numClasses (fun x => σ.classes.getD x 0)
        (σ.suffixArray.map (unshift s.length h)) := by
  have hsalen : σ.suffixArray.length = s.length := by
    rw [inv.perm.length_eq, List.length_range]
  have htsa : shiftLoop s.length h σ.suffixArray σ.tempSuffixArray =
      σ.suffixArray.map (unshift s.length h) :=
    shiftLoop_eq_map _ _ _ _ hsalen inv.tempLen
  have htperm := map_unshift_perm inv.perm hh
  have hkey : ∀ x ∈ σ.suffixArray.map (unshift s.length h),
      σ.classes.getD x 0 < σ.numClasses :=
    fun x hx => inv.classLt x (List.mem_range.mp (htperm.subset hx))
  obtain ⟨hz1, hz2⟩ := fillZero_spec σ.numClasses σ.cnt
  obtain ⟨_, hc2⟩ := countingSort_spec (fun x => σ.classes.getD x 0) σ.numClasses
    (σ.suffixArray.map (unshift s.length h)) (fillZero σ.numClasses σ.cnt) σ.suffixArray hkey
    (by rw [hz1, inv.cntLen]; have := inv.numLe; omega)
    (by rw [List.length_map])
    (fun c hc => by rw [hz2 c, if_pos hc])
  unfold radixRound
  simp only [htsa, hc2]

/-- Two positions of the same class stand, after a round, in the order that the
positions `2 ^ k` further on (cyclically) had before the round. -/
theorem radixRound_tie_order {s : List Int} {h : Nat} {σ : RadixState} (inv : RadixInv s h σ)
    (hh : h < s.length) {p q : Nat} (hp : p < s.length) (hq : q < s.length)
    (hpq : σ.classes.getD p 0 = σ.classes.getD q 0) :
    Before (radixRound s.length h σ).suffixArray p q ↔
      Before σ.suffixArray ((p + h) % s.length) ((q + h) % s.length) := by
  rw [radixRound_suffixArray inv hh,
    before_bucketSort σ.numClasses (fun x => σ.classes.getD x 0) _ hpq (inv.classLt p hp)]
  exact before_map σ.suffixArray (unshift s.length h) (fun x => (x + h) % s.length)
    (fun x hx => unshift_add (List.mem_range.mp (inv.perm.subset hx)) hh)
    (unshift_mod_add hp hh) (unshift_mod_add hq hh)

/-- The invariant holds after every pass of the loop that is executed. -/
theorem radixAfter_inv {s : List Int} (hs : ∀ c ∈ s, 0 ≤ c ∧ c ≤ 255) (k : Nat)
    (hk : 2 ^ k < 2 * s.length) : RadixInv s (2 ^ k) (radixAfter s k) := by
  induction k with
  | zero => exact radixInit_inv hs (by omega)
  | succ k ih =>
    rw [Nat.pow_succ] at hk
    have h1 := ih (by omega)
    have := radixRound_inv h1 (by omega)
    rw [Nat.pow_succ, Nat.mul_comm]
    unfold radixAfter
    rw [Nat.one_shiftLeft]
    exact this

/-- With a unique terminator, two positions whose cyclic shifts start with the same
`m` symbols are both at least `m` symbols before the end of the text. -/
theorem cyc_eq_nowrap {s : List Int} (ht : HasTerminator s) {p q m : Nat} (hq : q < s.length)
    (hpq : p < q) (e : cyc s m p = cyc s m q) : q + m ≤ s.length := by
  by_contra hc
  have ht' : s.length - 1 - q < m := by omega
  have h1 := getD_cyc s m p (s.length - 1 - q) ht'
  have h2 := getD_cyc s m q (s.length - 1 - q) ht'
  rw [e, h2] at h1
  have e1 : (q + (s.length - 1 - q)) % s.length = s.length - 1 := by
    rw [Nat.mod_eq_of_lt (by omega)]
    omega
  have e2 : (p + (s.length - 1 - q)) % s.length = p + (s.length - 1 - q) :=
    Nat.mod_eq_of_lt (by omega)
  rw [e1, e2] at h1
  have := ht (p + (s.length - 1 - q)) (by omega)
  omega

theorem cyc_eq_nowrap_both {s : List Int} (ht : HasTerminator s) {p q m : Nat}
    (hp : p < s.length) (hq : q < s.length) (hpq : p ≠ q) (e : cyc s m p = cyc s m q) :
    p + m ≤ s.length ∧ q + m ≤ s.length := by
  rcases Nat.lt_or_gt_of_ne hpq with h | h
  · have := cyc_eq_nowrap ht hq h e
    omega
  · have := cyc_eq_nowrap ht hp h e.symm
    omega

/-- Equal pairs of classes mean equal first `2 * h` symbols of the cyclic shifts. -/
theorem pair_eq_iff_cyc {s : List Int} {h : Nat} {σ : RadixState} (inv : RadixInv s h σ)
    (hn : 0 < s.length) {p q : Nat} (hp : p < s.length) (hq : q < s.length) :
    (σ.classes.getD p 0 = σ.classes.getD q 0 ∧
      σ.classes.getD ((p + h) % s.length) 0 = σ.classes.getD ((q + h) % s.length) 0) ↔
      cyc s (2 * h) p = cyc s (2 * h) q := by
  rw [radixInv_eq_iff inv hp hq,
    radixInv_eq_iff inv (Nat.mod_lt _ hn) (Nat.mod_lt _ hn), two_mul, cyc_add, cyc_add]
  constructor
  · rintro ⟨h1, h2⟩
    rw [h1, h2]
  · intro e
    exact List.append_inj e (by rw [cyc_length, cyc_length])

/-- The first counting sort places the positions of each symbol in decreasing
order. -/
theorem radixInit_suffixArray {s : List Int} (hs : ∀ c ∈ s, 0 ≤ c ∧ c ≤ 255) :
    (radixInit s).suffixArray = bucketSort 256 (sym s) (List.range s.length).reverse := by
  obtain ⟨hc1, hc2⟩ := countLoop_spec (sym s) (List.range s.length)
    (List.replicate (max 256 s.length) 0)
    (fun x _ => by rw [List.length_replicate]; have := sym_lt hs x; omega)
  obtain ⟨hp1, hp2⟩ := prefixSums_spec (sym s) (List.range s.length) 256
    (countLoop (sym s) (List.range s.length) (List.replicate (max 256 s.length) 0))
    (by rw [hc1, List.length_replicate]; omega)
    (fun c _ => by rw [hc2 c, getD_replicate_zero, Nat.zero_add])
  obtain ⟨_, hb2⟩ := placeLoop_eq_bucketSort (sym s) 256 (List.range s.length)
    (prefixSums 256
      (countLoop (sym s) (List.range s.length) (List.replicate (max 256 s.length) 0)))
    (List.replicate s.length 0) (fun x _ => sym_lt hs x)
    (by rw [hp1, hc1, List.length_replicate]; omega)
    (by rw [List.length_replicate, List.length_range]) hp2
  unfold radixInit
  simp only [hb2]

theorem radixInit_ties {s : List Int} (hs : ∀ c ∈ s, 0 ≤ c ∧ c ≤ 255) (hn : 0 < s.length) :
    TiesDescend s.length (radixInit s) := by
  intro p q hp hq hpq hc
  have inv := radixInit_inv hs hn
  have e := (radixInv_eq_iff inv hp hq).mp hc
  rw [cyc_one s p hp, cyc_one s q hq] at e
  have e1 : s.getD p 0 = s.getD q 0 := by simpa using e
  have e2 : sym s p = sym s q := by
    unfold sym
    rw [e1]
  rw [radixInit_suffixArray hs, before_bucketSort 256 (sym s) _ e2 (sym_lt hs p)]
  exact before_reverse_range hp hq hpq

/-- With a unique terminator, a round keeps the tied positions in decreasing
order. -/
theorem radixRound_ties {s : List Int} (ht : HasTerminator s) {h : Nat} {σ : RadixState}
    (inv : RadixInv s h σ) (h1 : 1 ≤ h) (hh : h < s.length) (hd : TiesDescend s.length σ) :
    TiesDescend s.length (radixRound s.length h σ) := by
  intro p q hp hq hpq hc
  have hn : 0 < s.length := by omega
  have e := (radixInv_eq_iff (radixRound_inv inv hh) hp hq).mp hc
  obtain ⟨hc1, hc2⟩ := (pair_eq_iff_cyc inv hn hp hq).mpr e
  obtain ⟨hw1, hw2⟩ := cyc_eq_nowrap_both ht hp hq hpq e
  have ep : (p + h) % s.length = p + h := Nat.mod_eq_of_lt (by omega)
  have eq : (q + h) % s.length = q + h := Nat.mod_eq_of_lt (by omega)
  rw [radixRound_tie_order inv hh hp hq hc1]
  rw [ep, eq] at hc2 ⊢
  rw [hd (p + h) (q + h) (by omega) (by omega) (by omega) hc2]
  omega

theorem radixAfter_ties {s : List Int} (hs : ∀ c ∈ s, 0 ≤ c ∧ c ≤ 255) (ht : HasTerminator s)
    (k : Nat) (hk : 2 ^ k < 2 * s.length) : TiesDescend s.length (radixAfter s k) := by
  induction k with
  | zero => exact radixInit_ties hs (by omega)
  | succ k ih =>
    rw [Nat.pow_succ] at hk
    have h1 := ih (by omega)
    unfold radixAfter
    rw [Nat.one_shiftLeft]
    exact radixRound_ties ht (radixAfter_inv hs k (by omega)) Nat.one_le_two_pow (by omega) h1

/-- The order of two positions with equal pairs of classes after the pass `k` of the
loop: it is the order that the positions `2 ^ k` further on had before the pass,
and for a text with a unique terminator it is the order that the two positions
themselves had before the pass. -/
theorem radixAfter_tie_order {s : List Int} (hs : ∀ c ∈ s, 0 ≤ c ∧ c ≤ 255) (k : Nat)
    (hk : 1 <<< k < s.length) {p q : Nat} (hp : p < s.length) (hq : q < s.length)
    (hc1 : (radixAfter s k).classes.getD p 0 = (radixAfter s k).classes.getD q 0)
    (hc2 : (radixAfter s k).classes.getD ((p + (1 <<< k)) % s.length) 0 =
      (radixAfter s k).classes.getD ((q + (1 <<< k)) % s.length) 0) :
    (Before (radixAfter s (k + 1)).suffixArray p q ↔
        Before (radixAfter s k).suffixArray ((p + (1 <<< k)) % s.length)
          ((q + (1 <<< k)) % s.length)) ∧
      (HasTerminator s →
        (Before (radixAfter s (k + 1)).suffixArray p q ↔
          Before (radixAfter s k).suffixArray p q)) := by
  rw [Nat.one_shiftLeft] at hk hc2 ⊢
  have hn : 0 < s.length := by omega
  have inv := radixAfter_inv hs k (by omega)
  have e : radixAfter s (k + 1) = radixRound s.length (2 ^ k) (radixAfter s k) := by
    conv_lhs => unfold radixAfter
    rw [Nat.one_shiftLeft]
  refine ⟨?_, ?_⟩
  · rw [e]
    exact radixRound_tie_order inv hk hp hq hc1
  · intro ht
    by_cases hpq : p = q
    · subst hpq
      have inv' := radixAfter_inv hs (k + 1) (by rw [Nat.pow_succ]; omega)
      exact iff_of_false
        (not_before_self (inv'.perm.nodup_iff.mpr (List.nodup_range _)) p)
        (not_before_self (inv.perm.nodup_iff.mpr (List.nodup_range _)) p)
    · have inv' := radixRound_inv inv hk
      have d := radixAfter_ties hs ht k (by omega)
      have d' := radixRound_ties ht inv Nat.one_le_two_pow hk d
      have hc' := (radixInv_eq_iff inv' hp hq).mpr
        ((pair_eq_iff_cyc inv hn hp hq).mp ⟨hc1, hc2⟩)
      rw [e, d' p q hp hq hpq hc', d p q hp hq hpq hc1]

/-! ## The invariants of the rounds, as stated in the specification -/

/-- C31, counterexample: on `"aaaa"` the first round of the insertion-sort run ends
with `suffixArray = [3, 0, 1, 2]` and `rank = [1, 1, 1, 0]`, so that
`rank[suffixArray[2]] = 1`; and in no run at all is `rank[suffixArray[i]] = i` for
every `i` after the first round. -/
theorem rank_not_inverse_after_round :
    (AfterRound (codes "aaaa") 1 (doubling 4 1 1 (init (codes "aaaa"))) ∧
      (doubling 4 1 1 (init (codes "aaaa"))).suffixArray = [3, 0, 1, 2] ∧
      (doubling 4 1 1 (init (codes "aaaa"))).rank = [1, 1, 1, 0] ∧
      rankAt (doubling 4 1 1 (init (codes "aaaa"))) 2 = 1) ∧
    ∀ σ, AfterRound (codes "aaaa") 1 σ → ¬ ∀ i, i < 4 → rankAt σ i = i :=
  ⟨⟨aaaa_insertion_round, by decide, by decide, by decide⟩, fun _ h => aaaa_first_round h⟩

/-- C31, amended: after every round of every run, `rank[suffixArray[0]] = 0` and
`0 ≤ rank[suffixArray[i]] ≤ i` for every `i`, and `rank[suffixArray[i]] = i` holds
for every `i` exactly when no two neighbouring entries of `suffixArray` have the
same rank. -/
theorem rank_chain_after_round (s : List Int) (k : Nat) (σ : State)
    (h : AfterRound s k σ) :
    rankAt σ 0 = 0 ∧ (∀ i, i < s.length → 0 ≤ rankAt σ i ∧ rankAt σ i ≤ i) ∧
      ((∀ i, i < s.length → rankAt σ i = i) ↔
        ∀ i, 1 ≤ i → i < s.length → rankAt σ (i - 1) ≠ rankAt σ i) :=
  afterRound_rankAt h

theorem rank_chain_after_round_witness :
    AfterRound (codes "banana") 1 (doubling 6 1 1 (init (codes "banana"))) ∧
      (rankAt (doubling 6 1 1 (init (codes "banana"))) 0 = 0 ∧
        (∀ i, i < (codes "banana").length →
          0 ≤ rankAt (doubling 6 1 1 (init (codes "banana"))) i ∧
            rankAt (doubling 6 1 1 (init (codes "banana"))) i ≤ i) ∧
        ((∀ i, i < (codes "banana").length →
            rankAt (doubling 6 1 1 (init (codes "banana"))) i = i) ↔
          ∀ i, 1 ≤ i → i < (codes "banana").length →
            rankAt (doubling 6 1 1 (init (codes "banana"))) (i - 1) ≠
              rankAt (doubling 6 1 1 (init (codes "banana"))) i)) :=
  ⟨banana_first_round, rank_chain_after_round _ _ _ banana_first_round⟩

/-- C32: for a text with non-negative symbol codes, after the round with offset `k`
of any run, two positions have equal ranks exactly when the prefixes of length
`2 * k` of their suffixes (cut off at the end of the text) are equal, the rank of
`a` is smaller than the rank of `b` exactly when the prefix at `a` is
lexicographically smaller, and the rank values are exactly the numbers
`0, ..., numClasses - 1` for `numClasses = rank[suffixArray[n - 1]] + 1`. -/
theorem rank_classes_after_round (s : List Int) (hs : ∀ c ∈ s, 0 ≤ c) (k : Nat) (σ : State)
    (h : AfterRound s k σ) :
    (∀ a b, a < s.length → b < s.length →
      (σ.rank.getD a 0 = σ.rank.getD b 0 ↔ pre s (2 * k) a = pre s (2 * k) b) ∧
      (σ.rank.getD a 0 < σ.rank.getD b 0 ↔
        List.Lex (· < ·) (pre s (2 * k) a) (pre s (2 * k) b))) ∧
      ∀ v : Int, (∃ a, a < s.length ∧ σ.rank.getD a 0 = v) ↔
        (0 ≤ v ∧ v < rankAt σ (s.length - 1) + 1) :=
  afterRound_classes hs h

theorem rank_classes_after_round_witness :
    (∀ c ∈ codes "banana", (0 : Int) ≤ c) ∧
      AfterRound (codes "banana") 1 (doubling 6 1 1 (init (codes "banana"))) ∧
      ((∀ a b, a < (codes "banana").length → b < (codes "banana").length →
        ((doubling 6 1 1 (init (codes "banana"))).rank.getD a 0 =
            (doubling 6 1 1 (init (codes "banana"))).rank.getD b 0 ↔
          pre (codes "banana") (2 * 1) a = pre (codes "banana") (2 * 1) b) ∧
        ((doubling 6 1 1 (init (codes "banana"))).rank.getD a 0 <
            (doubling 6 1 1 (init (codes "banana"))).rank.getD b 0 ↔
          List.Lex (· < ·) (pre (codes "banana") (2 * 1) a)
            (pre (codes "banana") (2 * 1) b))) ∧
        ∀ v : Int, (∃ a, a < (codes "banana").length ∧
            (doubling 6 1 1 (init (codes "banana"))).rank.getD a 0 = v) ↔
          (0 ≤ v ∧ v < rankAt (doubling 6 1 1 (init (codes "banana")))
            ((codes "banana").length - 1) + 1)) :=
  ⟨by decide, banana_first_round,
    rank_classes_after_round _ (by decide) _ _ banana_first_round⟩

/-- C34: for a text of at least two symbols with non-negative codes, at the end of
the doubling loop of any run the ranks are pairwise distinct,
`rank[suffixArray[i]] = i` for every `i`, and `rank` is the vector that
`buildLCPArray` recomputes from the returned array. -/
theorem final_rank_is_inverse (s : List Int) (hs : ∀ c ∈ s, 0 ≤ c) (hn : 2 ≤ s.length)
    (σ : State) (h : Rounds s.length 1 (init s) σ) :
    (∀ a b, a < s.length → b < s.length → a ≠ b → σ.rank.getD a 0 ≠ σ.rank.getD b 0) ∧
      (∀ i, i < s.length → σ.rank.getD (σ.suffixArray.getD i 0) 0 = i) ∧
      σ.rank = (buildRank s.length σ.suffixArray).map (fun x : Nat => (x : Int)) :=
  rounds_final hs hn h

theorem final_rank_is_inverse_witness :
    (∀ c ∈ codes "banana", (0 : Int) ≤ c) ∧ 2 ≤ (codes "banana").length ∧
      Rounds (codes "banana").length 1 (init (codes "banana"))
        (doubling 6 6 1 (init (codes "banana"))) ∧
      ((∀ a b, a < (codes "banana").length → b < (codes "banana").length → a ≠ b →
        (doubling 6 6 1 (init (codes "banana"))).rank.getD a 0 ≠
          (doubling 6 6 1 (init (codes "banana"))).rank.getD b 0) ∧
        (∀ i, i < (codes "banana").length →
          (doubling 6 6 1 (init (codes "banana"))).rank.getD
            ((doubling 6 6 1 (init (codes "banana"))).suffixArray.getD i 0) 0 = i) ∧
        (doubling 6 6 1 (init (codes "banana"))).rank =
          (buildRank (codes "banana").length
            (doubling 6 6 1 (init (codes "banana"))).suffixArray).map
              (fun x : Nat => (x : Int))) :=
  ⟨by decide, by decide, doubling_rounds 6 6 1 _ (le_refl 1) (by decide),
    final_rank_is_inverse _ (by decide) (by decide) _
      (doubling_rounds 6 6 1 _ (le_refl 1) (by decide))⟩

/-! ## The properties of `buildLCPArray`, as stated in the specification -/

/-- C35: for every text `s` with non-negative symbol codes, `SA` the array returned by
any run of `buildSuffixArray(s)`, `rank` its inverse and
`LCP = buildLCPArray(s, SA)`, every position `i` with `i + 1 < n` satisfies
`LCP[rank[i + 1]] ≥ LCP[rank[i]] - 1`. -/
theorem lcp_degrades_by_at_most_one (s : List Int) (hs : ∀ c ∈ s, 0 ≤ c) (sa : List Nat)
    (hrun : Runs s sa) (i : Nat) (hi : i + 1 < s.length) :
    ((buildLCPArray s sa).getD ((buildRank s.length sa).getD (i + 1) 0) 0 : Int) ≥
      ((buildLCPArray s sa).getD ((buildRank s.length sa).getD i 0) 0 : Int) - 1 :=
  lcp_degrades_slowly (runs_isSuffixArray hs hrun) hi

theorem lcp_degrades_by_at_most_one_witness :
    ((buildLCPArray (codes "banana") (buildSuffixArray (codes "banana"))).getD
        ((buildRank (codes "banana").length (buildSuffixArray (codes "banana"))).getD
          (1 + 1) 0) 0 : Int) ≥
      ((buildLCPArray (codes "banana") (buildSuffixArray (codes "banana"))).getD
        ((buildRank (codes "banana").length (buildSuffixArray (codes "banana"))).getD
          1 0) 0 : Int) - 1 :=
  lcp_degrades_by_at_most_one (codes "banana") (by decide) _ (buildSuffixArray_runs _) 1
    (by decide)

/-- C36: for every text of length `n` and every permutation `SA` of `0, ..., n - 1`
passed to `buildLCPArray`, the statement `++h` of the inner loop is executed at most
`2 * n` times over the whole run, `h` is at most `n` at the head of every pass and
at the end of every inner loop, and every inner loop ends with its condition false
(so the count is complete). -/
theorem kasai_linear_work (s : List Int) (sa : List Nat)
    (_hp : sa.Perm (List.range s.length)) :
    lcpWork s sa s.length ≤ 2 * s.length ∧
      (∀ m, (lcpLoop s sa m).h ≤ s.length) ∧
      (∀ m j, extend s s.length m j s.length (lcpLoop s sa m).h ≤ s.length) ∧
      ∀ m j, ¬ MatchAt s m j (extend s s.length m j s.length (lcpLoop s sa m).h) :=
  ⟨(lcpWork_linear s sa).1, (lcpWork_linear s sa).2.1, (lcpWork_linear s sa).2.2,
    fun m j => extend_stops s m j s.length _ (by omega)⟩

theorem kasai_linear_work_witness :
    lcpWork (codes "aaaa") [2, 0, 1, 3] (codes "aaaa").length ≤ 2 * (codes "aaaa").length ∧
      (∀ m, (lcpLoop (codes "aaaa") [2, 0, 1, 3] m).h ≤ (codes "aaaa").length) ∧
      (∀ m j, extend (codes "aaaa") (codes "aaaa").length m j (codes "aaaa").length
        (lcpLoop (codes "aaaa") [2, 0, 1, 3] m).h ≤ (codes "aaaa").length) ∧
      ∀ m j, ¬ MatchAt (codes "aaaa") m j
        (extend (codes "aaaa") (codes "aaaa").length m j (codes "aaaa").length
          (lcpLoop (codes "aaaa") [2, 0, 1, 3] m).h) :=
  kasai_linear_work (codes "aaaa") [2, 0, 1, 3] (by decide)

/-- C37: for every text and every permutation `SA` of `0, ..., n - 1`, sorted or not,
`buildLCPArray` with every access to `s`, `suffixArray`, `rank` and `lcp` checked
against the bounds returns normally, with the vector that the unchecked function
computes. -/
theorem buildLCPArray_in_bounds (s : List Int) (sa : List Nat)
    (hp : sa.Perm (List.range s.length)) :
    buildLCPArrayChecked s sa = some (buildLCPArray s sa) :=
  buildLCPArrayChecked_eq s sa hp

theorem buildLCPArray_in_bounds_witness :
    buildLCPArrayChecked (codes "aaaa") [2, 0, 1, 3] =
      some (buildLCPArray (codes "aaaa") [2, 0, 1, 3]) :=
  buildLCPArray_in_bounds (codes "aaaa") [2, 0, 1, 3] (by decide)

/-- C38: in `buildLCPArray` a pass for a position of rank `0` leaves `h` (and `lcp`)
as they are; for every text `s` with non-negative symbol codes and `SA` the array
returned by any run of `buildSuffixArray(s)`, the carried `h` is `0` when the loop
reaches the position `i` with `rank[i] = 0`, so the variant that decrements `h`,
clamped at `0`, at the end of every pass goes through the same states and returns
the same vector. -/
theorem decrement_in_branch_only (s : List Int) (hs : ∀ c ∈ s, 0 ≤ c) (sa : List Nat)
    (hrun : Runs s sa) :
    (∀ (rank : List Nat) (st : LcpState) (i : Nat), rank.getD i 0 = 0 →
        lcpStep s s.length sa rank st i = st) ∧
      (∀ i, (buildRank s.length sa).getD i 0 = 0 → i < s.length → (lcpLoop s sa i).h = 0) ∧
      (∀ m, m ≤ s.length → lcpLoopAlt s sa m = lcpLoop s sa m) ∧
      buildLCPArrayAlt s sa = buildLCPArray s sa :=
  ⟨fun rank st i hr => lcpStep_rank_zero s s.length sa rank st i hr,
    lcpAlt_spec (runs_isSuffixArray hs hrun)⟩

theorem decrement_in_branch_only_witness :
    (∀ (rank : List Nat) (st : LcpState) (i : Nat), rank.getD i 0 = 0 →
        lcpStep (codes "banana") (codes "banana").length (buildSuffixArray (codes "banana"))
          rank st i = st) ∧
      (∀ i, (buildRank (codes "banana").length (buildSuffixArray (codes "banana"))).getD i 0
          = 0 → i < (codes "banana").length →
        (lcpLoop (codes "banana") (buildSuffixArray (codes "banana")) i).h = 0) ∧
      (∀ m, m ≤ (codes "banana").length →
        lcpLoopAlt (codes "banana") (buildSuffixArray (codes "banana")) m =
          lcpLoop (codes "banana") (buildSuffixArray (codes "banana")) m) ∧
      buildLCPArrayAlt (codes "banana") (buildSuffixArray (codes "banana")) =
        buildLCPArray (codes "banana") (buildSuffixArray (codes "banana")) :=
  decrement_in_branch_only (codes "banana") (by decide) _ (buildSuffixArray_runs _)

/-! ## The tie-break rule of the radix variant -/

set_option maxRecDepth 1000000 in
/-- C33, counterexample: for the input token `"a$a"`, `main` of `suffix2.cpp` passes
`"a$a$"` to `buildSuffixArray`.  Before the first pass of the loop the array is
`[3, 1, 2, 0]` with classes `[1, 0, 1, 0]`; the positions `1` and `3` have the same
pair of classes `(0, 1)`, and `3` stands before `1`.  After the pass the array is
`[1, 3, 2, 0]`, in which `1` stands before `3`. -/
theorem radix_ties_reordered :
    withDollar (codes "a$a") = codes "a$a$" ∧
      (radixAfter (codes "a$a$") 0).suffixArray = [3, 1, 2, 0] ∧
      (radixAfter (codes "a$a$") 0).classes = [1, 0, 1, 0] ∧
      (radixAfter (codes "a$a$") 1).suffixArray = [1, 3, 2, 0] ∧
      1 <<< 0 < (codes "a$a$").length ∧
      ((radixAfter (codes "a$a$") 0).classes.getD 1 0,
          (radixAfter (codes "a$a$") 0).classes.getD ((1 + (1 <<< 0)) % 4) 0) =
        ((radixAfter (codes "a$a$") 0).classes.getD 3 0,
          (radixAfter (codes "a$a$") 0).classes.getD ((3 + (1 <<< 0)) % 4) 0) ∧
      Before (radixAfter (codes "a$a$") 0).suffixArray 3 1 ∧
      ¬ Before (radixAfter (codes "a$a$") 0).suffixArray 1 3 ∧
      Before (radixAfter (codes "a$a$") 1).suffixArray 1 3 ∧
      ¬ Before (radixAfter (codes "a$a$") 1).suffixArray 3 1 := by
  have h0 : (radixAfter (codes "a$a$") 0).suffixArray = [3, 1, 2, 0] := by decide!
  have h1 : (radixAfter (codes "a$a$") 0).classes = [1, 0, 1, 0] := by decide!
  have h2 : (radixAfter (codes "a$a$") 1).suffixArray = [1, 3, 2, 0] := by decide!
  rw [h0, h1, h2]
  decide

/-- C33, amended: for a non-empty text over the codes `0, ..., 255`, in every pass
`k` of the loop of the radix `buildSuffixArray`, two positions `p` and `q` with
identical pairs (class, class at offset `2 ^ k`) stand in the newly sorted
`suffixArray` in the order that the positions `p + 2 ^ k` and `q + 2 ^ k` (taken
cyclically) have in the array of the previous pass, which is their order in
`tempSuffixArray`; when the text ends in a unique smallest symbol, this is the
order of `p` and `q` themselves in the array of the previous pass. -/
theorem radix_tie_order (s : List Int) (hs : ∀ c ∈ s, 0 ≤ c ∧ c ≤ 255) (k : Nat)
    (hk : 1 <<< k < s.length) (p q : Nat) (hp : p < s.length) (hq : q < s.length)
    (hpair : ((radixAfter s k).classes.getD p 0,
        (radixAfter s k).classes.getD ((p + (1 <<< k)) % s.length) 0) =
      ((radixAfter s k).classes.getD q 0,
        (radixAfter s k).classes.getD ((q + (1 <<< k)) % s.length) 0)) :
    (Before (radixAfter s (k + 1)).suffixArray p q ↔
        Before (radixAfter s k).suffixArray ((p + (1 <<< k)) % s.length)
          ((q + (1 <<< k)) % s.length)) ∧
      (HasTerminator s →
        (Before (radixAfter s (k + 1)).suffixArray p q ↔
          Before (radixAfter s k).suffixArray p q)) :=
  radixAfter_tie_order hs k hk hp hq (Prod.mk.inj hpair).1 (Prod.mk.inj hpair).2

set_option maxRecDepth 1000000 in
theorem radix_tie_order_witness :
    (Before (radixAfter (codes "aaa$") (0 + 1)).suffixArray 1 0 ↔
        Before (radixAfter (codes "aaa$") 0).suffixArray ((1 + (1 <<< 0)) % (codes "aaa$").length)
          ((0 + (1 <<< 0)) % (codes "aaa$").length)) ∧
      (Before (radixAfter (codes "aaa$") (0 + 1)).suffixArray 1 0 ↔
        Before (radixAfter (codes "aaa$") 0).suffixArray 1 0) :=
  ⟨(radix_tie_order (codes "aaa$") (by decide) 0 (by decide) 1 0 (by decide) (by decide)
      (by decide!)).1,
    (radix_tie_order (codes "aaa$") (by decide) 0 (by decide) 1 0 (by decide) (by decide)
      (by decide!)).2 (by decide)⟩

end SuffixArray

namespace BinarySearch

/-! ## Binary search on a sorted array -/

theorem sorted_getD_le {arr : List Int} (h : arr.Pairwise (· ≤ ·)) {i j : Nat} (hij : i ≤ j)
    (hj : j < arr.length) : arr.getD i 0 ≤ arr.getD j 0 := by
  rcases Nat.eq_or_lt_of_le hij with e | e
  · subst e; exact le_refl _
  · rw [List.getD_eq_getElem arr 0 (show i < arr.length by omega), List.getD_eq_getElem arr 0 hj]
    exact List.pairwise_iff_getElem.mp h i j (by omega) hj e

theorem mem_iff_getD (arr : List Int) (x : Int) :
    x ∈ arr ↔ ∃ i, i < arr.length ∧ arr.getD i 0 = x := by
  rw [List.mem_iff_getElem]
  constructor
  · rintro ⟨i, hi, e⟩
    exact ⟨i, hi, by rw [List.getD_eq_getElem arr 0 hi]; exact e⟩
  · rintro ⟨i, hi, e⟩
    exact ⟨i, hi, by rw [List.getD_eq_getElem arr 0 hi] at e; exact e⟩

theorem tdiv_two_bounds (a b : Int) (h0 : 0 ≤ a + b) :
    2 * (a + b).tdiv 2 ≤ a + b ∧ a + b < 2 * (a + b).tdiv 2 + 2 := by
  rw [Int.tdiv_eq_ediv h0 (by decide)]
  omega

/-- With enough fuel the loop of `binarySearch` returns `-1` when `x` is absent and
an index holding `x` otherwise, provided every occurrence of `x` lies between `low`
and `high`. -/
theorem binarySearchLoop_spec {arr : List Int} (x : Int) (hs : arr.Pairwise (· ≤ ·))
    (fuel : Nat) (low high : Int) (hlow : 0 ≤ low) (hhigh : high < arr.length)
    (hfuel : high - low + 1 < fuel) (hpos : 0 < fuel)
    (hin : ∀ i : Nat, i < arr.length → arr.getD i 0 = x → low ≤ i ∧ (i : Int) ≤ high) :
    ∃ r, binarySearchLoop arr x fuel low high = some r ∧
      ((r = -1 ∧ x ∉ arr) ∨ (0 ≤ r ∧ r < arr.length ∧ arr.getD r.toNat 0 = x)) := by
  induction fuel generalizing low high with
  | zero => omega
  | succ f ih =>
    unfold binarySearchLoop
    by_cases hlh : low ≤ high
    · simp only [hlh, if_true]
      obtain ⟨hm1, hm2⟩ := tdiv_two_bounds low high (by omega)
      generalize (low + high).tdiv 2 = mid at hm1 hm2
      have hmid0 : 0 ≤ mid := by omega
      have hmidn : mid < arr.length := by omega
      have hmt : (mid.toNat : Int) = mid := Int.toNat_of_nonneg hmid0
      have hmtn : mid.toNat < arr.length := by omega
      by_cases heq : arr.getD mid.toNat 0 = x
      · simp only [heq, if_true]
        exact ⟨mid, rfl, Or.inr ⟨hmid0, hmidn, heq⟩⟩
      · simp only [heq, if_false]
        by_cases hlt : arr.getD mid.toNat 0 < x
        · simp only [hlt, if_true]
          apply ih (mid + 1) high (by omega) hhigh
          · push_cast at hfuel ⊢; omega
          · push_cast at hfuel; omega
          · intro i hi hix
            obtain ⟨h1, h2⟩ := hin i hi hix
            refine ⟨?_, h2⟩
            by_contra hcon
            have hle : i ≤ mid.toNat := by omega
            have := sorted_getD_le hs hle hmtn
            omega
        · simp only [hlt, if_false]
          apply ih low (mid - 1) hlow (by omega)
          · push_cast at hfuel ⊢; omega
          · push_cast at hfuel; omega
          · intro i hi hix
            obtain ⟨h1, h2⟩ := hin i hi hix
            refine ⟨h1, ?_⟩
            by_contra hcon
            have hle : mid.toNat ≤ i := by omega
            have := sorted_getD_le hs hle hi
            omega
    · simp only [hlh, if_false]
      refine ⟨-1, rfl, Or.inl ⟨rfl, ?_⟩⟩
      intro hmem
      obtain ⟨i, hi, hix⟩ := (mem_iff_getD arr x).mp hmem
      obtain ⟨h1, h2⟩ := hin i hi hix
      omega

theorem binarySearch_spec (arr : List Int) (x : Int) (hs : arr.Pairwise (· ≤ ·)) :
    ∃ r, binarySearch arr x = some r ∧
      ((r = -1 ∧ x ∉ arr) ∨ (0 ≤ r ∧ r < arr.length ∧ arr.getD r.toNat 0 = x)) := by
  unfold binarySearch
  apply binarySearchLoop_spec x hs _ 0 _ (le_refl _) (by omega)
  · push_cast; omega
  · omega
  · intro i hi _
    omega

/-- With enough fuel the loop of `closestLeft` returns the boundary between the
elements that are at most `x` and the larger ones, provided `low` and `high` lie on
the two sides of it. -/
theorem closestLeftLoop_spec {arr : List Int} (x : Int) (hs : arr.Pairwise (· ≤ ·))
    (fuel : Nat) (low high : Int) (hlow : -1 ≤ low) (hlh : low < high)
    (hhigh : high ≤ arr.length) (hfuel : high - low - 1 < fuel)
    (hl : ∀ i : Nat, i < arr.length → (i : Int) ≤ low → arr.getD i 0 ≤ x)
    (hh : ∀ i : Nat, i < arr.length → high ≤ (i : Int) → x < arr.getD i 0) :
    ∃ r, closestLeftLoop arr x fuel low high = some r ∧ -1 ≤ r ∧ r < arr.length ∧
      ∀ i : Nat, i < arr.length → (arr.getD i 0 ≤ x ↔ (i : Int) ≤ r) := by
  induction fuel generalizing low high with
  | zero => simp only [Nat.cast_zero] at hfuel; omega
  | succ f ih =>
    unfold closestLeftLoop
    by_cases hgap : low + 1 < high
    · simp only [hgap, if_true]
      obtain ⟨hm1, hm2⟩ := tdiv_two_bounds low high (by omega)
      generalize (low + high).tdiv 2 = mid at hm1 hm2
      have hmid0 : 0 ≤ mid := by omega
      have hmt : (mid.toNat : Int) = mid := Int.toNat_of_nonneg hmid0
      have hmtn : mid.toNat < arr.length := by omega
      by_cases hle : arr.getD mid.toNat 0 ≤ x
      · simp only [hle, if_true]
        apply ih mid high (by omega) (by omega) hhigh
        · push_cast at hfuel ⊢; omega
        · intro i hi him
          have := sorted_getD_le hs (show i ≤ mid.toNat by omega) hmtn
          omega
        · exact hh
      · simp only [hle, if_false]
        apply ih low mid hlow (by omega) (by omega)
        · push_cast at hfuel ⊢; omega
        · exact hl
        · intro i hi him
          have := sorted_getD_le hs (show mid.toNat ≤ i by omega) hi
          omega
    · simp only [hgap, if_false]
      refine ⟨low, rfl, hlow, by omega, ?_⟩
      intro i hi
      constructor
      · intro h
        by_contra hcon
        have := hh i hi (by omega)
        omega
      · exact hl i hi

theorem closestLeft_spec (arr : List Int) (x : Int) (hs : arr.Pairwise (· ≤ ·)) :
    ∃ r, closestLeft arr x = some r ∧ -1 ≤ r ∧ r < arr.length ∧
      ∀ i : Nat, i < arr.length → (arr.getD i 0 ≤ x ↔ (i : Int) ≤ r) := by
  unfold closestLeft
  apply closestLeftLoop_spec x hs _ (-1) _ (le_refl _) (by omega) (le_refl _)
  · push_cast; omega
  · intro i hi h; omega
  · intro i hi h; omega

/-! ## The claims on binary search -/

/-- C19: for every array `arr` sorted in non-decreasing order and every `x`,
`binarySearch` returns, and its result is `-1` exactly when `x` does not occur in
`arr`; otherwise it is an index `i` with `0 ≤ i < n` and `arr[i] = x`. -/
theorem binarySearch_correct (arr : List Int) (x : Int) (hs : arr.Pairwise (· ≤ ·)) :
    ∃ r, binarySearch arr x = some r ∧ (r = -1 ↔ x ∉ arr) ∧
      (r ≠ -1 → 0 ≤ r ∧ r < arr.length ∧ arr.getD r.toNat 0 = x) := by
  obtain ⟨r, h1, h2⟩ := binarySearch_spec arr x hs
  refine ⟨r, h1, ?_, ?_⟩
  · constructor
    · intro e
      rcases h2 with ⟨_, h3⟩ | ⟨h3, _, _⟩
      · exact h3
      · omega
    · intro hx
      rcases h2 with ⟨h3, _⟩ | ⟨h3, h4, h5⟩
      · exact h3
      · exfalso
        apply hx
        rw [mem_iff_getD]
        exact ⟨r.toNat, by omega, h5⟩
  · intro hr
    rcases h2 with ⟨h3, _⟩ | h3
    · exact absurd h3 hr
    · exact h3

theorem binarySearch_correct_witness :
    ∃ r, binarySearch [1, 3, 3, 7] 3 = some r ∧ (r = -1 ↔ (3 : Int) ∉ [1, 3, 3, 7]) ∧
      (r ≠ -1 → 0 ≤ r ∧ r < ([1, 3, 3, 7] : List Int).length ∧
        ([1, 3, 3, 7] : List Int).getD r.toNat 0 = 3) :=
  binarySearch_correct [1, 3, 3, 7] 3 (by decide)

/-- C20: for every array `arr` sorted in non-decreasing order and every `x`,
`closestLeft` returns the largest index `i` with `arr[i] ≤ x`: the indices holding an
element that is at most `x` are exactly those up to the result, and the result is
`-1` exactly when no element of `arr` is at most `x`, in particular for the empty
array. -/
theorem closestLeft_correct (arr : List Int) (x : Int) (hs : arr.Pairwise (· ≤ ·)) :
    ∃ r, closestLeft arr x = some r ∧ -1 ≤ r ∧ r < arr.length ∧
      (∀ i : Nat, i < arr.length → (arr.getD i 0 ≤ x ↔ (i : Int) ≤ r)) ∧
      (r ≠ -1 → arr.getD r.toNat 0 ≤ x) ∧
      (r = -1 ↔ ∀ c ∈ arr, ¬ c ≤ x) ∧ closestLeft [] x = some (-1) := by
  obtain ⟨r, h1, h2, h3, h4⟩ := closestLeft_spec arr x hs
  refine ⟨r, h1, h2, h3, h4, ?_, ?_, rfl⟩
  · intro hr
    have := h4 r.toNat (by omega)
    rw [this]
    omega
  · constructor
    · intro e c hc hcx
      obtain ⟨i, hi, hic⟩ := (mem_iff_getD arr c).mp hc
      have := (h4 i hi).mp (by rw [hic]; exact hcx)
      omega
    · intro hall
      by_contra hr
      have h5 := (h4 r.toNat (by omega)).mpr (by omega)
      apply hall (arr.getD r.toNat 0) _ h5
      rw [mem_iff_getD]
      exact ⟨r.toNat, by omega, rfl⟩

theorem closestLeft_correct_witness :
    ∃ r, closestLeft [1, 3, 3, 7] 4 = some r ∧ -1 ≤ r ∧ r < ([1, 3, 3, 7] : List Int).length ∧
      (∀ i : Nat, i < ([1, 3, 3, 7] : List Int).length →
        (([1, 3, 3, 7] : List Int).getD i 0 ≤ 4 ↔ (i : Int) ≤ r)) ∧
      (r ≠ -1 → ([1, 3, 3, 7] : List Int).getD r.toNat 0 ≤ 4) ∧
      (r = -1 ↔ ∀ c ∈ ([1, 3, 3, 7] : List Int), ¬ c ≤ 4) ∧
      closestLeft [] 4 = some (-1) :=
  closestLeft_correct [1, 3, 3, 7] 4 (by decide)

/-! ## `closestRight` and `countInRange` -/

/-- With enough fuel the loop of `closestRight` returns the boundary between the
elements that are smaller than `x` and the others, provided `low` and `high` lie on
the two sides of it. -/
theorem closestRightLoop_spec {arr : List Int} (x : Int) (hs : arr.Pairwise (· ≤ ·))
    (fuel : Nat) (low high : Int) (hlow : -1 ≤ low) (hlh : low < high)
    (hhigh : high ≤ arr.length) (hfuel : high - low - 1 < fuel)
    (hl : ∀ i : Nat, i < arr.length → (i : Int) ≤ low → arr.getD i 0 < x)
    (hh : ∀ i : Nat, i < arr.length → high ≤ (i : Int) → x ≤ arr.getD i 0) :
    ∃ r, closestRightLoop arr x fuel low high = some r ∧ 0 ≤ r ∧ r ≤ arr.length ∧
      ∀ i : Nat, i < arr.length → (x ≤ arr.getD i 0 ↔ r ≤ (i : Int)) := by
  induction fuel generalizing low high with
  | zero => simp only [Nat.cast_zero] at hfuel; omega
  | succ f ih =>
    unfold closestRightLoop
    by_cases hgap : low + 1 < high
    · simp only [hgap, if_true]
      obtain ⟨hm1, hm2⟩ := tdiv_two_bounds low high (by omega)
      generalize (low + high).tdiv 2 = mid at hm1 hm2
      have hmid0 : 0 ≤ mid := by omega
      have hmt : (mid.toNat : Int) = mid := Int.toNat_of_nonneg hmid0
      have hmtn : mid.toNat < arr.length := by omega
      by_cases hge : arr.getD mid.toNat 0 ≥ x
      · simp only [hge, if_true]
        apply ih low mid hlow (by omega) (by omega)
        · push_cast at hfuel ⊢; omega
        · exact hl
        · intro i hi him
          have := sorted_getD_le hs (show mid.toNat ≤ i by omega) hi
          omega
      · simp only [hge, if_false]
        apply ih mid high (by omega) (by omega) hhigh
        · push_cast at hfuel ⊢; omega
        · intro i hi him
          have := sorted_getD_le hs (show i ≤ mid.toNat by omega) hmtn
          omega
        · exact hh
    · simp only [hgap, if_false]
      refine ⟨high, rfl, by omega, hhigh, ?_⟩
      intro i hi
      constructor
      · intro h
        by_contra hcon
        have := hl i hi (by omega)
        omega
      · exact hh i hi

theorem closestRight_spec (arr : List Int) (x : Int) (hs : arr.Pairwise (· ≤ ·)) :
    ∃ r, closestRight arr x = some r ∧ 0 ≤ r ∧ r ≤ arr.length ∧
      ∀ i : Nat, i < arr.length → (x ≤ arr.getD i 0 ↔ r ≤ (i : Int)) := by
  unfold closestRight
  apply closestRightLoop_spec x hs _ (-1) _ (le_refl _) (by omega) (le_refl _)
  · push_cast; omega
  · intro i _ h; omega
  · intro i hi h; omega

/-- The loop of `lower_bound` on the window `first, ..., first + len - 1` returns the
boundary between the elements smaller than `val` and the others. -/
theorem lowerBoundLoop_spec {arr : List Int} (val : Int) (hs : arr.Pairwise (· ≤ ·))
    (fuel first len : Nat) (hwin : first + len ≤ arr.length) (hfuel : len < fuel)
    (hl : ∀ i, i < first → arr.getD i 0 < val)
    (hh : ∀ i, first + len ≤ i → i < arr.length → val ≤ arr.getD i 0) :
    ∃ p, lowerBoundLoop arr val fuel first len = some p ∧ p ≤ arr.length ∧
      ∀ i, i < arr.length → (arr.getD i 0 < val ↔ i < p) := by
  induction fuel generalizing first len with
  | zero => omega
  | succ f ih =>
    unfold lowerBoundLoop
    by_cases hpos : 0 < len
    · simp only [hpos, if_true]
      have hhalf : len / 2 < len := Nat.div_lt_self hpos (by decide)
      by_cases hlt : arr.getD (first + len / 2) 0 < val
      · simp only [hlt, if_true]
        apply ih (first + len / 2 + 1) (len - len / 2 - 1) (by omega) (by omega)
        · intro i hi
          have := sorted_getD_le hs (show i ≤ first + len / 2 by omega) (by omega)
          omega
        · intro i hi hin
          exact hh i (by omega) hin
      · simp only [hlt, if_false]
        apply ih first (len / 2) (by omega) (by omega) hl
        intro i hi hin
        have := sorted_getD_le hs (show first + len / 2 ≤ i by omega) hin
        omega
    · simp only [hpos, if_false]
      refine ⟨first, rfl, by omega, ?_⟩
      intro i hi
      constructor
      · intro h
        by_contra hcon
        have := hh i (by omega) hi
        omega
      · exact hl i

/-- The loop of `upper_bound` on the window `first, ..., first + len - 1` returns the
boundary between the elements that are at most `val` and the larger ones. -/
theorem upperBoundLoop_spec {arr : List Int} (val : Int) (hs : arr.Pairwise (· ≤ ·))
    (fuel first len : Nat) (hwin : first + len ≤ arr.length) (hfuel : len < fuel)
    (hl : ∀ i, i < first → arr.getD i 0 ≤ val)
    (hh : ∀ i, first + len ≤ i → i < arr.length → val < arr.getD i 0) :
    ∃ p, upperBoundLoop arr val fuel first len = some p ∧ p ≤ arr.length ∧
      ∀ i, i < arr.length → (arr.getD i 0 ≤ val ↔ i < p) := by
  induction fuel generalizing first len with
  | zero => omega
  | succ f ih =>
    unfold upperBoundLoop
    by_cases hpos : 0 < len
    · simp only [hpos, if_true]
      have hhalf : len / 2 < len := Nat.div_lt_self hpos (by decide)
      by_cases hlt : val < arr.getD (first + len / 2) 0
      · simp only [hlt, if_true]
        apply ih first (len / 2) (by omega) (by omega) hl
        intro i hi hin
        have := sorted_getD_le hs (show first + len / 2 ≤ i by omega) hin
        omega
      · simp only [hlt, if_false]
        apply ih (first + len / 2 + 1) (len - len / 2 - 1) (by omega) (by omega)
        · intro i hi
          have := sorted_getD_le hs (show i ≤ first + len / 2 by omega) (by omega)
          omega
        · intro i hi hin
          exact hh i (by omega) hin
    · simp only [hpos, if_false]
      refine ⟨first, rfl, by omega, ?_⟩
      intro i hi
      constructor
      · intro h
        by_contra hcon
        have := hh i (by omega) hi
        omega
      · exact hl i

/-- A predicate that holds exactly at the indices below `p` is counted `p` times. -/
theorem countP_of_boundary (q : Int → Bool) (arr : List Int) (p : Nat) (hp : p ≤ arr.length)
    (h : ∀ i, i < arr.length → (q (arr.getD i 0) = true ↔ i < p)) : arr.countP q = p := by
  induction arr generalizing p with
  | nil => simp only [List.length_nil, Nat.le_zero] at hp; subst hp; rfl
  | cons a as ih =>
    have h0 := h 0 (by simp only [List.length_cons]; omega)
    simp only [List.getD_cons_zero] at h0
    cases p with
    | zero =>
      have hall : ∀ x ∈ a :: as, ¬ q x = true := by
        intro x hx
        obtain ⟨i, hi, e⟩ := (mem_iff_getD (a :: as) x).mp hx
        have := h i hi
        rw [e] at this
        intro hq
        have := this.mp hq
        omega
      exact List.countP_eq_zero.mpr hall
    | succ p =>
      have hq : q a = true := h0.mpr (by omega)
      rw [List.countP_cons_of_pos _ _ hq, ih p (by simp only [List.length_cons] at hp; omega)]
      intro i hi
      have := h (i + 1) (by simp only [List.length_cons]; omega)
      simp only [List.getD_cons_succ] at this
      rw [this]
      omega

theorem countP_range_split (arr : List Int) (l r : Int) :
    (arr.countP (fun a => decide (a ≤ r)) : Int) - arr.countP (fun a => decide (a < l)) =
      (arr.countP (fun a => decide (l ≤ a ∧ a ≤ r)) : Int) -
        arr.countP (fun a => decide (r < a ∧ a < l)) := by
  induction arr with
  | nil => rfl
  | cons a as ih =>
    simp only [List.countP_cons]
    by_cases h1 : a ≤ r <;> by_cases h2 : a < l <;>
      simp only [h1, h2, decide_True, decide_False, if_true, if_false, true_and, and_true,
        false_and, and_false, not_lt.mp, Bool.false_eq_true, Nat.add_zero, Nat.cast_add,
        Nat.cast_one] <;>
      (first
        | (have h3 : l ≤ a := by omega
           have h4 : ¬ r < a := by omega
           simp only [h3, h4, decide_True, decide_False, if_true, if_false, Nat.cast_add,
             Nat.cast_one, Bool.false_eq_true, Nat.add_zero]
           omega)
        | (have h3 : ¬ l ≤ a := by omega
           have h4 : r < a := by omega
           simp only [h3, h4, decide_True, decide_False, if_true, if_false, Nat.cast_add,
             Nat.cast_one, Bool.false_eq_true, Nat.add_zero]
           omega)
        | (have h3 : ¬ l ≤ a := by omega
           have h4 : ¬ r < a := by omega
           simp only [h3, h4, decide_True, decide_False, if_true, if_false, Nat.cast_add,
             Nat.cast_one, Bool.false_eq_true, Nat.add_zero]
           omega)
        | omega)

theorem countInRange_spec (arr : List Int) (l r : Int) (hs : arr.Pairwise (· ≤ ·)) :
    countInRange arr l r =
      some ((arr.countP (fun a => decide (l ≤ a ∧ a ≤ r)) : Int) -
        arr.countP (fun a => decide (r < a ∧ a < l))) := by
  obtain ⟨p, hp1, hp2, hp3⟩ := lowerBoundLoop_spec l hs (arr.length + 1) 0 arr.length
    (by omega) (by omega) (fun i hi => by omega) (fun i hi hin => by omega)
  obtain ⟨q, hq1, hq2, hq3⟩ := upperBoundLoop_spec r hs (arr.length + 1) 0 arr.length
    (by omega) (by omega) (fun i hi => by omega) (fun i hi hin => by omega)
  have e1 : arr.countP (fun a => decide (a < l)) = p :=
    countP_of_boundary _ arr p hp2 (fun i hi => by rw [decide_eq_true_iff]; exact hp3 i hi)
  have e2 : arr.countP (fun a => decide (a ≤ r)) = q :=
    countP_of_boundary _ arr q hq2 (fun i hi => by rw [decide_eq_true_iff]; exact hq3 i hi)
  unfold countInRange lowerBound upperBound
  rw [hp1, hq1, ← countP_range_split, e1, e2]
  rfl

/-! ## The claims on `closestRight` and `countInRange` -/

/-- C21: for every array `arr` of length `n` sorted in non-decreasing order and every
`x`, `closestRight` returns the smallest index `i` with `arr[i] ≥ x`: the indices
holding an element that is at least `x` are exactly those from the result on, and the
result is `n` exactly when no element of `arr` is at least `x`. -/
theorem closestRight_correct (arr : List Int) (x : Int) (hs : arr.Pairwise (· ≤ ·)) :
    ∃ r, closestRight arr x = some r ∧ 0 ≤ r ∧ r ≤ arr.length ∧
      (∀ i : Nat, i < arr.length → (x ≤ arr.getD i 0 ↔ r ≤ (i : Int))) ∧
      (r < arr.length → x ≤ arr.getD r.toNat 0) ∧
      (r = arr.length ↔ ∀ a ∈ arr, ¬ x ≤ a) := by
  obtain ⟨r, h1, h2, h3, h4⟩ := closestRight_spec arr x hs
  refine ⟨r, h1, h2, h3, h4, ?_, ?_⟩
  · intro hr
    rw [h4 r.toNat (by omega)]
    omega
  · constructor
    · intro e a ha hxa
      obtain ⟨i, hi, hia⟩ := (mem_iff_getD arr a).mp ha
      have := (h4 i hi).mp (by rw [hia]; exact hxa)
      omega
    · intro hall
      by_contra hr
      have h5 := (h4 r.toNat (by omega)).mpr (by omega)
      apply hall (arr.getD r.toNat 0) _ h5
      rw [mem_iff_getD]
      exact ⟨r.toNat, by omega, rfl⟩

theorem closestRight_correct_witness :
    ∃ r, closestRight [1, 3, 3, 7] 2 = some r ∧ 0 ≤ r ∧ r ≤ ([1, 3, 3, 7] : List Int).length ∧
      (∀ i : Nat, i < ([1, 3, 3, 7] : List Int).length →
        (2 ≤ ([1, 3, 3, 7] : List Int).getD i 0 ↔ r ≤ (i : Int))) ∧
      (r < ([1, 3, 3, 7] : List Int).length → 2 ≤ ([1, 3, 3, 7] : List Int).getD r.toNat 0) ∧
      (r = ([1, 3, 3, 7] : List Int).length ↔ ∀ a ∈ ([1, 3, 3, 7] : List Int), ¬ 2 ≤ a) :=
  closestRight_correct [1, 3, 3, 7] 2 (by decide)

/-- C22, as stated, fails: on the sorted array `[2]` with `l = 3` and `r = 1` the
function `countInRange` returns `-1`, while no index `i` has `3 ≤ arr[i] ≤ 1`. -/
theorem countInRange_reversed_bounds :
    ([2] : List Int).Pairwise (· ≤ ·) ∧ countInRange [2] 3 1 = some (-1) ∧
      ([2] : List Int).countP (fun a => decide (3 ≤ a ∧ a ≤ 1)) = 0 ∧
      countInRange [2] 3 1 ≠
        some ((([2] : List Int).countP (fun a => decide (3 ≤ a ∧ a ≤ 1)) : Nat) : Int) := by
  decide

/-- C22, amended: for every array `arr` sorted in non-decreasing order and all
integers `l ≤ r`, `countInRange` returns the number of indices `i` with
`l ≤ arr[i] ≤ r`.  For arbitrary `l` and `r` it returns that number minus the number
of indices `i` with `r < arr[i] < l`. -/
theorem countInRange_correct (arr : List Int) (l r : Int) (hs : arr.Pairwise (· ≤ ·)) :
    countInRange arr l r =
        some ((arr.countP (fun a => decide (l ≤ a ∧ a ≤ r)) : Int) -
          arr.countP (fun a => decide (r < a ∧ a < l))) ∧
      (l ≤ r → countInRange arr l r =
        some ((arr.countP (fun a => decide (l ≤ a ∧ a ≤ r)) : Nat) : Int)) := by
  refine ⟨countInRange_spec arr l r hs, ?_⟩
  intro hlr
  rw [countInRange_spec arr l r hs]
  have h0 : arr.countP (fun a => decide (r < a ∧ a < l)) = 0 := by
    apply List.countP_eq_zero.mpr
    intro a _
    rw [decide_eq_true_iff]
    omega
  rw [h0]
  simp only [Nat.cast_zero, sub_zero]

theorem countInRange_correct_witness :
    countInRange [1, 3, 3, 7] 2 5 =
        some ((([1, 3, 3, 7] : List Int).countP (fun a => decide (2 ≤ a ∧ a ≤ 5)) : Int) -
          ([1, 3, 3, 7] : List Int).countP (fun a => decide (5 < a ∧ a < 2))) ∧
      ((2 : Int) ≤ 5 → countInRange [1, 3, 3, 7] 2 5 =
        some ((([1, 3, 3, 7] : List Int).countP (fun a => decide (2 ≤ a ∧ a ≤ 5)) : Nat) : Int)) :=
  countInRange_correct [1, 3, 3, 7] 2 5 (by decide)

end BinarySearch

namespace BinarySearchAnswer

/-! ## Bisection on the answer -/

theorem good_iff (a b n m : Int) : Good a b n m = true ↔ n ≤ m.tdiv a * m.tdiv b := by
  unfold Good
  rw [decide_eq_true_iff]

theorem good_mono {a b n : Int} (ha : 1 ≤ a) (hb : 1 ≤ b) {m m' : Int} (hm : 0 ≤ m)
    (hmm : m ≤ m') (h : Good a b n m = true) : Good a b n m' = true := by
  rw [good_iff] at h ⊢
  rw [Int.tdiv_eq_ediv hm (by omega), Int.tdiv_eq_ediv hm (by omega)] at h
  rw [Int.tdiv_eq_ediv (by omega) (by omega), Int.tdiv_eq_ediv (by omega) (by omega)]
  have h1 : m / a ≤ m' / a := Int.ediv_le_ediv (by omega) hmm
  have h2 : m / b ≤ m' / b := Int.ediv_le_ediv (by omega) hmm
  have h3 : 0 ≤ m / a := Int.ediv_nonneg hm (by omega)
  have h4 : 0 ≤ m / b := Int.ediv_nonneg hm (by omega)
  calc n ≤ m / a * (m / b) := h
    _ ≤ m' / a * (m' / b) := Int.mul_le_mul h1 h2 h4 (by omega)

theorem good_zero {a b n : Int} (hn : 1 ≤ n) : Good a b n 0 = false := by
  rw [Bool.eq_false_iff]
  intro h
  rw [good_iff] at h
  simp only [Int.zero_tdiv, mul_zero] at h
  omega

theorem good_large {a b n : Int} (ha : 1 ≤ a) (hb : 1 ≤ b) (hn : 1 ≤ n) {m : Int}
    (hm : max a b * n ≤ m) : Good a b n m = true := by
  have hab : 0 ≤ max a b := by have := le_max_left a b; omega
  have hmax : max a b ≤ max a b * n := by
    have := Int.mul_le_mul_of_nonneg_left hn hab
    rw [mul_one] at this
    exact this
  have hm0 : 0 ≤ m := by omega
  rw [good_iff, Int.tdiv_eq_ediv hm0 (by omega), Int.tdiv_eq_ediv hm0 (by omega)]
  have h1 : n ≤ m / a := by
    rw [Int.le_ediv_iff_mul_le (by omega)]
    have := Int.mul_le_mul_of_nonneg_right (le_max_left a b) (show 0 ≤ n by omega)
    rw [mul_comm n a]
    omega
  have h2 : 1 ≤ m / b := by
    rw [Int.le_ediv_iff_mul_le (by omega)]
    have := le_max_right a b
    omega
  calc n = n * 1 := (mul_one n).symm
    _ ≤ m / a * (m / b) := Int.mul_le_mul h1 h2 (by omega) (by omega)

/-- The doubling loop returns a good value that is at least `1`. -/
theorem doubleLoop_spec {a b n : Int} (ha : 1 ≤ a) (hb : 1 ≤ b) (hn : 1 ≤ n) (fuel : Nat)
    (r : Int) (hr : 1 ≤ r) (hfuel : max a b * n - r < fuel) (hpos : 0 < fuel) :
    ∃ r', doubleLoop a b n fuel r = some r' ∧ 1 ≤ r' ∧ Good a b n r' = true := by
  induction fuel generalizing r with
  | zero => omega
  | succ f ih =>
    unfold doubleLoop
    by_cases hg : Good a b n r = true
    · simp only [hg, Bool.not_true, Bool.false_eq_true, if_false]
      exact ⟨r, rfl, hr, hg⟩
    · have hlt : r < max a b * n := by
        by_contra hcon
        exact hg (good_large ha hb hn (by omega))
      simp only [Bool.not_eq_true] at hg
      simp only [hg, Bool.not_false, if_true]
      push_cast at hfuel
      exact ih (r * 2) (by omega) (by omega) (by omega)

theorem bisectBody_spec {a b n : Int} {p : Int × Int} (hgap : p.1 + 1 < p.2) (h0 : 0 ≤ p.1)
    (hl : Good a b n p.1 = false) (hr : Good a b n p.2 = true) :
    0 ≤ (bisectBody a b n p).1 ∧ (bisectBody a b n p).1 < (bisectBody a b n p).2 ∧
      (bisectBody a b n p).2 - (bisectBody a b n p).1 < p.2 - p.1 ∧
      Good a b n (bisectBody a b n p).1 = false ∧ Good a b n (bisectBody a b n p).2 = true := by
  unfold bisectBody
  have hd : (p.2 - p.1).tdiv 2 = (p.2 - p.1) / 2 := Int.tdiv_eq_ediv (by omega) (by decide)
  rw [hd]
  by_cases hg : Good a b n (p.1 + (p.2 - p.1) / 2) = true
  · rw [if_pos hg]
    exact ⟨h0, by show p.1 < p.1 + (p.2 - p.1) / 2; omega,
      by show p.1 + (p.2 - p.1) / 2 - p.1 < p.2 - p.1; omega, hl, hg⟩
  · rw [if_neg hg]
    exact ⟨by show 0 ≤ p.1 + (p.2 - p.1) / 2; omega,
      by show p.1 + (p.2 - p.1) / 2 < p.2; omega,
      by show p.2 - (p.1 + (p.2 - p.1) / 2) < p.2 - p.1; omega,
      by simpa using hg, hr⟩

/-- The bisection loop returns, and it returns the smallest good value when it is
started with a bad `l` and a good `r`. -/
theorem bisectLoop_spec {a b n : Int} (fuel : Nat) (p : Int × Int) (h0 : 0 ≤ p.1)
    (hlt : p.1 < p.2) (hfuel : p.2 - p.1 - 1 < fuel ∨ (p.2 - p.1 = 1))
    (hl : Good a b n p.1 = false) (hr : Good a b n p.2 = true) (hpos : 0 < fuel) :
    ∃ q, bisectLoop a b n fuel p = some q ∧ 0 ≤ q.1 ∧ q.2 = q.1 + 1 ∧
      Good a b n q.1 = false ∧ Good a b n q.2 = true := by
  induction fuel generalizing p with
  | zero => omega
  | succ f ih =>
    unfold bisectLoop
    by_cases hgap : p.1 + 1 < p.2
    · simp only [hgap, if_true]
      obtain ⟨h1, h2, h3, h4, h5⟩ := bisectBody_spec hgap h0 hl hr
      have hf : 0 < f := by
        rcases hfuel with h | h
        · push_cast at h; omega
        · omega
      apply ih _ h1 h2 _ h4 h5 hf
      left
      rcases hfuel with h | h
      · push_cast at h; omega
      · omega
    · simp only [hgap, if_false]
      exact ⟨p, rfl, h0, by omega, hl, hr⟩

/-- At every test of the loop condition `l` is bad and `r` is good. -/
theorem bisectTrace_inv {a b n : Int} (fuel : Nat) (p : Int × Int) (h0 : 0 ≤ p.1)
    (hlt : p.1 < p.2) (hl : Good a b n p.1 = false) (hr : Good a b n p.2 = true) :
    ∀ q ∈ bisectTrace a b n fuel p, Good a b n q.1 = false ∧ Good a b n q.2 = true := by
  induction fuel generalizing p with
  | zero =>
    intro q hq
    simp only [bisectTrace, List.mem_singleton] at hq
    subst hq
    exact ⟨hl, hr⟩
  | succ f ih =>
    intro q hq
    simp only [bisectTrace, List.mem_cons] at hq
    rcases hq with e | hq
    · subst e
      exact ⟨hl, hr⟩
    · by_cases hgap : p.1 + 1 < p.2
      · simp only [hgap, if_true] at hq
        obtain ⟨h1, h2, _, h4, h5⟩ := bisectBody_spec hgap h0 hl hr
        exact ih _ h1 h2 h4 h5 q hq
      · simp only [hgap, if_false, List.not_mem_nil] at hq

theorem smallest_square_spec {a b n : Int} (ha : 1 ≤ a) (hb : 1 ≤ b) (hn : 1 ≤ n) :
    ∃ r0 r, doubleLoop a b n (doubleFuel a b n) 1 = some r0 ∧
      solve_smallest_square a b n = some r ∧ 1 ≤ r ∧
      Good a b n r = true ∧ Good a b n (r - 1) = false ∧
      (∀ m, 0 ≤ m → m < r → Good a b n m = false) ∧
      ∀ fuel, ∀ q ∈ bisectTrace a b n fuel (0, r0),
        Good a b n q.1 = false ∧ Good a b n q.2 = true := by
  have hB : 0 ≤ max a b * n := by
    have : 0 ≤ max a b := by have := le_max_left a b; omega
    exact Int.mul_nonneg this (by omega)
  obtain ⟨r0, h1, h2, h3⟩ := doubleLoop_spec ha hb hn (doubleFuel a b n) 1 (le_refl 1)
    (by unfold doubleFuel; push_cast; rw [Int.toNat_of_nonneg hB]; omega)
    (by unfold doubleFuel; omega)
  obtain ⟨q, h4, h5, h6, h7, h8⟩ := bisectLoop_spec (a := a) (b := b) (n := n) r0.toNat (0, r0)
    (le_refl 0) (by show (0 : Int) < r0; omega)
    (by left; show r0 - 0 - 1 < (r0.toNat : Int); rw [Int.toNat_of_nonneg (by omega)]; omega)
    (good_zero hn) h3 (by omega)
  refine ⟨r0, q.2, h1, ?_, by omega, h8, ?_, ?_, ?_⟩
  · unfold solve_smallest_square
    rw [h1]
    show (bisectLoop a b n r0.toNat (0, r0)).bind _ = _
    rw [h4]
    rfl
  · rw [h6, Int.add_sub_cancel]
    exact h7
  · intro m hm0 hmr
    rw [Bool.eq_false_iff]
    intro hg
    have := good_mono ha hb hm0 (show m ≤ q.1 by omega) hg
    rw [h7] at this
    exact Bool.false_ne_true this
  · intro fuel
    exact bisectTrace_inv fuel (0, r0) (le_refl 0) (by show (0 : Int) < r0; omega)
      (good_zero hn) h3

/-- C23: for all integers `a ≥ 1`, `b ≥ 1`, `n ≥ 1` the doubling loop and the
bisection loop of `solve_smallest_square` terminate, and the printed `r` is the
smallest good value: `(r / a) * (r / b) ≥ n` and `((r - 1) / a) * ((r - 1) / b) < n`
with integer division, and no `m` with `0 ≤ m < r` is good.  At every test of the
condition of the bisection loop `l` is bad and `r` is good. -/
theorem smallest_square_correct (a b n : Int) (ha : 1 ≤ a) (hb : 1 ≤ b) (hn : 1 ≤ n) :
    ∃ r0 r, doubleLoop a b n (doubleFuel a b n) 1 = some r0 ∧
      solve_smallest_square a b n = some r ∧
      r.tdiv a * r.tdiv b ≥ n ∧ (r - 1).tdiv a * (r - 1).tdiv b < n ∧
      (∀ m, 0 ≤ m → m < r → m.tdiv a * m.tdiv b < n) ∧
      ∀ fuel, ∀ q ∈ bisectTrace a b n fuel (0, r0),
        Good a b n q.1 = false ∧ Good a b n q.2 = true := by
  obtain ⟨r0, r, h1, h2, _, h4, h5, h6, h7⟩ := smallest_square_spec ha hb hn
  refine ⟨r0, r, h1, h2, (good_iff a b n r).mp h4, ?_, ?_, h7⟩
  · by_contra hcon
    have := (good_iff a b n (r - 1)).mpr (by omega)
    rw [h5] at this
    exact Bool.false_ne_true this
  · intro m hm0 hmr
    by_contra hcon
    have := (good_iff a b n m).mpr (by omega)
    rw [h6 m hm0 hmr] at this
    exact Bool.false_ne_true this

theorem smallest_square_correct_witness :
    ∃ r0 r, doubleLoop 2 3 10 (doubleFuel 2 3 10) 1 = some r0 ∧
      solve_smallest_square 2 3 10 = some r ∧
      r.tdiv 2 * r.tdiv 3 ≥ 10 ∧ (r - 1).tdiv 2 * (r - 1).tdiv 3 < 10 ∧
      (∀ m, 0 ≤ m → m < r → m.tdiv 2 * m.tdiv 3 < 10) ∧
      ∀ fuel, ∀ q ∈ bisectTrace 2 3 10 fuel (0, r0),
        Good 2 3 10 q.1 = false ∧ Good 2 3 10 q.2 = true :=
  smallest_square_correct 2 3 10 (by decide) (by decide) (by decide)

end BinarySearchAnswer

namespace LinearDP

/-! ## Longest increasing subsequence -/

theorem take_succ_getD (l : List Int) (i : Nat) (h : i < l.length) :
    l.take (i + 1) = l.take i ++ [l.getD i 0] := by
  rw [List.take_succ, List.getElem?_eq_getElem h, List.getD_eq_getElem l 0 h]
  rfl

theorem longestIncreasing_nil : LongestIncreasing [] 0 := by
  refine ⟨⟨[], List.Sublist.refl _, List.Pairwise.nil, rfl⟩, ?_⟩
  intro l hl _
  rw [List.sublist_nil.mp hl]
  exact le_refl _

theorem longestIncreasing_nonneg {xs : List Int} {k : Int} (h : LongestIncreasing xs k) :
    0 ≤ k := by
  have := h.2 [] (List.nil_sublist xs) List.Pairwise.nil
  simpa using this

theorem longestIncreasing_pos {xs : List Int} {k : Int} (h : LongestIncreasing xs k)
    (hne : xs ≠ []) : 1 ≤ k := by
  obtain ⟨x, hx⟩ := List.exists_mem_of_ne_nil xs hne
  have := h.2 [x] (List.singleton_sublist.mpr hx) (List.pairwise_singleton _ _)
  simpa using this

theorem longestIncreasing_unique {xs : List Int} {k k' : Int} (h : LongestIncreasing xs k)
    (h' : LongestIncreasing xs k') : k = k' := by
  obtain ⟨⟨l, hl1, hl2, hl3⟩, hmax⟩ := h
  obtain ⟨⟨l', hl1', hl2', hl3'⟩, hmax'⟩ := h'
  have := hmax l' hl1' hl2'
  have := hmax' l hl1 hl2
  omega

/-- A longest increasing subsequence of `xs ++ [y]` either avoids `y`, or it is a
longest increasing subsequence of the elements of `xs` below `y` followed by `y`. -/
theorem longestIncreasing_concat {xs : List Int} {y k1 k2 : Int}
    (h1 : LongestIncreasing xs k1)
    (h2 : LongestIncreasing (xs.filter (fun a => decide (a < y))) k2) :
    LongestIncreasing (xs ++ [y]) (max k1 (k2 + 1)) := by
  obtain ⟨⟨l1, hl1, hp1, e1⟩, hmax1⟩ := h1
  obtain ⟨⟨l2, hl2, hp2, e2⟩, hmax2⟩ := h2
  constructor
  · rcases le_total k1 (k2 + 1) with hle | hle
    · rw [max_eq_right hle]
      refine ⟨l2 ++ [y], ?_, ?_, ?_⟩
      · exact List.Sublist.append (hl2.trans (List.filter_sublist xs)) (List.Sublist.refl _)
      · rw [List.pairwise_append]
        refine ⟨hp2, List.pairwise_singleton _ _, ?_⟩
        intro a ha b hb
        rw [List.mem_singleton] at hb
        subst hb
        have := (List.mem_filter.mp (hl2.subset ha)).2
        exact of_decide_eq_true this
      · rw [List.length_append, List.length_singleton]
        push_cast
        omega
    · rw [max_eq_left hle]
      exact ⟨l1, hl1.trans (List.sublist_append_left xs [y]), hp1, e1⟩
  · intro l hl hp
    obtain ⟨a, b, rfl, ha, hb⟩ := List.sublist_append_iff.mp hl
    rw [List.pairwise_append] at hp
    obtain ⟨hpa, _, hab⟩ := hp
    rcases List.sublist_cons_iff.mp hb with hb' | ⟨r, rfl, hr⟩
    · rw [List.sublist_nil.mp hb', List.append_nil]
      have := hmax1 a ha hpa
      omega
    · rw [List.sublist_nil.mp hr]
      have hfa : a.filter (fun c => decide (c < y)) = a := by
        rw [List.filter_eq_self]
        intro c hc
        exact decide_eq_true (hab c hc y (List.mem_cons_self _ _))
      have hsub : a.Sublist (xs.filter (fun c => decide (c < y))) := by
        rw [← hfa]
        exact ha.filter _
      have := hmax2 a hsub hpa
      rw [List.length_append, List.length_singleton]
      push_cast
      omega

theorem longestIncreasing_filter_concat {xs : List Int} {y v k1 k2 : Int}
    (h1 : LongestIncreasing (xs.filter (fun a => decide (a < v))) k1)
    (h2 : LongestIncreasing (xs.filter (fun a => decide (a < y))) k2) :
    LongestIncreasing ((xs ++ [y]).filter (fun a => decide (a < v)))
      (if y < v then max k1 (k2 + 1) else k1) := by
  rw [List.filter_append]
  by_cases hyv : y < v
  · rw [if_pos hyv]
    have e : [y].filter (fun a => decide (a < v)) = [y] := by
      rw [List.filter_eq_self]
      intro c hc
      rw [List.mem_singleton] at hc
      subst hc
      exact decide_eq_true hyv
    rw [e]
    apply longestIncreasing_concat h1
    have e2 : (xs.filter (fun a => decide (a < v))).filter (fun a => decide (a < y)) =
        xs.filter (fun a => decide (a < y)) := by
      rw [List.filter_filter]
      apply List.filter_congr
      intro c _
      by_cases hc : c < y
      · have : c < v := by omega
        simp only [hc, this, decide_True, Bool.and_self]
      · simp only [hc, decide_False, Bool.false_and]
    rw [e2]
    exact h2
  · rw [if_neg hyv]
    have e : [y].filter (fun a => decide (a < v)) = [] := by
      rw [List.filter_eq_nil_iff]
      intro c hc
      rw [List.mem_singleton] at hc
      subst hc
      simp only [hyv, decide_False, Bool.false_eq_true, not_false_eq_true]
    rw [e, List.append_nil]
    exact h1

/-- The loop over `j` at index `i`, after the passes `j = 0, ..., m - 1`. -/
theorem lisInner_upTo (arr : List Int) (i : Nat) (dp : List Int) (hi : i < arr.length)
    (hlen : dp.length = arr.length)
    (hprev : ∀ j, j < i → LongestIncreasing
      ((arr.take j).filter (fun a => decide (a < arr.getD j 0))) (dp.getD j 0 - 1))
    (hcur : dp.getD i 0 = 1) (m : Nat) (hm : m ≤ i) :
    ((List.range m).foldl (lisStep arr i) dp).length = arr.length ∧
      (∀ j, j ≠ i → ((List.range m).foldl (lisStep arr i) dp).getD j 0 = dp.getD j 0) ∧
      LongestIncreasing ((arr.take m).filter (fun a => decide (a < arr.getD i 0)))
        (((List.range m).foldl (lisStep arr i) dp).getD i 0 - 1) := by
  induction m with
  | zero =>
    refine ⟨hlen, fun j _ => rfl, ?_⟩
    simp only [List.range_zero, List.foldl_nil, List.take_zero, List.filter_nil]
    rw [hcur]
    exact longestIncreasing_nil
  | succ m ih =>
    obtain ⟨h1, h2, h3⟩ := ih (by omega)
    simp only [List.range_succ, List.foldl_append, List.foldl_cons, List.foldl_nil]
    generalize (List.range m).foldl (lisStep arr i) dp = d at *
    have hm' : d.getD m 0 = dp.getD m 0 := h2 m (by omega)
    have hR := longestIncreasing_filter_concat h3 (hprev m (by omega))
    rw [← take_succ_getD arr m (by omega)] at hR
    unfold lisStep
    by_cases hlt : arr.getD m 0 < arr.getD i 0
    · rw [if_pos hlt] at hR ⊢
      refine ⟨by rw [List.length_set, h1], ?_, ?_⟩
      · intro j hj
        rw [SuffixArray.getD_set_ne _ _ _ _ _ (by omega)]
        exact h2 j hj
      · rw [SuffixArray.getD_set_self _ _ _ _ (by omega), hm']
        have e : max (d.getD i 0) (dp.getD m 0 + 1) - 1 =
            max (d.getD i 0 - 1) (dp.getD m 0 - 1 + 1) := by omega
        rw [e]
        exact hR
    · rw [if_neg hlt] at hR ⊢
      exact ⟨h1, h2, hR⟩

/-- The loop over `i` after `m` passes. -/
theorem lisLoop_spec (arr : List Int) (m : Nat) (hm : m ≤ arr.length) :
    (lisLoop arr m).1.length = arr.length ∧
      (∀ j, j < m → LongestIncreasing
        ((arr.take j).filter (fun a => decide (a < arr.getD j 0)))
        ((lisLoop arr m).1.getD j 0 - 1)) ∧
      (∀ j, m ≤ j → j < arr.length → (lisLoop arr m).1.getD j 0 = 1) ∧
      ∃ k, LongestIncreasing (arr.take m) k ∧ (lisLoop arr m).2 = max 1 k := by
  induction m with
  | zero =>
    refine ⟨List.length_replicate _ _, fun j hj => by omega, ?_, 0, ?_, rfl⟩
    · intro j _ hj
      show (List.replicate arr.length (1 : Int)).getD j 0 = 1
      rw [List.getD_eq_getElem _ _ (by rw [List.length_replicate]; exact hj)]
      simp only [List.getElem_replicate]
    · rw [List.take_zero]
      exact longestIncreasing_nil
  | succ m ih =>
    obtain ⟨h1, h2, h3, k, h4, h5⟩ := ih (by omega)
    have hstep : lisLoop arr (m + 1) = lisOuter arr (lisLoop arr m) m := by
      unfold lisLoop
      rw [List.range_succ, List.foldl_append]
      rfl
    rw [hstep]
    generalize lisLoop arr m = σ at *
    obtain ⟨g1, g2, g3⟩ := lisInner_upTo arr m σ.1 (by omega) h1 h2 (h3 m (le_refl m) (by omega))
      m (le_refl m)
    unfold lisOuter lisInner
    refine ⟨g1, ?_, ?_, ?_⟩
    · intro j hj
      rcases Nat.eq_or_lt_of_le (Nat.le_of_lt_succ hj) with e | e
      · subst e
        exact g3
      · show LongestIncreasing _ (((List.range m).foldl (lisStep arr m) σ.1).getD j 0 - 1)
        rw [g2 j (by omega)]
        exact h2 j e
    · intro j hj hjn
      show ((List.range m).foldl (lisStep arr m) σ.1).getD j 0 = 1
      rw [g2 j (by omega)]
      exact h3 j (by omega) hjn
    · refine ⟨max k (((List.range m).foldl (lisStep arr m) σ.1).getD m 0 - 1 + 1), ?_, ?_⟩
      · rw [take_succ_getD arr m (by omega)]
        exact longestIncreasing_concat h4 g3
      · show max σ.2 (((List.range m).foldl (lisStep arr m) σ.1).getD m 0) = _
        rw [h5]
        omega

theorem solve_LIS_spec (arr : List Int) :
    ∃ k, LongestIncreasing arr k ∧ solve_LIS arr = max 1 k := by
  obtain ⟨_, _, _, k, h4, h5⟩ := lisLoop_spec arr arr.length (le_refl _)
  rw [List.take_length] at h4
  exact ⟨k, h4, h5⟩

/-! ## Maximum subarray sum -/

theorem psum_zero (arr : List Int) : psum arr 0 = 0 := rfl

theorem psum_succ (arr : List Int) (k : Nat) (hk : k < arr.length) :
    psum arr (k + 1) = psum arr k + arr.getD k 0 := by
  unfold psum
  induction arr generalizing k with
  | nil => simp only [List.length_nil] at hk; omega
  | cons a as ih =>
    cases k with
    | zero => simp only [List.take_succ_cons, List.take_zero, List.sum_cons, List.sum_nil,
        List.getD_cons_zero, add_zero, zero_add]
    | succ k =>
      simp only [List.take_succ_cons, List.sum_cons, List.getD_cons_succ]
      rw [ih k (by simp only [List.length_cons] at hk; omega)]
      omega

theorem maxEndingAt_zero (arr : List Int) (hn : 0 < arr.length) :
    MaxEndingAt arr 0 (arr.getD 0 0) := by
  have h : psum arr (0 + 1) = psum arr 0 + arr.getD 0 0 := psum_succ arr 0 hn
  rw [psum_zero] at h
  refine ⟨⟨0, le_refl 0, ?_⟩, ?_⟩
  · rw [psum_zero]; omega
  · intro j hj
    have : j = 0 := by omega
    subst this
    rw [psum_zero]; omega

theorem maxEndingAt_succ {arr : List Int} {i : Nat} {v : Int} (h : MaxEndingAt arr i v)
    (hi : i + 1 < arr.length) :
    MaxEndingAt arr (i + 1) (max (arr.getD (i + 1) 0) (v + arr.getD (i + 1) 0)) := by
  obtain ⟨⟨j, hj, e⟩, hmax⟩ := h
  have hs := psum_succ arr (i + 1) hi
  constructor
  · rcases le_total (arr.getD (i + 1) 0) (v + arr.getD (i + 1) 0) with hle | hle
    · rw [max_eq_right hle]
      exact ⟨j, by omega, by omega⟩
    · rw [max_eq_left hle]
      exact ⟨i + 1, le_refl _, by omega⟩
  · intro j' hj'
    rcases Nat.eq_or_lt_of_le hj' with e' | e'
    · subst e'
      have := le_max_left (arr.getD (i + 1) 0) (v + arr.getD (i + 1) 0)
      omega
    · have h1 := hmax j' (by omega)
      have := le_max_right (arr.getD (i + 1) 0) (v + arr.getD (i + 1) 0)
      omega

theorem maxSegment_one (arr : List Int) (hn : 0 < arr.length) :
    MaxSegment arr 1 (arr.getD 0 0) := by
  have h : psum arr 1 = psum arr 0 + arr.getD 0 0 := psum_succ arr 0 hn
  rw [psum_zero] at h
  refine ⟨⟨0, 1, by omega, le_refl 1, ?_⟩, ?_⟩
  · rw [psum_zero]; omega
  · intro i j hij hj
    have e1 : j = 1 := by omega
    have e2 : i = 0 := by omega
    subst e1 e2
    rw [psum_zero]; omega

theorem maxSegment_succ {arr : List Int} {m : Nat} {M e : Int} (hM : MaxSegment arr m M)
    (he : MaxEndingAt arr m e) : MaxSegment arr (m + 1) (max M e) := by
  obtain ⟨⟨i, j, hij, hj, eM⟩, hmax⟩ := hM
  obtain ⟨⟨j', hj', ee⟩, hemax⟩ := he
  constructor
  · rcases le_total M e with hle | hle
    · rw [max_eq_right hle]
      exact ⟨j', m + 1, by omega, le_refl _, ee⟩
    · rw [max_eq_left hle]
      exact ⟨i, j, hij, by omega, eM⟩
  · intro a b hab hb
    rcases Nat.eq_or_lt_of_le hb with e' | e'
    · subst e'
      have := hemax a (by omega)
      have := le_max_right M e
      omega
    · have := hmax a b hab (by omega)
      have := le_max_left M e
      omega

/-- The loop of `solve_maximum_subarray` after the passes `i = 1, ..., k`. -/
theorem maxSub_upTo (arr : List Int) (hn : 0 < arr.length) (k : Nat) (hk : k < arr.length) :
    ((List.range' 1 k).foldl (maxSubStep arr)
        ((List.replicate arr.length 0).set 0 (arr.getD 0 0), arr.getD 0 0)).1.length =
        arr.length ∧
      (∀ i, i ≤ k → MaxEndingAt arr i
        (((List.range' 1 k).foldl (maxSubStep arr)
          ((List.replicate arr.length 0).set 0 (arr.getD 0 0), arr.getD 0 0)).1.getD i 0)) ∧
      MaxSegment arr (k + 1)
        ((List.range' 1 k).foldl (maxSubStep arr)
          ((List.replicate arr.length 0).set 0 (arr.getD 0 0), arr.getD 0 0)).2 := by
  induction k with
  | zero =>
    simp only [List.range'_zero, List.foldl_nil]
    refine ⟨by rw [List.length_set, List.length_replicate], ?_, maxSegment_one arr hn⟩
    intro i hi
    have : i = 0 := by omega
    subst this
    rw [SuffixArray.getD_set_self _ _ _ _ (by rw [List.length_replicate]; exact hn)]
    exact maxEndingAt_zero arr hn
  | succ k ih =>
    obtain ⟨h1, h2, h3⟩ := ih (by omega)
    simp only [List.range'_concat, List.foldl_append, List.foldl_cons, List.foldl_nil,
      Nat.one_mul]
    generalize (List.range' 1 k).foldl (maxSubStep arr)
      ((List.replicate arr.length 0).set 0 (arr.getD 0 0), arr.getD 0 0) = σ at *
    have e : 1 + k - 1 = k := by omega
    have e2 : 1 + k = k + 1 := by omega
    unfold maxSubStep
    simp only [e]
    rw [e2]
    have hnew : MaxEndingAt arr (k + 1)
        (max (arr.getD (k + 1) 0) (σ.1.getD k 0 + arr.getD (k + 1) 0)) :=
      maxEndingAt_succ (h2 k (le_refl k)) hk
    have hget : (σ.1.set (k + 1) (max (arr.getD (k + 1) 0)
        (σ.1.getD k 0 + arr.getD (k + 1) 0))).getD (k + 1) 0 =
        max (arr.getD (k + 1) 0) (σ.1.getD k 0 + arr.getD (k + 1) 0) :=
      SuffixArray.getD_set_self _ _ _ _ (by omega)
    refine ⟨by rw [List.length_set, h1], ?_, ?_⟩
    · intro i hi
      rcases Nat.eq_or_lt_of_le hi with e' | e'
      · subst e'
        rw [hget]
        exact hnew
      · rw [SuffixArray.getD_set_ne _ _ _ _ _ (by omega)]
        exact h2 i (by omega)
    · show MaxSegment arr (k + 1 + 1) (max σ.2 _)
      rw [hget]
      exact maxSegment_succ h3 hnew

theorem maxSubTable_spec (arr : List Int) (hn : 0 < arr.length) :
    (maxSubTable arr).1.length = arr.length ∧
      (∀ i, i < arr.length → MaxEndingAt arr i ((maxSubTable arr).1.getD i 0)) ∧
      MaxSegment arr arr.length (maxSubTable arr).2 := by
  obtain ⟨h1, h2, h3⟩ := maxSub_upTo arr hn (arr.length - 1) (by omega)
  have e : arr.length - 1 + 1 = arr.length := by omega
  rw [e] at h3
  exact ⟨h1, fun i hi => h2 i (by omega), h3⟩

/-- Sum of the contiguous subarray of `len` elements that starts at index `i`, as a
difference of sums of initial segments. -/
theorem sum_take_drop (arr : List Int) (i len : Nat) :
    ((arr.drop i).take len).sum = psum arr (i + len) - psum arr i := by
  unfold psum
  have h : arr.take (i + len) = arr.take i ++ (arr.drop i).take len := by
    rw [List.take_add]
  rw [h, List.sum_append]
  omega

/-! ## Minimum coin change -/

theorem pays_length_le {coins : List Int} (hpos : ∀ c ∈ coins, 0 < c) {l : List Int} {a : Int}
    (h : Pays coins a l) : (l.length : Int) ≤ a := by
  obtain ⟨h1, h2⟩ := h
  subst h2
  induction l with
  | nil => simp only [List.length_nil, List.sum_nil, Nat.cast_zero, le_refl]
  | cons c l ih =>
    have hc := hpos c (h1 c (List.mem_cons_self c l))
    have := ih (fun x hx => h1 x (List.mem_cons_of_mem c hx))
    rw [List.length_cons, List.sum_cons]
    push_cast
    omega

theorem pays_cons {coins : List Int} {c a : Int} {l : List Int} (hc : c ∈ coins)
    (h : Pays coins (a - c) l) : Pays coins a (c :: l) := by
  refine ⟨?_, ?_⟩
  · intro x hx
    rcases List.mem_cons.mp hx with e | e
    · rw [e]; exact hc
    · exact h.1 x e
  · rw [List.sum_cons, h.2]
    omega

theorem pays_uncons {coins : List Int} {c a : Int} {l : List Int} (h : Pays coins a (c :: l)) :
    c ∈ coins ∧ Pays coins (a - c) l := by
  refine ⟨h.1 c (List.mem_cons_self c l), fun x hx => h.1 x (List.mem_cons_of_mem c hx), ?_⟩
  have := h.2
  rw [List.sum_cons] at this
  omega

/-- The loop over the coins at amount `i`: after the coins `done` the entry `dp[i]`
accounts for every way to pay `i` whose first coin is in `done`. -/
theorem coinInner_spec {coins : List Int} (hpos : ∀ c ∈ coins, 0 < c) (i : Nat) (cs : List Int) :
    ∀ (done dp : List Int), (∀ c ∈ cs, c ∈ coins) → i < dp.length →
      (∀ k, k < i → CoinEntry coins k (dp.getD k 0)) →
      dp.getD i 0 ≤ INF →
      (∀ c ∈ done, ∀ l : List Int, Pays coins ((i : Int) - c) l → dp.getD i 0 ≤ l.length + 1) →
      (dp.getD i 0 < INF → ∃ l : List Int, Pays coins i l ∧ (l.length : Int) = dp.getD i 0) →
      (cs.foldl (coinStep i) dp).length = dp.length ∧
        (∀ k, k ≠ i → (cs.foldl (coinStep i) dp).getD k 0 = dp.getD k 0) ∧
        (cs.foldl (coinStep i) dp).getD i 0 ≤ INF ∧
        (∀ c ∈ done ++ cs, ∀ l : List Int, Pays coins ((i : Int) - c) l →
          (cs.foldl (coinStep i) dp).getD i 0 ≤ l.length + 1) ∧
        ((cs.foldl (coinStep i) dp).getD i 0 < INF →
          ∃ l : List Int, Pays coins i l ∧ (l.length : Int) = (cs.foldl (coinStep i) dp).getD i 0) := by
  induction cs with
  | nil =>
    intro done dp _ _ _ h1 h2 h3
    exact ⟨rfl, fun k _ => rfl, h1, by rw [List.append_nil]; exact h2, h3⟩
  | cons c cs ih =>
    intro done dp hcs hi hprev h1 h2 h3
    have hc : c ∈ coins := hcs c (List.mem_cons_self c cs)
    have hc0 : 0 < c := hpos c hc
    have hstep : (coinStep i dp c).length = dp.length ∧
        (∀ k, k ≠ i → (coinStep i dp c).getD k 0 = dp.getD k 0) ∧
        (coinStep i dp c).getD i 0 ≤ INF ∧
        (∀ c' ∈ done ++ [c], ∀ l : List Int, Pays coins ((i : Int) - c') l →
          (coinStep i dp c).getD i 0 ≤ l.length + 1) ∧
        ((coinStep i dp c).getD i 0 < INF →
          ∃ l : List Int, Pays coins i l ∧ (l.length : Int) = (coinStep i dp c).getD i 0) := by
      unfold coinStep
      by_cases hge : (i : Int) - c ≥ 0
      · rw [if_pos hge]
        have hk : (((i : Int) - c).toNat : Int) = (i : Int) - c := Int.toNat_of_nonneg hge
        have hki : ((i : Int) - c).toNat < i := by omega
        obtain ⟨e1, e2, e3⟩ := hprev _ hki
        rw [hk] at e2 e3
        generalize dp.getD ((i : Int) - c).toNat 0 = w at *
        refine ⟨List.length_set _ _ _, fun k hk => SuffixArray.getD_set_ne _ _ _ _ _ (Ne.symm hk),
          ?_, ?_, ?_⟩
        · rw [SuffixArray.getD_set_self _ _ _ _ hi]
          omega
        · intro c' hc' l hl
          rw [SuffixArray.getD_set_self _ _ _ _ hi]
          rcases List.mem_append.mp hc' with hd | hd
          · have := h2 c' hd l hl
            omega
          · rw [List.mem_singleton] at hd
            subst hd
            have := e2 l hl
            omega
        · rw [SuffixArray.getD_set_self _ _ _ _ hi]
          intro hlt
          rcases le_total (dp.getD i 0) (w + 1) with hle | hle
          · rw [min_eq_left hle] at hlt ⊢
            exact h3 hlt
          · rw [min_eq_right hle] at hlt ⊢
            obtain ⟨l, hl1, hl2⟩ := e3 (by omega)
            refine ⟨c :: l, pays_cons hc hl1, ?_⟩
            rw [List.length_cons]
            push_cast
            omega
      · rw [if_neg hge]
        refine ⟨rfl, fun k _ => rfl, h1, ?_, h3⟩
        intro c' hc' l hl
        rcases List.mem_append.mp hc' with hd | hd
        · exact h2 c' hd l hl
        · rw [List.mem_singleton] at hd
          subst hd
          have := pays_length_le hpos hl
          omega
    obtain ⟨s1, s2, s3, s4, s5⟩ := hstep
    obtain ⟨r1, r2, r3, r4, r5⟩ := ih (done ++ [c]) (coinStep i dp c)
      (fun x hx => hcs x (List.mem_cons_of_mem c hx)) (by rw [s1]; exact hi)
      (fun k hk => by rw [s2 k (by omega)]; exact hprev k hk) s3 s4 s5
    rw [List.foldl_cons]
    refine ⟨by rw [r1, s1], fun k hk => by rw [r2 k hk, s2 k hk], r3, ?_, r5⟩
    intro c' hc'
    apply r4 c'
    rw [List.append_assoc]
    exact hc'

/-- The vector `dp` after the amounts `1, ..., m`. -/
theorem coinTable_upTo {coins : List Int} (hpos : ∀ c ∈ coins, 0 < c) (amount m : Nat)
    (hm : m ≤ amount) :
    ((List.range' 1 m).foldl (fun dp i => coinInner coins i dp)
        ((List.replicate (amount + 1) INF).set 0 0)).length = amount + 1 ∧
      (∀ k, k ≤ m → CoinEntry coins k
        (((List.range' 1 m).foldl (fun dp i => coinInner coins i dp)
          ((List.replicate (amount + 1) INF).set 0 0)).getD k 0)) ∧
      ∀ k, m < k → k ≤ amount →
        ((List.range' 1 m).foldl (fun dp i => coinInner coins i dp)
          ((List.replicate (amount + 1) INF).set 0 0)).getD k 0 = INF := by
  induction m with
  | zero =>
    simp only [List.range'_zero, List.foldl_nil]
    refine ⟨by rw [List.length_set, List.length_replicate], ?_, ?_⟩
    · intro k hk
      have : k = 0 := by omega
      subst this
      rw [SuffixArray.getD_set_self _ _ _ _ (by rw [List.length_replicate]; omega)]
      refine ⟨by decide, fun l _ => by omega, fun _ => ⟨[], ⟨?_, rfl⟩, rfl⟩⟩
      intro c hc
      exact absurd hc (List.not_mem_nil c)
    · intro k hk hka
      rw [SuffixArray.getD_set_ne _ _ _ _ _ (by omega),
        List.getD_eq_getElem _ _ (by rw [List.length_replicate]; omega)]
      simp only [List.getElem_replicate]
  | succ m ih =>
    obtain ⟨h1, h2, h3⟩ := ih (by omega)
    simp only [List.range'_concat, List.foldl_append, List.foldl_cons, List.foldl_nil,
      Nat.one_mul]
    generalize (List.range' 1 m).foldl (fun dp i => coinInner coins i dp)
      ((List.replicate (amount + 1) INF).set 0 0) = d at *
    have e : 1 + m = m + 1 := by omega
    rw [e]
    have hcur : d.getD (m + 1) 0 = INF := h3 (m + 1) (by omega) hm
    obtain ⟨r1, r2, r3, r4, r5⟩ := coinInner_spec hpos (m + 1) coins [] d (fun c hc => hc)
      (by omega) (fun k hk => h2 k (by omega)) (by rw [hcur])
      (fun c hc => absurd hc (List.not_mem_nil c)) (by rw [hcur]; intro h; exact absurd h (lt_irrefl _))
    unfold coinInner
    refine ⟨by rw [r1, h1], ?_, ?_⟩
    · intro k hk
      rcases Nat.eq_or_lt_of_le hk with e' | e'
      · subst e'
        refine ⟨r3, ?_, r5⟩
        intro l hl
        cases l with
        | nil =>
          exfalso
          have := hl.2
          simp only [List.sum_nil] at this
          omega
        | cons c l =>
          obtain ⟨hc, hl'⟩ := pays_uncons hl
          have := r4 c (by rw [List.nil_append]; exact hc) l hl'
          rw [List.length_cons]
          push_cast
          exact this
      · rw [r2 k (by omega)]
        exact h2 k (by omega)
    · intro k hk hka
      rw [r2 k (by omega)]
      exact h3 k (by omega) hka

theorem coinTable_spec {coins : List Int} (hpos : ∀ c ∈ coins, 0 < c) (amount : Nat) :
    CoinEntry coins amount ((coinTable coins amount).getD amount 0) :=
  (coinTable_upTo hpos amount amount (le_refl _)).2.1 amount (le_refl _)

/-- What `solve_coin_change` does for positive denominations: it takes the branch
"not possible" exactly when no way to pay the amount uses fewer than `INF` coins, and
a printed value is the smallest number of coins that pay the amount. -/
theorem solve_coin_change_spec {coins : List Int} (hpos : ∀ c ∈ coins, 0 < c) (amount : Nat) :
    (solve_coin_change coins amount = none ↔
        ¬ ∃ l : List Int, Pays coins amount l ∧ (l.length : Int) < INF) ∧
      ∀ v, solve_coin_change coins amount = some v →
        (∃ l : List Int, Pays coins amount l ∧ (l.length : Int) = v) ∧
          ∀ l : List Int, Pays coins amount l → v ≤ l.length := by
  obtain ⟨h1, h2, h3⟩ := coinTable_spec hpos amount
  unfold solve_coin_change
  generalize (coinTable coins amount).getD amount 0 = w at *
  by_cases hw : w = INF
  · rw [if_pos hw]
    refine ⟨⟨fun _ => ?_, fun _ => rfl⟩, fun v hv => by cases hv⟩
    rintro ⟨l, hl1, hl2⟩
    have := h2 l hl1
    omega
  · rw [if_neg hw]
    refine ⟨⟨(fun h => by cases h), fun h => ?_⟩, ?_⟩
    · exfalso
      apply h
      obtain ⟨l, hl1, hl2⟩ := h3 (by omega)
      exact ⟨l, hl1, by omega⟩
    · intro v hv
      cases hv
      exact ⟨h3 (by omega), h2⟩

theorem sum_replicate_one (n : Nat) : (List.replicate n (1 : Int)).sum = n := by
  induction n with
  | zero => rfl
  | succ n ih =>
    rw [List.replicate_succ, List.sum_cons, ih]
    push_cast
    omega

theorem pays_one_length {l : List Int} {a : Int} (h : Pays [1] a l) : (l.length : Int) = a := by
  obtain ⟨h1, h2⟩ := h
  subst h2
  induction l with
  | nil => rfl
  | cons c l ih =>
    have hc := List.mem_singleton.mp (h1 c (List.mem_cons_self c l))
    have := ih (fun x hx => h1 x (List.mem_cons_of_mem c hx))
    rw [List.length_cons, List.sum_cons]
    push_cast
    omega

/-! ## The claims on `Linear_DP.cpp` -/

/-- C24, evaluated at the empty array: `solve_LIS` prints `1`, although the longest
strictly increasing subsequence of the empty array has length `0`.  On every
non-empty array the printed value is the length of a longest strictly increasing
subsequence. -/
theorem solve_LIS_empty_array :
    solve_LIS [] = 1 ∧ LongestIncreasing [] 0 ∧ ¬ LongestIncreasing [] (solve_LIS []) ∧
      ∀ arr : List Int, arr ≠ [] → LongestIncreasing arr (solve_LIS arr) := by
  refine ⟨rfl, longestIncreasing_nil, ?_, ?_⟩
  · intro h
    have := longestIncreasing_unique h longestIncreasing_nil
    exact absurd this (by decide)
  · intro arr hne
    obtain ⟨k, h1, h2⟩ := solve_LIS_spec arr
    have := longestIncreasing_pos h1 hne
    rw [h2, max_eq_right this]
    exact h1

/-- C25: for every non-empty array of integers, the printed `maxSum` is the maximum
of the sums of the non-empty contiguous subarrays (`len` elements from index `i`),
and `dp[i]` is the maximum of the sums of the contiguous subarrays
`arr[j], ..., arr[i]` that end at index `i`. -/
theorem maximum_subarray_correct (arr : List Int) (hne : arr ≠ []) :
    (∃ i len, 1 ≤ len ∧ i + len ≤ arr.length ∧
        solve_maximum_subarray arr = ((arr.drop i).take len).sum) ∧
      (∀ i len, 1 ≤ len → i + len ≤ arr.length →
        ((arr.drop i).take len).sum ≤ solve_maximum_subarray arr) ∧
      (maxSubTable arr).1.length = arr.length ∧
      ∀ i, i < arr.length →
        (∃ j, j ≤ i ∧ (maxSubTable arr).1.getD i 0 = ((arr.drop j).take (i + 1 - j)).sum) ∧
          ∀ j, j ≤ i → ((arr.drop j).take (i + 1 - j)).sum ≤ (maxSubTable arr).1.getD i 0 := by
  obtain ⟨h1, h2, ⟨⟨a, b, hab, hb, e⟩, hmax⟩⟩ := maxSubTable_spec arr (List.length_pos.mpr hne)
  refine ⟨⟨a, b - a, by omega, by omega, ?_⟩, ?_, h1, ?_⟩
  · rw [sum_take_drop, show a + (b - a) = b by omega]
    exact e
  · intro i len hlen hi
    rw [sum_take_drop]
    exact hmax i (i + len) (by omega) hi
  · intro i hi
    obtain ⟨⟨j, hj, ej⟩, hjmax⟩ := h2 i hi
    refine ⟨⟨j, hj, ?_⟩, ?_⟩
    · rw [sum_take_drop, show j + (i + 1 - j) = i + 1 by omega]
      exact ej
    · intro j' hj'
      rw [sum_take_drop, show j' + (i + 1 - j') = i + 1 by omega]
      exact hjmax j' hj'

theorem maximum_subarray_correct_witness :
    (∃ i len, 1 ≤ len ∧ i + len ≤ ([-2, 1, -3, 4] : List Int).length ∧
        solve_maximum_subarray [-2, 1, -3, 4] = ((([-2, 1, -3, 4] : List Int).drop i).take len).sum) ∧
      (∀ i len, 1 ≤ len → i + len ≤ ([-2, 1, -3, 4] : List Int).length →
        ((([-2, 1, -3, 4] : List Int).drop i).take len).sum ≤
          solve_maximum_subarray [-2, 1, -3, 4]) ∧
      (maxSubTable [-2, 1, -3, 4]).1.length = ([-2, 1, -3, 4] : List Int).length ∧
      ∀ i, i < ([-2, 1, -3, 4] : List Int).length →
        (∃ j, j ≤ i ∧ (maxSubTable [-2, 1, -3, 4]).1.getD i 0 =
          ((([-2, 1, -3, 4] : List Int).drop j).take (i + 1 - j)).sum) ∧
          ∀ j, j ≤ i → ((([-2, 1, -3, 4] : List Int).drop j).take (i + 1 - j)).sum ≤
            (maxSubTable [-2, 1, -3, 4]).1.getD i 0 :=
  maximum_subarray_correct [-2, 1, -3, 4] (by decide)

/-- For every list of positive coin denominations and every amount `≥ 0`, the branch
"not possible" is taken exactly when no multiset of the denominations with fewer than
`10^9` coins sums to the amount; for an amount below `10^9` that is exactly when no
multiset of the denominations sums to the amount.  Otherwise the printed value
`dp[amount]` is the minimum number of coins, repetition allowed, whose values sum to
the amount. -/
theorem coin_change_correct (coins : List Int) (amount : Nat) (hpos : ∀ c ∈ coins, 0 < c) :
    (solve_coin_change coins amount = none ↔
        ¬ ∃ l : List Int, Pays coins amount l ∧ l.length < 1000000000) ∧
      ((amount : Int) < 1000000000 →
        (solve_coin_change coins amount = none ↔ ¬ ∃ l : List Int, Pays coins amount l)) ∧
      ∀ v, solve_coin_change coins amount = some v →
        (∃ l : List Int, Pays coins amount l ∧ (l.length : Int) = v) ∧
          ∀ l : List Int, Pays coins amount l → v ≤ l.length := by
  obtain ⟨h1, h2⟩ := solve_coin_change_spec hpos amount
  have e : ∀ l : List Int, ((l.length : Int) < INF ↔ l.length < 1000000000) := by
    intro l
    unfold INF
    omega
  refine ⟨?_, ?_, h2⟩
  · rw [h1]
    constructor
    · rintro h ⟨l, hl1, hl2⟩
      exact h ⟨l, hl1, (e l).mpr hl2⟩
    · rintro h ⟨l, hl1, hl2⟩
      exact h ⟨l, hl1, (e l).mp hl2⟩
  · intro ha
    rw [h1]
    constructor
    · rintro h ⟨l, hl1⟩
      apply h
      refine ⟨l, hl1, ?_⟩
      have := pays_length_le hpos hl1
      unfold INF
      omega
    · rintro h ⟨l, hl1, _⟩
      exact h ⟨l, hl1⟩

theorem coin_change_correct_witness :
    (solve_coin_change [1, 2, 5] 11 = none ↔
        ¬ ∃ l : List Int, Pays [1, 2, 5] (11 : Nat) l ∧ l.length < 1000000000) ∧
      (((11 : Nat) : Int) < 1000000000 →
        (solve_coin_change [1, 2, 5] 11 = none ↔ ¬ ∃ l : List Int, Pays [1, 2, 5] (11 : Nat) l)) ∧
      ∀ v, solve_coin_change [1, 2, 5] 11 = some v →
        (∃ l : List Int, Pays [1, 2, 5] (11 : Nat) l ∧ (l.length : Int) = v) ∧
          ∀ l : List Int, Pays [1, 2, 5] (11 : Nat) l → v ≤ l.length :=
  coin_change_correct [1, 2, 5] 11 (by decide)

/-- C26, evaluated at the single denomination `1` and the amount `10^9`: the entry
`dp[amount]` is `10^9`, which is the value of `INF`, so the branch "not possible" is
taken, although `10^9` coins of value `1` sum to the amount.  For every list of
positive denominations and every amount the branch is taken exactly when no multiset
of fewer than `10^9` coins sums to the amount (for an amount below `10^9`: when no
multiset at all sums to it), and otherwise the printed value is the minimum number
of coins whose values sum to the amount. -/
theorem coin_change_large_amount :
    (∀ c ∈ ([1] : List Int), 0 < c) ∧ solve_coin_change [1] 1000000000 = none ∧
      Pays [1] (1000000000 : Nat) (List.replicate 1000000000 1) ∧
      ∀ (coins : List Int) (amount : Nat), (∀ c ∈ coins, 0 < c) →
        (solve_coin_change coins amount = none ↔
            ¬ ∃ l : List Int, Pays coins amount l ∧ l.length < 1000000000) ∧
          ((amount : Int) < 1000000000 →
            (solve_coin_change coins amount = none ↔
              ¬ ∃ l : List Int, Pays coins amount l)) ∧
          ∀ v, solve_coin_change coins amount = some v →
            (∃ l : List Int, Pays coins amount l ∧ (l.length : Int) = v) ∧
              ∀ l : List Int, Pays coins amount l → v ≤ l.length := by
  have hpos : ∀ c ∈ ([1] : List Int), 0 < c := by
    intro c hc
    rw [List.mem_singleton.mp hc]
    exact Int.one_pos
  refine ⟨hpos, ?_, ⟨?_, ?_⟩, fun coins amount h => coin_change_correct coins amount h⟩
  · rw [(solve_coin_change_spec hpos 1000000000).1]
    rintro ⟨l, hl1, hl2⟩
    have := pays_one_length hl1
    unfold INF at hl2
    omega
  · intro c hc
    rw [(List.mem_replicate.mp hc).2]
    exact List.mem_singleton.mpr rfl
  · exact sum_replicate_one 1000000000

end LinearDP

namespace BitmaskDP

/-! ## Enumeration of subsets by masks -/

theorem hasBit_eq_testBit (mask i : Nat) : hasBit mask i = mask.testBit i := by
  unfold hasBit
  rw [Nat.one_shiftLeft, Nat.and_two_pow]
  cases h : mask.testBit i <;> simp

theorem pick_cons (a : Int) (as : List Int) (mask : Nat) :
    pick (a :: as) mask =
      if mask.testBit 0 then a :: pick as (mask / 2) else pick as (mask / 2) := rfl

theorem maskFold_eq (arr : List Int) : ∀ (mask : Nat) (s : Int),
    (List.range arr.length).foldl
        (fun sum i => if hasBit mask i then sum + arr.getD i 0 else sum) s =
      s + (pick arr mask).sum := by
  induction arr with
  | nil =>
    intro mask s
    simp only [List.length_nil, List.range_zero, List.foldl_nil, pick, List.sum_nil, add_zero]
  | cons a as ih =>
    intro mask s
    rw [List.length_cons, List.range_succ_eq_map, List.foldl_cons, List.foldl_map]
    have e : (fun (x : Int) (y : Nat) =>
        if hasBit mask y.succ = true then x + (a :: as).getD y.succ 0 else x) =
        fun x y => if hasBit (mask / 2) y = true then x + as.getD y 0 else x := by
      funext x y
      rw [hasBit_eq_testBit, hasBit_eq_testBit, Nat.testBit_succ]
      rfl
    rw [e, ih]
    rw [hasBit_eq_testBit, pick_cons]
    by_cases hb : mask.testBit 0 = true
    · rw [if_pos hb, if_pos hb, List.getD_cons_zero, List.sum_cons]
      omega
    · rw [if_neg hb, if_neg hb]

theorem maskSum_eq (arr : List Int) (mask : Nat) : maskSum arr mask = (pick arr mask).sum := by
  unfold maskSum
  rw [maskFold_eq, zero_add]

theorem pick_sublist (arr : List Int) : ∀ mask, (pick arr mask).Sublist arr := by
  induction arr with
  | nil => intro mask; exact List.Sublist.refl _
  | cons a as ih =>
    intro mask
    rw [pick_cons]
    by_cases hb : mask.testBit 0 = true
    · rw [if_pos hb]
      exact (ih _).cons₂ a
    · rw [if_neg hb]
      exact (ih _).cons a

theorem exists_pick {S arr : List Int} (h : S.Sublist arr) :
    ∃ mask, mask < 2 ^ arr.length ∧ pick arr mask = S := by
  induction h with
  | slnil => exact ⟨0, by simp, rfl⟩
  | cons a _ ih =>
    obtain ⟨m, hm, e⟩ := ih
    refine ⟨2 * m, by rw [List.length_cons, pow_succ]; omega, ?_⟩
    have h0 : (2 * m).testBit 0 = false := by
      rw [Nat.testBit_zero]
      simp only [Nat.mul_mod_right, Nat.zero_ne_one, decide_False]
    rw [pick_cons, h0, show 2 * m / 2 = m by omega, if_neg (by decide), e]
  | cons₂ a _ ih =>
    obtain ⟨m, hm, e⟩ := ih
    refine ⟨2 * m + 1, by rw [List.length_cons, pow_succ]; omega, ?_⟩
    have h0 : (2 * m + 1).testBit 0 = true := by
      rw [Nat.testBit_zero]
      simp only [Nat.mul_add_mod, Nat.one_mod, decide_True]
    rw [pick_cons, h0, show (2 * m + 1) / 2 = m by omega, if_pos rfl, e]

/-- A fold of `min` over a list returns the start value or the value at an element,
and it is below all of them. -/
theorem foldl_min_spec (f : Nat → Int) (l : List Nat) : ∀ init : Int,
    l.foldl (fun best x => min best (f x)) init ≤ init ∧
      (∀ x ∈ l, l.foldl (fun best x => min best (f x)) init ≤ f x) ∧
      (l.foldl (fun best x => min best (f x)) init = init ∨
        ∃ x ∈ l, l.foldl (fun best x => min best (f x)) init = f x) := by
  induction l with
  | nil =>
    intro init
    exact ⟨le_refl _, fun x hx => absurd hx (List.not_mem_nil x), Or.inl rfl⟩
  | cons a l ih =>
    intro init
    obtain ⟨h1, h2, h3⟩ := ih (min init (f a))
    rw [List.foldl_cons]
    refine ⟨by omega, ?_, ?_⟩
    · intro x hx
      rcases List.mem_cons.mp hx with e | e
      · subst e; omega
      · exact h2 x e
    · rcases h3 with e | ⟨x, hx, e⟩
      · rcases le_total init (f a) with hle | hle
        · left; rw [e, min_eq_left hle]
        · right; exact ⟨a, List.mem_cons_self a l, by rw [e, min_eq_right hle]⟩
      · right; exact ⟨x, List.mem_cons_of_mem a hx, e⟩

/-- The enumeration of `solve_partition_min_difference` computes the minimum of
`INT_MAX` and of the values `|total - 2 * sum(S)|`. -/
theorem partition_spec (arr : List Int) :
    solve_partition_min_difference arr ≤ INT_MAX ∧
      (∀ S : List Int, S.Sublist arr →
        solve_partition_min_difference arr ≤ ((arr.sum - 2 * S.sum).natAbs : Int)) ∧
      (solve_partition_min_difference arr = INT_MAX ∨
        ∃ S : List Int, S.Sublist arr ∧
          solve_partition_min_difference arr = ((arr.sum - 2 * S.sum).natAbs : Int)) := by
  unfold solve_partition_min_difference
  obtain ⟨h1, h2, h3⟩ := foldl_min_spec
    (fun mask => ((arr.sum - 2 * maskSum arr mask).natAbs : Int))
    (List.range (1 <<< arr.length)) INT_MAX
  refine ⟨h1, ?_, ?_⟩
  · intro S hS
    obtain ⟨m, hm, e⟩ := exists_pick hS
    have := h2 m (by rw [List.mem_range, Nat.one_shiftLeft]; exact hm)
    rw [maskSum_eq, e] at this
    exact this
  · rcases h3 with e | ⟨m, _, e⟩
    · left; exact e
    · right
      refine ⟨pick arr m, pick_sublist arr m, ?_⟩
      rw [maskSum_eq] at e
      exact e

theorem minDiff_unique {arr : List Int} {v v' : Int} (h : MinDiff arr v) (h' : MinDiff arr v') :
    v = v' := by
  obtain ⟨⟨S, hS, e⟩, hmin⟩ := h
  obtain ⟨⟨S', hS', e'⟩, hmin'⟩ := h'
  have := hmin S' hS'
  have := hmin' S hS
  omega

theorem partition_eq_min {arr : List Int} {v : Int} (h : MinDiff arr v) :
    solve_partition_min_difference arr = min INT_MAX v := by
  obtain ⟨h1, h2, h3⟩ := partition_spec arr
  obtain ⟨⟨S, hS, e⟩, hmin⟩ := h
  have := h2 S hS
  rcases h3 with e3 | ⟨S', hS', e3⟩
  · omega
  · have := hmin S' hS'
    omega

/-! ## Independent sets and vertex covers -/

theorem mem_range_from (i n j : Nat) : j ∈ List.range' (i + 1) (n - (i + 1)) ↔ i < j ∧ j < n := by
  rw [List.mem_range'_1]
  omega

theorem misInner_false_iff (n : Nat) (adj : List (List Bool)) (mask i : Nat) :
    misInner n adj mask i = false ↔
      ∀ j, i < j → j < n → mask.testBit j = true → adjAt adj i j = false := by
  unfold misInner
  rw [List.any_eq_false]
  constructor
  · intro h j hij hjn hb
    have := h j ((mem_range_from i n j).mpr ⟨hij, hjn⟩)
    rw [hasBit_eq_testBit, hb, Bool.true_and] at this
    simpa using this
  · intro h j hj
    obtain ⟨hij, hjn⟩ := (mem_range_from i n j).mp hj
    rw [hasBit_eq_testBit]
    cases hb : mask.testBit j
    · simp
    · simp [h j hij hjn hb]

theorem bitCount_succ (k mask : Nat) :
    bitCount (k + 1) mask = bitCount k mask + if mask.testBit k = true then 1 else 0 := by
  unfold bitCount
  rw [List.range_succ, List.countP_append, List.countP_cons, List.countP_nil, Nat.zero_add]

/-- The pair `(valid, count)` after the passes `i = 0, ..., k - 1`. -/
theorem misCheck_upTo (n : Nat) (adj : List (List Bool)) (mask k : Nat) :
    (((List.range k).foldl (misStep n adj mask) (true, 0)).1 = true ↔
        ∀ i j, i < k → i < j → j < n → mask.testBit i = true → mask.testBit j = true →
          adjAt adj i j = false) ∧
      (((List.range k).foldl (misStep n adj mask) (true, 0)).1 = true →
        ((List.range k).foldl (misStep n adj mask) (true, 0)).2 = (bitCount k mask : Int)) := by
  induction k with
  | zero =>
    refine ⟨⟨fun _ i j hi => by omega, fun _ => rfl⟩, fun _ => rfl⟩
  | succ k ih =>
    obtain ⟨h1, h2⟩ := ih
    rw [List.range_succ, List.foldl_append, List.foldl_cons, List.foldl_nil, bitCount_succ]
    generalize (List.range k).foldl (misStep n adj mask) (true, 0) = σ at *
    unfold misStep
    by_cases hv : σ.1 = true
    · rw [if_pos hv, hasBit_eq_testBit]
      have hprev := h1.mp hv
      by_cases hb : mask.testBit k = true
      · rw [if_pos hb, if_pos hb]
        constructor
        · show (!misInner n adj mask k) = true ↔ _
          rw [Bool.not_eq_true', misInner_false_iff]
          constructor
          · intro h i j hi hij hjn hbi hbj
            rcases Nat.eq_or_lt_of_le (Nat.le_of_lt_succ hi) with e | e
            · subst e
              exact h j hij hjn hbj
            · exact hprev i j e hij hjn hbi hbj
          · intro h j hkj hjn hbj
            exact h k j (by omega) hkj hjn hb hbj
        · intro _
          show σ.2 + 1 = _
          rw [h2 hv]
          push_cast
          rfl
      · rw [if_neg hb, if_neg hb]
        constructor
        · constructor
          · intro _ i j hi hij hjn hbi hbj
            rcases Nat.eq_or_lt_of_le (Nat.le_of_lt_succ hi) with e | e
            · subst e
              exact absurd hbi hb
            · exact hprev i j e hij hjn hbi hbj
          · intro _
            exact hv
        · intro _
          rw [h2 hv]
          push_cast
          omega
    · rw [if_neg hv]
      constructor
      · constructor
        · intro h
          exact absurd h hv
        · intro h
          exact h1.mpr (fun i j hi => h i j (by omega))
      · intro h
        exact absurd h hv

theorem misCheck_spec (n : Nat) (adj : List (List Bool)) (mask : Nat) :
    ((misCheck n adj mask).1 = true ↔ Independent n adj mask) ∧
      ((misCheck n adj mask).1 = true → (misCheck n adj mask).2 = (bitCount n mask : Int)) := by
  obtain ⟨h1, h2⟩ := misCheck_upTo n adj mask n
  refine ⟨?_, h2⟩
  unfold misCheck
  rw [h1]
  constructor
  · intro h i j hij hjn
    exact h i j (by omega) hij hjn
  · intro h i j _ hij hjn
    exact h i j hij hjn

theorem mvcCheck_iff (n : Nat) (adj : List (List Bool)) (mask : Nat) :
    mvcCheck n adj mask = true ↔ Covers n adj mask := by
  unfold mvcCheck Covers
  rw [List.all_eq_true]
  constructor
  · intro h u v huv hvn hadj
    have h1 := h u (List.mem_range.mpr (by omega))
    rw [List.all_eq_true] at h1
    have h2 := h1 v ((mem_range_from u n v).mpr ⟨huv, hvn⟩)
    rw [hasBit_eq_testBit, hasBit_eq_testBit, hadj] at h2
    cases hu : mask.testBit u
    · cases hv : mask.testBit v
      · rw [hu, hv] at h2
        simp at h2
      · exact Or.inr rfl
    · exact Or.inl rfl
  · intro h u _
    rw [List.all_eq_true]
    intro v hv
    obtain ⟨huv, hvn⟩ := (mem_range_from u n v).mp hv
    rw [hasBit_eq_testBit, hasBit_eq_testBit]
    cases hadj : adjAt adj u v
    · simp
    · rcases h u v huv hvn hadj with hb | hb
      · simp [hb]
      · simp [hb]

theorem popcountAux_eq (fuel : Nat) : ∀ x, popcountAux fuel x = bitCount fuel x := by
  induction fuel with
  | zero => intro x; rfl
  | succ fuel ih =>
    intro x
    unfold popcountAux bitCount
    rw [ih, List.range_succ_eq_map, List.countP_cons, List.countP_map, Nat.testBit_zero]
    have e : ((fun i => x.testBit i) ∘ Nat.succ) = fun i => (x / 2).testBit i := by
      funext i
      exact Nat.testBit_succ x i
    rw [e]
    unfold bitCount
    have hm : x % 2 = 0 ∨ x % 2 = 1 := by omega
    rcases hm with h | h
    · rw [h]
      simp
    · rw [h]
      simp
      omega

theorem bitCount_of_lt {x k : Nat} (hx : x < 2 ^ k) (d : Nat) :
    bitCount (k + d) x = bitCount k x := by
  induction d with
  | zero => rfl
  | succ d ih =>
    rw [show k + (d + 1) = k + d + 1 by omega, bitCount_succ, ih]
    have : x.testBit (k + d) = false := by
      apply Nat.testBit_lt_two_pow
      calc x < 2 ^ k := hx
        _ ≤ 2 ^ (k + d) := Nat.pow_le_pow_right (by decide) (by omega)
    rw [this]
    simp

theorem popcount_eq {x n : Nat} (hx : x < 2 ^ n) : popcount x = (bitCount n x : Int) := by
  unfold popcount
  rw [popcountAux_eq]
  have hxx : x < 2 ^ x := Nat.lt_two_pow x
  rcases Nat.le_total x n with h | h
  · have := bitCount_of_lt hxx (n - x)
    rw [show x + (n - x) = n by omega] at this
    rw [this]
  · have := bitCount_of_lt hx (x - n)
    rw [show n + (x - n) = x by omega] at this
    rw [this]

theorem bitCount_le (n x : Nat) : bitCount n x ≤ n := by
  unfold bitCount
  have := List.countP_le_length (fun i => x.testBit i) (l := List.range n)
  rw [List.length_range] at this
  exact this

/-! ### Complements -/

theorem compl_lt {x n : Nat} (hx : x < 2 ^ n) : 2 ^ n - (x + 1) < 2 ^ n := by omega

theorem compl_compl {x n : Nat} (hx : x < 2 ^ n) : 2 ^ n - (2 ^ n - (x + 1) + 1) = x := by omega

theorem testBit_compl {x n : Nat} (hx : x < 2 ^ n) {i : Nat} (hi : i < n) :
    (2 ^ n - (x + 1)).testBit i = !x.testBit i := by
  rw [Nat.testBit_two_pow_sub_succ hx]
  simp [hi]

theorem independent_iff_compl_covers (n : Nat) (adj : List (List Bool)) {x : Nat}
    (hx : x < 2 ^ n) : Independent n adj x ↔ Covers n adj (2 ^ n - (x + 1)) := by
  unfold Independent Covers
  constructor
  · intro h u v huv hvn hadj
    rw [testBit_compl hx (show u < n by omega), testBit_compl hx hvn]
    cases hu : x.testBit u
    · exact Or.inl rfl
    · cases hv : x.testBit v
      · exact Or.inr rfl
      · have := h u v huv hvn hu hv
        rw [hadj] at this
        exact absurd this (by decide)
  · intro h i j hij hjn hi hj
    cases hadj : adjAt adj i j
    · rfl
    · have := h i j hij hjn hadj
      rw [testBit_compl hx (show i < n by omega), testBit_compl hx hjn, hi, hj] at this
      simp at this

theorem covers_iff_compl_independent (n : Nat) (adj : List (List Bool)) {x : Nat}
    (hx : x < 2 ^ n) : Covers n adj x ↔ Independent n adj (2 ^ n - (x + 1)) := by
  rw [independent_iff_compl_covers n adj (compl_lt hx), compl_compl hx]

theorem bitCount_compl {x n : Nat} (hx : x < 2 ^ n) :
    bitCount n (2 ^ n - (x + 1)) + bitCount n x = n := by
  unfold bitCount
  have h1 : (List.range n).countP (fun i => (2 ^ n - (x + 1)).testBit i) =
      (List.range n).countP (fun i => !x.testBit i) := by
    apply List.countP_congr
    intro i hi
    rw [testBit_compl hx (List.mem_range.mp hi)]
  rw [h1]
  have := List.length_eq_countP_add_countP (fun i => x.testBit i) (l := List.range n)
  rw [List.length_range] at this
  have e : (fun i => decide ¬ (x.testBit i = true)) = fun i => !x.testBit i := by
    funext i
    cases x.testBit i <;> rfl
  rw [e] at this
  omega

/-! ### The two enumerations -/

theorem foldl_cond_max (p : Nat → Bool) (f : Nat → Int) (l : List Nat) : ∀ init : Int,
    init ≤ l.foldl (fun m x => if p x then max m (f x) else m) init ∧
      (∀ x ∈ l, p x = true → f x ≤ l.foldl (fun m x => if p x then max m (f x) else m) init) ∧
      (l.foldl (fun m x => if p x then max m (f x) else m) init = init ∨
        ∃ x ∈ l, p x = true ∧ l.foldl (fun m x => if p x then max m (f x) else m) init = f x) := by
  induction l with
  | nil =>
    intro init
    exact ⟨le_refl _, fun x hx => absurd hx (List.not_mem_nil x), Or.inl rfl⟩
  | cons a l ih =>
    intro init
    rw [List.foldl_cons]
    by_cases hp : p a = true
    · rw [if_pos hp]
      obtain ⟨h1, h2, h3⟩ := ih (max init (f a))
      refine ⟨by omega, ?_, ?_⟩
      · intro x hx hpx
        rcases List.mem_cons.mp hx with e | e
        · subst e; omega
        · exact h2 x e hpx
      · rcases h3 with e | ⟨x, hx, hpx, e⟩
        · rcases le_total init (f a) with hle | hle
          · right; exact ⟨a, List.mem_cons_self a l, hp, by rw [e, max_eq_right hle]⟩
          · left; rw [e, max_eq_left hle]
        · right; exact ⟨x, List.mem_cons_of_mem a hx, hpx, e⟩
    · rw [if_neg hp]
      obtain ⟨h1, h2, h3⟩ := ih init
      refine ⟨h1, ?_, ?_⟩
      · intro x hx hpx
        rcases List.mem_cons.mp hx with e | e
        · subst e; exact absurd hpx hp
        · exact h2 x e hpx
      · rcases h3 with e | ⟨x, hx, hpx, e⟩
        · left; exact e
        · right; exact ⟨x, List.mem_cons_of_mem a hx, hpx, e⟩

theorem foldl_cond_min (p : Nat → Bool) (f : Nat → Int) (l : List Nat) : ∀ init : Int,
    l.foldl (fun m x => if p x then min m (f x) else m) init ≤ init ∧
      (∀ x ∈ l, p x = true → l.foldl (fun m x => if p x then min m (f x) else m) init ≤ f x) ∧
      (l.foldl (fun m x => if p x then min m (f x) else m) init = init ∨
        ∃ x ∈ l, p x = true ∧ l.foldl (fun m x => if p x then min m (f x) else m) init = f x) := by
  induction l with
  | nil =>
    intro init
    exact ⟨le_refl _, fun x hx => absurd hx (List.not_mem_nil x), Or.inl rfl⟩
  | cons a l ih =>
    intro init
    rw [List.foldl_cons]
    by_cases hp : p a = true
    · rw [if_pos hp]
      obtain ⟨h1, h2, h3⟩ := ih (min init (f a))
      refine ⟨by omega, ?_, ?_⟩
      · intro x hx hpx
        rcases List.mem_cons.mp hx with e | e
        · subst e; omega
        · exact h2 x e hpx
      · rcases h3 with e | ⟨x, hx, hpx, e⟩
        · rcases le_total init (f a) with hle | hle
          · left; rw [e, min_eq_left hle]
          · right; exact ⟨a, List.mem_cons_self a l, hp, by rw [e, min_eq_right hle]⟩
        · right; exact ⟨x, List.mem_cons_of_mem a hx, hpx, e⟩
    · rw [if_neg hp]
      obtain ⟨h1, h2, h3⟩ := ih init
      refine ⟨h1, ?_, ?_⟩
      · intro x hx hpx
        rcases List.mem_cons.mp hx with e | e
        · subst e; exact absurd hpx hp
        · exact h2 x e hpx
      · rcases h3 with e | ⟨x, hx, hpx, e⟩
        · left; exact e
        · right; exact ⟨x, List.mem_cons_of_mem a hx, hpx, e⟩

/-- The value of `solve_max_independent_set` is the size of an independent set, and
no independent set is larger. -/
theorem max_independent_set_spec (n : Nat) (edges : List (Nat × Nat)) :
    (∃ mask, mask < 2 ^ n ∧ Independent n (readEdges n edges) mask ∧
        solve_max_independent_set n edges = (bitCount n mask : Int)) ∧
      ∀ mask, mask < 2 ^ n → Independent n (readEdges n edges) mask →
        (bitCount n mask : Int) ≤ solve_max_independent_set n edges := by
  obtain ⟨h1, h2, h3⟩ := foldl_cond_max (fun mask => (misCheck n (readEdges n edges) mask).1)
    (fun mask => (misCheck n (readEdges n edges) mask).2) (List.range (1 <<< n)) 0
  unfold solve_max_independent_set
  constructor
  · rcases h3 with e | ⟨x, hx, hpx, e⟩
    · refine ⟨0, Nat.two_pow_pos n, ?_, ?_⟩
      · intro i j _ _ hi
        rw [Nat.zero_testBit] at hi
        exact absurd hi (by decide)
      · rw [e]
        have : bitCount n 0 = 0 := by
          unfold bitCount
          apply List.countP_eq_zero.mpr
          intro i _
          rw [Nat.zero_testBit]
          decide
        rw [this]
        rfl
    · rw [List.mem_range, Nat.one_shiftLeft] at hx
      obtain ⟨g1, g2⟩ := misCheck_spec n (readEdges n edges) x
      exact ⟨x, hx, g1.mp hpx, by rw [e, g2 hpx]⟩
  · intro mask hm hind
    obtain ⟨g1, g2⟩ := misCheck_spec n (readEdges n edges) mask
    have := h2 mask (by rw [List.mem_range, Nat.one_shiftLeft]; exact hm) (g1.mpr hind)
    rw [g2 (g1.mpr hind)] at this
    exact this

/-- The value of `solve_min_vertex_cover` is `n` or the size of a vertex cover, and
it is at most `n` and at most the size of every vertex cover. -/
theorem min_vertex_cover_spec (n : Nat) (edges : List (Nat × Nat)) :
    solve_min_vertex_cover n edges ≤ n ∧
      (solve_min_vertex_cover n edges = n ∨
        ∃ mask, mask < 2 ^ n ∧ Covers n (readEdges n edges) mask ∧
          solve_min_vertex_cover n edges = (bitCount n mask : Int)) ∧
      ∀ mask, mask < 2 ^ n → Covers n (readEdges n edges) mask →
        solve_min_vertex_cover n edges ≤ (bitCount n mask : Int) := by
  obtain ⟨h1, h2, h3⟩ := foldl_cond_min (fun mask => mvcCheck n (readEdges n edges) mask)
    (fun mask => popcount mask) (List.range (1 <<< n)) (n : Int)
  unfold solve_min_vertex_cover
  refine ⟨h1, ?_, ?_⟩
  · rcases h3 with e | ⟨x, hx, hpx, e⟩
    · left; exact e
    · right
      rw [List.mem_range, Nat.one_shiftLeft] at hx
      exact ⟨x, hx, (mvcCheck_iff n _ x).mp hpx, by rw [e, popcount_eq hx]⟩
  · intro mask hm hc
    have := h2 mask (by rw [List.mem_range, Nat.one_shiftLeft]; exact hm)
      ((mvcCheck_iff n _ mask).mpr hc)
    rw [popcount_eq hm] at this
    exact this

theorem independent_plus_cover (n : Nat) (edges : List (Nat × Nat)) :
    solve_max_independent_set n edges + solve_min_vertex_cover n edges = n := by
  obtain ⟨⟨m, hm, hind, em⟩, hmax⟩ := max_independent_set_spec n edges
  obtain ⟨hle, hatt, hmin⟩ := min_vertex_cover_spec n edges
  have hcm := bitCount_compl hm
  have h1 := hmin _ (compl_lt hm) ((independent_iff_compl_covers n _ hm).mp hind)
  have hmn := bitCount_le n m
  rcases hatt with e | ⟨c, hc, hcov, ec⟩
  · omega
  · have hcc := bitCount_compl hc
    have h2 := hmax _ (compl_lt hc) ((covers_iff_compl_independent n _ hc).mp hcov)
    omega

/-! ## Longest Hamiltonian path: the table -/

theorem dpAt_dpSet (dp : List (List Int)) (M v : Nat) (x : Int) (hM : M < dp.length)
    (hv : v < (dp.getD M []).length) (M' v' : Nat) :
    dpAt (dpSet dp M v x) M' v' = if M = M' ∧ v = v' then x else dpAt dp M' v' := by
  unfold dpAt dpSet
  by_cases hMM : M = M'
  · subst hMM
    rw [SuffixArray.getD_set_self _ _ _ _ hM]
    by_cases hvv : v = v'
    · subst hvv
      rw [SuffixArray.getD_set_self _ _ _ _ hv, if_pos ⟨rfl, rfl⟩]
    · rw [SuffixArray.getD_set_ne _ _ _ _ _ hvv, if_neg (fun h => hvv h.2)]
  · rw [SuffixArray.getD_set_ne _ _ _ _ _ hMM, if_neg (fun h => hMM h.1)]

theorem shape_dpSet {n : Nat} {dp : List (List Int)} (h : Shape n dp) (M v : Nat) (x : Int) :
    Shape n (dpSet dp M v x) := by
  obtain ⟨h1, h2⟩ := h
  unfold dpSet
  refine ⟨by rw [List.length_set, h1], ?_⟩
  intro M' hM'
  by_cases hMM : M = M'
  · subst hMM
    rw [SuffixArray.getD_set_self _ _ _ _ (by omega), List.length_set]
    exact h2 M hM'
  · rw [SuffixArray.getD_set_ne _ _ _ _ _ hMM]
    exact h2 M' hM'

theorem shape_replicate (n : Nat) :
    Shape n (List.replicate (1 <<< n) (List.replicate n (0 : Int))) := by
  rw [Nat.one_shiftLeft]
  refine ⟨List.length_replicate _ _, ?_⟩
  intro M hM
  rw [List.getD_eq_getElem _ _ (by rw [List.length_replicate]; exact hM)]
  simp only [List.getElem_replicate, List.length_replicate]

theorem getD_replicate_self (k v : Nat) (a : Int) : (List.replicate k a).getD v a = a := by
  by_cases hv : v < k
  · rw [List.getD_eq_getElem (List.replicate k a) a (by rw [List.length_replicate]; exact hv)]
    simp only [List.getElem_replicate]
  · rw [List.getD_eq_default (List.replicate k a) a (by rw [List.length_replicate]; omega)]

theorem dpAt_replicate (n M v : Nat) :
    dpAt (List.replicate (1 <<< n) (List.replicate n (0 : Int))) M v = 0 := by
  unfold dpAt
  by_cases hM : M < 1 <<< n
  · have e : (List.replicate (1 <<< n) (List.replicate n (0 : Int))).getD M [] =
        List.replicate n 0 := by
      rw [List.getD_eq_getElem (List.replicate (1 <<< n) (List.replicate n (0 : Int))) []
        (by rw [List.length_replicate]; exact hM)]
      simp only [List.getElem_replicate]
    rw [e]
    exact getD_replicate_self n v 0
  · have e : (List.replicate (1 <<< n) (List.replicate n (0 : Int))).getD M [] = [] :=
      List.getD_eq_default _ _ (by rw [List.length_replicate]; omega)
    rw [e]
    rfl

theorem pathInit_upTo (n k : Nat) :
    Shape n ((List.range k).foldl (fun dp i => dpSet dp (1 <<< i) i 0)
        (List.replicate (1 <<< n) (List.replicate n 0))) ∧
      ∀ M v, dpAt ((List.range k).foldl (fun dp i => dpSet dp (1 <<< i) i 0)
        (List.replicate (1 <<< n) (List.replicate n 0))) M v = 0 := by
  induction k with
  | zero => exact ⟨shape_replicate n, dpAt_replicate n⟩
  | succ k ih =>
    obtain ⟨h1, h2⟩ := ih
    rw [List.range_succ, List.foldl_append, List.foldl_cons, List.foldl_nil]
    generalize (List.range k).foldl (fun dp i => dpSet dp (1 <<< i) i 0)
      (List.replicate (1 <<< n) (List.replicate n 0)) = d at *
    refine ⟨shape_dpSet h1 _ _ _, ?_⟩
    intro M v
    unfold dpSet dpAt
    by_cases hMM : 1 <<< k = M
    · subst hMM
      by_cases hM : 1 <<< k < d.length
      · rw [SuffixArray.getD_set_self _ _ _ _ hM]
        rw [SuffixArray.getD_set_eq]
        split
        · rfl
        · exact h2 (1 <<< k) v
      · rw [List.set_eq_of_length_le (by omega)]
        exact h2 (1 <<< k) v
    · rw [SuffixArray.getD_set_ne _ _ _ _ _ hMM]
      exact h2 M v

theorem pathInit_spec (n : Nat) : Shape n (pathInit n) ∧ ∀ M v, dpAt (pathInit n) M v = 0 :=
  pathInit_upTo n n

/-! ### Masks -/

theorem testBit_or_bit (M v i : Nat) :
    (M ||| (1 <<< v)).testBit i = (M.testBit i || decide (v = i)) := by
  rw [Nat.testBit_or, Nat.one_shiftLeft, Nat.testBit_two_pow]

theorem or_bit_lt {M v n : Nat} (hM : M < 2 ^ n) (hv : v < n) : M ||| (1 <<< v) < 2 ^ n := by
  apply Nat.or_lt_two_pow hM
  rw [Nat.one_shiftLeft]
  exact Nat.pow_lt_pow_right (by decide) hv

theorem lt_or_bit {M v : Nat} (hv : M.testBit v = false) : M < M ||| (1 <<< v) := by
  apply Nat.lt_of_testBit v hv
  · rw [testBit_or_bit]
    simp
  · intro j hj
    rw [testBit_or_bit]
    have : ¬ v = j := by omega
    simp [this]

theorem or_bit_inj {P Q v : Nat} (hP : P.testBit v = false) (hQ : Q.testBit v = false)
    (h : P ||| (1 <<< v) = Q ||| (1 <<< v)) : P = Q := by
  apply Nat.eq_of_testBit_eq
  intro i
  have := congrArg (fun x => x.testBit i) h
  simp only [testBit_or_bit] at this
  by_cases hvi : v = i
  · subst hvi
    rw [hP, hQ]
  · simpa [hvi] using this

/-- Clearing the bit `u` of a mask that has it. -/
theorem exists_pred {M u : Nat} (hu : M.testBit u = true) :
    ∃ P, P.testBit u = false ∧ P ||| (1 <<< u) = M ∧ P < M := by
  refine ⟨M ^^^ (1 <<< u), ?_, ?_, ?_⟩
  · rw [Nat.testBit_xor, Nat.one_shiftLeft, Nat.testBit_two_pow_self, hu]
    rfl
  · apply Nat.eq_of_testBit_eq
    intro i
    rw [testBit_or_bit, Nat.testBit_xor, Nat.one_shiftLeft, Nat.testBit_two_pow]
    by_cases hvi : u = i
    · subst hvi
      simp [hu]
    · simp [hvi]
  · apply Nat.lt_of_testBit u _ hu
    · intro j hj
      rw [Nat.testBit_xor, Nat.one_shiftLeft, Nat.testBit_two_pow]
      have : ¬ u = j := by omega
      simp [this]
    · rw [Nat.testBit_xor, Nat.one_shiftLeft, Nat.testBit_two_pow_self, hu]
      rfl

theorem exists_bit_of_ne_zero {M : Nat} (h : M ≠ 0) : ∃ u, M.testBit u = true := by
  by_contra hcon
  apply h
  apply Nat.eq_of_testBit_eq
  intro i
  rw [Nat.zero_testBit]
  cases hb : M.testBit i
  · rfl
  · exact absurd ⟨i, hb⟩ hcon

theorem bit_lt_of_lt {M n u : Nat} (hM : M < 2 ^ n) (hu : M.testBit u = true) : u < n := by
  by_contra hcon
  have : M.testBit u = false := by
    apply Nat.testBit_lt_two_pow
    calc M < 2 ^ n := hM
      _ ≤ 2 ^ u := Nat.pow_le_pow_right (by decide) (by omega)
  rw [this] at hu
  exact absurd hu (by decide)

/-! ## Longest Hamiltonian path: the loops -/

theorem not_touched_row {m k x : Nat} : ¬ Touched m k m x := by
  rintro ⟨v, _, hv, e, _⟩
  have := lt_or_bit hv
  omega

/-- The loop over `v` for the vertex `u` of `mask`, after the passes
`v = 0, ..., k - 1`. -/
theorem pathStepV_upTo (w : List (List Int)) (n m u : Nat) (hm : m < 2 ^ n)
    (σ : List (List Int) × Int) (hσ : Shape n σ.1) (k : Nat) (hk : k ≤ n) :
    Shape n ((List.range k).foldl (pathStepV w m u) σ).1 ∧
      (∀ M x, ¬ Touched m k M x →
        dpAt ((List.range k).foldl (pathStepV w m u) σ).1 M x = dpAt σ.1 M x) ∧
      (∀ v, v < k → m.testBit v = false →
        dpAt ((List.range k).foldl (pathStepV w m u) σ).1 (m ||| (1 <<< v)) v =
          max (dpAt σ.1 (m ||| (1 <<< v)) v) (wrap64 (dpAt σ.1 m u + wAt w u v))) ∧
      σ.2 ≤ ((List.range k).foldl (pathStepV w m u) σ).2 ∧
      (∀ v, v < k → m.testBit v = false →
        dpAt ((List.range k).foldl (pathStepV w m u) σ).1 (m ||| (1 <<< v)) v ≤
          ((List.range k).foldl (pathStepV w m u) σ).2) ∧
      (((List.range k).foldl (pathStepV w m u) σ).2 = σ.2 ∨
        ∃ v, v < k ∧ m.testBit v = false ∧
          ((List.range k).foldl (pathStepV w m u) σ).2 =
            dpAt ((List.range k).foldl (pathStepV w m u) σ).1 (m ||| (1 <<< v)) v) := by
  induction k with
  | zero =>
    refine ⟨hσ, fun M x _ => rfl, fun v hv => by omega, le_refl _, fun v hv => by omega,
      Or.inl rfl⟩
  | succ k ih =>
    obtain ⟨h1, h2, h3, h4, h5, h6⟩ := ih (by omega)
    rw [List.range_succ, List.foldl_append, List.foldl_cons, List.foldl_nil]
    generalize (List.range k).foldl (pathStepV w m u) σ = τ at *
    unfold pathStepV
    rw [hasBit_eq_testBit]
    cases hb : m.testBit k
    · simp only [Bool.not_false, if_true]
      have hnt : ¬ Touched m k (m ||| (1 <<< k)) k := by
        rintro ⟨v, hv, _, _, e⟩
        omega
      have hrow : dpAt τ.1 m u = dpAt σ.1 m u := h2 m u not_touched_row
      have hold : dpAt τ.1 (m ||| (1 <<< k)) k = dpAt σ.1 (m ||| (1 <<< k)) k := h2 _ _ hnt
      have hget : ∀ M x, dpAt (dpSet τ.1 (m ||| (1 <<< k)) k
          (max (dpAt τ.1 (m ||| (1 <<< k)) k) (wrap64 (dpAt τ.1 m u + wAt w u k)))) M x =
          if m ||| (1 <<< k) = M ∧ k = x then
            max (dpAt τ.1 (m ||| (1 <<< k)) k) (wrap64 (dpAt τ.1 m u + wAt w u k))
          else dpAt τ.1 M x := by
        intro M x
        apply dpAt_dpSet
        · rw [h1.1]
          exact or_bit_lt hm (by omega)
        · rw [h1.2 _ (or_bit_lt hm (by omega))]
          omega
      refine ⟨shape_dpSet h1 _ _ _, ?_, ?_, ?_, ?_, ?_⟩
      · intro M x hnot
        rw [hget, if_neg, h2 M x]
        · intro ht
          apply hnot
          obtain ⟨v, hv, hv2, e1, e2⟩ := ht
          exact ⟨v, by omega, hv2, e1, e2⟩
        · rintro ⟨e1, e2⟩
          apply hnot
          exact ⟨k, by omega, hb, e1.symm, e2.symm⟩
      · intro v hv hvb
        rw [hget]
        rcases Nat.eq_or_lt_of_le (Nat.le_of_lt_succ hv) with e | e
        · subst e
          rw [if_pos ⟨rfl, rfl⟩, hrow, hold]
        · rw [if_neg (by omega)]
          exact h3 v e hvb
      · show σ.2 ≤ max τ.2 _
        omega
      · intro v hv hvb
        show _ ≤ max τ.2 _
        rw [hget]
        rcases Nat.eq_or_lt_of_le (Nat.le_of_lt_succ hv) with e | e
        · subst e
          rw [if_pos ⟨rfl, rfl⟩]
          omega
        · rw [if_neg (by omega)]
          have := h5 v e hvb
          omega
      · show max τ.2 _ = σ.2 ∨ _
        rcases le_total τ.2 (max (dpAt τ.1 (m ||| (1 <<< k)) k) (wrap64 (dpAt τ.1 m u + wAt w u k)))
          with hle | hle
        · right
          refine ⟨k, by omega, hb, ?_⟩
          show max τ.2 _ = _
          rw [hget, if_pos ⟨rfl, rfl⟩, max_eq_right hle]
        · rw [max_eq_left hle]
          rcases h6 with e | ⟨v, hv, hvb, e⟩
          · left; exact e
          · right
            refine ⟨v, by omega, hvb, ?_⟩
            rw [hget, if_neg (by omega)]
            exact e
    · simp only [Bool.not_true, Bool.false_eq_true, if_false]
      refine ⟨h1, ?_, ?_, h4, ?_, ?_⟩
      · intro M x hnot
        apply h2
        rintro ⟨v, hv, hv2, e1, e2⟩
        exact hnot ⟨v, by omega, hv2, e1, e2⟩
      · intro v hv hvb
        rcases Nat.eq_or_lt_of_le (Nat.le_of_lt_succ hv) with e | e
        · subst e
          rw [hb] at hvb
          exact absurd hvb (by decide)
        · exact h3 v e hvb
      · intro v hv hvb
        rcases Nat.eq_or_lt_of_le (Nat.le_of_lt_succ hv) with e | e
        · subst e
          rw [hb] at hvb
          exact absurd hvb (by decide)
        · exact h5 v e hvb
      · rcases h6 with e | ⟨v, hv, hvb, e⟩
        · left; exact e
        · right; exact ⟨v, by omega, hvb, e⟩

/-- The loop over `u` for `mask`, after the passes `u = 0, ..., k - 1`: the entry
`dp[mask | (1 << v)][v]` of a vertex `v` outside `mask` is the maximum of its old
value and of the values `dp[mask][u] + weight[u][v]` for the `u < k` in `mask`. -/
theorem pathStepU_upTo (w : List (List Int)) (n m : Nat) (hm : m < 2 ^ n)
    (σ : List (List Int) × Int) (hσ : Shape n σ.1) (k : Nat) (hk : k ≤ n) :
    Shape n ((List.range k).foldl (pathStepU w n m) σ).1 ∧
      (∀ M x, ¬ Touched m n M x →
        dpAt ((List.range k).foldl (pathStepU w n m) σ).1 M x = dpAt σ.1 M x) ∧
      (∀ v, v < n → m.testBit v = false →
        dpAt σ.1 (m ||| (1 <<< v)) v ≤
            dpAt ((List.range k).foldl (pathStepU w n m) σ).1 (m ||| (1 <<< v)) v ∧
          (∀ u, u < k → m.testBit u = true → wrap64 (dpAt σ.1 m u + wAt w u v) ≤
            dpAt ((List.range k).foldl (pathStepU w n m) σ).1 (m ||| (1 <<< v)) v) ∧
          (dpAt ((List.range k).foldl (pathStepU w n m) σ).1 (m ||| (1 <<< v)) v =
              dpAt σ.1 (m ||| (1 <<< v)) v ∨
            ∃ u, u < k ∧ m.testBit u = true ∧
              dpAt ((List.range k).foldl (pathStepU w n m) σ).1 (m ||| (1 <<< v)) v =
                wrap64 (dpAt σ.1 m u + wAt w u v))) ∧
      σ.2 ≤ ((List.range k).foldl (pathStepU w n m) σ).2 ∧
      (∀ v, v < n → m.testBit v = false → (∃ u, u < k ∧ m.testBit u = true) →
        dpAt ((List.range k).foldl (pathStepU w n m) σ).1 (m ||| (1 <<< v)) v ≤
          ((List.range k).foldl (pathStepU w n m) σ).2) ∧
      (((List.range k).foldl (pathStepU w n m) σ).2 = σ.2 ∨
        ∃ v, v < n ∧ m.testBit v = false ∧ (∃ u, u < k ∧ m.testBit u = true) ∧
          ((List.range k).foldl (pathStepU w n m) σ).2 ≤
            dpAt ((List.range k).foldl (pathStepU w n m) σ).1 (m ||| (1 <<< v)) v) := by
  induction k with
  | zero =>
    refine ⟨hσ, fun M x _ => rfl, ?_, le_refl _, ?_, Or.inl rfl⟩
    · intro v _ _
      exact ⟨le_refl _, fun u hu => by omega, Or.inl rfl⟩
    · rintro v _ _ ⟨u, hu, _⟩
      omega
  | succ k ih =>
    obtain ⟨h1, h2, h3, h4, h5, h6⟩ := ih (by omega)
    rw [List.range_succ, List.foldl_append, List.foldl_cons, List.foldl_nil]
    generalize (List.range k).foldl (pathStepU w n m) σ = τ at *
    unfold pathStepU
    rw [hasBit_eq_testBit]
    cases hb : m.testBit k
    · simp only [Bool.false_eq_true, if_false]
      refine ⟨h1, h2, ?_, h4, ?_, ?_⟩
      · intro v hv hvb
        obtain ⟨g1, g2, g3⟩ := h3 v hv hvb
        refine ⟨g1, ?_, ?_⟩
        · intro u hu hub
          rcases Nat.eq_or_lt_of_le (Nat.le_of_lt_succ hu) with e | e
          · subst e
            rw [hb] at hub
            exact absurd hub (by decide)
          · exact g2 u e hub
        · rcases g3 with e | ⟨u, hu, hub, e⟩
          · left; exact e
          · right; exact ⟨u, by omega, hub, e⟩
      · rintro v hv hvb ⟨u, hu, hub⟩
        apply h5 v hv hvb
        rcases Nat.eq_or_lt_of_le (Nat.le_of_lt_succ hu) with e | e
        · subst e
          rw [hb] at hub
          exact absurd hub (by decide)
        · exact ⟨u, e, hub⟩
      · rcases h6 with e | ⟨v, hv, hvb, ⟨u, hu, hub⟩, e⟩
        · left; exact e
        · right; exact ⟨v, hv, hvb, ⟨u, by omega, hub⟩, e⟩
    · simp only [if_true]
      obtain ⟨f1, f2, f3, f4, f5, f6⟩ := pathStepV_upTo w n m k hm τ h1 n (le_refl n)
      generalize (List.range n).foldl (pathStepV w m k) τ = ρ at *
      have hrow : dpAt τ.1 m k = dpAt σ.1 m k := h2 m k not_touched_row
      refine ⟨f1, ?_, ?_, by omega, ?_, ?_⟩
      · intro M x hnot
        rw [f2 M x hnot, h2 M x hnot]
      · intro v hv hvb
        obtain ⟨g1, g2, g3⟩ := h3 v hv hvb
        have e := f3 v hv hvb
        rw [hrow] at e
        refine ⟨by omega, ?_, ?_⟩
        · intro u hu hub
          rcases Nat.eq_or_lt_of_le (Nat.le_of_lt_succ hu) with e' | e'
          · subst e'
            omega
          · have := g2 u e' hub
            omega
        · rcases le_total (dpAt τ.1 (m ||| (1 <<< v)) v) (wrap64 (dpAt σ.1 m k + wAt w k v))
            with hle | hle
          · right
            exact ⟨k, by omega, hb, by rw [e, max_eq_right hle]⟩
          · rw [max_eq_left hle] at e
            rcases g3 with e' | ⟨u, hu, hub, e'⟩
            · left; rw [e, e']
            · right; exact ⟨u, by omega, hub, by rw [e, e']⟩
      · intro v hv hvb _
        exact f5 v hv hvb
      · rcases f6 with e | ⟨v, hv, hvb, e⟩
        · rcases h6 with e' | ⟨v, hv, hvb, ⟨u, hu, hub⟩, e'⟩
          · left; rw [e, e']
          · right
            refine ⟨v, hv, hvb, ⟨u, by omega, hub⟩, ?_⟩
            have := f3 v hv hvb
            rw [e, this]
            omega
        · right
          exact ⟨v, hv, hvb, ⟨k, by omega, hb⟩, by rw [e]⟩

/-- The pass of the loop over `mask` for the mask `m`. -/
theorem pathStepMask_spec (w : List (List Int)) (n m : Nat) (hm : m < 2 ^ n)
    (σ : List (List Int) × Int) (hσ : Shape n σ.1) :
    Shape n (pathStepMask w n σ m).1 ∧
      (∀ M x, ¬ Touched m n M x → dpAt (pathStepMask w n σ m).1 M x = dpAt σ.1 M x) ∧
      (∀ v, v < n → m.testBit v = false →
        dpAt σ.1 (m ||| (1 <<< v)) v ≤ dpAt (pathStepMask w n σ m).1 (m ||| (1 <<< v)) v ∧
          (∀ u, m.testBit u = true → wrap64 (dpAt σ.1 m u + wAt w u v) ≤
            dpAt (pathStepMask w n σ m).1 (m ||| (1 <<< v)) v) ∧
          (dpAt (pathStepMask w n σ m).1 (m ||| (1 <<< v)) v = dpAt σ.1 (m ||| (1 <<< v)) v ∨
            ∃ u, m.testBit u = true ∧
              dpAt (pathStepMask w n σ m).1 (m ||| (1 <<< v)) v = wrap64 (dpAt σ.1 m u + wAt w u v))) ∧
      σ.2 ≤ (pathStepMask w n σ m).2 ∧
      (m ≠ 0 → ∀ v, v < n → m.testBit v = false →
        dpAt (pathStepMask w n σ m).1 (m ||| (1 <<< v)) v ≤ (pathStepMask w n σ m).2) ∧
      ((pathStepMask w n σ m).2 = σ.2 ∨
        ∃ v, v < n ∧ m.testBit v = false ∧ m ≠ 0 ∧
          (pathStepMask w n σ m).2 ≤ dpAt (pathStepMask w n σ m).1 (m ||| (1 <<< v)) v) := by
  obtain ⟨h1, h2, h3, h4, h5, h6⟩ := pathStepU_upTo w n m hm σ hσ n (le_refl n)
  unfold pathStepMask
  refine ⟨h1, h2, ?_, h4, ?_, ?_⟩
  · intro v hv hvb
    obtain ⟨g1, g2, g3⟩ := h3 v hv hvb
    refine ⟨g1, fun u hub => g2 u (bit_lt_of_lt hm hub) hub, ?_⟩
    rcases g3 with e | ⟨u, _, hub, e⟩
    · left; exact e
    · right; exact ⟨u, hub, e⟩
  · intro hne v hv hvb
    obtain ⟨u, hub⟩ := exists_bit_of_ne_zero hne
    exact h5 v hv hvb ⟨u, bit_lt_of_lt hm hub, hub⟩
  · rcases h6 with e | ⟨v, hv, hvb, ⟨u, _, hub⟩, e⟩
    · left; exact e
    · right
      refine ⟨v, hv, hvb, ?_, e⟩
      intro h0
      rw [h0, Nat.zero_testBit] at hub
      exact absurd hub (by decide)

/-! ## Longest Hamiltonian path: paths -/

theorem walk_single (v : Nat) : Walk (1 <<< v) v [v] := by
  refine ⟨rfl, List.nodup_singleton v, ?_⟩
  intro i
  rw [Nat.one_shiftLeft, Nat.testBit_two_pow, List.mem_singleton, decide_eq_true_iff]
  exact eq_comm

theorem walk_single_eq {v : Nat} {q : List Nat} (h : Walk (1 <<< v) v q) : q = [v] := by
  obtain ⟨h1, h2, h3⟩ := h
  have hall : ∀ i ∈ q, i = v := by
    intro i hi
    have := (h3 i).mp hi
    rw [Nat.one_shiftLeft, Nat.testBit_two_pow, decide_eq_true_iff] at this
    exact this.symm
  cases q with
  | nil => simp at h1
  | cons a rest =>
    simp only [List.head?_cons, Option.some.injEq] at h1
    subst h1
    cases rest with
    | nil => rfl
    | cons b rest =>
      exfalso
      have hb := hall b (by simp)
      subst hb
      simp at h2

theorem walk_cons {M u v : Nat} {q : List Nat} (h : Walk M u q) (hv : M.testBit v = false) :
    Walk (M ||| (1 <<< v)) v (v :: q) := by
  obtain ⟨_, h2, h3⟩ := h
  refine ⟨rfl, ?_, ?_⟩
  · rw [List.nodup_cons]
    refine ⟨?_, h2⟩
    intro hmem
    rw [(h3 v).mp hmem] at hv
    exact absurd hv (by decide)
  · intro i
    rw [testBit_or_bit, List.mem_cons, Bool.or_eq_true, decide_eq_true_iff, h3 i]
    constructor
    · rintro (e | e)
      · exact Or.inr e.symm
      · exact Or.inl e
    · rintro (e | e)
      · exact Or.inr e
      · exact Or.inl e.symm

theorem walk_uncons {M v : Nat} {q' : List Nat} (h : Walk (M ||| (1 <<< v)) v q')
    (hv : M.testBit v = false) (hM : M ≠ 0) :
    ∃ u q, q' = v :: q ∧ Walk M u q ∧ M.testBit u = true := by
  obtain ⟨h1, h2, h3⟩ := h
  cases q' with
  | nil => simp at h1
  | cons a q =>
    simp only [List.head?_cons, Option.some.injEq] at h1
    subst h1
    rw [List.nodup_cons] at h2
    have hmem : ∀ i, i ∈ q ↔ M.testBit i = true := by
      intro i
      have := h3 i
      rw [testBit_or_bit, List.mem_cons, Bool.or_eq_true, decide_eq_true_iff] at this
      constructor
      · intro hi
        rcases this.mp (Or.inr hi) with e | e
        · exact e
        · subst e
          exact absurd hi h2.1
      · intro hi
        rcases this.mpr (Or.inl hi) with e | e
        · subst e
          rw [hv] at hi
          exact absurd hi (by decide)
        · exact e
    obtain ⟨u0, hu0⟩ := exists_bit_of_ne_zero hM
    cases q with
    | nil =>
      exfalso
      have := (hmem u0).mpr hu0
      simp at this
    | cons u rest =>
      exact ⟨u, u :: rest, rfl, ⟨rfl, h2.2, hmem⟩, (hmem u).mp (by simp)⟩

theorem walk_lt {M v n : Nat} {q : List Nat} (h : Walk M v q) (hM : M < 2 ^ n) :
    ∀ i ∈ q, i < n :=
  fun i hi => bit_lt_of_lt hM ((h.2.2 i).mp hi)

theorem walk_head_mem {M v : Nat} {q : List Nat} (h : Walk M v q) : M.testBit v = true := by
  obtain ⟨h1, _, h3⟩ := h
  apply (h3 v).mp
  cases q with
  | nil => simp at h1
  | cons a rest =>
    simp only [List.head?_cons, Option.some.injEq] at h1
    subst h1
    simp

theorem revWeight_cons (w : List (List Int)) {M u : Nat} {q : List Nat} (h : Walk M u q)
    (v : Nat) : revWeight w (v :: q) = wAt w u v + revWeight w q := by
  obtain ⟨h1, _, _⟩ := h
  cases q with
  | nil => simp at h1
  | cons a rest =>
    simp only [List.head?_cons, Option.some.injEq] at h1
    subst h1
    rfl

theorem revWeight_nonneg {w : List (List Int)} {n : Nat}
    (hnn : ∀ u v, u < n → v < n → u ≠ v → 0 ≤ wAt w u v) :
    ∀ q : List Nat, q.Nodup → (∀ i ∈ q, i < n) → 0 ≤ revWeight w q
  | [], _, _ => le_refl _
  | [_], _, _ => le_refl _
  | v :: u :: rest, hq, h => by
    have huv : u ≠ v := by
      intro e
      subst e
      simp at hq
    have h1 := hnn u v (h u (by simp)) (h v (by simp)) huv
    have h2 := revWeight_nonneg hnn (u :: rest) (List.nodup_cons.mp hq).2
      (fun i hi => h i (List.mem_cons_of_mem v hi))
    show 0 ≤ wAt w u v + revWeight w (u :: rest)
    omega

theorem isBest_single (w : List (List Int)) (v : Nat) : IsBest w (1 <<< v) v 0 := by
  refine ⟨⟨[v], walk_single v, rfl⟩, ?_⟩
  intro q hq
  rw [walk_single_eq hq]
  exact le_refl _

theorem isBest_nonneg {w : List (List Int)} {n : Nat}
    (hnn : ∀ u v, u < n → v < n → u ≠ v → 0 ≤ wAt w u v) {M v : Nat} {x : Int} (hM : M < 2 ^ n)
    (h : IsBest w M v x) : 0 ≤ x := by
  obtain ⟨⟨q, hq, e⟩, _⟩ := h
  rw [← e]
  exact revWeight_nonneg hnn q hq.2.1 (walk_lt hq hM)

/-- Optimal substructure: the best path over `M | (1 << v)` that ends at `v` is a
best path over `M` followed by `v`. -/
theorem isBest_step {w : List (List Int)} {n : Nat}
    (hnn : ∀ u v, u < n → v < n → u ≠ v → 0 ≤ wAt w u v) {M v : Nat} (hM : M < 2 ^ n) (hv : v < n)
    (hvb : M.testBit v = false) (hM0 : M ≠ 0) (B : Nat → Int)
    (hB : ∀ u, M.testBit u = true → IsBest w M u (B u)) {x : Int}
    (hge : ∀ u, M.testBit u = true → B u + wAt w u v ≤ x)
    (hatt : x = 0 ∨ ∃ u, M.testBit u = true ∧ x = B u + wAt w u v) :
    IsBest w (M ||| (1 <<< v)) v x := by
  have hatt' : ∃ u, M.testBit u = true ∧ x = B u + wAt w u v := by
    rcases hatt with e | h
    · obtain ⟨u, hu⟩ := exists_bit_of_ne_zero hM0
      refine ⟨u, hu, ?_⟩
      have h1 := hge u hu
      have h2 := isBest_nonneg hnn hM (hB u hu)
      have h3 := hnn u v (bit_lt_of_lt hM hu) hv (by
        intro e
        subst e
        rw [hvb] at hu
        exact absurd hu (by decide))
      omega
    · exact h
  obtain ⟨u, hu, e⟩ := hatt'
  constructor
  · obtain ⟨⟨q, hq, eq⟩, _⟩ := hB u hu
    refine ⟨v :: q, walk_cons hq hvb, ?_⟩
    rw [revWeight_cons w hq, eq, e]
    omega
  · intro q' hq'
    obtain ⟨u', q, rfl, hq, hu'⟩ := walk_uncons hq' hvb hM0
    rw [revWeight_cons w hq]
    have h1 := (hB u' hu').2 q hq
    have h2 := hge u' hu'
    omega

theorem revWeight_append_two (w : List (List Int)) (a b : Nat) :
    ∀ l : List Nat, revWeight w (l ++ [b, a]) = revWeight w (l ++ [b]) + wAt w a b
  | [] => by
    show wAt w a b + 0 = 0 + wAt w a b
    omega
  | [x] => by
    show wAt w b x + (wAt w a b + 0) = wAt w b x + 0 + wAt w a b
    omega
  | x :: y :: l => by
    have := revWeight_append_two w a b (y :: l)
    show wAt w y x + revWeight w (y :: l ++ [b, a]) =
      wAt w y x + revWeight w (y :: l ++ [b]) + wAt w a b
    omega

theorem pathWeight_eq_revWeight (w : List (List Int)) :
    ∀ p : List Nat, pathWeight w p = revWeight w p.reverse
  | [] => rfl
  | [_] => rfl
  | a :: b :: rest => by
    have ih := pathWeight_eq_revWeight w (b :: rest)
    have e : (a :: b :: rest).reverse = rest.reverse ++ [b, a] := by
      simp only [List.reverse_cons, List.append_assoc, List.singleton_append]
    have e2 : (b :: rest).reverse = rest.reverse ++ [b] := by
      simp only [List.reverse_cons]
    rw [e, revWeight_append_two]
    show wAt w a b + pathWeight w (b :: rest) = _
    rw [ih, e2]
    omega

/-- A path on distinct vertices below `n` extends to a Hamiltonian path that weighs
at least as much, when the weights are non-negative. -/
theorem exists_hamiltonian_extension {w : List (List Int)} {n : Nat}
    (hnn : ∀ u v, u < n → v < n → u ≠ v → 0 ≤ wAt w u v) (d : Nat) :
    ∀ q : List Nat, q.Nodup → (∀ i ∈ q, i < n) → q.length + d = n →
      ∃ h : List Nat, h.Perm (List.range n) ∧ revWeight w q ≤ revWeight w h := by
  induction d with
  | zero =>
    intro q hq hlt hlen
    refine ⟨q, ?_, le_refl _⟩
    apply List.Subperm.perm_of_length_le
    · apply List.subperm_of_subset hq
      intro i hi
      exact List.mem_range.mpr (hlt i hi)
    · rw [List.length_range]
      omega
  | succ d ih =>
    intro q hq hlt hlen
    have hex : ∃ v, v < n ∧ v ∉ q := by
      by_contra hcon
      have hsub : List.range n ⊆ q := by
        intro i hi
        by_contra hiq
        exact hcon ⟨i, List.mem_range.mp hi, hiq⟩
      have := (List.subperm_of_subset (List.nodup_range n) hsub).length_le
      rw [List.length_range] at this
      omega
    obtain ⟨v, hv, hvq⟩ := hex
    obtain ⟨h, h1, h2⟩ := ih (v :: q) (List.nodup_cons.mpr ⟨hvq, hq⟩)
      (by
        intro i hi
        rcases List.mem_cons.mp hi with e | e
        · rw [e]; exact hv
        · exact hlt i e)
      (by rw [List.length_cons]; omega)
    refine ⟨h, h1, ?_⟩
    have h3 : revWeight w q ≤ revWeight w (v :: q) := by
      cases q with
      | nil => exact le_refl _
      | cons u rest =>
        have := hnn u v (hlt u (by simp)) hv (by
          intro e
          subst e
          exact hvq (by simp))
        show revWeight w (u :: rest) ≤ wAt w u v + revWeight w (u :: rest)
        omega
    omega

/-! ## Longest Hamiltonian path: the sums stay in the range of `long long` -/

theorem wrap64_eq {x : Int} (h1 : -2 ^ 63 ≤ x) (h2 : x < 2 ^ 63) : wrap64 x = x := by
  unfold wrap64
  omega

/-- A path on `k + 1` distinct vertices weighs at most `k` times the largest
weight. -/
theorem revWeight_le {w : List (List Int)} {n : Nat} {W : Int}
    (hW : ∀ u v, u < n → v < n → u ≠ v → wAt w u v ≤ W) :
    ∀ (q : List Nat) (v : Nat), (v :: q).Nodup → (∀ i ∈ v :: q, i < n) →
      revWeight w (v :: q) ≤ (q.length : Int) * W
  | [], _, _, _ => by
    show (0 : Int) ≤ ((0 : Nat) : Int) * W
    simp
  | u :: rest, v, hq, h => by
    have huv : u ≠ v := by
      intro e
      subst e
      simp at hq
    have h1 := hW u v (h u (by simp)) (h v (by simp)) huv
    have h2 := revWeight_le hW rest u (List.nodup_cons.mp hq).2
      (fun i hi => h i (List.mem_cons_of_mem v hi))
    show wAt w u v + revWeight w (u :: rest) ≤ ((rest.length + 1 : Nat) : Int) * W
    push_cast
    linarith

/-- A path over a mask that misses a vertex has at most `n - 1` vertices. -/
theorem walk_length_lt {M u v n : Nat} {q : List Nat} (h : Walk M u q) (hM : M < 2 ^ n)
    (hv : v < n) (hvb : M.testBit v = false) : q.length + 1 ≤ n := by
  have h1 := walk_cons h hvb
  have h2 := walk_lt h1 (or_bit_lt hM hv)
  have h3 := (List.subperm_of_subset h1.2.1
    (fun i hi => List.mem_range.mpr (h2 i hi))).length_le
  rw [List.length_range, List.length_cons] at h3
  exact h3

/-- For weights between `0` and `W` with `(n - 1) * W < 2 ^ 63`, the sum of a best
weight over a mask and the weight of one more edge is a `long long` value. -/
theorem sum_in_range {w : List (List Int)} {n : Nat} {W : Int}
    (hnn : ∀ u v, u < n → v < n → u ≠ v → 0 ≤ wAt w u v)
    (hW : ∀ u v, u < n → v < n → u ≠ v → wAt w u v ≤ W)
    (hb : ((n : Int) - 1) * W < 2 ^ 63) {M u v : Nat} {x : Int} (hM : M < 2 ^ n)
    (hu : M.testBit u = true) (hv : v < n) (hvb : M.testBit v = false)
    (h : IsBest w M u x) : wrap64 (x + wAt w u v) = x + wAt w u v := by
  have hx0 := isBest_nonneg hnn hM h
  have hun := bit_lt_of_lt hM hu
  have huv : u ≠ v := by
    intro e
    subst e
    rw [hvb] at hu
    exact absurd hu (by decide)
  have hw0 := hnn u v hun hv huv
  have hw1 := hW u v hun hv huv
  obtain ⟨⟨q, hq, e⟩, _⟩ := h
  have hlen := walk_length_lt hq hM hv hvb
  have hlt := walk_lt hq hM
  obtain ⟨hhead, hnd, _⟩ := hq
  cases q with
  | nil => simp at hhead
  | cons a rest =>
    have h1 := revWeight_le hW rest a hnd hlt
    rw [e] at h1
    rw [List.length_cons] at hlen
    have h2 : ((rest.length : Int) + 1) * W ≤ ((n : Int) - 1) * W := by
      apply mul_le_mul_of_nonneg_right _ (by omega)
      have : ((rest.length + 1 + 1 : Nat) : Int) ≤ (n : Int) := by exact_mod_cast hlen
      push_cast at this
      omega
    have h3 : x + wAt w u v ≤ ((rest.length : Int) + 1) * W := by linarith
    apply wrap64_eq
    · have : (0 : Int) ≤ x + wAt w u v := by omega
      have e63 : (-2 ^ 63 : Int) ≤ 0 := by norm_num
      omega
    · omega

/-! ## Longest Hamiltonian path: the result -/

theorem not_touched_of_ne {m n P v : Nat} (hP : P.testBit v = false) (hne : P ≠ m) :
    ¬ Touched m n (P ||| (1 <<< v)) v := by
  rintro ⟨v', _, hv', e1, e2⟩
  subst e2
  exact hne (or_bit_inj hP hv' e1)

theorem pathInv_step {w : List (List Int)} {n : Nat} {W : Int}
    (hnn : ∀ u v, u < n → v < n → u ≠ v → 0 ≤ wAt w u v)
    (hW : ∀ u v, u < n → v < n → u ≠ v → wAt w u v ≤ W)
    (hb : ((n : Int) - 1) * W < 2 ^ 63) {m : Nat} (hm : m < 2 ^ n)
    {σ : List (List Int) × Int} (hσ : Shape n σ.1) (h : PathInv w n m σ) :
    PathInv w n (m + 1) (pathStepMask w n σ m) := by
  obtain ⟨i1, i2, i3, i4⟩ := h
  obtain ⟨_, s2, s3, s4, s5, s6⟩ := pathStepMask_spec w n m hm σ hσ
  generalize pathStepMask w n σ m = σ' at *
  have hB : ∀ u, m.testBit u = true → IsBest w m u (dpAt σ.1 m u) := by
    intro u hu
    obtain ⟨P, hP1, hP2, hP3⟩ := exists_pred hu
    have hun := bit_lt_of_lt hm hu
    obtain ⟨g1, g2⟩ := i1 P u (by omega) hun hP1
    by_cases hP0 : P = 0
    · have := g2 (Or.inl hP0)
      rw [hP2] at this
      rw [this, ← hP2, hP0, Nat.zero_or]
      exact isBest_single w u
    · have := g1 hP0 hP3
      rw [hP2] at this
      exact this
  have hnew : m ≠ 0 → ∀ v, v < n → m.testBit v = false →
      IsBest w (m ||| (1 <<< v)) v (dpAt σ'.1 (m ||| (1 <<< v)) v) := by
    intro hm0 v hv hvb
    obtain ⟨g1, g2, g3⟩ := s3 v hv hvb
    have hold := (i1 m v hm hv hvb).2 (Or.inr (le_refl m))
    rw [hold] at g1 g3
    have g2' : ∀ u, m.testBit u = true →
        dpAt σ.1 m u + wAt w u v ≤ dpAt σ'.1 (m ||| (1 <<< v)) v := by
      intro u hu
      rw [← sum_in_range hnn hW hb hm hu hv hvb (hB u hu)]
      exact g2 u hu
    have g3' : dpAt σ'.1 (m ||| (1 <<< v)) v = 0 ∨ ∃ u, m.testBit u = true ∧
        dpAt σ'.1 (m ||| (1 <<< v)) v = dpAt σ.1 m u + wAt w u v := by
      rcases g3 with e | ⟨u, hu, e⟩
      · exact Or.inl e
      · exact Or.inr ⟨u, hu, by rw [e, sum_in_range hnn hW hb hm hu hv hvb (hB u hu)]⟩
    exact isBest_step hnn hm hv hvb hm0 (fun u => dpAt σ.1 m u) hB g2' g3'
  refine ⟨?_, by omega, ?_, ?_⟩
  · intro P v hP hv hvb
    by_cases hPm : P = m
    · subst hPm
      refine ⟨fun hP0 _ => hnew hP0 v hv hvb, ?_⟩
      intro hor
      have hP0 : P = 0 := by omega
      obtain ⟨_, _, g3⟩ := s3 v hv hvb
      have hold := (i1 P v hm hv hvb).2 (Or.inl hP0)
      rcases g3 with e | ⟨u, hu, _⟩
      · rw [e, hold]
      · rw [hP0, Nat.zero_testBit] at hu
        exact absurd hu (by decide)
    · rw [s2 _ _ (not_touched_of_ne hvb hPm)]
      obtain ⟨g1, g2⟩ := i1 P v hP hv hvb
      refine ⟨fun hP0 hlt => g1 hP0 (by omega), fun hor => g2 ?_⟩
      rcases hor with e | e
      · exact Or.inl e
      · exact Or.inr (by omega)
  · intro P v hP hv hvb hP0 hlt
    by_cases hPm : P = m
    · subst hPm
      exact s5 hP0 v hv hvb
    · rw [s2 _ _ (not_touched_of_ne hvb hPm)]
      have := i3 P v hP hv hvb hP0 (by omega)
      omega
  · rcases s6 with e | ⟨v, hv, hvb, hm0, e⟩
    · rcases i4 with e' | ⟨P, v, hP, hv, hvb, hP0, hlt, e'⟩
      · left; rw [e, e']
      · right
        refine ⟨P, v, hP, hv, hvb, hP0, by omega, ?_⟩
        rw [s2 _ _ (not_touched_of_ne hvb (by omega)), e, e']
    · right
      refine ⟨m, v, hm, hv, hvb, hm0, by omega, ?_⟩
      have := s5 hm0 v hv hvb
      omega

theorem pathLoop_spec {w : List (List Int)} {n : Nat} {W : Int}
    (hnn : ∀ u v, u < n → v < n → u ≠ v → 0 ≤ wAt w u v)
    (hW : ∀ u v, u < n → v < n → u ≠ v → wAt w u v ≤ W)
    (hb : ((n : Int) - 1) * W < 2 ^ 63) (m : Nat) (hm : m ≤ 2 ^ n) :
    Shape n (pathLoop w n m).1 ∧ PathInv w n m (pathLoop w n m) := by
  induction m with
  | zero =>
    obtain ⟨h1, h2⟩ := pathInit_spec n
    refine ⟨h1, ?_, le_refl _, ?_, Or.inl rfl⟩
    · intro P v _ _ _
      exact ⟨fun _ hlt => by omega, fun _ => h2 _ _⟩
    · intro P v _ _ _ _ hlt
      omega
  | succ m ih =>
    obtain ⟨h1, h2⟩ := ih (by omega)
    have hstep : pathLoop w n (m + 1) = pathStepMask w n (pathLoop w n m) m := by
      unfold pathLoop
      rw [List.range_succ, List.foldl_append]
      rfl
    rw [hstep]
    exact ⟨(pathStepMask_spec w n m (by omega) _ h1).1,
      pathInv_step hnn hW hb (by omega) h1 h2⟩

theorem testBit_full (n i : Nat) : (2 ^ n - 1).testBit i = decide (i < n) :=
  Nat.testBit_two_pow_sub_one n i

/-- For weights between `0` and `W` with `(n - 1) * W < 2 ^ 63`,
`solve_longest_path_bitmask` prints the largest weight of a path that visits every
vertex exactly once. -/
theorem longest_path_spec {w : List (List Int)} {n : Nat} {W : Int}
    (hnn : ∀ u v, u < n → v < n → u ≠ v → 0 ≤ wAt w u v)
    (hW : ∀ u v, u < n → v < n → u ≠ v → wAt w u v ≤ W)
    (hb : ((n : Int) - 1) * W < 2 ^ 63) :
    (∃ p : List Nat, p.Perm (List.range n) ∧ pathWeight w p = solve_longest_path_bitmask n w) ∧
      ∀ p : List Nat, p.Perm (List.range n) → pathWeight w p ≤ solve_longest_path_bitmask n w := by
  obtain ⟨_, i1, i2, i3, i4⟩ := pathLoop_spec hnn hW hb (2 ^ n) (le_refl _)
  unfold solve_longest_path_bitmask
  rw [Nat.one_shiftLeft]
  generalize pathLoop w n (2 ^ n) = σ at *
  have hupper : ∀ p : List Nat, p.Perm (List.range n) → pathWeight w p ≤ σ.2 := by
    intro p hp
    rw [pathWeight_eq_revWeight]
    have hq : p.reverse.Perm (List.range n) := (List.reverse_perm p).trans hp
    generalize p.reverse = q at hq
    have hnodup : q.Nodup := hq.nodup_iff.mpr (List.nodup_range n)
    have hmem : ∀ i, i ∈ q ↔ i < n := fun i => by rw [hq.mem_iff, List.mem_range]
    cases q with
    | nil => exact i2
    | cons v rest =>
      cases rest with
      | nil => exact i2
      | cons u rest =>
        have hv : v < n := (hmem v).mp (by simp)
        have hu : u < n := (hmem u).mp (by simp)
        have huv : u ≠ v := by
          intro e
          subst e
          simp at hnodup
        have hfull : (2 ^ n - 1).testBit v = true := by rw [testBit_full]; simpa using hv
        obtain ⟨P, hP1, hP2, hP3⟩ := exists_pred hfull
        have hpos : 0 < 2 ^ n := Nat.two_pow_pos n
        have hPu : P.testBit u = true := by
          have := congrArg (fun x => x.testBit u) hP2
          simp only [testBit_or_bit, testBit_full] at this
          have hvu : ¬ v = u := fun e => huv e.symm
          simpa [hvu, hu] using this
        have hP0 : P ≠ 0 := by
          intro e
          rw [e, Nat.zero_testBit] at hPu
          exact absurd hPu (by decide)
        have hwalk : Walk (P ||| (1 <<< v)) v (v :: u :: rest) := by
          refine ⟨rfl, hnodup, ?_⟩
          intro i
          rw [hP2, testBit_full, hmem i, decide_eq_true_iff]
        have hbest := (i1 P v (by omega) hv hP1).1 hP0 (by omega)
        have h1 := hbest.2 _ hwalk
        have h2 := i3 P v (by omega) hv hP1 hP0 (by omega)
        omega
  refine ⟨?_, hupper⟩
  have hq : ∃ q : List Nat, q.Nodup ∧ (∀ i ∈ q, i < n) ∧ revWeight w q = σ.2 := by
    rcases i4 with e | ⟨P, v, hP, hv, hvb, hP0, _, e⟩
    · exact ⟨[], List.nodup_nil, fun i hi => absurd hi (List.not_mem_nil i), by rw [e]; rfl⟩
    · obtain ⟨⟨q, hq, eq⟩, _⟩ := (i1 P v hP hv hvb).1 hP0 (by omega)
      exact ⟨q, hq.2.1, walk_lt hq (or_bit_lt hP hv), by rw [eq, e]⟩
  obtain ⟨q, hq1, hq2, hq3⟩ := hq
  have hlen : q.length ≤ n := by
    have := (List.subperm_of_subset hq1
      (fun i hi => List.mem_range.mpr (hq2 i hi))).length_le
    rw [List.length_range] at this
    exact this
  obtain ⟨h, h1, h2⟩ := exists_hamiltonian_extension hnn (n - q.length) q hq1 hq2 (by omega)
  refine ⟨h.reverse, (List.reverse_perm h).trans h1, ?_⟩
  have h3 := hupper h.reverse ((List.reverse_perm h).trans h1)
  rw [pathWeight_eq_revWeight, List.reverse_reverse] at h3 ⊢
  omega

/-! ## The claims on `Bitmask_DP.cpp` -/

theorem perm_range_two {p : List Nat} (hp : p.Perm (List.range 2)) : p = [0, 1] ∨ p = [1, 0] := by
  have hlen := hp.length_eq
  have hnodup : p.Nodup := hp.nodup_iff.mpr (List.nodup_range 2)
  have hmem : ∀ i, i ∈ p → i < 2 := fun i hi => List.mem_range.mp (hp.mem_iff.mp hi)
  match p, hlen, hnodup, hmem with
  | [a, b], _, hnodup, hmem =>
    have ha := hmem a (by simp)
    have hb := hmem b (by simp)
    have hab : a ≠ b := by
      intro e
      subst e
      simp at hnodup
    have h : (a = 0 ∧ b = 1) ∨ (a = 1 ∧ b = 0) := by omega
    rcases h with ⟨rfl, rfl⟩ | ⟨rfl, rfl⟩
    · exact Or.inl rfl
    · exact Or.inr rfl

/-- For every matrix whose entries off the diagonal lie between `0` and a bound
`W` with `(n - 1) * W < 2 ^ 63`, the value printed by `solve_longest_path_bitmask` is
the maximum total weight of a path that visits every vertex exactly once: some such
path has that weight, and none has a larger one. -/
theorem longest_path_correct (n : Nat) (weight : List (List Int)) (W : Int)
    (hw : ∀ u, u < n → ∀ v, v < n → u ≠ v → 0 ≤ wAt weight u v ∧ wAt weight u v ≤ W)
    (hb : ((n : Int) - 1) * W < 2 ^ 63) :
    (∃ p : List Nat, p.Perm (List.range n) ∧
        pathWeight weight p = solve_longest_path_bitmask n weight) ∧
      ∀ p : List Nat, p.Perm (List.range n) →
        pathWeight weight p ≤ solve_longest_path_bitmask n weight :=
  longest_path_spec (fun u v hu hv huv => (hw u hu v hv huv).1)
    (fun u v hu hv huv => (hw u hu v hv huv).2) hb

theorem longest_path_correct_witness :
    (∃ p : List Nat, p.Perm (List.range 3) ∧
        pathWeight [[0, 1, 5], [2, 0, 1], [1, 3, 0]] p =
          solve_longest_path_bitmask 3 [[0, 1, 5], [2, 0, 1], [1, 3, 0]]) ∧
      ∀ p : List Nat, p.Perm (List.range 3) →
        pathWeight [[0, 1, 5], [2, 0, 1], [1, 3, 0]] p ≤
          solve_longest_path_bitmask 3 [[0, 1, 5], [2, 0, 1], [1, 3, 0]] :=
  longest_path_correct 3 [[0, 1, 5], [2, 0, 1], [1, 3, 0]] 5 (by decide) (by decide)

/-- With `2 ^ 62` off the diagonal of a 3 x 3 matrix the sum of two weights is
`2 ^ 63`, which is no `long long` value: the model reduces it to `-2 ^ 63` and the
result is `2 ^ 62` (in C++ the overflow is undefined behaviour).  The bound
`(n - 1) * W < 2 ^ 63` excludes such matrices. -/
theorem longest_path_wraps :
    wrap64 (2 ^ 62 + 2 ^ 62) = -2 ^ 63 ∧
      solve_longest_path_bitmask 3
        [[0, 2 ^ 62, 2 ^ 62], [2 ^ 62, 0, 2 ^ 62], [2 ^ 62, 2 ^ 62, 0]] = 2 ^ 62 := by
  decide

/-- C27, evaluated at the 2 x 2 matrix with `-5` off the diagonal: the function
`solve_longest_path_bitmask` prints `0`, while each of the two paths that visit both
vertices has total weight `-5`, so that the maximum total weight is `-5`.  For every
`n ≤ 30` (so that the `int` shift `1 << n` is `2 ^ n`) and every matrix whose entries
off the diagonal lie between `0` and a bound `W` with `(n - 1) * W < 2 ^ 63` (so that
no sum leaves the range of `long long`), the printed value is the maximum total weight
of a path that visits every vertex exactly once. -/
theorem longest_path_negative_weights :
    solve_longest_path_bitmask 2 [[0, -5], [-5, 0]] = 0 ∧
      (∀ p : List Nat, p.Perm (List.range 2) → pathWeight [[0, -5], [-5, 0]] p = -5) ∧
      ∀ (n : Nat) (weight : List (List Int)) (W : Int), n ≤ 30 →
        (∀ u, u < n → ∀ v, v < n → u ≠ v → 0 ≤ wAt weight u v ∧ wAt weight u v ≤ W) →
        ((n : Int) - 1) * W < 2 ^ 63 →
        (∃ p : List Nat, p.Perm (List.range n) ∧
            pathWeight weight p = solve_longest_path_bitmask n weight) ∧
          ∀ p : List Nat, p.Perm (List.range n) →
            pathWeight weight p ≤ solve_longest_path_bitmask n weight := by
  refine ⟨by decide, ?_, ?_⟩
  · intro p hp
    rcases perm_range_two hp with e | e
    · rw [e]; decide
    · rw [e]; decide
  · intro n weight W _ hw hb
    exact longest_path_spec (fun u v hu hv huv => (hw u hu v hv huv).1)
      (fun u v hu hv huv => (hw u hu v hv huv).2) hb

/-- C28: for every undirected graph on `n` vertices given as a list of edges between
vertices below `n`, the value computed by `solve_max_independent_set` plus the value
computed by `solve_min_vertex_cover` on the same graph is `n`. -/
theorem independent_set_plus_vertex_cover (n : Nat) (edges : List (Nat × Nat))
    (_hedges : ∀ e ∈ edges, e.1 < n ∧ e.2 < n) :
    solve_max_independent_set n edges + solve_min_vertex_cover n edges = n :=
  independent_plus_cover n edges

theorem independent_set_plus_vertex_cover_witness :
    solve_max_independent_set 4 [(0, 1), (1, 2), (2, 3)] +
        solve_min_vertex_cover 4 [(0, 1), (1, 2), (2, 3)] = (4 : Nat) :=
  independent_set_plus_vertex_cover 4 [(0, 1), (1, 2), (2, 3)] (by decide)

end BitmaskDP

namespace NDDP

open LinearDP

/-! ## Maximum sum of a circular subarray -/

theorem minEndingAt_zero (arr : List Int) (hn : 0 < arr.length) :
    MinEndingAt arr 0 (arr.getD 0 0) := by
  have h : psum arr (0 + 1) = psum arr 0 + arr.getD 0 0 := psum_succ arr 0 hn
  rw [psum_zero] at h
  refine ⟨⟨0, le_refl 0, ?_⟩, ?_⟩
  · rw [psum_zero]; omega
  · intro j hj
    have : j = 0 := by omega
    subst this
    rw [psum_zero]; omega

theorem minEndingAt_succ {arr : List Int} {i : Nat} {v : Int} (h : MinEndingAt arr i v)
    (hi : i + 1 < arr.length) :
    MinEndingAt arr (i + 1) (min (arr.getD (i + 1) 0) (v + arr.getD (i + 1) 0)) := by
  obtain ⟨⟨j, hj, e⟩, hmin⟩ := h
  have hs := psum_succ arr (i + 1) hi
  constructor
  · rcases le_total (arr.getD (i + 1) 0) (v + arr.getD (i + 1) 0) with hle | hle
    · rw [min_eq_left hle]
      exact ⟨i + 1, le_refl _, by omega⟩
    · rw [min_eq_right hle]
      exact ⟨j, by omega, by omega⟩
  · intro j' hj'
    rcases Nat.eq_or_lt_of_le hj' with e' | e'
    · subst e'
      omega
    · have h1 := hmin j' (by omega)
      omega

theorem minSegment_one (arr : List Int) (hn : 0 < arr.length) :
    MinSegment arr 1 (arr.getD 0 0) := by
  have h : psum arr 1 = psum arr 0 + arr.getD 0 0 := psum_succ arr 0 hn
  rw [psum_zero] at h
  refine ⟨⟨0, 1, by omega, le_refl 1, ?_⟩, ?_⟩
  · rw [psum_zero]; omega
  · intro i j hij hj
    have e1 : j = 1 := by omega
    have e2 : i = 0 := by omega
    subst e1 e2
    rw [psum_zero]; omega

theorem minSegment_succ {arr : List Int} {m : Nat} {M e : Int} (hM : MinSegment arr m M)
    (he : MinEndingAt arr m e) : MinSegment arr (m + 1) (min M e) := by
  obtain ⟨⟨i, j, hij, hj, eM⟩, hmin⟩ := hM
  obtain ⟨⟨j', hj', ee⟩, hemin⟩ := he
  constructor
  · rcases le_total M e with hle | hle
    · rw [min_eq_left hle]
      exact ⟨i, j, hij, by omega, eM⟩
    · rw [min_eq_right hle]
      exact ⟨j', m + 1, by omega, le_refl _, ee⟩
  · intro a b hab hb
    rcases Nat.eq_or_lt_of_le hb with e' | e'
    · subst e'
      have := hemin a (by omega)
      omega
    · have := hmin a b hab (by omega)
      omega

/-- The five variables after the passes `i = 1, ..., k`. -/
theorem circLoop_spec (arr : List Int) (hn : 0 < arr.length) (k : Nat) (hk : k < arr.length) :
    MaxEndingAt arr k (circLoop arr k).cur_max ∧
      MaxSegment arr (k + 1) (circLoop arr k).max_kadane ∧
      MinEndingAt arr k (circLoop arr k).cur_min ∧
      MinSegment arr (k + 1) (circLoop arr k).min_kadane ∧
      (circLoop arr k).total = psum arr (k + 1) := by
  induction k with
  | zero =>
    have h : psum arr (0 + 1) = psum arr 0 + arr.getD 0 0 := psum_succ arr 0 hn
    rw [psum_zero] at h
    exact ⟨maxEndingAt_zero arr hn, maxSegment_one arr hn, minEndingAt_zero arr hn,
      minSegment_one arr hn, by show arr.getD 0 0 = _; omega⟩
  | succ k ih =>
    obtain ⟨h1, h2, h3, h4, h5⟩ := ih (by omega)
    have hstep : circLoop arr (k + 1) = circStep arr (circLoop arr k) (k + 1) := by
      unfold circLoop
      rw [List.range'_concat, List.foldl_append, Nat.one_mul, Nat.add_comm 1 k]
      rfl
    rw [hstep]
    generalize circLoop arr k = σ at *
    unfold circStep
    have g1 := maxEndingAt_succ h1 hk
    have g3 := minEndingAt_succ h3 hk
    exact ⟨g1, maxSegment_succ h2 g1, g3, minSegment_succ h4 g3,
      by show σ.total + arr.getD (k + 1) 0 = _; rw [h5, psum_succ arr (k + 1) hk]⟩

theorem sum_range_getD (arr : List Int) (i len : Nat) (h : i + len ≤ arr.length) :
    ((List.range len).map (fun t => arr.getD (i + t) 0)).sum =
      psum arr (i + len) - psum arr i := by
  induction len with
  | zero => simp only [List.range_zero, List.map_nil, List.sum_nil, Nat.add_zero, sub_self]
  | succ len ih =>
    rw [List.range_succ, List.map_append, List.sum_append, ih (by omega)]
    simp only [List.map_cons, List.map_nil, List.sum_cons, List.sum_nil, add_zero]
    have := psum_succ arr (i + len) (by omega)
    rw [show i + (len + 1) = i + len + 1 by omega]
    omega

theorem circSum_nowrap (arr : List Int) (i len : Nat) (h : i + len ≤ arr.length) :
    circSum arr i len = psum arr (i + len) - psum arr i := by
  unfold circSum
  rw [← sum_range_getD arr i len h]
  congr 1
  apply List.map_congr_left
  intro t ht
  rw [List.mem_range] at ht
  rw [Nat.mod_eq_of_lt (by omega)]

theorem circSum_wrap (arr : List Int) (i len : Nat) (hi : i < arr.length)
    (hlen : len ≤ arr.length) (h : arr.length < i + len) :
    circSum arr i len =
      psum arr arr.length - psum arr i + psum arr (i + len - arr.length) := by
  unfold circSum
  have e : len = (arr.length - i) + (i + len - arr.length) := by omega
  have e1 := sum_range_getD arr i (arr.length - i) (by omega)
  have e2 := sum_range_getD arr 0 (i + len - arr.length) (by omega)
  rw [show i + (arr.length - i) = arr.length by omega] at e1
  rw [Nat.zero_add, psum_zero, sub_zero] at e2
  rw [← e1, ← e2]
  generalize i + len - arr.length = b at *
  subst e
  rw [List.range_add, List.map_append, List.sum_append, List.map_map]
  congr 1
  · congr 1
    apply List.map_congr_left
    intro t ht
    rw [List.mem_range] at ht
    rw [Nat.mod_eq_of_lt (by omega)]
  · congr 1
    apply List.map_congr_left
    intro t ht
    rw [List.mem_range] at ht
    show arr.getD ((i + (arr.length - i + t)) % arr.length) 0 = arr.getD (0 + t) 0
    rw [show i + (arr.length - i + t) = t + arr.length by omega, Nat.add_mod_right,
      Nat.mod_eq_of_lt (by omega), Nat.zero_add]

theorem circular_spec (arr : List Int) (hn : 0 < arr.length) :
    (∃ i len, i < arr.length ∧ 1 ≤ len ∧ len ≤ arr.length ∧
        solve_maximum_sum_circular_subarray arr = circSum arr i len) ∧
      ∀ i len, i < arr.length → 1 ≤ len → len ≤ arr.length →
        circSum arr i len ≤ solve_maximum_sum_circular_subarray arr := by
  obtain ⟨_, ⟨⟨a, b, hab, hb, eM⟩, hmax⟩, _, ⟨⟨c, d, hcd, hd, em⟩, hmin⟩, ht⟩ :=
    circLoop_spec arr hn (arr.length - 1) (by omega)
  rw [show arr.length - 1 + 1 = arr.length by omega] at hb hmax hd hmin ht
  unfold solve_maximum_sum_circular_subarray
  simp only []
  generalize circLoop arr (arr.length - 1) = σ at *
  have hnow : ∀ i len, 1 ≤ len → i + len ≤ arr.length → circSum arr i len ≤ σ.max_kadane := by
    intro i len h1 h2
    rw [circSum_nowrap arr i len h2]
    exact hmax i (i + len) (by omega) h2
  have hMseg : ∃ i len, i < arr.length ∧ 1 ≤ len ∧ len ≤ arr.length ∧
      σ.max_kadane = circSum arr i len :=
    ⟨a, b - a, by omega, by omega, by omega, by
      rw [circSum_nowrap arr a (b - a) (by omega), show a + (b - a) = b by omega]; exact eM⟩
  have hwrap : ∀ i len, i < arr.length → len ≤ arr.length → arr.length < i + len →
      circSum arr i len ≤ σ.max_kadane ∨
        (len < arr.length ∧ circSum arr i len ≤ σ.total - σ.min_kadane ∧
          (σ.total = σ.min_kadane → circSum arr i len ≤ σ.max_kadane)) := by
    intro i len hi hlen hw
    rw [circSum_wrap arr i len hi hlen hw]
    have hA := hmax i arr.length hi (le_refl _)
    have hB := hmax 0 (i + len - arr.length) (by omega) (by omega)
    rw [psum_zero] at hB
    rcases Nat.eq_or_lt_of_le hlen with e | e
    · left
      have hall := hmax 0 arr.length hn (le_refl _)
      rw [psum_zero] at hall
      rw [show i + len - arr.length = i by omega]
      omega
    · right
      have hmid := hmin (i + len - arr.length) i (by omega) (by omega)
      refine ⟨e, by omega, ?_⟩
      intro heq
      omega
  by_cases heq : σ.total = σ.min_kadane
  · rw [if_pos heq]
    refine ⟨hMseg, ?_⟩
    intro i len hi h1 hlen
    by_cases hw : i + len ≤ arr.length
    · exact hnow i len h1 hw
    · rcases hwrap i len hi hlen (by omega) with h | ⟨_, _, h⟩
      · exact h
      · exact h heq
  · rw [if_neg heq]
    constructor
    · rcases le_total σ.max_kadane (σ.total - σ.min_kadane) with hle | hle
      · rw [max_eq_right hle]
        by_cases hdn : d = arr.length
        · subst hdn
          have hc0 : 0 < c := by
            by_contra hcon
            have : c = 0 := by omega
            subst this
            rw [psum_zero] at em
            omega
          refine ⟨0, c, hn, hc0, by omega, ?_⟩
          rw [circSum_nowrap arr 0 c (by omega), Nat.zero_add, psum_zero]
          omega
        · by_cases hc0 : c = 0
          · subst hc0
            rw [psum_zero] at em
            refine ⟨d, arr.length - d, by omega, by omega, by omega, ?_⟩
            rw [circSum_nowrap arr d (arr.length - d) (by omega),
              show d + (arr.length - d) = arr.length by omega]
            omega
          · refine ⟨d, arr.length - (d - c), by omega, by omega, by omega, ?_⟩
            rw [circSum_wrap arr d (arr.length - (d - c)) (by omega) (by omega) (by omega),
              show d + (arr.length - (d - c)) - arr.length = c by omega]
            omega
      · rw [max_eq_left hle]
        exact hMseg
    · intro i len hi h1 hlen
      by_cases hw : i + len ≤ arr.length
      · have := hnow i len h1 hw
        omega
      · rcases hwrap i len hi hlen (by omega) with h | ⟨_, h, _⟩
        · omega
        · omega

/-! ## Subset sums -/

theorem subsetInner_spec (x : Int) (hx : 0 ≤ x) (c : Nat) : ∀ dp : List Bool, c ≤ dp.length →
    (subsetInner x c dp).length = dp.length ∧
      ∀ j, (subsetInner x c dp).getD j false =
        if j < c ∧ x ≤ (j : Int) then (dp.getD j false || dp.getD ((j : Int) - x).toNat false)
        else dp.getD j false := by
  induction c with
  | zero =>
    intro dp _
    refine ⟨rfl, fun j => ?_⟩
    rw [if_neg (by omega)]
    rfl
  | succ c ih =>
    intro dp hc
    unfold subsetInner
    by_cases hge : (c : Int) ≥ x
    · rw [if_pos hge]
      obtain ⟨h1, h2⟩ := ih (dp.set c (dp.getD c false || dp.getD ((c : Int) - x).toNat false))
        (by rw [List.length_set]; omega)
      refine ⟨by rw [h1, List.length_set], fun j => ?_⟩
      rw [h2 j]
      by_cases hjc : j < c
      · by_cases hxj : x ≤ (j : Int)
        · rw [if_pos ⟨hjc, hxj⟩, if_pos ⟨by omega, hxj⟩,
            SuffixArray.getD_set_ne _ _ _ _ _ (by omega),
            SuffixArray.getD_set_ne _ _ _ _ _ (by omega)]
        · rw [if_neg (by omega), if_neg (by omega), SuffixArray.getD_set_ne _ _ _ _ _ (by omega)]
      · rw [if_neg (by omega)]
        by_cases hjeq : j = c
        · subst hjeq
          rw [if_pos ⟨by omega, hge⟩, SuffixArray.getD_set_self _ _ _ _ (by omega)]
        · rw [if_neg (by omega), SuffixArray.getD_set_ne _ _ _ _ _ (by omega)]
    · rw [if_neg hge]
      refine ⟨rfl, fun j => ?_⟩
      rw [if_neg (by omega)]

theorem sublist_sum_nonneg {S xs : List Int} (h : S.Sublist xs) (hxs : ∀ a ∈ xs, 0 ≤ a) :
    0 ≤ S.sum := by
  apply List.sum_nonneg
  intro a ha
  exact hxs a (h.subset ha)

theorem sublist_concat_iff (S xs : List Int) (x : Int) :
    S.Sublist (xs ++ [x]) ↔ S.Sublist xs ∨ ∃ S' : List Int, S'.Sublist xs ∧ S = S' ++ [x] := by
  constructor
  · intro h
    obtain ⟨a, b, rfl, ha, hb⟩ := List.sublist_append_iff.mp h
    rcases List.sublist_cons_iff.mp hb with hb' | ⟨r, rfl, hr⟩
    · left
      rw [List.sublist_nil.mp hb', List.append_nil]
      exact ha
    · right
      rw [List.sublist_nil.mp hr]
      exact ⟨a, ha, rfl⟩
  · rintro (h | ⟨S', h, rfl⟩)
    · exact h.trans (List.sublist_append_left xs [x])
    · exact List.Sublist.append h (List.Sublist.refl _)

theorem subsetInv_init (half : Nat) :
    SubsetInv half [] ((List.replicate (half + 1) false).set 0 true) := by
  refine ⟨by rw [List.length_set, List.length_replicate], ?_⟩
  intro j hj
  by_cases hj0 : j = 0
  · subst hj0
    rw [SuffixArray.getD_set_self _ _ _ _ (by rw [List.length_replicate]; omega)]
    exact ⟨fun _ => ⟨[], List.Sublist.refl _, rfl⟩, fun _ => rfl⟩
  · rw [SuffixArray.getD_set_ne _ _ _ _ _ (by omega),
      List.getD_eq_getElem _ _ (by rw [List.length_replicate]; omega)]
    simp only [List.getElem_replicate, Bool.false_eq_true, false_iff, not_exists, not_and]
    intro S hS
    rw [List.sublist_nil.mp hS]
    simp only [List.sum_nil]
    omega

theorem subsetInv_step {half : Nat} {xs : List Int} {dp : List Bool} {x : Int} (hx : 0 ≤ x)
    (hxs : ∀ a ∈ xs, 0 ≤ a) (h : SubsetInv half xs dp) :
    SubsetInv half (xs ++ [x]) (subsetInner x (half + 1) dp) := by
  obtain ⟨hlen, hdp⟩ := h
  obtain ⟨h1, h2⟩ := subsetInner_spec x hx (half + 1) dp (by omega)
  refine ⟨by rw [h1, hlen], ?_⟩
  intro j hj
  rw [h2 j]
  by_cases hxj : x ≤ (j : Int)
  · rw [if_pos ⟨by omega, hxj⟩, Bool.or_eq_true, hdp j hj, hdp _ (show ((j : Int) - x).toNat ≤ half by omega),
      Int.toNat_of_nonneg (by omega)]
    constructor
    · rintro (⟨S, hS, e⟩ | ⟨S, hS, e⟩)
      · exact ⟨S, (sublist_concat_iff S xs x).mpr (Or.inl hS), e⟩
      · refine ⟨S ++ [x], (sublist_concat_iff _ xs x).mpr (Or.inr ⟨S, hS, rfl⟩), ?_⟩
        rw [List.sum_append, List.sum_singleton, e]
        omega
    · rintro ⟨S, hS, e⟩
      rcases (sublist_concat_iff S xs x).mp hS with h | ⟨S', h, rfl⟩
      · exact Or.inl ⟨S, h, e⟩
      · right
        refine ⟨S', h, ?_⟩
        rw [List.sum_append, List.sum_singleton] at e
        omega
  · rw [if_neg (by omega), hdp j hj]
    constructor
    · rintro ⟨S, hS, e⟩
      exact ⟨S, (sublist_concat_iff S xs x).mpr (Or.inl hS), e⟩
    · rintro ⟨S, hS, e⟩
      rcases (sublist_concat_iff S xs x).mp hS with h | ⟨S', h, rfl⟩
      · exact ⟨S, h, e⟩
      · exfalso
        rw [List.sum_append, List.sum_singleton] at e
        have := sublist_sum_nonneg h hxs
        omega

theorem subsetInv_fold (half : Nat) (rest : List Int) : ∀ (xs : List Int) (dp : List Bool),
    (∀ a ∈ xs ++ rest, 0 ≤ a) → SubsetInv half xs dp →
      SubsetInv half (xs ++ rest)
        (rest.foldl (fun dp x => subsetInner x (half + 1) dp) dp) := by
  induction rest with
  | nil =>
    intro xs dp _ h
    rw [List.append_nil]
    exact h
  | cons x rest ih =>
    intro xs dp hnn h
    rw [List.foldl_cons, show xs ++ x :: rest = (xs ++ [x]) ++ rest by
      rw [List.append_assoc]; rfl]
    apply ih
    · intro a ha
      apply hnn a
      rw [List.append_assoc] at ha
      exact ha
    · exact subsetInv_step (hnn x (by simp)) (fun a ha => hnn a (by simp [ha])) h

theorem subsetTable_spec (arr : List Int) (half : Nat) (hnn : ∀ a ∈ arr, 0 ≤ a) :
    SubsetInv half arr (subsetTable arr half) := by
  have := subsetInv_fold half arr [] _ (by rw [List.nil_append]; exact hnn) (subsetInv_init half)
  rw [List.nil_append] at this
  exact this

theorem subsetSearch_spec (dp : List Bool) (c : Nat)
    (h : ∃ i, i < c ∧ dp.getD i false = true) :
    ∃ i, i < c ∧ subsetSearch dp c = (i : Int) ∧ dp.getD i false = true ∧
      ∀ j, i < j → j < c → dp.getD j false = false := by
  induction c with
  | zero => obtain ⟨i, hi, _⟩ := h; omega
  | succ c ih =>
    unfold subsetSearch
    by_cases hc : dp.getD c false = true
    · rw [if_pos hc]
      exact ⟨c, by omega, rfl, hc, fun j h1 h2 => by omega⟩
    · rw [if_neg hc]
      obtain ⟨i, hi, hdi⟩ := h
      have hic : i ≠ c := by
        intro e
        subst e
        exact hc hdi
      obtain ⟨i', h1, h2, h3, h4⟩ := ih ⟨i, by omega, hdi⟩
      refine ⟨i', by omega, h2, h3, ?_⟩
      intro j hj1 hj2
      by_cases hjc : j = c
      · subst hjc
        simpa using hc
      · exact h4 j hj1 (by omega)

theorem exists_complement {S xs : List Int} (h : S.Sublist xs) :
    ∃ S' : List Int, S'.Sublist xs ∧ S'.sum = xs.sum - S.sum := by
  induction h with
  | slnil => exact ⟨[], List.Sublist.refl _, rfl⟩
  | cons a _ ih =>
    obtain ⟨S', h1, h2⟩ := ih
    refine ⟨a :: S', h1.cons₂ a, ?_⟩
    rw [List.sum_cons, List.sum_cons, h2]
    omega
  | cons₂ a _ ih =>
    obtain ⟨S', h1, h2⟩ := ih
    refine ⟨S', h1.cons a, ?_⟩
    rw [List.sum_cons, List.sum_cons, h2]
    omega

/-- For non-negative elements the subset-sum table of
`solve_minimum_subset_sum_difference` yields the minimum of `|total - 2 * sum(S)|`. -/
theorem subset_difference_spec (arr : List Int) (hnn : ∀ a ∈ arr, 0 ≤ a) :
    BitmaskDP.MinDiff arr (solve_minimum_subset_sum_difference arr) := by
  have htot : 0 ≤ arr.sum := List.sum_nonneg hnn
  have hdiv : arr.sum.tdiv 2 = arr.sum / 2 := Int.tdiv_eq_ediv htot (by decide)
  have hhalf : ((arr.sum.tdiv 2).toNat : Int) = arr.sum / 2 := by
    rw [hdiv]
    exact Int.toNat_of_nonneg (by omega)
  obtain ⟨hlen, hdp⟩ := subsetTable_spec arr (arr.sum.tdiv 2).toNat hnn
  obtain ⟨i, hi, hs, hdi, hlarger⟩ := subsetSearch_spec (subsetTable arr (arr.sum.tdiv 2).toNat)
    ((arr.sum.tdiv 2).toNat + 1)
    ⟨0, by omega, (hdp 0 (by omega)).mpr ⟨[], List.nil_sublist arr, rfl⟩⟩
  unfold solve_minimum_subset_sum_difference
  simp only []
  rw [hs]
  generalize (arr.sum.tdiv 2).toNat = half at *
  obtain ⟨S0, hS0, e0⟩ := (hdp i (by omega)).mp hdi
  have hbound : ∀ S : List Int, S.Sublist arr → S.sum ≤ arr.sum / 2 → S.sum ≤ (i : Int) := by
    intro S hS hle
    have h0 := sublist_sum_nonneg hS hnn
    by_contra hcon
    have hj : S.sum.toNat ≤ half := by omega
    have := (hdp S.sum.toNat hj).mpr ⟨S, hS, by rw [Int.toNat_of_nonneg h0]⟩
    rw [hlarger S.sum.toNat (by omega) (by omega)] at this
    exact Bool.false_ne_true this
  constructor
  · exact ⟨S0, hS0, by rw [e0]; omega⟩
  · intro S hS
    by_cases hle : S.sum ≤ arr.sum / 2
    · have := hbound S hS hle
      omega
    · obtain ⟨S', hS', e'⟩ := exists_complement hS
      have := hbound S' hS' (by omega)
      omega

/-! ## The claims on `ND_DP.cpp` -/

theorem minDiff_single_large : BitmaskDP.MinDiff [3000000000] 3000000000 := by
  constructor
  · exact ⟨[], List.nil_sublist _, by decide⟩
  · intro S hS
    rcases List.sublist_cons_iff.mp hS with h | ⟨r, rfl, hr⟩
    · rw [List.sublist_nil.mp h]
      decide
    · rw [List.sublist_nil.mp hr]
      decide

/-- C29, evaluated at the array `[3000000000]`: the enumeration of
`solve_partition_min_difference` starts from `best = INT_MAX` and prints
`2147483647`, while the subset-sum table of `solve_minimum_subset_sum_difference`
prints `3000000000`, which is the minimum of `|total - 2 * sum(S)|` over the subsets
`S`.  For every array of non-negative integers the table prints that minimum, and the
enumeration prints the smaller of `INT_MAX` and that minimum. -/
theorem partition_capped_at_int_max :
    BitmaskDP.solve_partition_min_difference [3000000000] = 2147483647 ∧
      solve_minimum_subset_sum_difference [3000000000] = 3000000000 ∧
      BitmaskDP.MinDiff [3000000000] 3000000000 ∧
      ∀ arr : List Int, (∀ a ∈ arr, 0 ≤ a) →
        BitmaskDP.MinDiff arr (solve_minimum_subset_sum_difference arr) ∧
          BitmaskDP.solve_partition_min_difference arr =
            min BitmaskDP.INT_MAX (solve_minimum_subset_sum_difference arr) := by
  refine ⟨by decide, ?_, minDiff_single_large, ?_⟩
  · apply BitmaskDP.minDiff_unique _ minDiff_single_large
    apply subset_difference_spec
    intro a ha
    rw [List.mem_singleton.mp ha]
    decide
  · intro arr hnn
    exact ⟨subset_difference_spec arr hnn,
      BitmaskDP.partition_eq_min (subset_difference_spec arr hnn)⟩

/-- C30: for every non-empty array of integers, the value printed by
`solve_maximum_sum_circular_subarray` is the maximum of the sums of the runs of
`1, ..., n` consecutive elements of the array viewed as a circle: it is the sum of
such a run, and no such run has a larger sum. -/
theorem circular_subarray_correct (arr : List Int) (hne : arr ≠ []) :
    (∃ i len, i < arr.length ∧ 1 ≤ len ∧ len ≤ arr.length ∧
        solve_maximum_sum_circular_subarray arr = circSum arr i len) ∧
      ∀ i len, i < arr.length → 1 ≤ len → len ≤ arr.length →
        circSum arr i len ≤ solve_maximum_sum_circular_subarray arr :=
  circular_spec arr (List.length_pos.mpr hne)

theorem circular_subarray_correct_witness :
    (∃ i len, i < ([5, -3, 5] : List Int).length ∧ 1 ≤ len ∧ len ≤ ([5, -3, 5] : List Int).length ∧
        solve_maximum_sum_circular_subarray [5, -3, 5] = circSum [5, -3, 5] i len) ∧
      ∀ i len, i < ([5, -3, 5] : List Int).length → 1 ≤ len →
        len ≤ ([5, -3, 5] : List Int).length →
        circSum [5, -3, 5] i len ≤ solve_maximum_sum_circular_subarray [5, -3, 5] :=
  circular_subarray_correct [5, -3, 5] (by decide)

end NDDP
